import Mathlib

/-!
Verification of freq-tuner: analysis of ADC sample buffers.

A shallow embedding of `lib/ADC_Lib/ADC_DataAnalysis.cpp` (`peak_mean`,
`calcFreqAnalog`) and of the constants of `lib/ADC_Lib/ADC_DataAnalysis.h`.

Conventions of the embedding.

* `uint16_t` and `uint32_t` values are natural numbers; where the C code can
  wrap around or convert a signed intermediate back to an unsigned type the
  reduction modulo `2^16` or `2^32` is written out (`toU16`, `subU32`,
  `% 65536`, `% 4294967296`).
* `float` values are elements of a linearly ordered field `F` (exact
  arithmetic; NaN, infinities and rounding are outside the model).  The
  definitions are computable for a computable field such as `ℚ`.
* `sqrtf` comes from the C library and is a parameter of `calcFreqAnalog`.
* A pointer that may be `NULL` is an `Option`.  The sample buffer behind
  `sAD->data` is a function from index to sample, so that a read at any
  index the code performs has a value; `d_len` is the separate length field.
* The build has `FLTERDATA` undefined (the header only carries the commented
  out `//#define FILTERDATA`), so the unfiltered branches are the code.
-/

namespace FreqTuner

/-! ## Constants of `ADC_DataAnalysis.h` and `<float.h>` -/

/-- Constant `MAXADCDIFF (8)`: maximum small signal difference of ADC readings. -/
def MAXADCDIFF : Nat := 8

/-- Constant `ANASPANDIV (3)`: divisor of the span around the mean. -/
def ANASPANDIV : Nat := 3

/-- Constant `MINTICDIFF (4)`: minimum sample item difference. -/
def MINTICDIFF : Nat := 4

/-- Constant `MAXSIDECHANGES (200)`: length of the `pos` buffer. -/
def MAXSIDECHANGES : Nat := 200

/-- The `FLT_MIN` of `<float.h>`: the smallest positive normal `float`, `2^-126`. -/
def FLT_MIN {F : Type} [LinearOrderedField F] : F := 1 / 2 ^ 126

/-- The `FLT_MAX` of `<float.h>`: the largest finite `float`, `(2^24 - 1) * 2^104`. -/
def FLT_MAX {F : Type} [LinearOrderedField F] : F := (2 ^ 24 - 1) * 2 ^ 104

/-! ## Machine integer helpers -/

/-- Conversion of a signed `int` intermediate to `uint16_t`. -/
def toU16 (z : Int) : Nat := (z % 65536).toNat

/-- Subtraction of two `uint32_t` values, `a - b` with wrap-around. -/
def subU32 (a b : Nat) : Nat := (a + 4294967296 - b) % 4294967296

/-! ## The data structure -/

/-- The `struct sADCData` of `ADC_DataAnalysis.h`, field by field. -/
structure sADCData (F : Type) where
  /-- Field `uint16_t *data`: buffer for ADC DMA data input (`none` is `NULL`) -/
  data : Option (Nat → Nat)
  /-- Field `uint32_t d_len`: length of data buffer -/
  d_len : Nat
  /-- Field `uint32_t d_sFreq`: used sample frequency -/
  d_sFreq : Nat
  /-- Field `float d_deltaTime`: `1/d_sFreq` in seconds -/
  d_deltaTime : F
  /-- Field `uint16_t d_mean`: mean value overall -/
  d_mean : Nat
  /-- Field `uint16_t d_max`: max value overall -/
  d_max : Nat
  /-- Field `uint16_t d_min`: min value overall -/
  d_min : Nat
  /-- Field `float d_freqClassic`: classic frequency overall -/
  d_freqClassic : F
  /-- Field `uint16_t d_numCP`: number of periods counted for `d_freqClassic` -/
  d_numCP : Nat
  /-- Field `float d_periode`: mean period -/
  d_periode : F
  /-- Field `uint16_t d_numPeriodes`: number of periods used for the mean -/
  d_numPeriodes : Nat
  /-- Field `float d_quality`: standard deviation over the periods -/
  d_quality : F

/-! ## `peak_mean` (lines 44-70) -/

/-- The locals `*max_value`, `*min_value`, `mean` of `peak_mean`. -/
structure PeakState where
  max_value : Nat
  min_value : Nat
  mean : Nat
deriving DecidableEq, Repr

/-- One pass of the body of the `for` loop of `peak_mean` (lines 61-65). -/
def peakStep (pb : Nat → Nat) (st : PeakState) (i : Nat) : PeakState :=
  let value := pb i
  { max_value := if value > st.max_value then value else st.max_value
    min_value :=
      if value > st.max_value then st.min_value
      else if value < st.min_value then value else st.min_value
    mean := (st.mean + value) % 4294967296 }

/-- The loop `for (i = 1; i < d_len; i++)` of `peak_mean`: `n` passes from index `i`. -/
def peakLoop (pb : Nat → Nat) : Nat → Nat → PeakState → PeakState
  | 0, _, st => st
  | n + 1, i, st => peakLoop pb n (i + 1) (peakStep pb st i)

/-- The function `peak_mean`: the triple `(max_value, min_value, mean_value)`.
A `NULL` data pointer and the division by a zero `d_len` are faults (`none`). -/
def peak_mean {F : Type} (sAD : sADCData F) : Option (Nat × Nat × Nat) :=
  match sAD.data with
  | none => none
  | some pb =>
    if sAD.d_len = 0 then none
    else
      let st := peakLoop pb (sAD.d_len - 1) 1
        { max_value := pb 0, min_value := pb 0, mean := pb 0 }
      some (st.max_value, st.min_value, (st.mean / sAD.d_len) % 65536)

/-! ## `calcFreqAnalog` (lines 88-228) -/

/-- The lower center band limit `lower_wc` (lines 123-124). -/
def lowerThreshold (d_mean min_v : Nat) : Nat :=
  let lower_wc := toU16 ((d_mean : Int) - Int.tdiv ((d_mean : Int) - (min_v : Int)) (ANASPANDIV : Int))
  if (lower_wc : Int) ≤ (min_v : Int) + (MAXADCDIFF : Int) then
    toU16 ((d_mean : Int) - ((MAXADCDIFF / 2 : Nat) : Int))
  else lower_wc

/-- The upper center band limit `upper_wc` (lines 126-127). -/
def upperThreshold (d_mean max_v : Nat) : Nat :=
  let upper_wc := toU16 ((d_mean : Int) + Int.tdiv ((max_v : Int) - (d_mean : Int)) (ANASPANDIV : Int))
  if (upper_wc : Int) ≥ (max_v : Int) - (MAXADCDIFF : Int) then
    toU16 ((d_mean : Int) + ((MAXADCDIFF / 2 : Nat) : Int))
  else upper_wc

/-- The initial value of `signal_side` (lines 132-147): `temp` counts `pb[0]`
once before the loop and then `pb[0..MINTICDIFF-1]` in the loop. -/
def initialSide (pb : Nat → Nat) (upper_wc : Nat) : Bool :=
  let temp0 : Nat := if pb 0 > upper_wc then 1 else 0
  let temp := (List.range MINTICDIFF).foldl
    (fun t i => if pb i > upper_wc then t + 1 else t) temp0
  decide (temp > MINTICDIFF / 2)

/-- The locals of `calcFreqAnalog` that the data loop changes.  `pos` holds the
slots of the C array written so far, in order: slot `k` is element `k`, the
next slot written is slot `sideChanges`.  Slots not yet written are never
read. `lastPos` is read only after it has been assigned. -/
structure LoopState where
  signal_side : Bool
  sideChanges : Nat
  allPeriods : Nat
  pos : List Nat
  lastPos : Nat
deriving DecidableEq, Repr

/-- One pass of the body of the data loop (lines 163-186). `sideChanges` is
below `MAXSIDECHANGES - 1` when incremented; `allPeriods` is a `uint16_t`
incremented without a guard. -/
def segStep (pb : Nat → Nat) (lower_wc upper_wc : Nat) (st : LoopState) (i : Nat) : LoopState :=
  if st.signal_side then
    if pb i ≤ lower_wc then { st with signal_side := false } else st
  else if pb i > upper_wc then
    { signal_side := true
      sideChanges :=
        if st.sideChanges < MAXSIDECHANGES - 1 then st.sideChanges + 1 else st.sideChanges
      pos := if st.sideChanges < MAXSIDECHANGES - 1 then st.pos ++ [i] else st.pos
      lastPos := i
      allPeriods := (st.allPeriods + 1) % 65536 }
  else st

/-- The data loop `for (i = MINTICDIFF; i < len; i++)`: `n` passes from index `i`. -/
def segLoop (pb : Nat → Nat) (lower_wc upper_wc : Nat) : Nat → Nat → LoopState → LoopState
  | 0, _, st => st
  | n + 1, i, st => segLoop pb lower_wc upper_wc n (i + 1) (segStep pb lower_wc upper_wc st i)

/-- The state of the locals before the data loop (lines 89-147). -/
def initState (pb : Nat → Nat) (upper_wc : Nat) : LoopState :=
  { signal_side := initialSide pb upper_wc, sideChanges := 0, allPeriods := 0,
    pos := [], lastPos := 0 }

/-- Data segmentation (lines 122-187): thresholds, initial side, data loop. -/
def segmentation (pb : Nat → Nat) (len d_mean max_v min_v : Nat) : LoopState :=
  let lower_wc := lowerThreshold d_mean min_v
  let upper_wc := upperThreshold d_mean max_v
  segLoop pb lower_wc upper_wc (len - MINTICDIFF) MINTICDIFF (initState pb upper_wc)

/-- The `uint32_t` accumulator `mean` after the loop of lines 199-202. -/
def periodSum (pos : List Nat) (sideChanges : Nat) : Nat :=
  (List.range (sideChanges - 1)).foldl
    (fun mean i => (mean + subU32 (pos.getD (i + 1) 0) (pos.getD i 0)) % 4294967296) 0

/-- The accumulator `stdev` after the loop of lines 217-220. -/
def devSum {F : Type} [LinearOrderedField F] (pos : List Nat) (sideChanges : Nat)
    (dTime d_periode : F) : F :=
  (List.range (sideChanges - 1)).foldl
    (fun stdev i =>
      let ftemp := ((subU32 (pos.getD (i + 1) 0) (pos.getD i 0) : Nat) : F) * dTime - d_periode
      stdev + ftemp * ftemp) 0

/-- The evaluation part (lines 189-226) on the final loop state. -/
def evaluate {F : Type} [LinearOrderedField F] (sqrtf : F → F) (s : sADCData F)
    (st : LoopState) : Int × Option (sADCData F) :=
  let numPeriodes := toU16 ((st.sideChanges : Int) - 1)
  if st.sideChanges ≤ 1 then
    (-2, some { s with
      d_numPeriodes := numPeriodes
      d_freqClassic := 0
      d_numCP := toU16 ((st.allPeriods : Int) - 1)
      d_quality := FLT_MAX
      d_periode := FLT_MAX })
  else
    let dTime := s.d_deltaTime
    let periode : F :=
      ((periodSum st.pos st.sideChanges : Nat) : F) * dTime
        / (((st.sideChanges : Int) - 1 : Int) : F)
    let freqClassic : F :=
      (((st.allPeriods : Int) - 1 : Int) : F)
        / ((subU32 st.lastPos (st.pos.getD 0 0) : Nat) : F) / dTime
    let quality : F :=
      if st.sideChanges ≥ 3 then
        sqrtf (devSum st.pos st.sideChanges dTime periode
          / (((st.sideChanges : Int) - 2 : Int) : F))
      else 0
    (0, some { s with
      d_numPeriodes := numPeriodes
      d_periode := periode
      d_freqClassic := freqClassic
      d_numCP := toU16 ((st.allPeriods : Int) - 1)
      d_quality := quality })

/-- The function `calcFreqAnalog`: the return code and the structure behind
`sAD` after the call. -/
def calcFreqAnalog {F : Type} [LinearOrderedField F] (sqrtf : F → F)
    (sAD : Option (sADCData F)) : Int × Option (sADCData F) :=
  match sAD with
  | none => (-3, none)
  | some s =>
    match s.data with
    | none => (-4, some s)
    | some pb =>
      if s.d_sFreq = 0 then (-5, some s)
      else if s.d_len = 0 then (-7, some s)
      else if s.d_deltaTime ≤ FLT_MIN then (-6, some s)
      else if (s.d_max : Int) - (s.d_min : Int) ≤ (MAXADCDIFF : Int) then
        (-1, some { s with
          d_freqClassic := 0
          d_numCP := 0
          d_numPeriodes := 0
          d_quality := FLT_MAX
          d_periode := FLT_MAX })
      else
        evaluate sqrtf s (segmentation pb s.d_len s.d_mean s.d_max s.d_min)

/-! ## The rising edges of a buffer -/

/-- The rising edges the two-state machine detects on `n` samples from index
`i`, started on side `side`: on the high side a sample at or below `lower_wc`
re-arms the detector, on the low side a sample strictly above `upper_wc` is an
edge.  All edges are listed, without a capacity. -/
def detectedEdges (pb : Nat → Nat) (lower_wc upper_wc : Nat) : Bool → Nat → Nat → List Nat
  | _, _, 0 => []
  | true, i, n + 1 =>
    detectedEdges pb lower_wc upper_wc (decide (¬ pb i ≤ lower_wc)) (i + 1) n
  | false, i, n + 1 =>
    if pb i > upper_wc then i :: detectedEdges pb lower_wc upper_wc true (i + 1) n
    else detectedEdges pb lower_wc upper_wc false (i + 1) n

/-- All rising edges detected in the buffer of `s` with the thresholds and the
initial side `calcFreqAnalog` derives from the statistics in `s`. -/
def edgesOf {F : Type} (s : sADCData F) (pb : Nat → Nat) : List Nat :=
  detectedEdges pb (lowerThreshold s.d_mean s.d_min) (upperThreshold s.d_mean s.d_max)
    (initialSide pb (upperThreshold s.d_mean s.d_max)) MINTICDIFF (s.d_len - MINTICDIFF)

/-- The input passes the validation of lines 100-109 with buffer `pb`. -/
def Valid {F : Type} [LinearOrderedField F] (s : sADCData F) (pb : Nat → Nat) : Prop :=
  s.data = some pb ∧ s.d_sFreq ≠ 0 ∧ s.d_len ≠ 0 ∧ ¬ s.d_deltaTime ≤ FLT_MIN

/-- The input passes the constant-signal guard of line 114. -/
def PassesGuard {F : Type} (s : sADCData F) : Prop :=
  ¬ ((s.d_max : Int) - (s.d_min : Int) ≤ (MAXADCDIFF : Int))

/-- The slots of the array `pos` written by the data loop of `calcFreqAnalog`
on the buffer `pb` of `s`, in order: the stored edge positions. -/
def storedEdges {F : Type} (s : sADCData F) (pb : Nat → Nat) : List Nat :=
  (segmentation pb s.d_len s.d_mean s.d_max s.d_min).pos

/-- The signed spacing `pos[i+1] - pos[i]` of two consecutive stored edges. -/
def spacing (pos : List Nat) (i : Nat) : Int :=
  (pos.getD (i + 1) 0 : Int) - (pos.getD i 0 : Int)

/-- The structures `s` and `t` agree on the buffer and on every input field:
`data`, `d_len`, `d_sFreq`, `d_deltaTime`, `d_mean`, `d_max`, `d_min`. -/
def SameInputs {F : Type} (s t : sADCData F) : Prop :=
  t.data = s.data ∧ t.d_len = s.d_len ∧ t.d_sFreq = s.d_sFreq ∧
  t.d_deltaTime = s.d_deltaTime ∧ t.d_mean = s.d_mean ∧ t.d_max = s.d_max ∧
  t.d_min = s.d_min

/-! ## Test inputs -/

/-- A square wave of period 8 between 0 and 100, low on the first half. -/
def squareWave (i : Nat) : Nat := if i % 8 < 4 then 0 else 100

/-- A structure on `squareWave` with `len` samples taken at 1 kHz, with the
statistics of the wave and cleared result fields. -/
def sampleInput (F : Type) [LinearOrderedField F] (len : Nat) : sADCData F :=
  { data := some squareWave, d_len := len, d_sFreq := 1000, d_deltaTime := 1 / 1000,
    d_mean := 50, d_max := 100, d_min := 0,
    d_freqClassic := 0, d_numCP := 0, d_periode := 0, d_numPeriodes := 0, d_quality := 0 }

/-- A structure on a buffer of 16 equal samples of value 7, statistics not yet set. -/
def flatInput (F : Type) [LinearOrderedField F] : sADCData F :=
  { data := some (fun _ => 7), d_len := 16, d_sFreq := 1000, d_deltaTime := 1 / 1000,
    d_mean := 0, d_max := 0, d_min := 0,
    d_freqClassic := 0, d_numCP := 0, d_periode := 0, d_numPeriodes := 0, d_quality := 0 }

/-- A buffer that is high (100) on its first 6 samples and low (0) afterwards. -/
def dropWave (i : Nat) : Nat := if i < 6 then 100 else 0

/-- A structure on `dropWave` with 12 samples and the statistics `peak_mean`
computes for it: mean 50, max 100, min 0. -/
def dropInput (F : Type) [LinearOrderedField F] : sADCData F :=
  { data := some dropWave, d_len := 12, d_sFreq := 1000, d_deltaTime := 1 / 1000,
    d_mean := 50, d_max := 100, d_min := 0,
    d_freqClassic := 0, d_numCP := 0, d_periode := 0, d_numPeriodes := 0, d_quality := 0 }

/-- A structure on a buffer of 65538 samples that all have the value 65535. -/
def fullScaleInput (F : Type) [LinearOrderedField F] : sADCData F :=
  { data := some (fun _ => 65535), d_len := 65538, d_sFreq := 1000, d_deltaTime := 1 / 1000,
    d_mean := 0, d_max := 0, d_min := 0,
    d_freqClassic := 0, d_numCP := 0, d_periode := 0, d_numPeriodes := 0, d_quality := 0 }

/-! ## Note mapping: `lib/Afrequencies/AFrequencies.h` and `AFrequencies.cpp`

The `int` values are integers without a bound; the conversion `(int)x` of a
`float` truncates toward zero.  A local that is read before any assignment
makes the result undefined (`none`). -/

/-- Constant `TWELFTH_SQ2 (1.0594630943593f)`: 12th root of 2, one half-tone. -/
def TWELFTH_SQ2 {F : Type} [LinearOrderedField F] : F := 1.0594630943593

/-- Constant `HALFNOTEFACTOR (1.029302236643492f)`. -/
def HALFNOTEFACTOR {F : Type} [LinearOrderedField F] : F := 1.029302236643492

/-- The global `char noteNames[13][4]` (line 37). -/
def noteNames : List String :=
  ["c", "cis", "d", "dis", "e", "f", "fis", "g", "gis", "a", "b", "h", "c"]

/-- The global `float noteCstart[]` (line 48): start frequencies of the ranges. -/
def noteCstart {F : Type} [LinearOrderedField F] : List F :=
  [65.4063913251401, 130.812782650287, 261.625565300588, 523.251130601197,
    1046.5022612024, 2093.00452240479, 4186.009045]

/-- The global `noteCstartCount = sizeof(noteCstart)/sizeof(float)` (line 49). -/
def noteCstartCount : Nat := 7

/-- The conversion `(int)x` of a `float`: truncation toward zero. -/
def truncToInt {F : Type} [LinearOrderedField F] [FloorRing F] (x : F) : Int :=
  if 0 ≤ x then Int.floor x else Int.ceil x

/-- The call `itoa(value, num, 10)`: the decimal representation of `value`. -/
def itoa (value : Int) : String := toString value

/-- The call `strncat(dst, src, n)`: `dst` followed by the first `n` characters of `src`. -/
def strncat (dst src : String) (n : Nat) : String := dst ++ String.mk (src.data.take n)

/-- The function `findNoteRange` (lines 111-139). -/
def findNoteRange {F : Type} [LinearOrderedField F] (freq : F) : Int :=
  if freq > 2 * noteCstart.getD (noteCstartCount - 1) 0 * HALFNOTEFACTOR then -1
  else if freq < noteCstart.getD 0 0 then -2
  else if freq < noteCstart.getD 1 0 then 0
  else if freq < noteCstart.getD 2 0 then 1
  else if freq < noteCstart.getD 3 0 then 2
  else if freq < noteCstart.getD 4 0 then 3
  else if freq < noteCstart.getD 5 0 then 4
  else if freq < noteCstart.getD 6 0 then 5
  else 6

/-- The locals of `findNoteInRange` that the candidate loop changes. `idxMin`
and `freqMinDist` have no value before their first assignment. -/
structure NoteLoopState (F : Type) where
  minDist : F
  idxMin : Option Nat
  freqMinDist : Option F
  noteFreq : F

/-- One pass of the body of the candidate loop (lines 164-170). The running
minimum `minDist` stores the signed distance and is compared with `fabs`. -/
def noteStep {F : Type} [LinearOrderedField F] (freq : F) (st : NoteLoopState F)
    (i : Nat) : NoteLoopState F :=
  let dist := freq - st.noteFreq
  if |dist| < st.minDist then
    { minDist := dist, idxMin := some i, freqMinDist := some st.noteFreq,
      noteFreq := st.noteFreq * TWELFTH_SQ2 }
  else { st with noteFreq := st.noteFreq * TWELFTH_SQ2 }

/-- The candidate loop `for(i=0; i<13; i++)`: `n` passes from index `i`. -/
def noteLoop {F : Type} [LinearOrderedField F] (freq : F) :
    Nat → Nat → NoteLoopState F → NoteLoopState F
  | 0, _, st => st
  | n + 1, i, st => noteLoop freq n (i + 1) (noteStep freq st i)

/-- The locals of `findNoteInRange` after the candidate loop (lines 149-171). -/
def noteScan {F : Type} [LinearOrderedField F] (freq : F) (range : Int) : NoteLoopState F :=
  noteLoop freq 13 0
    { minDist := FLT_MAX, idxMin := none, freqMinDist := none,
      noteFreq := noteCstart.getD range.toNat 0 }

/-- The function `findNoteInRange` (lines 147-196): the return value and the
content of `noteName` after the call. -/
def findNoteInRange {F : Type} [LinearOrderedField F] [FloorRing F] (freq : F) (range : Int)
    (noteName : String) : Option (Int × String) :=
  if range < 0 ∨ range > 6 then some (-9999, noteName)
  else
    let st := noteScan freq range
    match st.idxMin, st.freqMinDist with
    | some idxMin, some freqMinDist =>
      let name := noteNames.getD idxMin ""
      let label :=
        if idxMin = 12 then strncat name (itoa range) 1
        else if range > 0 then strncat name (itoa (range - 1)) 1
        else name
      let oneCent := (TWELFTH_SQ2 - 1) * freqMinDist / 100
      if |oneCent| < 0.03 then some (0, label)
      else if st.minDist < 0 then some (truncToInt (st.minDist / oneCent - 0.5), label)
      else some (truncToInt (st.minDist / oneCent + 0.5), label)
    | _, _ => none

/-- The function `findNearestNote` (lines 65-77): the return value and the
content of `noteName` after the call. -/
def findNearestNote {F : Type} [LinearOrderedField F] [FloorRing F] (freq : F)
    (noteName : String) : Option (Int × String) :=
  let retVal := findNoteRange freq
  if retVal < 0 then some (retVal, noteName)
  else
    match findNoteInRange freq retVal noteName with
    | none => none
    | some (retVal2, name) =>
      if retVal2 < -50 then some (retVal2, name) else some (retVal, name)

/-- The function `findNearestNoteDiff` (lines 84-99): the return value and the
contents of `noteName` and `*diffCent` after the call. -/
def findNearestNoteDiff {F : Type} [LinearOrderedField F] [FloorRing F] (freq : F)
    (noteName : String) (diffCent : Int) : Option (Int × String × Int) :=
  let retVal := findNoteRange freq
  if retVal < 0 then some (retVal - 9999, noteName, diffCent)
  else
    match findNoteInRange freq retVal noteName with
    | none => none
    | some (retVal2, name) =>
      if retVal2 < -50 then some (retVal2, name, diffCent) else some (retVal, name, retVal2)

/-- Candidate `i` of a range that starts at `c0`: `c0 * TWELFTH_SQ2 ^ i`. -/
def candidate {F : Type} [LinearOrderedField F] (c0 : F) (i : Nat) : F :=
  c0 * TWELFTH_SQ2 ^ i

/-- The octave digit character of `r`: the character with code `48 + r`. -/
def digitOf (r : Nat) : String := String.singleton (Char.ofNat (48 + r))

/-- The label of note `i` of range `r`: the table name followed by the digit
`r` for the next-octave root `i = 12`, by the digit `r - 1` for `i < 12` in a
range `r > 0`, and by no digit for `i < 12` in range 0. -/
def noteLabel (r i : Nat) : String :=
  if i = 12 then noteNames.getD i "" ++ digitOf r
  else if r > 0 then noteNames.getD i "" ++ digitOf (r - 1)
  else noteNames.getD i ""

/-- The state of the candidate loop after the candidates `0..i-1` of a range
that starts at `c0`: the selected candidate `k` and why it stays selected. -/
def NoteInv {F : Type} [LinearOrderedField F] (freq c0 : F) (i : Nat)
    (st : NoteLoopState F) : Prop :=
  st.noteFreq = candidate c0 i ∧
  ∃ k, k < i ∧ st.idxMin = some k ∧ st.freqMinDist = some (candidate c0 k) ∧
    st.minDist = freq - candidate c0 k ∧
    ((freq < candidate c0 k ∧
        (k = 0 ∨ (1 ≤ k ∧ candidate c0 (k - 1) ≤ freq ∧
          candidate c0 k - freq < freq - candidate c0 (k - 1)))) ∨
      (candidate c0 k ≤ freq ∧ k + 1 = i) ∨
      (candidate c0 k ≤ freq ∧ k + 1 < i ∧
        freq - candidate c0 k ≤ candidate c0 (k + 1) - freq))

/-- The cent deviation computed in lines 186-194 from the signed distance
`minDist` and the matched candidate `freqMinDist`. -/
def centOf {F : Type} [LinearOrderedField F] [FloorRing F] (minDist freqMinDist : F) : Int :=
  if |(TWELFTH_SQ2 - 1) * freqMinDist / 100| < 0.03 then 0
  else if minDist < 0 then
    truncToInt (minDist / ((TWELFTH_SQ2 - 1) * freqMinDist / 100) - 0.5)
  else truncToInt (minDist / ((TWELFTH_SQ2 - 1) * freqMinDist / 100) + 0.5)

/-- A pulse wave of period 8: high (100) on the first 2 samples of a period,
low (0) on the other 6. -/
def pairWave (i : Nat) : Nat := if i % 8 < 2 then 100 else 0

/-- A structure on `pairWave` with 16 samples and the statistics `peak_mean`
computes for it: mean 25, max 100, min 0. -/
def pairInput (F : Type) [LinearOrderedField F] : sADCData F :=
  { data := some pairWave, d_len := 16, d_sFreq := 1000, d_deltaTime := 1 / 1000,
    d_mean := 25, d_max := 100, d_min := 0,
    d_freqClassic := 0, d_numCP := 0, d_periode := 0, d_numPeriodes := 0, d_quality := 0 }

/-- A spike wave of period 32: one sample of 100 followed by 31 samples of 0. -/
def spikeWave (i : Nat) : Nat := if i % 32 = 0 then 100 else 0

/-- A structure on `spikeWave` with 64 samples and the statistics `peak_mean`
computes for it: mean 3, max 100, min 0. -/
def spikeInput (F : Type) [LinearOrderedField F] : sADCData F :=
  { data := some spikeWave, d_len := 64, d_sFreq := 1000, d_deltaTime := 1 / 1000,
    d_mean := 3, d_max := 100, d_min := 0,
    d_freqClassic := 0, d_numCP := 0, d_periode := 0, d_numPeriodes := 0, d_quality := 0 }

/-- The number of the samples `data[0..MINTICDIFF-1]` strictly above `upper_wc`. -/
def countAbove (pb : Nat → Nat) (upper_wc : Nat) : Nat :=
  ((List.range MINTICDIFF).filter (fun i => decide (pb i > upper_wc))).length

/-- The scaled lower threshold of line 123 as a `uint16_t`. -/
def scaledLower (d_mean min_v : Nat) : Nat :=
  toU16 ((d_mean : Int) - Int.tdiv ((d_mean : Int) - (min_v : Int)) (ANASPANDIV : Int))

/-- The scaled upper threshold of line 126 as a `uint16_t`. -/
def scaledUpper (d_mean max_v : Nat) : Nat :=
  toU16 ((d_mean : Int) + Int.tdiv ((max_v : Int) - (d_mean : Int)) (ANASPANDIV : Int))

/-- Rounding to the nearest integer, halves away from zero. -/
def roundHalfAway {F : Type} [LinearOrderedField F] [FloorRing F] (x : F) : Int :=
  if 0 ≤ x then Int.floor (x + 1 / 2) else -Int.floor (-x + 1 / 2)

/-! ## `ADC_Sim` (ADC_Sim.cpp, lines 38-127) -/

/-- Constant `MAXNOISE (600)` of `ADC_Sim.h`. -/
def MAXNOISE : Nat := 600

/-- Constant `MAXADCVALUE (4095)` of `ADC_Sim.h`. -/
def MAXADCVALUE : Nat := 4095

/-- The clamp of lines 89-90 (and 115-116) and the store `*pb = signal` of the
`int` into a `uint16_t` slot. -/
def storeSignal (signal : Int) : Nat :=
  toU16 (if signal < 0 then 0
    else if signal > (MAXADCVALUE : Int) then (MAXADCVALUE : Int) else signal)

/-- The local `signedNoise` in pass `ix` (lines 82-86 and 109-112): with a
nonzero `noise` it is `rand()%noise - n2`, from the call of `rand` number
`2 + ix` (two calls precede the loop); with `noise = 0` it keeps its initial 0. -/
def signedNoise (rand : Nat → Nat) (noise n2 ix : Nat) : Int :=
  if noise ≠ 0 then ((rand (2 + ix) % noise : Nat) : Int) - (n2 : Int) else 0

/-- The loop of lines 81-93 (type 0): the samples stored by `n` passes from
index `ix`, in order. -/
def sineLoop {F : Type} [LinearOrderedField F] [FloorRing F] (sinf : F → F)
    (rand : Nat → Nat) (ampli mean noise n2 : Nat) (dFreq : F) : Nat → Nat → List Nat
  | 0, _ => []
  | n + 1, ix =>
    storeSignal (truncToInt ((ampli : F) * sinf (dFreq * (ix : F))) + (mean : Int)
        + signedNoise rand noise n2 ix)
      :: sineLoop sinf rand ampli mean noise n2 dFreq n (ix + 1)

/-- The loop of lines 108-122 (types 1 and 2): the samples stored by `n`
passes from index `ix` with the signal time `sTime`, in order. -/
def rampLoop {F : Type} [LinearOrderedField F] [FloorRing F] (type : Int)
    (rand : Nat → Nat) (ampli2 : Int) (noise n2 : Nat) (dTime periodeTime : F) :
    Nat → Nat → F → List Nat
  | 0, _, _ => []
  | n + 1, ix, sTime =>
    let signal : Int :=
      if type = 1 then
        truncToInt ((sTime / periodeTime) * (ampli2 : F)) + 100 + signedNoise rand noise n2 ix
      else
        truncToInt (((periodeTime - sTime) / periodeTime) * (ampli2 : F)) + 100
          + signedNoise rand noise n2 ix
    let sTime1 := sTime + dTime
    storeSignal signal
      :: rampLoop type rand ampli2 noise n2 dTime periodeTime n (ix + 1)
          (if sTime1 > periodeTime then sTime1 - periodeTime else sTime1)

/-- The buffer `pb` after the stores `*pb = signal; pb++` of `samples` from
its start. -/
def writeSamples (pb : Nat → Nat) (samples : List Nat) : Nat → Nat :=
  fun i => if i < samples.length then samples.getD i 0 else pb i

/-- The function `ADC_Sim`: the return code and the structure behind `sAD`
after the call. The library functions `sinf`, `rand` (`rand k` is the value of
call number `k`) and the constant `M_PI` are parameters. -/
def ADC_Sim {F : Type} [LinearOrderedField F] [FloorRing F] (sinf : F → F) (pi : F)
    (rand : Nat → Nat) (sAD : Option (sADCData F)) (type : Int) (freq : F) (noise : Nat) :
    Int × Option (sADCData F) :=
  if type > 2 ∨ type < 0 then (-1, sAD)
  else if freq ≤ FLT_MIN then (-2, sAD)
  else
    match sAD with
    | none => (-3, none)
    | some s =>
      match s.data with
      | none => (-4, some s)
      | some pb =>
        if s.d_sFreq = 0 then (-5, some s)
        else if freq ≥ ((s.d_sFreq / 2 : Nat) : F) then (-6, some s)
        else if s.d_len = 0 then (-7, some s)
        else if noise > MAXNOISE then (-8, some s)
        else
          let n2 := noise / 2
          let ampli := (rand 0 % (MAXADCVALUE / 20) + MAXADCVALUE * 2 / 5) % 65536
          let mean := (rand 1 % (MAXADCVALUE / 10) + MAXADCVALUE * 2 / 5) % 65536
          let dTime : F := 1 / (s.d_sFreq : F)
          let dPeriode : F := (s.d_sFreq : F) / freq
          if dPeriode < FLT_MIN then (-9, some s)
          else if type = 0 then
            let dFreq : F := 2 * pi / dPeriode
            (0, some { s with data := some (writeSamples pb
              (sineLoop sinf rand ampli mean noise n2 dFreq s.d_len 0)) })
          else
            let periodeTime : F := dTime * dPeriode
            let ampli2 : Int := 2 * (ampli : Int)
            (0, some { s with data := some (writeSamples pb
              (rampLoop type rand ampli2 noise n2 dTime periodeTime s.d_len 0
                (periodeTime / 2))) })

/-- A structure with a zeroed buffer of 8 samples at the sample rate 1000 Hz. -/
def simInput (F : Type) [LinearOrderedField F] : sADCData F :=
  { data := some (fun _ => 0), d_len := 8, d_sFreq := 1000, d_deltaTime := 1 / 1000,
    d_mean := 0, d_max := 0, d_min := 0,
    d_freqClassic := 0, d_numCP := 0, d_periode := 0, d_numPeriodes := 0, d_quality := 0 }

/-- One period of 20 samples of a sine of amplitude 1638 around 1638:
`(int)(1638 * sin(2 * pi * i / 20)) + 1638`. -/
def sineWave (i : Nat) : Nat :=
  [1638, 2144, 2600, 2963, 3195, 3276, 3195, 2963, 2600, 2144,
    1638, 1132, 676, 313, 81, 0, 81, 313, 676, 1132].getD (i % 20) 0

/-- A buffer with 202 samples of `sineWave` from its start, 0 behind them. -/
def sineBuf (i : Nat) : Nat := if i < 202 then sineWave i else 0

/-- A structure with a zeroed buffer of 202 samples at the sample rate 1000 Hz. -/
def sineInput (F : Type) [LinearOrderedField F] : sADCData F :=
  { data := some (fun _ => 0), d_len := 202, d_sFreq := 1000, d_deltaTime := 1 / 1000,
    d_mean := 0, d_max := 0, d_min := 0,
    d_freqClassic := 0, d_numCP := 0, d_periode := 0, d_numPeriodes := 0, d_quality := 0 }

/-- The structure `sineInput` with the buffer `sineBuf` and the statistics
`peak_mean` computes for it: mean 1640, max 3276, min 0. -/
def sineStats (F : Type) [LinearOrderedField F] : sADCData F :=
  { sineInput F with data := some sineBuf, d_mean := 1640, d_max := 3276, d_min := 0 }

/-- A pulse train of period 32 on a base level: one sample of 110 followed by
31 samples of 10. -/
def pulseWave (i : Nat) : Nat := if i % 32 = 0 then 110 else 10

/-- A structure on `pulseWave` with 64 samples and the statistics `peak_mean`
computes for it: mean 13, max 110, min 10. -/
def pulseInput (F : Type) [LinearOrderedField F] : sADCData F :=
  { data := some pulseWave, d_len := 64, d_sFreq := 1000, d_deltaTime := 1 / 1000,
    d_mean := 13, d_max := 110, d_min := 10,
    d_freqClassic := 0, d_numCP := 0, d_periode := 0, d_numPeriodes := 0, d_quality := 0 }

/-- One pass of the data loop on the flag `signal_side` (lines 166-186) for
the sample `x`: on the high side the flag stays set unless `x ≤ lower_wc`, on
the low side it is set when `x > upper_wc`. -/
def sideStep (lower_wc upper_wc : Nat) (side : Bool) (x : Nat) : Bool :=
  if side then decide (¬ x ≤ lower_wc) else decide (x > upper_wc)

/-- The flag `signal_side` after `m` passes of the data loop from index `i`,
started with the value `side`. -/
def sideAfter (pb : Nat → Nat) (lower_wc upper_wc : Nat) : Bool → Nat → Nat → Bool
  | side, _, 0 => side
  | side, i, m + 1 =>
    sideAfter pb lower_wc upper_wc (sideStep lower_wc upper_wc side (pb i)) (i + 1) m
/-! ## `calcFreqAnalog` with bounds-checked memory accesses -/

/-- The read `pb[i]` on a buffer of `len` samples; `none` is a read outside
the buffer. -/
def readSample (pb : Nat → Nat) (len i : Nat) : Option Nat :=
  if i < len then some (pb i) else none

/-- The read `pos[i]` on the array `uint32_t pos[MAXSIDECHANGES]`; `none` is a
read outside the array or of a slot that has not been written. -/
def readPos (pos : List Nat) (i : Nat) : Option Nat :=
  if i < MAXSIDECHANGES then pos[i]? else none

/-- The write `pos[idx] = v` on the array `uint32_t pos[MAXSIDECHANGES]`, with
the written slots kept in order as in `LoopState`; `none` is a write outside
the array. -/
def writePos (pos : List Nat) (idx v : Nat) : Option (List Nat) :=
  if idx < MAXSIDECHANGES then some (pos ++ [v]) else none

/-- The initial value of `signal_side` (lines 132-147) with checked reads of
`pb[0]` (line 136) and of `pb[i]`, `i = 0..MINTICDIFF-1` (lines 137-144). -/
def initialSideChecked (pb : Nat → Nat) (len upper_wc : Nat) : Option Bool :=
  (readSample pb len 0).bind fun x0 =>
    ((List.range MINTICDIFF).foldlM
      (fun t i => (readSample pb len i).bind fun x =>
        some (if x > upper_wc then t + 1 else t))
      (if x0 > upper_wc then 1 else 0)).bind fun temp =>
    some (decide (temp > MINTICDIFF / 2))

/-- One pass of the body of the data loop (lines 163-186) with the checked
read of `pb[i]` and the checked write of `pos[sideChanges]`. -/
def segStepChecked (pb : Nat → Nat) (len lower_wc upper_wc : Nat) (st : LoopState)
    (i : Nat) : Option LoopState :=
  (readSample pb len i).bind fun x =>
    if st.signal_side then
      some (if x ≤ lower_wc then { st with signal_side := false } else st)
    else if x > upper_wc then
      if st.sideChanges < MAXSIDECHANGES - 1 then
        (writePos st.pos st.sideChanges i).bind fun pos =>
          some { signal_side := true
                 sideChanges := st.sideChanges + 1
                 pos := pos
                 lastPos := i
                 allPeriods := (st.allPeriods + 1) % 65536 }
      else
        some { signal_side := true
               sideChanges := st.sideChanges
               pos := st.pos
               lastPos := i
               allPeriods := (st.allPeriods + 1) % 65536 }
    else some st

/-- The data loop `for (i = MINTICDIFF; i < len; i++)` with checked accesses:
`n` passes from index `i`. -/
def segLoopChecked (pb : Nat → Nat) (len lower_wc upper_wc : Nat) :
    Nat → Nat → LoopState → Option LoopState
  | 0, _, st => some st
  | n + 1, i, st =>
    (segStepChecked pb len lower_wc upper_wc st i).bind fun st1 =>
      segLoopChecked pb len lower_wc upper_wc n (i + 1) st1

/-- Data segmentation (lines 122-187) with checked accesses. -/
def segmentationChecked (pb : Nat → Nat) (len d_mean max_v min_v : Nat) : Option LoopState :=
  let lower_wc := lowerThreshold d_mean min_v
  let upper_wc := upperThreshold d_mean max_v
  (initialSideChecked pb len upper_wc).bind fun side =>
    segLoopChecked pb len lower_wc upper_wc (len - MINTICDIFF) MINTICDIFF
      { signal_side := side, sideChanges := 0, allPeriods := 0, pos := [], lastPos := 0 }

/-- The accumulator `mean` after the loop of lines 199-202, with checked reads
of `pos[i+1]` and `pos[i]`. -/
def periodSumChecked (pos : List Nat) (sideChanges : Nat) : Option Nat :=
  (List.range (sideChanges - 1)).foldlM
    (fun mean i => (readPos pos (i + 1)).bind fun a => (readPos pos i).bind fun b =>
      some ((mean + subU32 a b) % 4294967296)) 0

/-- The accumulator `stdev` after the loop of lines 217-220, with checked
reads of `pos[i+1]` and `pos[i]`. -/
def devSumChecked {F : Type} [LinearOrderedField F] (pos : List Nat) (sideChanges : Nat)
    (dTime d_periode : F) : Option F :=
  (List.range (sideChanges - 1)).foldlM
    (fun stdev i => (readPos pos (i + 1)).bind fun a => (readPos pos i).bind fun b =>
      let ftemp := ((subU32 a b : Nat) : F) * dTime - d_periode
      some (stdev + ftemp * ftemp)) 0

/-- The evaluation part (lines 189-226) with checked reads of `pos`. -/
def evaluateChecked {F : Type} [LinearOrderedField F] (sqrtf : F → F) (s : sADCData F)
    (st : LoopState) : Option (Int × Option (sADCData F)) :=
  let numPeriodes := toU16 ((st.sideChanges : Int) - 1)
  if st.sideChanges ≤ 1 then
    some (-2, some { s with
      d_numPeriodes := numPeriodes
      d_freqClassic := 0
      d_numCP := toU16 ((st.allPeriods : Int) - 1)
      d_quality := FLT_MAX
      d_periode := FLT_MAX })
  else
    let dTime := s.d_deltaTime
    (periodSumChecked st.pos st.sideChanges).bind fun mean =>
    let periode : F := ((mean : Nat) : F) * dTime / (((st.sideChanges : Int) - 1 : Int) : F)
    (readPos st.pos 0).bind fun pos0 =>
    let freqClassic : F :=
      (((st.allPeriods : Int) - 1 : Int) : F) / ((subU32 st.lastPos pos0 : Nat) : F) / dTime
    (if st.sideChanges ≥ 3 then
        (devSumChecked st.pos st.sideChanges dTime periode).bind fun stdev =>
          some (sqrtf (stdev / (((st.sideChanges : Int) - 2 : Int) : F)))
      else some 0).bind fun quality =>
    some (0, some { s with
      d_numPeriodes := numPeriodes
      d_periode := periode
      d_freqClassic := freqClassic
      d_numCP := toU16 ((st.allPeriods : Int) - 1)
      d_quality := quality })

/-- The function `calcFreqAnalog` with checked accesses to the sample buffer
of `d_len` samples and to the array `pos`: `none` is an access outside one of
the two or a read of a slot of `pos` that has not been written, otherwise the
return code and the structure after the call. -/
def calcFreqAnalogChecked {F : Type} [LinearOrderedField F] (sqrtf : F → F)
    (sAD : Option (sADCData F)) : Option (Int × Option (sADCData F)) :=
  match sAD with
  | none => some (-3, none)
  | some s =>
    match s.data with
    | none => some (-4, some s)
    | some pb =>
      if s.d_sFreq = 0 then some (-5, some s)
      else if s.d_len = 0 then some (-7, some s)
      else if s.d_deltaTime ≤ FLT_MIN then some (-6, some s)
      else if (s.d_max : Int) - (s.d_min : Int) ≤ (MAXADCDIFF : Int) then
        some (-1, some { s with
          d_freqClassic := 0
          d_numCP := 0
          d_numPeriodes := 0
          d_quality := FLT_MAX
          d_periode := FLT_MAX })
      else
        (segmentationChecked pb s.d_len s.d_mean s.d_max s.d_min).bind fun st =>
          evaluateChecked sqrtf s st

/-! ## Lemmas on the rising edges and the data loop -/

theorem detectedEdges_bounds (pb : Nat → Nat) (lo up : Nat) :
    ∀ (n : Nat) (side : Bool) (i : Nat), ∀ e ∈ detectedEdges pb lo up side i n,
      i ≤ e ∧ e < i + n := by
  intro n
  induction n with
  | zero => intro side i e he; cases side <;> simp [detectedEdges] at he
  | succ n ih =>
    intro side i e he
    cases side with
    | true =>
      simp only [detectedEdges] at he
      have := ih _ _ e he
      omega
    | false =>
      simp only [detectedEdges] at he
      split at he
      · rcases List.mem_cons.1 he with h | h
        · omega
        · have := ih _ _ e h
          omega
      · have := ih _ _ e he
        omega

theorem detectedEdges_sorted (pb : Nat → Nat) (lo up : Nat) :
    ∀ (n : Nat) (side : Bool) (i : Nat),
      (detectedEdges pb lo up side i n).Pairwise (· < ·) := by
  intro n
  induction n with
  | zero => intro side i; cases side <;> simp [detectedEdges]
  | succ n ih =>
    intro side i
    cases side with
    | true =>
      simp only [detectedEdges]
      exact ih _ _
    | false =>
      simp only [detectedEdges]
      split
      · refine List.Pairwise.cons ?_ (ih _ _)
        intro e he
        have := detectedEdges_bounds pb lo up n true (i + 1) e he
        omega
      · exact ih _ _

/-- The data loop computes the capped, wrapped summary of the rising edges. -/
theorem segLoop_spec (pb : Nat → Nat) (lo up : Nat) :
    ∀ (n i : Nat) (st : LoopState),
      st.pos.length = st.sideChanges → st.sideChanges ≤ 199 → st.allPeriods < 65536 →
      (segLoop pb lo up n i st).pos
          = (st.pos ++ detectedEdges pb lo up st.signal_side i n).take 199 ∧
      (segLoop pb lo up n i st).sideChanges
          = min (st.sideChanges + (detectedEdges pb lo up st.signal_side i n).length) 199 ∧
      (segLoop pb lo up n i st).allPeriods
          = (st.allPeriods + (detectedEdges pb lo up st.signal_side i n).length) % 65536 ∧
      (segLoop pb lo up n i st).lastPos
          = (detectedEdges pb lo up st.signal_side i n).getLastD st.lastPos := by
  intro n
  induction n with
  | zero =>
    intro i st hlen hcap hall
    cases hs : st.signal_side <;>
      simp [segLoop, detectedEdges, List.take_of_length_le, hlen, hcap] <;> omega
  | succ n ih =>
    intro i st hlen hcap hall
    cases hs : st.signal_side with
    | true =>
      by_cases hlow : pb i ≤ lo
      · have hstep : segStep pb lo up st i = { st with signal_side := false } := by
          simp [segStep, hs, hlow]
        have := ih (i + 1) { st with signal_side := false } hlen hcap hall
        simpa [segLoop, detectedEdges, hstep, hlow] using this
      · have hstep : segStep pb lo up st i = st := by
          simp [segStep, hs, hlow]
        have := ih (i + 1) st hlen hcap hall
        simpa [segLoop, detectedEdges, hstep, hlow, hs] using this
    | false =>
      by_cases hup : pb i > up
      · by_cases hroom : st.sideChanges < 199
        · have hstep : segStep pb lo up st i =
              { signal_side := true, sideChanges := st.sideChanges + 1,
                allPeriods := (st.allPeriods + 1) % 65536, pos := st.pos ++ [i],
                lastPos := i } := by
            simp [segStep, hs, hup, MAXSIDECHANGES, hroom]
          have key := ih (i + 1) (segStep pb lo up st i) (by rw [hstep]; simp [hlen])
            (by rw [hstep]; simp only; omega) (by rw [hstep]; simp; omega)
          rw [hstep] at key
          obtain ⟨h1, h2, h3, h4⟩ := key
          simp only [segLoop, detectedEdges, hstep, hup, if_true]
          refine ⟨?_, ?_, ?_, ?_⟩
          · rw [h1]; simp
          · rw [h2]; simp; omega
          · rw [h3]; simp; omega
          · rw [h4]; cases detectedEdges pb lo up true (i + 1) n <;> rfl
        · have hfull : st.sideChanges = 199 := by omega
          have hstep : segStep pb lo up st i =
              { signal_side := true, sideChanges := st.sideChanges,
                allPeriods := (st.allPeriods + 1) % 65536, pos := st.pos,
                lastPos := i } := by
            simp [segStep, hs, hup, MAXSIDECHANGES, hroom]
          have key := ih (i + 1) (segStep pb lo up st i) (by rw [hstep]; simp [hlen])
            (by rw [hstep]; simpa using hcap) (by rw [hstep]; simp; omega)
          rw [hstep] at key
          obtain ⟨h1, h2, h3, h4⟩ := key
          simp only [segLoop, detectedEdges, hstep, hup, if_true]
          refine ⟨?_, ?_, ?_, ?_⟩
          · rw [h1]; simp
            rw [List.take_append_of_le_length (by omega),
              List.take_append_of_le_length (by omega)]
          · rw [h2]; simp; omega
          · rw [h3]; simp; omega
          · rw [h4]; cases detectedEdges pb lo up true (i + 1) n <;> rfl
      · have hstep : segStep pb lo up st i = st := by
          simp [segStep, hs, hup]
        have := ih (i + 1) st hlen hcap hall
        simpa [segLoop, detectedEdges, hstep, hup, hs] using this

/-- The final loop state of `calcFreqAnalog` in terms of the rising edges. -/
theorem segmentation_spec {F : Type} (s : sADCData F) (pb : Nat → Nat) :
    (segmentation pb s.d_len s.d_mean s.d_max s.d_min).pos = (edgesOf s pb).take 199 ∧
    (segmentation pb s.d_len s.d_mean s.d_max s.d_min).sideChanges
      = min (edgesOf s pb).length 199 ∧
    (segmentation pb s.d_len s.d_mean s.d_max s.d_min).allPeriods
      = (edgesOf s pb).length % 65536 ∧
    (segmentation pb s.d_len s.d_mean s.d_max s.d_min).lastPos
      = (edgesOf s pb).getLastD 0 := by
  have h := segLoop_spec pb (lowerThreshold s.d_mean s.d_min) (upperThreshold s.d_mean s.d_max)
    (s.d_len - MINTICDIFF) MINTICDIFF (initState pb (upperThreshold s.d_mean s.d_max))
    rfl (by simp [initState]) (by simp [initState])
  simpa [segmentation, edgesOf, initState] using h

theorem edgesOf_sorted {F : Type} (s : sADCData F) (pb : Nat → Nat) :
    (edgesOf s pb).Pairwise (· < ·) :=
  detectedEdges_sorted pb _ _ _ _ _

theorem edgesOf_lt_len {F : Type} (s : sADCData F) (pb : Nat → Nat) :
    ∀ e ∈ edgesOf s pb, MINTICDIFF ≤ e ∧ e < s.d_len := by
  intro e he
  have := detectedEdges_bounds pb _ _ _ _ _ e he
  omega

/-- In a strictly increasing list, entries at increasing indices increase. -/
theorem getD_lt_of_sorted (l : List Nat) (hl : l.Pairwise (· < ·)) (i j : Nat)
    (hij : i < j) (hj : j < l.length) : l.getD i 0 < l.getD j 0 := by
  have hi : i < l.length := by omega
  rw [List.getD_eq_getElem l 0 hi, List.getD_eq_getElem l 0 hj]
  exact (List.pairwise_iff_getElem.1 hl) i j hi hj hij

theorem getD_mem (l : List Nat) (i : Nat) (hi : i < l.length) : l.getD i 0 ∈ l := by
  rw [List.getD_eq_getElem l 0 hi]
  exact List.getElem_mem hi

/-- The `uint32_t` difference of two positions in order is the true difference. -/
theorem subU32_eq (a b : Nat) (hba : b ≤ a) (ha : a < 4294967296) : subU32 a b = a - b := by
  unfold subU32
  omega

/-- The accumulator of lines 199-202 telescopes to the span of the stored edges. -/
theorem periodSum_loop (pos : List Nat) (hs : pos.Pairwise (· < ·))
    (hb : ∀ e ∈ pos, e < 4294967296) :
    ∀ k, k < pos.length →
      (List.range k).foldl
        (fun mean i => (mean + subU32 (pos.getD (i + 1) 0) (pos.getD i 0)) % 4294967296) 0
        = pos.getD k 0 - pos.getD 0 0 := by
  intro k
  induction k with
  | zero => intro _; simp
  | succ k ih =>
    intro hk
    rw [List.range_succ, List.foldl_append, ih (by omega)]
    have h1 : pos.getD k 0 < pos.getD (k + 1) 0 := getD_lt_of_sorted pos hs k (k + 1) (by omega) hk
    have h2 : pos.getD (k + 1) 0 < 4294967296 := hb _ (getD_mem pos (k + 1) hk)
    have h0 : pos.getD 0 0 ≤ pos.getD k 0 := by
      rcases Nat.eq_zero_or_pos k with h | h
      · subst h; exact le_rfl
      · exact le_of_lt (getD_lt_of_sorted pos hs 0 k h (by omega))
    simp only [List.foldl_cons, List.foldl_nil]
    rw [subU32_eq _ _ (le_of_lt h1) h2]
    omega

theorem periodSum_eq (pos : List Nat) (hs : pos.Pairwise (· < ·))
    (hb : ∀ e ∈ pos, e < 4294967296) (hn : 1 ≤ pos.length) :
    periodSum pos pos.length = pos.getD (pos.length - 1) 0 - pos.getD 0 0 :=
  periodSum_loop pos hs hb (pos.length - 1) (by omega)

/-- The span of the stored edges as the sum of the consecutive spacings. -/
theorem sum_spacings (pos : List Nat) (k : Nat) :
    (∑ i ∈ Finset.range k, spacing pos i) = (pos.getD k 0 : Int) - (pos.getD 0 0 : Int) := by
  induction k with
  | zero => simp
  | succ k ih =>
    rw [Finset.sum_range_succ, ih, spacing]
    ring

/-- The accumulator of lines 217-220 as a sum of squared deviations. -/
theorem devSum_eq {F : Type} [LinearOrderedField F] (pos : List Nat)
    (hs : pos.Pairwise (· < ·)) (hb : ∀ e ∈ pos, e < 4294967296) (dTime p : F) :
    ∀ k, k < pos.length →
      (List.range k).foldl
        (fun stdev i =>
          let ftemp := ((subU32 (pos.getD (i + 1) 0) (pos.getD i 0) : Nat) : F) * dTime - p
          stdev + ftemp * ftemp) 0
        = ∑ i ∈ Finset.range k, ((spacing pos i : F) * dTime - p) ^ 2 := by
  intro k
  induction k with
  | zero => intro _; simp
  | succ k ih =>
    intro hk
    rw [List.range_succ, List.foldl_append, ih (by omega), Finset.sum_range_succ]
    have h1 : pos.getD k 0 < pos.getD (k + 1) 0 := getD_lt_of_sorted pos hs k (k + 1) (by omega) hk
    have h2 : pos.getD (k + 1) 0 < 4294967296 := hb _ (getD_mem pos (k + 1) hk)
    simp only [List.foldl_cons, List.foldl_nil, spacing]
    rw [subU32_eq _ _ (le_of_lt h1) h2, Nat.cast_sub (le_of_lt h1)]
    push_cast
    ring

/-- First and last element of a strictly increasing list with two or more entries. -/
theorem first_lt_last (l : List Nat) (hl : l.Pairwise (· < ·)) (h2 : 2 ≤ l.length)
    (a b : Nat) (ha : l.head? = some a) (hb : l.getLast? = some b) :
    a < b ∧ l.getD 0 0 = a ∧ l.getLastD 0 = b ∧ b ∈ l := by
  match l, hl, h2, ha, hb with
  | x :: y :: t, hl, _, ha, hb =>
    have hxa : x = a := by simpa using ha
    subst hxa
    have hmem : b ∈ y :: t := by
      rw [List.getLast?_cons_cons] at hb
      exact List.mem_of_getLast?_eq_some hb
    refine ⟨(List.pairwise_cons.1 hl).1 b hmem, rfl, ?_, List.mem_cons_of_mem _ hmem⟩
    rw [List.getLastD_eq_getLast?, hb]
    rfl

/-! ## Validation, guard and evaluation: unfolding lemmas -/

theorem calcFreqAnalog_of_valid {F : Type} [LinearOrderedField F] (sqrtf : F → F)
    (s : sADCData F) (pb : Nat → Nat) (hv : Valid s pb) (hg : PassesGuard s) :
    calcFreqAnalog sqrtf (some s)
      = evaluate sqrtf s (segmentation pb s.d_len s.d_mean s.d_max s.d_min) := by
  obtain ⟨hd, hf, hl, ht⟩ := hv
  unfold PassesGuard at hg
  simp only [calcFreqAnalog, hd, hf, hl, ht, hg, if_false]

theorem calcFreqAnalog_of_constant {F : Type} [LinearOrderedField F] (sqrtf : F → F)
    (s : sADCData F) (pb : Nat → Nat) (hv : Valid s pb) (hg : ¬ PassesGuard s) :
    calcFreqAnalog sqrtf (some s)
      = (-1, some { s with
          d_freqClassic := 0
          d_numCP := 0
          d_numPeriodes := 0
          d_quality := FLT_MAX
          d_periode := FLT_MAX }) := by
  obtain ⟨hd, hf, hl, ht⟩ := hv
  unfold PassesGuard at hg
  have hg2 : (s.d_max : Int) - (s.d_min : Int) ≤ (MAXADCDIFF : Int) := not_not.1 hg
  simp only [calcFreqAnalog, hd, hf, hl, ht, hg2, if_false, if_true]

theorem evaluate_fst {F : Type} [LinearOrderedField F] (sqrtf : F → F)
    (s : sADCData F) (st : LoopState) :
    (evaluate sqrtf s st).1 = if st.sideChanges ≤ 1 then -2 else 0 := by
  unfold evaluate
  split <;> rfl

theorem toU16_pred (n : Nat) (h1 : 1 ≤ n) (h2 : n ≤ 65536) : toU16 ((n : Int) - 1) = n - 1 := by
  unfold toU16
  omega

/-- C1. For every input that passes validation and the constant-signal guard
and on which `E` rising edges are detected overall, `2 ≤ E < 65536`, with first
edge `pFirst` and last edge `pLast`: `pFirst < pLast`, `calcFreqAnalog` returns
0, `d_numCP = E - 1` and `d_freqClassic = (E - 1) / (pLast - pFirst) / d_deltaTime`. -/
theorem calcFreqAnalog_classic_frequency {F : Type} [LinearOrderedField F] (sqrtf : F → F)
    (s : sADCData F) (pb : Nat → Nat) (hv : Valid s pb) (hg : PassesGuard s)
    (hlen32 : s.d_len < 4294967296)
    (hE2 : 2 ≤ (edgesOf s pb).length) (hE16 : (edgesOf s pb).length < 65536)
    (pFirst pLast : Nat) (hfirst : (edgesOf s pb).head? = some pFirst)
    (hlast : (edgesOf s pb).getLast? = some pLast) :
    pFirst < pLast ∧
    ∃ out, calcFreqAnalog sqrtf (some s) = (0, some out) ∧
      out.d_numCP = (edgesOf s pb).length - 1 ∧
      out.d_freqClassic
        = (((edgesOf s pb).length - 1 : Nat) : F) / ((pLast - pFirst : Nat) : F)
            / s.d_deltaTime := by
  obtain ⟨hlt, h0, hL, hmem⟩ :=
    first_lt_last (edgesOf s pb) (edgesOf_sorted s pb) hE2 pFirst pLast hfirst hlast
  obtain ⟨hpos, hsc, hall, hlp⟩ := segmentation_spec s pb
  have hsc1 : ¬ (segmentation pb s.d_len s.d_mean s.d_max s.d_min).sideChanges ≤ 1 := by
    rw [hsc]; omega
  have hallE : (segmentation pb s.d_len s.d_mean s.d_max s.d_min).allPeriods
      = (edgesOf s pb).length := by rw [hall]; omega
  have hp0 : (segmentation pb s.d_len s.d_mean s.d_max s.d_min).pos.getD 0 0 = pFirst := by
    rw [hpos, ← h0]
    cases hes : edgesOf s pb with
    | nil => rw [hes] at hE2; simp at hE2
    | cons x t => rfl
  have hLast32 : pLast < 4294967296 := by
    have := (edgesOf_lt_len s pb pLast hmem).2
    omega
  refine ⟨hlt, ?_⟩
  rw [calcFreqAnalog_of_valid sqrtf s pb hv hg]
  unfold evaluate
  simp only [hsc1, if_false]
  refine ⟨_, rfl, ?_, ?_⟩
  · simp only [hallE]
    exact toU16_pred _ (by omega) (by omega)
  · simp only [hallE, hp0, hlp, hL]
    rw [subU32_eq _ _ (le_of_lt hlt) hLast32]
    congr 2
    rw [Nat.cast_sub (by omega : 1 ≤ (edgesOf s pb).length)]
    push_cast
    rfl

theorem sampleInput_valid (F : Type) [LinearOrderedField F] (len : Nat) (h : len ≠ 0) :
    Valid (sampleInput F len) squareWave := by
  refine ⟨rfl, by simp [sampleInput], h, ?_⟩
  simp only [sampleInput, FLT_MIN, not_le]
  exact one_div_lt_one_div_of_lt (by norm_num) (by norm_num)

theorem sampleInput_guard (F : Type) [LinearOrderedField F] (len : Nat) :
    PassesGuard (sampleInput F len) := by
  simp [PassesGuard, sampleInput, MAXADCDIFF]

/-- Witness for C1: five edges 4, 12, 20, 28, 36 of the square wave on 40 samples. -/
theorem calcFreqAnalog_classic_frequency_witness :
    edgesOf (sampleInput ℚ 40) squareWave = [4, 12, 20, 28, 36] ∧ (4 : Nat) < 36 ∧
    ∃ out, calcFreqAnalog (fun x => x) (some (sampleInput ℚ 40)) = (0, some out) ∧
      out.d_numCP = 4 ∧ out.d_freqClassic = 125 := by
  have hE : edgesOf (sampleInput ℚ 40) squareWave = [4, 12, 20, 28, 36] := by decide
  have h := calcFreqAnalog_classic_frequency (fun x => x) (sampleInput ℚ 40) squareWave
    (sampleInput_valid ℚ 40 (by decide)) (sampleInput_guard ℚ 40) (by decide)
    (by rw [hE]; decide) (by rw [hE]; decide) 4 36 (by rw [hE]; rfl) (by rw [hE]; rfl)
  rw [hE] at h
  refine ⟨hE, h.1, ?_⟩
  obtain ⟨out, h1, h2, h3⟩ := h.2
  refine ⟨out, h1, h2, ?_⟩
  rw [h3]
  norm_num [sampleInput]

/-- A return code 0 comes from the evaluation part with two or more stored edges. -/
theorem calcFreqAnalog_zero_inv {F : Type} [LinearOrderedField F] (sqrtf : F → F)
    (s : sADCData F) (pb : Nat → Nat) (hdata : s.data = some pb)
    (hret : (calcFreqAnalog sqrtf (some s)).1 = 0) :
    Valid s pb ∧ PassesGuard s ∧
      ¬ (segmentation pb s.d_len s.d_mean s.d_max s.d_min).sideChanges ≤ 1 := by
  by_cases hf : s.d_sFreq = 0
  · simp [calcFreqAnalog, hdata, hf] at hret
  by_cases hl : s.d_len = 0
  · simp [calcFreqAnalog, hdata, hf, hl] at hret
  by_cases ht : s.d_deltaTime ≤ FLT_MIN
  · simp [calcFreqAnalog, hdata, hf, hl, ht] at hret
  have hv : Valid s pb := ⟨hdata, hf, hl, ht⟩
  by_cases hg : PassesGuard s
  · refine ⟨hv, hg, ?_⟩
    rw [calcFreqAnalog_of_valid sqrtf s pb hv hg, evaluate_fst] at hret
    intro hle
    simp [hle] at hret
  · rw [calcFreqAnalog_of_constant sqrtf s pb hv hg] at hret
    simp at hret

/-- The stored edge positions: as many as `sideChanges`, strictly increasing,
all below `d_len`. -/
theorem storedEdges_facts {F : Type} (s : sADCData F) (pb : Nat → Nat) :
    (storedEdges s pb).length = (segmentation pb s.d_len s.d_mean s.d_max s.d_min).sideChanges ∧
    (storedEdges s pb).Pairwise (· < ·) ∧
    (∀ e ∈ storedEdges s pb, e < s.d_len) ∧
    (storedEdges s pb).length ≤ 199 := by
  obtain ⟨hpos, hsc, -, -⟩ := segmentation_spec s pb
  unfold storedEdges
  rw [hpos, hsc]
  refine ⟨by simp [List.length_take, Nat.min_comm], ?_, ?_, ?_⟩
  · exact (edgesOf_sorted s pb).sublist (List.take_sublist _ _)
  · intro e he
    exact (edgesOf_lt_len s pb e (List.mem_of_mem_take he)).2
  · simp [List.length_take]

/-- The evaluation part on a loop state with two or more stored edges, with
the loops of lines 199-202 and 217-220 written as sums over the spacings. -/
theorem evaluate_success {F : Type} [LinearOrderedField F] (sqrtf : F → F)
    (s : sADCData F) (st : LoopState) (h2 : 2 ≤ st.pos.length)
    (hlen : st.pos.length = st.sideChanges) (hcap : st.pos.length ≤ 199)
    (hs : st.pos.Pairwise (· < ·)) (hb : ∀ e ∈ st.pos, e < 4294967296) :
    evaluate sqrtf s st = (0, some { s with
      d_numPeriodes := st.pos.length - 1
      d_periode :=
        ((∑ i ∈ Finset.range (st.pos.length - 1), spacing st.pos i : Int) : F)
          * s.d_deltaTime / ((st.pos.length - 1 : Nat) : F)
      d_freqClassic :=
        (((st.allPeriods : Int) - 1 : Int) : F)
          / ((subU32 st.lastPos (st.pos.getD 0 0) : Nat) : F) / s.d_deltaTime
      d_numCP := toU16 ((st.allPeriods : Int) - 1)
      d_quality :=
        if 3 ≤ st.pos.length then
          sqrtf ((∑ i ∈ Finset.range (st.pos.length - 1),
              ((spacing st.pos i : F) * s.d_deltaTime
                - ((∑ i ∈ Finset.range (st.pos.length - 1), spacing st.pos i : Int) : F)
                    * s.d_deltaTime / ((st.pos.length - 1 : Nat) : F)) ^ 2)
            / ((st.pos.length - 2 : Nat) : F))
        else 0 }) := by
  have hsc : ¬ st.sideChanges ≤ 1 := by omega
  have hsum := periodSum_eq st.pos hs hb (by omega)
  have hmono : st.pos.getD 0 0 < st.pos.getD (st.pos.length - 1) 0 :=
    getD_lt_of_sorted _ hs 0 _ (by omega) (by omega)
  have hper : ((periodSum st.pos st.sideChanges : Nat) : F) * s.d_deltaTime
        / (((st.sideChanges : Int) - 1 : Int) : F)
      = ((∑ i ∈ Finset.range (st.pos.length - 1), spacing st.pos i : Int) : F)
          * s.d_deltaTime / ((st.pos.length - 1 : Nat) : F) := by
    rw [← hlen, sum_spacings, hsum, Nat.cast_sub (le_of_lt hmono),
      Nat.cast_sub (by omega : 1 ≤ st.pos.length)]
    push_cast
    rfl
  have hnum : toU16 ((st.sideChanges : Int) - 1) = st.pos.length - 1 := by
    rw [← hlen]
    exact toU16_pred _ (by omega) (by omega)
  unfold evaluate
  simp only [hsc, if_false, hper, hnum]
  by_cases h3 : 3 ≤ st.pos.length
  · have h3b : st.sideChanges ≥ 3 := by omega
    have hdev := devSum_eq st.pos hs hb s.d_deltaTime
      (((∑ i ∈ Finset.range (st.pos.length - 1), spacing st.pos i : Int) : F)
          * s.d_deltaTime / ((st.pos.length - 1 : Nat) : F)) (st.pos.length - 1) (by omega)
    have hden : (((st.sideChanges : Int) - 2 : Int) : F) = ((st.pos.length - 2 : Nat) : F) := by
      rw [← hlen, Nat.cast_sub (by omega : 2 ≤ st.pos.length)]
      push_cast
      rfl
    simp only [h3, h3b, if_true, hden]
    unfold devSum
    rw [← hlen, hdev]
  · have h3b : ¬ st.sideChanges ≥ 3 := by omega
    simp only [h3, h3b, if_false]

/-- The result of a call that returns 0, in terms of the stored edges. -/
theorem calcFreqAnalog_success {F : Type} [LinearOrderedField F] (sqrtf : F → F)
    (s : sADCData F) (pb : Nat → Nat) (hdata : s.data = some pb)
    (hlen32 : s.d_len < 4294967296)
    (hret : (calcFreqAnalog sqrtf (some s)).1 = 0) :
    2 ≤ (storedEdges s pb).length ∧
    calcFreqAnalog sqrtf (some s)
      = evaluate sqrtf s (segmentation pb s.d_len s.d_mean s.d_max s.d_min) ∧
    evaluate sqrtf s (segmentation pb s.d_len s.d_mean s.d_max s.d_min)
      = (0, some { s with
      d_numPeriodes := (storedEdges s pb).length - 1
      d_periode :=
        ((∑ i ∈ Finset.range ((storedEdges s pb).length - 1),
            spacing (storedEdges s pb) i : Int) : F)
          * s.d_deltaTime / (((storedEdges s pb).length - 1 : Nat) : F)
      d_freqClassic :=
        ((((segmentation pb s.d_len s.d_mean s.d_max s.d_min).allPeriods : Int) - 1 : Int) : F)
          / ((subU32 (segmentation pb s.d_len s.d_mean s.d_max s.d_min).lastPos
                ((storedEdges s pb).getD 0 0) : Nat) : F) / s.d_deltaTime
      d_numCP := toU16 (((segmentation pb s.d_len s.d_mean s.d_max s.d_min).allPeriods : Int) - 1)
      d_quality :=
        if 3 ≤ (storedEdges s pb).length then
          sqrtf ((∑ i ∈ Finset.range ((storedEdges s pb).length - 1),
              ((spacing (storedEdges s pb) i : F) * s.d_deltaTime
                - ((∑ i ∈ Finset.range ((storedEdges s pb).length - 1),
                      spacing (storedEdges s pb) i : Int) : F)
                    * s.d_deltaTime / (((storedEdges s pb).length - 1 : Nat) : F)) ^ 2)
            / (((storedEdges s pb).length - 2 : Nat) : F))
        else 0 }) := by
  obtain ⟨hv, hg, hsc⟩ := calcFreqAnalog_zero_inv sqrtf s pb hdata hret
  obtain ⟨hlen, hsorted, hbound, hcap⟩ := storedEdges_facts s pb
  have hn : 2 ≤ (storedEdges s pb).length := by rw [hlen]; omega
  have hb32 : ∀ e ∈ storedEdges s pb, e < 4294967296 := fun e he =>
    lt_trans (hbound e he) hlen32
  exact ⟨hn, calcFreqAnalog_of_valid sqrtf s pb hv hg,
    evaluate_success sqrtf s _ hn hlen hcap hsorted hb32⟩

/-- C2. Whenever `calcFreqAnalog` returns 0, with `n` stored edge positions
`pos[0..n-1]`: `n ≥ 2`, `d_numPeriodes = n - 1`, `d_periode` is the sum of the
consecutive stored spacings times `d_deltaTime` divided by `n - 1`, and the
integer sum of the spacings is `pos[n-1] - pos[0]`. -/
theorem calcFreqAnalog_mean_period {F : Type} [LinearOrderedField F] (sqrtf : F → F)
    (s : sADCData F) (pb : Nat → Nat) (hdata : s.data = some pb)
    (hlen32 : s.d_len < 4294967296)
    (hret : (calcFreqAnalog sqrtf (some s)).1 = 0) :
    2 ≤ (storedEdges s pb).length ∧
    (∑ i ∈ Finset.range ((storedEdges s pb).length - 1), spacing (storedEdges s pb) i)
      = (((storedEdges s pb).getD ((storedEdges s pb).length - 1) 0 : Int)
          - ((storedEdges s pb).getD 0 0 : Int)) ∧
    ∃ out, (calcFreqAnalog sqrtf (some s)).2 = some out ∧
      out.d_numPeriodes = (storedEdges s pb).length - 1 ∧
      out.d_periode
        = ((∑ i ∈ Finset.range ((storedEdges s pb).length - 1),
              spacing (storedEdges s pb) i : Int) : F)
            * s.d_deltaTime / (((storedEdges s pb).length - 1 : Nat) : F) := by
  obtain ⟨hn, hcall, heval⟩ := calcFreqAnalog_success sqrtf s pb hdata hlen32 hret
  refine ⟨hn, sum_spacings _ _, ?_⟩
  rw [hcall, heval]
  exact ⟨_, rfl, rfl, rfl⟩

theorem sampleInput_returns_zero (F : Type) [LinearOrderedField F] (sqrtf : F → F) :
    (calcFreqAnalog sqrtf (some (sampleInput F 40))).1 = 0 := by
  rw [calcFreqAnalog_of_valid sqrtf _ squareWave (sampleInput_valid F 40 (by decide))
    (sampleInput_guard F 40), evaluate_fst]
  have h : ¬ (segmentation squareWave 40 50 100 0).sideChanges ≤ 1 := by decide
  exact if_neg h

/-- Witness for C2: the square wave on 40 samples, stored edges 4, 12, 20, 28, 36. -/
theorem calcFreqAnalog_mean_period_witness :
    storedEdges (sampleInput ℚ 40) squareWave = [4, 12, 20, 28, 36] ∧
    ∃ out, (calcFreqAnalog (fun x => x) (some (sampleInput ℚ 40))).2 = some out ∧
      out.d_numPeriodes = 4 ∧ out.d_periode = 1 / 125 := by
  have hS : storedEdges (sampleInput ℚ 40) squareWave = [4, 12, 20, 28, 36] := by decide
  have h := calcFreqAnalog_mean_period (fun x => x) (sampleInput ℚ 40) squareWave rfl
    (by decide) (sampleInput_returns_zero ℚ _)
  rw [hS] at h
  obtain ⟨out, h1, h2, h3⟩ := h.2.2
  refine ⟨hS, out, h1, h2, ?_⟩
  rw [h3]
  norm_num [sampleInput, Finset.sum_range_succ, spacing]

/-- C3. Whenever `calcFreqAnalog` returns 0 with `n ≥ 3` stored edges, with a
`sqrtf` that is the exact non-negative square root: `d_quality ≥ 0`, its
square is the sum of the squared deviations of the `n - 1` stored period
lengths from `d_periode` divided by `n - 2`, and `d_quality = 0` when all
stored spacings are equal. -/
theorem calcFreqAnalog_quality {F : Type} [LinearOrderedField F] (sqrtf : F → F)
    (hsqrt : ∀ x : F, 0 ≤ x → 0 ≤ sqrtf x ∧ sqrtf x * sqrtf x = x)
    (s : sADCData F) (pb : Nat → Nat) (hdata : s.data = some pb)
    (hlen32 : s.d_len < 4294967296)
    (hret : (calcFreqAnalog sqrtf (some s)).1 = 0)
    (h3 : 3 ≤ (storedEdges s pb).length) :
    ∃ out, (calcFreqAnalog sqrtf (some s)).2 = some out ∧
      0 ≤ out.d_quality ∧
      out.d_quality ^ 2
        = (∑ i ∈ Finset.range ((storedEdges s pb).length - 1),
            ((spacing (storedEdges s pb) i : F) * s.d_deltaTime - out.d_periode) ^ 2)
          / (((storedEdges s pb).length - 2 : Nat) : F) ∧
      ((∀ i, i < (storedEdges s pb).length - 1 →
          spacing (storedEdges s pb) i = spacing (storedEdges s pb) 0) →
        out.d_quality = 0) := by
  obtain ⟨hn, hcall, heval⟩ := calcFreqAnalog_success sqrtf s pb hdata hlen32 hret
  rw [hcall, heval]
  refine ⟨_, rfl, ?_⟩
  simp only [h3, if_true]
  have hV : (0 : F) ≤ (∑ i ∈ Finset.range ((storedEdges s pb).length - 1),
        ((spacing (storedEdges s pb) i : F) * s.d_deltaTime
          - ((∑ i ∈ Finset.range ((storedEdges s pb).length - 1),
                spacing (storedEdges s pb) i : Int) : F)
              * s.d_deltaTime / (((storedEdges s pb).length - 1 : Nat) : F)) ^ 2)
      / (((storedEdges s pb).length - 2 : Nat) : F) :=
    div_nonneg (Finset.sum_nonneg (fun i _ => sq_nonneg _)) (Nat.cast_nonneg _)
  obtain ⟨hq0, hqq⟩ := hsqrt _ hV
  refine ⟨hq0, by rw [pow_two, hqq], ?_⟩
  intro hall
  have hsum : (∑ i ∈ Finset.range ((storedEdges s pb).length - 1), spacing (storedEdges s pb) i)
      = (((storedEdges s pb).length - 1 : Nat) : Int) * spacing (storedEdges s pb) 0 := by
    rw [Finset.sum_congr rfl (fun i hi => hall i (Finset.mem_range.1 hi))]
    simp
  have hne : (((storedEdges s pb).length - 1 : Nat) : F) ≠ 0 := by
    have : 0 < (storedEdges s pb).length - 1 := by omega
    exact_mod_cast Nat.ne_of_gt this
  have hzero : (∑ i ∈ Finset.range ((storedEdges s pb).length - 1),
        ((spacing (storedEdges s pb) i : F) * s.d_deltaTime
          - ((∑ i ∈ Finset.range ((storedEdges s pb).length - 1),
                spacing (storedEdges s pb) i : Int) : F)
              * s.d_deltaTime / (((storedEdges s pb).length - 1 : Nat) : F)) ^ 2) = 0 := by
    apply Finset.sum_eq_zero
    intro i hi
    rw [hsum, hall i (Finset.mem_range.1 hi), Int.cast_mul, Int.cast_natCast,
      mul_assoc, mul_div_cancel_left₀ _ hne, sub_self]
    exact zero_pow (by decide)
  rw [hzero, zero_div] at hqq ⊢
  exact mul_self_eq_zero.1 hqq

/-- Witness for C3: over the reals with `Real.sqrt`, the square wave on 40
samples has five stored edges with equal spacings and quality 0. -/
theorem calcFreqAnalog_quality_witness :
    storedEdges (sampleInput ℝ 40) squareWave = [4, 12, 20, 28, 36] ∧
    ∃ out, (calcFreqAnalog Real.sqrt (some (sampleInput ℝ 40))).2 = some out ∧
      0 ≤ out.d_quality ∧ out.d_quality = 0 := by
  have hS : storedEdges (sampleInput ℝ 40) squareWave = [4, 12, 20, 28, 36] := by decide
  obtain ⟨out, h1, h2, -, h4⟩ := calcFreqAnalog_quality Real.sqrt
    (fun x hx => ⟨Real.sqrt_nonneg x, Real.mul_self_sqrt hx⟩)
    (sampleInput ℝ 40) squareWave rfl (by decide) (sampleInput_returns_zero ℝ _) (by decide)
  refine ⟨hS, out, h1, h2, h4 ?_⟩
  rw [hS]
  decide

/-- C4. For every valid input on which exactly two rising edges `p0`, `p1` are
detected: `p0 < p1`, `calcFreqAnalog` returns 0, `d_periode = (p1 - p0) *
d_deltaTime`, `d_numPeriodes = 1` and `d_quality = 0`. -/
theorem calcFreqAnalog_two_edges {F : Type} [LinearOrderedField F] (sqrtf : F → F)
    (s : sADCData F) (pb : Nat → Nat) (hv : Valid s pb) (hg : PassesGuard s)
    (hlen32 : s.d_len < 4294967296) (p0 p1 : Nat) (hE : edgesOf s pb = [p0, p1]) :
    p0 < p1 ∧
    ∃ out, calcFreqAnalog sqrtf (some s) = (0, some out) ∧
      out.d_periode = ((p1 - p0 : Nat) : F) * s.d_deltaTime ∧
      out.d_numPeriodes = 1 ∧ out.d_quality = 0 := by
  have hsorted := edgesOf_sorted s pb
  rw [hE] at hsorted
  have hlt : p0 < p1 := by simpa using hsorted
  obtain ⟨hlen, hst, hbound, hcap⟩ := storedEdges_facts s pb
  have hS : storedEdges s pb = [p0, p1] := by
    unfold storedEdges
    rw [(segmentation_spec s pb).1, hE]
    rfl
  have hb32 : ∀ e ∈ storedEdges s pb, e < 4294967296 := fun e he =>
    lt_trans (hbound e he) hlen32
  have heval := evaluate_success sqrtf s (segmentation pb s.d_len s.d_mean s.d_max s.d_min)
    (by rw [show (segmentation pb s.d_len s.d_mean s.d_max s.d_min).pos = [p0, p1] from hS]
        exact le_refl 2) hlen hcap hst hb32
  rw [show (segmentation pb s.d_len s.d_mean s.d_max s.d_min).pos = [p0, p1] from hS] at heval
  refine ⟨hlt, ?_⟩
  rw [calcFreqAnalog_of_valid sqrtf s pb hv hg, heval]
  refine ⟨_, rfl, ?_, rfl, ?_⟩
  · simp only [List.length_cons, List.length_nil, Finset.sum_range_one, spacing,
      List.getD_cons_succ, List.getD_cons_zero]
    rw [Nat.cast_sub (le_of_lt hlt)]
    push_cast
    simp
  · simp

/-- Witness for C4: the square wave on 16 samples has the two edges 4 and 12. -/
theorem calcFreqAnalog_two_edges_witness :
    (4 : Nat) < 12 ∧
    ∃ out, calcFreqAnalog (fun x => x) (some (sampleInput ℚ 16)) = (0, some out) ∧
      out.d_periode = ((12 - 4 : Nat) : ℚ) * (sampleInput ℚ 16).d_deltaTime ∧
      out.d_numPeriodes = 1 ∧ out.d_quality = 0 :=
  calcFreqAnalog_two_edges (fun x => x) (sampleInput ℚ 16) squareWave
    (sampleInput_valid ℚ 16 (by decide)) (sampleInput_guard ℚ 16) (by decide) 4 12 (by decide)

/-- C5. For every input that passes validation and the constant-signal guard,
`calcFreqAnalog` returns -2 if and only if fewer than 2 rising edges were
detected; in that case `d_freqClassic = 0` and `d_quality = d_periode =
FLT_MAX`; with 2 or more edges it returns 0. -/
theorem calcFreqAnalog_insufficient_edges {F : Type} [LinearOrderedField F] (sqrtf : F → F)
    (s : sADCData F) (pb : Nat → Nat) (hv : Valid s pb) (hg : PassesGuard s) :
    ((calcFreqAnalog sqrtf (some s)).1 = -2 ↔ (edgesOf s pb).length < 2) ∧
    ((edgesOf s pb).length < 2 →
      ∃ out, calcFreqAnalog sqrtf (some s) = (-2, some out) ∧
        out.d_freqClassic = 0 ∧ out.d_quality = FLT_MAX ∧ out.d_periode = FLT_MAX) ∧
    (2 ≤ (edgesOf s pb).length → (calcFreqAnalog sqrtf (some s)).1 = 0) := by
  obtain ⟨-, hsc, -, -⟩ := segmentation_spec s pb
  rw [calcFreqAnalog_of_valid sqrtf s pb hv hg]
  refine ⟨?_, ?_, ?_⟩
  · rw [evaluate_fst]
    constructor
    · intro h
      by_contra hE
      have : ¬ (segmentation pb s.d_len s.d_mean s.d_max s.d_min).sideChanges ≤ 1 := by
        rw [hsc]; omega
      simp [this] at h
    · intro hE
      have : (segmentation pb s.d_len s.d_mean s.d_max s.d_min).sideChanges ≤ 1 := by
        rw [hsc]; omega
      simp [this]
  · intro hE
    have : (segmentation pb s.d_len s.d_mean s.d_max s.d_min).sideChanges ≤ 1 := by
      rw [hsc]; omega
    unfold evaluate
    simp only [this, if_true]
    exact ⟨_, rfl, rfl, rfl, rfl⟩
  · intro hE
    have : ¬ (segmentation pb s.d_len s.d_mean s.d_max s.d_min).sideChanges ≤ 1 := by
      rw [hsc]; omega
    rw [evaluate_fst]
    simp [this]

/-- Witness for C5: the square wave on 8 samples has the single edge 4. -/
theorem calcFreqAnalog_insufficient_edges_witness :
    edgesOf (sampleInput ℚ 8) squareWave = [4] ∧
    (calcFreqAnalog (fun x => x) (some (sampleInput ℚ 8))).1 = -2 ∧
    ∃ out, calcFreqAnalog (fun x => x) (some (sampleInput ℚ 8)) = (-2, some out) ∧
        out.d_freqClassic = 0 ∧ out.d_quality = FLT_MAX ∧ out.d_periode = FLT_MAX := by
  have hE : edgesOf (sampleInput ℚ 8) squareWave = [4] := by decide
  have h := calcFreqAnalog_insufficient_edges (fun x => x) (sampleInput ℚ 8) squareWave
    (sampleInput_valid ℚ 8 (by decide)) (sampleInput_guard ℚ 8)
  exact ⟨hE, h.1.2 (by rw [hE]; decide), h.2.1 (by rw [hE]; decide)⟩

/-- C6. For every input that passes validation, `calcFreqAnalog` returns -1 if
and only if the signed difference `d_max - d_min` is at most `MAXADCDIFF = 8`;
in that case it sets `d_freqClassic = 0`, `d_numCP = 0`, `d_numPeriodes = 0`,
`d_quality = d_periode = FLT_MAX`, and the outcome is the same for every
content of the sample buffer. -/
theorem calcFreqAnalog_constant_signal {F : Type} [LinearOrderedField F] (sqrtf : F → F)
    (s : sADCData F) (pb : Nat → Nat) (hv : Valid s pb) :
    MAXADCDIFF = 8 ∧
    ((calcFreqAnalog sqrtf (some s)).1 = -1 ↔ (s.d_max : Int) - (s.d_min : Int) ≤ 8) ∧
    ((s.d_max : Int) - (s.d_min : Int) ≤ 8 →
      (∃ out, calcFreqAnalog sqrtf (some s) = (-1, some out) ∧
        out.d_freqClassic = 0 ∧ out.d_numCP = 0 ∧ out.d_numPeriodes = 0 ∧
        out.d_quality = FLT_MAX ∧ out.d_periode = FLT_MAX) ∧
      ∀ pb2 : Nat → Nat,
        calcFreqAnalog sqrtf (some { s with data := some pb2 })
          = (-1, some { s with
              data := some pb2
              d_freqClassic := 0
              d_numCP := 0
              d_numPeriodes := 0
              d_quality := FLT_MAX
              d_periode := FLT_MAX })) := by
  refine ⟨rfl, ?_, ?_⟩
  · constructor
    · intro h
      by_contra hgt
      have hg : PassesGuard s := hgt
      rw [calcFreqAnalog_of_valid sqrtf s pb hv hg, evaluate_fst] at h
      split at h <;> simp at h
    · intro hle
      have hg : ¬ PassesGuard s := fun h => h hle
      rw [calcFreqAnalog_of_constant sqrtf s pb hv hg]
  · intro hle
    have hg : ¬ PassesGuard s := fun h => h hle
    refine ⟨?_, ?_⟩
    · rw [calcFreqAnalog_of_constant sqrtf s pb hv hg]
      exact ⟨_, rfl, rfl, rfl, rfl, rfl, rfl⟩
    · intro pb2
      have hv2 : Valid { s with data := some pb2 } pb2 := ⟨rfl, hv.2.1, hv.2.2.1, hv.2.2.2⟩
      have hg2 : ¬ PassesGuard { s with data := some pb2 } := fun h => h hle
      rw [calcFreqAnalog_of_constant sqrtf _ pb2 hv2 hg2]

theorem flatInput_valid (F : Type) [LinearOrderedField F] (mean mx mn : Nat) :
    Valid { flatInput F with d_mean := mean, d_max := mx, d_min := mn } (fun _ => 7) := by
  refine ⟨rfl, by simp [flatInput], by simp [flatInput], ?_⟩
  simp only [flatInput, FLT_MIN, not_le]
  exact one_div_lt_one_div_of_lt (by norm_num) (by norm_num)

/-- Witness for C6: statistics 7, 7, 7 on the flat buffer. -/
theorem calcFreqAnalog_constant_signal_witness :
    (calcFreqAnalog (fun x => x)
        (some { flatInput ℚ with d_mean := 7, d_max := 7, d_min := 7 })).1 = -1 ∧
    ∃ out, calcFreqAnalog (fun x => x)
        (some { flatInput ℚ with d_mean := 7, d_max := 7, d_min := 7 }) = (-1, some out) ∧
        out.d_freqClassic = 0 ∧ out.d_numCP = 0 ∧ out.d_numPeriodes = 0 ∧
        out.d_quality = FLT_MAX ∧ out.d_periode = FLT_MAX := by
  have h := calcFreqAnalog_constant_signal (fun x => x)
    { flatInput ℚ with d_mean := 7, d_max := 7, d_min := 7 } (fun _ => 7)
    (flatInput_valid ℚ 7 7 7)
  exact ⟨h.2.1.2 (by decide), (h.2.2 (by decide)).1⟩

/-- On a run of samples all equal to `c`, the loop of `peak_mean` keeps a
maximum and a minimum that are both `c`. -/
theorem peakLoop_const (pb : Nat → Nat) (c : Nat) :
    ∀ (n i : Nat) (st : PeakState), (∀ j, i ≤ j → j < i + n → pb j = c) →
      st.max_value = c → st.min_value = c →
      (peakLoop pb n i st).max_value = c ∧ (peakLoop pb n i st).min_value = c := by
  intro n
  induction n with
  | zero => intro i st _ h1 h2; exact ⟨h1, h2⟩
  | succ n ih =>
    intro i st hc h1 h2
    have hi : pb i = c := hc i le_rfl (by omega)
    apply ih (i + 1) (peakStep pb st i) (fun j hj1 hj2 => hc j (by omega) (by omega))
    · simp [peakStep, hi, h1]
    · simp [peakStep, hi, h1, h2]

/-- C7. For every non-empty buffer whose samples are all equal, with non-zero
sample rate and a sample interval above `FLT_MIN`: `peak_mean` returns
statistics, and `calcFreqAnalog` on the structure holding them in `d_max`,
`d_min`, `d_mean` returns -1 with `d_freqClassic = 0`. -/
theorem calcFreqAnalog_constant_buffer {F : Type} [LinearOrderedField F] (sqrtf : F → F)
    (s : sADCData F) (pb : Nat → Nat) (c : Nat) (hdata : s.data = some pb)
    (hlen : s.d_len ≠ 0) (hfreq : s.d_sFreq ≠ 0) (hdt : ¬ s.d_deltaTime ≤ FLT_MIN)
    (hconst : ∀ i, i < s.d_len → pb i = c) :
    ∃ mx mn mean out, peak_mean s = some (mx, mn, mean) ∧
      calcFreqAnalog sqrtf (some { s with d_max := mx, d_min := mn, d_mean := mean })
        = (-1, some out) ∧
      out.d_freqClassic = 0 := by
  have h0 : pb 0 = c := hconst 0 (by omega)
  obtain ⟨hmax, hmin⟩ := peakLoop_const pb c (s.d_len - 1) 1
    { max_value := pb 0, min_value := pb 0, mean := pb 0 }
    (fun j _ hj2 => hconst j (by omega)) h0 h0
  have hpm : peak_mean s = some (c, c,
      ((peakLoop pb (s.d_len - 1) 1
        { max_value := pb 0, min_value := pb 0, mean := pb 0 }).mean / s.d_len) % 65536) := by
    simp only [peak_mean, hdata, hlen, if_false, hmax, hmin]
  have hcall := calcFreqAnalog_of_constant sqrtf
    { s with
      d_max := c
      d_min := c
      d_mean := ((peakLoop pb (s.d_len - 1) 1
        { max_value := pb 0, min_value := pb 0, mean := pb 0 }).mean / s.d_len) % 65536 }
    pb ⟨hdata, hfreq, hlen, hdt⟩
    (fun hg => hg (by show (c : Int) - (c : Int) ≤ (MAXADCDIFF : Int); simp))
  exact ⟨c, c, _, _, hpm, hcall, rfl⟩

/-- Witness for C7: the flat buffer of 16 samples of value 7. -/
theorem calcFreqAnalog_constant_buffer_witness :
    ∃ mx mn mean out, peak_mean (flatInput ℚ) = some (mx, mn, mean) ∧
      calcFreqAnalog (fun x => x)
          (some { flatInput ℚ with d_max := mx, d_min := mn, d_mean := mean })
        = (-1, some out) ∧
      out.d_freqClassic = 0 :=
  calcFreqAnalog_constant_buffer (fun x => x) (flatInput ℚ) (fun _ => 7) 7 rfl
    (by decide) (by decide) (flatInput_valid ℚ 0 0 0).2.2.2 (fun _ _ => rfl)

/-- C8. `calcFreqAnalog` checks in the order: null structure (-3), null data
pointer (-4), zero sample rate (-5), zero sample count (-7), sample interval
at most `FLT_MIN` (-6), and returns the code of the first check that fails;
an input that passes them returns -1, -2 or 0; the eight codes are pairwise
distinct and every failure code is negative. -/
theorem calcFreqAnalog_validation_order {F : Type} [LinearOrderedField F] (sqrtf : F → F) :
    calcFreqAnalog sqrtf none = (-3, none) ∧
    (∀ s : sADCData F, s.data = none → calcFreqAnalog sqrtf (some s) = (-4, some s)) ∧
    (∀ (s : sADCData F) (pb : Nat → Nat), s.data = some pb → s.d_sFreq = 0 →
      calcFreqAnalog sqrtf (some s) = (-5, some s)) ∧
    (∀ (s : sADCData F) (pb : Nat → Nat), s.data = some pb → s.d_sFreq ≠ 0 → s.d_len = 0 →
      calcFreqAnalog sqrtf (some s) = (-7, some s)) ∧
    (∀ (s : sADCData F) (pb : Nat → Nat), s.data = some pb → s.d_sFreq ≠ 0 → s.d_len ≠ 0 →
      s.d_deltaTime ≤ FLT_MIN → calcFreqAnalog sqrtf (some s) = (-6, some s)) ∧
    (∀ (s : sADCData F) (pb : Nat → Nat), s.data = some pb → s.d_sFreq ≠ 0 → s.d_len ≠ 0 →
      ¬ s.d_deltaTime ≤ FLT_MIN →
      (calcFreqAnalog sqrtf (some s)).1 = -1 ∨ (calcFreqAnalog sqrtf (some s)).1 = -2 ∨
        (calcFreqAnalog sqrtf (some s)).1 = 0) ∧
    [(-3 : Int), -4, -5, -7, -6, -1, -2, 0].Nodup ∧
    ∀ c ∈ [(-3 : Int), -4, -5, -7, -6, -1, -2], c < 0 := by
  refine ⟨rfl, ?_, ?_, ?_, ?_, ?_, by decide, by decide⟩
  · intro s hd
    simp only [calcFreqAnalog, hd]
  · intro s pb hd hf
    simp only [calcFreqAnalog, hd, hf, if_true]
  · intro s pb hd hf hl
    simp only [calcFreqAnalog, hd, hf, hl, if_true, if_false]
  · intro s pb hd hf hl ht
    simp only [calcFreqAnalog, hd, hf, hl, ht, if_true, if_false]
  · intro s pb hd hf hl ht
    by_cases hg : PassesGuard s
    · rw [calcFreqAnalog_of_valid sqrtf s pb ⟨hd, hf, hl, ht⟩ hg, evaluate_fst]
      split
      · exact Or.inr (Or.inl rfl)
      · exact Or.inr (Or.inr rfl)
    · rw [calcFreqAnalog_of_constant sqrtf s pb ⟨hd, hf, hl, ht⟩ hg]
      exact Or.inl rfl

/-- Witness for C8: a structure with a buffer, zero sample rate, zero length
and zero sample interval fails the sample-rate check first. -/
theorem calcFreqAnalog_validation_order_witness :
    calcFreqAnalog (fun x => x)
        (some { flatInput ℚ with d_sFreq := 0, d_len := 0, d_deltaTime := 0 })
      = (-5, some { flatInput ℚ with d_sFreq := 0, d_len := 0, d_deltaTime := 0 }) :=
  (calcFreqAnalog_validation_order (fun x => x)).2.2.1
    { flatInput ℚ with d_sFreq := 0, d_len := 0, d_deltaTime := 0 } (fun _ => 7) rfl rfl

/-- The evaluation part leaves the buffer and the input fields as they are and
returns -2 or 0. -/
theorem evaluate_frame {F : Type} [LinearOrderedField F] (sqrtf : F → F)
    (s : sADCData F) (st : LoopState) :
    ∃ out, (evaluate sqrtf s st).2 = some out ∧ SameInputs s out ∧
      ((evaluate sqrtf s st).1 = -2 ∨ (evaluate sqrtf s st).1 = 0) := by
  unfold evaluate
  split
  · exact ⟨_, rfl, ⟨rfl, rfl, rfl, rfl, rfl, rfl, rfl⟩, Or.inl rfl⟩
  · exact ⟨_, rfl, ⟨rfl, rfl, rfl, rfl, rfl, rfl, rfl⟩, Or.inr rfl⟩

/-- The evaluation part does not read the result fields of the structure. -/
theorem evaluate_congr {F : Type} [LinearOrderedField F] (sqrtf : F → F)
    (s t : sADCData F) (st : LoopState) (h : SameInputs s t) :
    evaluate sqrtf t st = evaluate sqrtf s st := by
  obtain ⟨h1, h2, h3, h4, h5, h6, h7⟩ := h
  unfold evaluate
  simp only [h1, h2, h3, h4, h5, h6, h7]

/-- A call that passes validation does not read the result fields. -/
theorem calcFreqAnalog_congr {F : Type} [LinearOrderedField F] (sqrtf : F → F)
    (s t : sADCData F) (pb : Nat → Nat) (hv : Valid s pb) (h : SameInputs s t) :
    calcFreqAnalog sqrtf (some t) = calcFreqAnalog sqrtf (some s) := by
  have hvt : Valid t pb := by
    obtain ⟨h1, h2, h3, h4, -, -, -⟩ := h
    exact ⟨h1.trans hv.1, h3 ▸ hv.2.1, h2 ▸ hv.2.2.1, h4 ▸ hv.2.2.2⟩
  by_cases hg : PassesGuard s
  · have hgt : PassesGuard t := by
      unfold PassesGuard at hg ⊢
      rw [h.2.2.2.2.2.1, h.2.2.2.2.2.2]
      exact hg
    rw [calcFreqAnalog_of_valid sqrtf s pb hv hg, calcFreqAnalog_of_valid sqrtf t pb hvt hgt,
      h.2.1, h.2.2.2.2.1, h.2.2.2.2.2.1, h.2.2.2.2.2.2]
    exact evaluate_congr sqrtf s t _ h
  · have hgt : ¬ PassesGuard t := by
      unfold PassesGuard at hg ⊢
      rw [h.2.2.2.2.2.1, h.2.2.2.2.2.2]
      exact hg
    rw [calcFreqAnalog_of_constant sqrtf s pb hv hg, calcFreqAnalog_of_constant sqrtf t pb hvt hgt]
    obtain ⟨h1, h2, h3, h4, h5, h6, h7⟩ := h
    simp only [h1, h2, h3, h4, h5, h6, h7]

/-- A call that passes validation returns -1, -2 or 0 and a structure with the
same buffer and input fields. -/
theorem calcFreqAnalog_valid_frame {F : Type} [LinearOrderedField F] (sqrtf : F → F)
    (s : sADCData F) (pb : Nat → Nat) (hv : Valid s pb) :
    ∃ out, (calcFreqAnalog sqrtf (some s)).2 = some out ∧ SameInputs s out ∧
      (calcFreqAnalog sqrtf (some s)).1 ∈ [(-1 : Int), -2, 0] := by
  by_cases hg : PassesGuard s
  · rw [calcFreqAnalog_of_valid sqrtf s pb hv hg]
    obtain ⟨out, h1, h2, h3⟩ := evaluate_frame sqrtf s
      (segmentation pb s.d_len s.d_mean s.d_max s.d_min)
    refine ⟨out, h1, h2, ?_⟩
    rcases h3 with h3 | h3 <;> simp [h3]
  · rw [calcFreqAnalog_of_constant sqrtf s pb hv hg]
    exact ⟨_, rfl, ⟨rfl, rfl, rfl, rfl, rfl, rfl, rfl⟩, by simp⟩

/-- A call either fails validation and returns the structure as it was, or
passes it. -/
theorem calcFreqAnalog_invalid_or_valid {F : Type} [LinearOrderedField F] (sqrtf : F → F)
    (s : sADCData F) :
    ((calcFreqAnalog sqrtf (some s)).1 ∈ [(-3 : Int), -4, -5, -7, -6] ∧
      (calcFreqAnalog sqrtf (some s)).2 = some s) ∨ ∃ pb, Valid s pb := by
  cases hd : s.data with
  | none => left; simp [calcFreqAnalog, hd]
  | some pb =>
    by_cases hf : s.d_sFreq = 0
    · left; simp [calcFreqAnalog, hd, hf]
    by_cases hl : s.d_len = 0
    · left; simp [calcFreqAnalog, hd, hf, hl]
    by_cases ht : s.d_deltaTime ≤ FLT_MIN
    · left; simp [calcFreqAnalog, hd, hf, hl, ht]
    · exact Or.inr ⟨pb, hd, hf, hl, ht⟩

/-- C9. A call of `calcFreqAnalog` that fails input validation (-3, -4, -5,
-7, -6) leaves the structure as it was. Every other call returns -1, -2 or 0,
leaves the buffer and the input fields `d_len`, `d_sFreq`, `d_deltaTime`,
`d_mean`, `d_max`, `d_min` unchanged, and writes all five result fields: the
result is the same for every previous content of the result fields. -/
theorem calcFreqAnalog_frame {F : Type} [LinearOrderedField F] (sqrtf : F → F)
    (sAD : Option (sADCData F)) :
    ((calcFreqAnalog sqrtf sAD).1 ∈ [(-3 : Int), -4, -5, -7, -6] ∧
      (calcFreqAnalog sqrtf sAD).2 = sAD) ∨
    ((calcFreqAnalog sqrtf sAD).1 ∈ [(-1 : Int), -2, 0] ∧
      ∃ s out, sAD = some s ∧ (calcFreqAnalog sqrtf sAD).2 = some out ∧
        out.data = s.data ∧ out.d_len = s.d_len ∧ out.d_sFreq = s.d_sFreq ∧
        out.d_deltaTime = s.d_deltaTime ∧ out.d_mean = s.d_mean ∧
        out.d_max = s.d_max ∧ out.d_min = s.d_min ∧
        ∀ (c1 c2 c3 : F) (n1 n2 : Nat),
          calcFreqAnalog sqrtf (some { s with
              d_freqClassic := c1
              d_numCP := n1
              d_periode := c2
              d_numPeriodes := n2
              d_quality := c3 })
            = calcFreqAnalog sqrtf sAD) := by
  cases sAD with
  | none => left; simp [calcFreqAnalog]
  | some s =>
    rcases calcFreqAnalog_invalid_or_valid sqrtf s with h | ⟨pb, hv⟩
    · exact Or.inl h
    · right
      obtain ⟨out, h1, h2, h3⟩ := calcFreqAnalog_valid_frame sqrtf s pb hv
      refine ⟨h3, s, out, rfl, h1, h2.1, h2.2.1, h2.2.2.1, h2.2.2.2.1, h2.2.2.2.2.1,
        h2.2.2.2.2.2.1, h2.2.2.2.2.2.2, ?_⟩
      intro c1 c2 c3 n1 n2
      exact calcFreqAnalog_congr sqrtf s _ pb hv ⟨rfl, rfl, rfl, rfl, rfl, rfl, rfl⟩

/-- C10. `calcFreqAnalog` is idempotent: a second call on the structure left
by a first call, with the buffer unmodified, gives the same return code and
the same structure contents as the first call. -/
theorem calcFreqAnalog_idempotent {F : Type} [LinearOrderedField F] (sqrtf : F → F)
    (sAD : Option (sADCData F)) :
    calcFreqAnalog sqrtf (calcFreqAnalog sqrtf sAD).2 = calcFreqAnalog sqrtf sAD := by
  cases sAD with
  | none => rfl
  | some s =>
    rcases calcFreqAnalog_invalid_or_valid sqrtf s with h | ⟨pb, hv⟩
    · rw [h.2]
    · obtain ⟨out, h1, h2, -⟩ := calcFreqAnalog_valid_frame sqrtf s pb hv
      rw [h1]
      exact calcFreqAnalog_congr sqrtf s out pb hv h2

/-! ## `peak_mean`: extremes and mean -/

/-- The loop of `peak_mean` keeps the running maximum and the running minimum
of the samples seen so far, both attained. -/
theorem peakLoop_extremes (pb : Nat → Nat) :
    ∀ (n i : Nat) (st : PeakState),
      (∀ j, j < i → pb j ≤ st.max_value) → (∃ j, j < i ∧ pb j = st.max_value) →
      (∀ j, j < i → st.min_value ≤ pb j) → (∃ j, j < i ∧ pb j = st.min_value) →
      (∀ j, j < i + n → pb j ≤ (peakLoop pb n i st).max_value) ∧
      (∃ j, j < i + n ∧ pb j = (peakLoop pb n i st).max_value) ∧
      (∀ j, j < i + n → (peakLoop pb n i st).min_value ≤ pb j) ∧
      (∃ j, j < i + n ∧ pb j = (peakLoop pb n i st).min_value) := by
  intro n
  induction n with
  | zero => intro i st h1 h2 h3 h4; exact ⟨h1, h2, h3, h4⟩
  | succ n ih =>
    intro i st h1 h2 h3 h4
    obtain ⟨a, ha, hamax⟩ := h2
    obtain ⟨b, hb, hbmin⟩ := h4
    have hmm : st.min_value ≤ st.max_value := by
      have := h1 b hb
      omega
    have key := ih (i + 1) (peakStep pb st i) ?_ ?_ ?_ ?_
    · have e : i + 1 + n = i + (n + 1) := by omega
      rw [e] at key
      exact key
    · intro j hj
      simp only [peakStep]
      rcases Nat.lt_succ_iff_lt_or_eq.1 hj with h | h
      · have := h1 j h
        split <;> omega
      · subst h
        split <;> omega
    · simp only [peakStep]
      split
      · exact ⟨i, by omega, rfl⟩
      · exact ⟨a, by omega, hamax⟩
    · intro j hj
      simp only [peakStep]
      rcases Nat.lt_succ_iff_lt_or_eq.1 hj with h | h
      · have := h3 j h
        split <;> [omega; (split <;> omega)]
      · subst h
        split <;> [omega; (split <;> omega)]
    · simp only [peakStep]
      split
      · exact ⟨b, by omega, hbmin⟩
      · split
        · exact ⟨i, by omega, rfl⟩
        · exact ⟨b, by omega, hbmin⟩

/-- The accumulator `mean` of `peak_mean` is the sum of the samples seen so
far modulo `2^32`. -/
theorem peakLoop_mean (pb : Nat → Nat) :
    ∀ (n i : Nat) (st : PeakState),
      st.mean % 4294967296 = (∑ j ∈ Finset.range i, pb j) % 4294967296 →
      (peakLoop pb n i st).mean % 4294967296
        = (∑ j ∈ Finset.range (i + n), pb j) % 4294967296 := by
  intro n
  induction n with
  | zero => intro i st h; exact h
  | succ n ih =>
    intro i st h
    have key := ih (i + 1) (peakStep pb st i) (by
      simp only [peakStep]
      rw [Finset.sum_range_succ]
      omega)
    have e : i + 1 + n = i + (n + 1) := by omega
    rw [e] at key
    exact key

/-- After one or more passes the accumulator `mean` is below `2^32`. -/
theorem peakLoop_mean_lt (pb : Nat → Nat) :
    ∀ (n i : Nat) (st : PeakState), st.mean < 4294967296 →
      (peakLoop pb n i st).mean < 4294967296 := by
  intro n
  induction n with
  | zero => intro i st h; exact h
  | succ n ih =>
    intro i st _
    exact ih (i + 1) (peakStep pb st i) (Nat.mod_lt _ (by decide))

/-- The three outputs of `peak_mean` on a non-empty buffer whose first sample
fits 32 bits: the largest sample, the smallest sample, and the wrapped sum
divided by the length, reduced to 16 bits. -/
theorem peak_mean_spec {F : Type} (s : sADCData F) (pb : Nat → Nat)
    (hdata : s.data = some pb) (hlen : s.d_len ≠ 0) (h0 : pb 0 < 4294967296) :
    ∃ mx mn, peak_mean s = some (mx, mn,
        ((∑ j ∈ Finset.range s.d_len, pb j) % 4294967296 / s.d_len) % 65536) ∧
      (∀ j, j < s.d_len → pb j ≤ mx) ∧ (∃ j, j < s.d_len ∧ pb j = mx) ∧
      (∀ j, j < s.d_len → mn ≤ pb j) ∧ (∃ j, j < s.d_len ∧ pb j = mn) := by
  have h := peakLoop_extremes pb (s.d_len - 1) 1
    { max_value := pb 0, min_value := pb 0, mean := pb 0 }
    (fun j hj => by have : j = 0 := by omega
                    subst this; exact le_rfl)
    ⟨0, by omega, rfl⟩
    (fun j hj => by have : j = 0 := by omega
                    subst this; exact le_rfl)
    ⟨0, by omega, rfl⟩
  have hm := peakLoop_mean pb (s.d_len - 1) 1
    { max_value := pb 0, min_value := pb 0, mean := pb 0 } (by simp)
  have hlt := peakLoop_mean_lt pb (s.d_len - 1) 1
    { max_value := pb 0, min_value := pb 0, mean := pb 0 } h0
  have e : 1 + (s.d_len - 1) = s.d_len := by omega
  rw [e] at h hm
  rw [Nat.mod_eq_of_lt hlt] at hm
  obtain ⟨h1, h2, h3, h4⟩ := h
  refine ⟨_, _, ?_, h1, h2, h3, h4⟩
  simp only [peak_mean, hdata, hlen, if_false, hm]

/-- C12. For every non-empty buffer, `peak_mean` returns in `max_value` the
largest and in `min_value` the smallest sample of `data[0..d_len-1]`, and both
values occur in the buffer. -/
theorem peak_mean_extremes {F : Type} (s : sADCData F) (pb : Nat → Nat)
    (hdata : s.data = some pb) (hlen : s.d_len ≠ 0) :
    ∃ mx mn mean, peak_mean s = some (mx, mn, mean) ∧
      (∀ j, j < s.d_len → pb j ≤ mx) ∧ (∃ j, j < s.d_len ∧ pb j = mx) ∧
      (∀ j, j < s.d_len → mn ≤ pb j) ∧ (∃ j, j < s.d_len ∧ pb j = mn) := by
  have h := peakLoop_extremes pb (s.d_len - 1) 1
    { max_value := pb 0, min_value := pb 0, mean := pb 0 }
    (fun j hj => by have : j = 0 := by omega
                    subst this; exact le_rfl)
    ⟨0, by omega, rfl⟩
    (fun j hj => by have : j = 0 := by omega
                    subst this; exact le_rfl)
    ⟨0, by omega, rfl⟩
  have e : 1 + (s.d_len - 1) = s.d_len := by omega
  rw [e] at h
  obtain ⟨h1, h2, h3, h4⟩ := h
  have hpm : peak_mean s = some
      ((peakLoop pb (s.d_len - 1) 1
          { max_value := pb 0, min_value := pb 0, mean := pb 0 }).max_value,
        (peakLoop pb (s.d_len - 1) 1
          { max_value := pb 0, min_value := pb 0, mean := pb 0 }).min_value,
        ((peakLoop pb (s.d_len - 1) 1
          { max_value := pb 0, min_value := pb 0, mean := pb 0 }).mean / s.d_len) % 65536) := by
    simp only [peak_mean, hdata, hlen, if_false]
  exact ⟨_, _, _, hpm, h1, h2, h3, h4⟩

/-- Witness for C12: on 12 samples of the drop wave the maximum is 100 and the
minimum is 0. -/
theorem peak_mean_extremes_witness :
    peak_mean (dropInput ℚ) = some (100, 0, 50) ∧
    ∃ mx mn mean, peak_mean (dropInput ℚ) = some (mx, mn, mean) ∧
      (∀ j, j < 12 → dropWave j ≤ mx) ∧ (∃ j, j < 12 ∧ dropWave j = mx) ∧
      (∀ j, j < 12 → mn ≤ dropWave j) ∧ (∃ j, j < 12 ∧ dropWave j = mn) :=
  ⟨rfl, peak_mean_extremes (dropInput ℚ) dropWave rfl (by decide)⟩

/-- The sum of `n` samples that are all below `2^16` is at most `n * 65535`. -/
theorem sum_le_of_u16 (pb : Nat → Nat) (n : Nat) (h : ∀ j, j < n → pb j < 65536) :
    (∑ j ∈ Finset.range n, pb j) ≤ n * 65535 := by
  induction n with
  | zero => simp
  | succ n ih =>
    rw [Finset.sum_range_succ]
    have h1 := ih (fun j hj => h j (by omega))
    have h2 := h n (by omega)
    omega

/-- C13. For every buffer of 16-bit samples with `1 ≤ d_len ≤ 65537`,
`peak_mean` returns as mean the floor of the sum of all `d_len` samples
divided by `d_len`; the sum fits the 32-bit accumulator and the mean fits 16
bits. -/
theorem peak_mean_mean {F : Type} (s : sADCData F) (pb : Nat → Nat)
    (hdata : s.data = some pb) (hlen : 1 ≤ s.d_len) (hmax : s.d_len ≤ 65537)
    (h16 : ∀ j, j < s.d_len → pb j < 65536) :
    (∑ j ∈ Finset.range s.d_len, pb j) < 4294967296 ∧
    (∑ j ∈ Finset.range s.d_len, pb j) / s.d_len < 65536 ∧
    ∃ mx mn, peak_mean s
      = some (mx, mn, (∑ j ∈ Finset.range s.d_len, pb j) / s.d_len) := by
  have hsum := sum_le_of_u16 pb s.d_len h16
  have hfit : (∑ j ∈ Finset.range s.d_len, pb j) < 4294967296 := by
    have : s.d_len * 65535 ≤ 65537 * 65535 := Nat.mul_le_mul_right _ hmax
    omega
  have hq : (∑ j ∈ Finset.range s.d_len, pb j) / s.d_len < 65536 := by
    rw [Nat.div_lt_iff_lt_mul (by omega)]
    have : s.d_len * 65535 < 65536 * s.d_len := by omega
    omega
  obtain ⟨mx, mn, hpm, -⟩ := peak_mean_spec s pb hdata (by omega)
    (lt_trans (h16 0 (by omega)) (by decide))
  rw [Nat.mod_eq_of_lt hfit, Nat.mod_eq_of_lt hq] at hpm
  exact ⟨hfit, hq, mx, mn, hpm⟩

/-- Witness for C13: the drop wave on 12 samples has sample sum 600 and mean 50. -/
theorem peak_mean_mean_witness :
    (∑ j ∈ Finset.range (dropInput ℚ).d_len, dropWave j) < 4294967296 ∧
    (∑ j ∈ Finset.range (dropInput ℚ).d_len, dropWave j) / (dropInput ℚ).d_len < 65536 ∧
    ∃ mx mn, peak_mean (dropInput ℚ)
      = some (mx, mn, (∑ j ∈ Finset.range (dropInput ℚ).d_len, dropWave j)
          / (dropInput ℚ).d_len) :=
  peak_mean_mean (dropInput ℚ) dropWave rfl (by decide) (by decide) (by decide)

/-- The sum of `n` samples that are all at most `b` is at most `n * b`. -/
theorem sum_le_of_le (pb : Nat → Nat) (n b : Nat) (h : ∀ j, j < n → pb j ≤ b) :
    (∑ j ∈ Finset.range n, pb j) ≤ n * b := by
  induction n with
  | zero => simp
  | succ n ih =>
    rw [Finset.sum_range_succ, Nat.succ_mul]
    have h1 := ih (fun j hj => h j (by omega))
    have h2 := h n (by omega)
    omega

/-- The sum of `n` samples that are all at least `b` is at least `n * b`. -/
theorem le_sum_of_le (pb : Nat → Nat) (n b : Nat) (h : ∀ j, j < n → b ≤ pb j) :
    n * b ≤ (∑ j ∈ Finset.range n, pb j) := by
  induction n with
  | zero => simp
  | succ n ih =>
    rw [Finset.sum_range_succ, Nat.succ_mul]
    have h1 := ih (fun j hj => h j (by omega))
    have h2 := h n (by omega)
    omega

/-- On a buffer whose samples all have the value `c`, `peak_mean` returns `c`
as maximum and minimum and the wrapped sum `d_len * c` divided by `d_len`. -/
theorem peak_mean_const {F : Type} (s : sADCData F) (c : Nat)
    (hdata : s.data = some (fun _ => c)) (hlen : s.d_len ≠ 0) (hc : c < 4294967296) :
    peak_mean s = some (c, c, ((s.d_len * c) % 4294967296 / s.d_len) % 65536) := by
  obtain ⟨mx, mn, h, -, ⟨a, -, ha⟩, -, ⟨b, -, hb⟩⟩ :=
    peak_mean_spec s (fun _ => c) hdata hlen hc
  rw [h, ← ha, ← hb, Finset.sum_const, Finset.card_range, smul_eq_mul]

/-- C11, counterexample. On 65538 samples of value 65535 the 32-bit
accumulator wraps around: `peak_mean` returns max 65535, min 65535 and mean 0,
so `min ≤ mean` fails. -/
theorem peak_mean_order_counterexample :
    (fullScaleInput ℚ).d_len = 65538 ∧
    (fullScaleInput ℚ).data = some (fun _ => 65535) ∧
    peak_mean (fullScaleInput ℚ) = some (65535, 65535, 0) ∧
    ¬ (∀ mx mn mean, peak_mean (fullScaleInput ℚ) = some (mx, mn, mean) →
        mn ≤ mean ∧ mean ≤ mx) := by
  have hpm : peak_mean (fullScaleInput ℚ) = some (65535, 65535, 0) := by
    have h := peak_mean_const (fullScaleInput ℚ) 65535 rfl (by decide) (by decide)
    have hd : (fullScaleInput ℚ).d_len = 65538 := rfl
    rw [hd] at h
    rw [h]
  refine ⟨rfl, rfl, hpm, ?_⟩
  intro h
  have := (h 65535 65535 0 hpm).1
  omega

/-- C11, amended. For every non-empty buffer of 16-bit samples whose sample
sum is below `2^32`, the three outputs of `peak_mean` satisfy
`min_value ≤ mean_value ≤ max_value`. -/
theorem peak_mean_order {F : Type} (s : sADCData F) (pb : Nat → Nat)
    (hdata : s.data = some pb) (hlen : 1 ≤ s.d_len)
    (h16 : ∀ j, j < s.d_len → pb j < 65536)
    (hfit : (∑ j ∈ Finset.range s.d_len, pb j) < 4294967296) :
    ∃ mx mn mean, peak_mean s = some (mx, mn, mean) ∧ mn ≤ mean ∧ mean ≤ mx := by
  obtain ⟨mx, mn, hpm, hmax, ⟨a, ha, hamax⟩, hmin, -⟩ := peak_mean_spec s pb hdata (by omega)
    (lt_trans (h16 0 (by omega)) (by decide))
  have hmx16 : mx < 65536 := by rw [← hamax]; exact h16 a ha
  have hup : (∑ j ∈ Finset.range s.d_len, pb j) / s.d_len ≤ mx :=
    Nat.div_le_of_le_mul (sum_le_of_le pb s.d_len mx hmax)
  have hlo : mn ≤ (∑ j ∈ Finset.range s.d_len, pb j) / s.d_len := by
    rw [Nat.le_div_iff_mul_le (by omega)]
    have := le_sum_of_le pb s.d_len mn hmin
    rw [Nat.mul_comm]
    exact this
  rw [Nat.mod_eq_of_lt hfit, Nat.mod_eq_of_lt (lt_of_le_of_lt hup hmx16)] at hpm
  exact ⟨mx, mn, _, hpm, hlo, hup⟩

/-- Witness for C11, amended: the drop wave on 12 samples. -/
theorem peak_mean_order_witness :
    ∃ mx mn mean, peak_mean (dropInput ℚ) = some (mx, mn, mean) ∧ mn ≤ mean ∧ mean ≤ mx :=
  peak_mean_order (dropInput ℚ) dropWave rfl (by decide) (by decide) (by decide)

/-- C14, the code at the failing input. The drop wave passes validation and
the constant-signal guard with the statistics `peak_mean` computes for it, no
rising edge is detected, and `calcFreqAnalog` returns -2 with
`d_numPeriodes = 65535`, above `MAXSIDECHANGES`. -/
theorem calcFreqAnalog_numPeriodes_underflow :
    peak_mean (dropInput ℚ) = some (100, 0, 50) ∧
    edgesOf (dropInput ℚ) dropWave = [] ∧
    ∃ out, calcFreqAnalog (fun x => x) (some (dropInput ℚ)) = (-2, some out) ∧
      out.d_numPeriodes = 65535 ∧ ¬ out.d_numPeriodes ≤ MAXSIDECHANGES := by
  have hv : Valid (dropInput ℚ) dropWave := by
    refine ⟨rfl, by decide, by decide, ?_⟩
    simp only [dropInput, FLT_MIN, not_le]
    exact one_div_lt_one_div_of_lt (by norm_num) (by norm_num)
  have hg : PassesGuard (dropInput ℚ) := by
    simp [PassesGuard, dropInput, MAXADCDIFF]
  have hst : segmentation dropWave 12 50 100 0
      = { signal_side := false, sideChanges := 0, allPeriods := 0, pos := [], lastPos := 0 } := by
    decide
  refine ⟨rfl, by decide, ?_⟩
  rw [calcFreqAnalog_of_valid _ _ dropWave hv hg]
  change ∃ out, evaluate _ _ (segmentation dropWave 12 50 100 0) = _ ∧ _
  rw [hst]
  exact ⟨_, rfl, rfl, by decide⟩

/-! ## Note mapping: the candidate loop -/

theorem TWELFTH_SQ2_gt_one {F : Type} [LinearOrderedField F] : (1 : F) < TWELFTH_SQ2 := by
  unfold TWELFTH_SQ2
  norm_num

theorem candidate_succ {F : Type} [LinearOrderedField F] (c0 : F) (i : Nat) :
    candidate c0 (i + 1) = candidate c0 i * TWELFTH_SQ2 := by
  unfold candidate
  rw [pow_succ, mul_assoc]

theorem candidate_zero {F : Type} [LinearOrderedField F] (c0 : F) : candidate c0 0 = c0 := by
  unfold candidate
  rw [pow_zero, mul_one]

theorem candidate_pos {F : Type} [LinearOrderedField F] (c0 : F) (h0 : 0 < c0) (i : Nat) :
    0 < candidate c0 i :=
  mul_pos h0 (pow_pos (lt_trans zero_lt_one TWELFTH_SQ2_gt_one) i)

/-- The candidates of a range with a positive start increase strictly. -/
theorem candidate_lt {F : Type} [LinearOrderedField F] (c0 : F) (h0 : 0 < c0)
    (a b : Nat) (hab : a < b) : candidate c0 a < candidate c0 b := by
  unfold candidate
  exact mul_lt_mul_of_pos_left (pow_lt_pow_right₀ TWELFTH_SQ2_gt_one hab) h0

theorem candidate_le {F : Type} [LinearOrderedField F] (c0 : F) (h0 : 0 < c0)
    (a b : Nat) (hab : a ≤ b) : candidate c0 a ≤ candidate c0 b := by
  rcases Nat.lt_or_eq_of_le hab with h | h
  · exact le_of_lt (candidate_lt c0 h0 a b h)
  · rw [h]

/-- From `candidate c0 a < candidate c0 b` the indices are in order. -/
theorem lt_of_candidate_lt {F : Type} [LinearOrderedField F] (c0 : F) (h0 : 0 < c0)
    (a b : Nat) (h : candidate c0 a < candidate c0 b) : a < b := by
  by_contra hab
  exact absurd (candidate_le c0 h0 b a (by omega)) (not_le.2 h)

/-- The first pass of the candidate loop selects candidate 0 when its
distance is below `FLT_MAX`. -/
theorem noteStep_first {F : Type} [LinearOrderedField F] (freq c0 : F)
    (hmax : |freq - c0| < FLT_MAX) :
    NoteInv freq c0 1
      (noteStep freq
        { minDist := FLT_MAX, idxMin := none, freqMinDist := none, noteFreq := c0 } 0) := by
  have hc : candidate c0 0 = c0 := candidate_zero c0
  simp only [noteStep, hmax, if_true]
  refine ⟨by rw [candidate_succ, hc], 0, by omega, rfl, by rw [hc], by rw [hc], ?_⟩
  rw [hc]
  rcases lt_or_le freq c0 with h | h
  · exact Or.inl ⟨h, Or.inl rfl⟩
  · exact Or.inr (Or.inl ⟨h, rfl⟩)

/-- A pass of the candidate loop at index `i ≥ 1` keeps the invariant. -/
theorem noteStep_inv {F : Type} [LinearOrderedField F] (freq c0 : F) (h0 : 0 < c0)
    (i : Nat) (st : NoteLoopState F) (h : NoteInv freq c0 i st) :
    NoteInv freq c0 (i + 1) (noteStep freq st i) := by
  obtain ⟨hnf, k, hki, hidx, hfmd, hmd, hcase⟩ := h
  have hnf2 : st.noteFreq * TWELFTH_SQ2 = candidate c0 (i + 1) := by
    rw [candidate_succ, hnf]
  rcases hcase with ⟨hlt, hN⟩ | ⟨hle, hT⟩ | ⟨hle, hL, hmid⟩
  · -- a negative running minimum is never replaced
    have hno : ¬ |freq - st.noteFreq| < st.minDist := by
      rw [hmd]
      have := abs_nonneg (freq - st.noteFreq)
      intro hcon
      linarith
    simp only [noteStep, hno, if_false]
    exact ⟨hnf2, k, by omega, hidx, hfmd, hmd, Or.inl ⟨hlt, hN⟩⟩
  · -- the latest candidate is selected and is at or below the frequency
    have hik : i = k + 1 := hT.symm
    have hck : candidate c0 k < candidate c0 i := candidate_lt c0 h0 k i (by omega)
    by_cases hupd : |freq - st.noteFreq| < st.minDist
    · simp only [noteStep, hupd, if_true]
      rw [hnf, hmd, abs_lt] at hupd
      refine ⟨hnf2, i, by omega, rfl, by rw [hnf], by rw [hnf], ?_⟩
      rcases lt_or_le freq (candidate c0 i) with hlt | hge
      · refine Or.inl ⟨hlt, Or.inr ⟨by omega, ?_, ?_⟩⟩
        · have : i - 1 = k := by omega
          rw [this]; exact hle
        · have : i - 1 = k := by omega
          rw [this]; linarith [hupd.1]
      · exact Or.inr (Or.inl ⟨hge, rfl⟩)
    · simp only [noteStep, hupd, if_false]
      rw [hnf, hmd, abs_lt, not_and_or, not_lt, not_lt] at hupd
      refine ⟨hnf2, k, by omega, hidx, hfmd, hmd, Or.inr (Or.inr ⟨hle, by omega, ?_⟩)⟩
      rw [← hik]
      rcases hupd with h1 | h1 <;> linarith
  · -- a candidate at or below the frequency stays selected
    have hck : candidate c0 (k + 1) < candidate c0 i := candidate_lt c0 h0 (k + 1) i hL
    have hno : ¬ |freq - st.noteFreq| < st.minDist := by
      rw [hnf, hmd, abs_lt]
      intro hcon
      linarith [hcon.1]
    simp only [noteStep, hno, if_false]
    exact ⟨hnf2, k, by omega, hidx, hfmd, hmd, Or.inr (Or.inr ⟨hle, by omega, hmid⟩)⟩

/-- The invariant holds after any number of further passes. -/
theorem noteLoop_inv {F : Type} [LinearOrderedField F] (freq c0 : F) (h0 : 0 < c0) :
    ∀ (n i : Nat) (st : NoteLoopState F), NoteInv freq c0 i st →
      NoteInv freq c0 (i + n) (noteLoop freq n i st) := by
  intro n
  induction n with
  | zero => intro i st h; exact h
  | succ n ih =>
    intro i st h
    have key := ih (i + 1) (noteStep freq st i) (noteStep_inv freq c0 h0 i st h)
    have e : i + 1 + n = i + (n + 1) := by omega
    rw [e] at key
    exact key

/-- The 13 passes of the candidate loop from a positive start `c0` whose
distance to the frequency is below `FLT_MAX`. -/
theorem noteLoop_13 {F : Type} [LinearOrderedField F] (freq c0 : F) (h0 : 0 < c0)
    (hmax : |freq - c0| < FLT_MAX) :
    NoteInv freq c0 13
      (noteLoop freq 13 0
        { minDist := FLT_MAX, idxMin := none, freqMinDist := none, noteFreq := c0 }) :=
  noteLoop_inv freq c0 h0 12 1 _ (noteStep_first freq c0 hmax)

/-! ## Note mapping: the range lookup -/

/-- The start frequencies are positive and increase strictly up to the upper
limit `2 * noteCstart[6] * HALFNOTEFACTOR`. -/
theorem noteCstart_order {F : Type} [LinearOrderedField F] :
    (0 : F) < noteCstart.getD 0 0 ∧
    (noteCstart : List F).getD 0 0 < noteCstart.getD 1 0 ∧
    (noteCstart : List F).getD 1 0 < noteCstart.getD 2 0 ∧
    (noteCstart : List F).getD 2 0 < noteCstart.getD 3 0 ∧
    (noteCstart : List F).getD 3 0 < noteCstart.getD 4 0 ∧
    (noteCstart : List F).getD 4 0 < noteCstart.getD 5 0 ∧
    (noteCstart : List F).getD 5 0 < noteCstart.getD 6 0 ∧
    (noteCstart : List F).getD 6 0 < 2 * noteCstart.getD 6 0 * HALFNOTEFACTOR := by
  simp only [noteCstart, List.getD_cons_succ, List.getD_cons_zero, HALFNOTEFACTOR]
  norm_num

/-- The table is monotone on the indices 0..6. -/
theorem noteCstart_mono {F : Type} [LinearOrderedField F] (a b : Nat) (hab : a < b)
    (hb : b ≤ 6) : (noteCstart : List F).getD a 0 < noteCstart.getD b 0 := by
  obtain ⟨-, h01, h12, h23, h34, h45, h56, -⟩ := noteCstart_order (F := F)
  interval_cases b <;> interval_cases a <;> linarith

theorem noteCstart_pos {F : Type} [LinearOrderedField F] (k : Nat) (hk : k ≤ 6) :
    (0 : F) < noteCstart.getD k 0 := by
  have h0 := (noteCstart_order (F := F)).1
  rcases Nat.eq_zero_or_pos k with h | h
  · rw [h]; exact h0
  · exact lt_trans h0 (noteCstart_mono 0 k h hk)

/-- The three outcomes of `findNoteRange`. -/
theorem findNoteRange_cases {F : Type} [LinearOrderedField F] (freq : F) :
    (findNoteRange freq = -1 ∧ freq > 2 * noteCstart.getD 6 0 * HALFNOTEFACTOR) ∨
    (findNoteRange freq = -2 ∧ freq < noteCstart.getD 0 0) ∨
    ∃ k : Nat, k ≤ 6 ∧ findNoteRange freq = (k : Int) ∧ noteCstart.getD k 0 ≤ freq ∧
      (k < 6 → freq < noteCstart.getD (k + 1) 0) ∧
      freq ≤ 2 * noteCstart.getD 6 0 * HALFNOTEFACTOR := by
  have e : noteCstartCount - 1 = 6 := rfl
  unfold findNoteRange
  rw [e]
  by_cases hA : freq > 2 * noteCstart.getD 6 0 * HALFNOTEFACTOR
  · exact Or.inl ⟨by simp only [hA, if_true], hA⟩
  have hA2 : freq ≤ 2 * noteCstart.getD 6 0 * HALFNOTEFACTOR := not_lt.1 hA
  by_cases h0 : freq < noteCstart.getD 0 0
  · exact Or.inr (Or.inl ⟨by simp only [hA, h0, if_true, if_false], h0⟩)
  right; right
  by_cases h1 : freq < noteCstart.getD 1 0
  · exact ⟨0, by omega, by simp only [hA, h0, h1, if_true, if_false]; rfl, not_lt.1 h0,
      fun _ => h1, hA2⟩
  by_cases h2 : freq < noteCstart.getD 2 0
  · exact ⟨1, by omega, by simp only [hA, h0, h1, h2, if_true, if_false]; rfl, not_lt.1 h1,
      fun _ => h2, hA2⟩
  by_cases h3 : freq < noteCstart.getD 3 0
  · exact ⟨2, by omega, by simp only [hA, h0, h1, h2, h3, if_true, if_false]; rfl,
      not_lt.1 h2, fun _ => h3, hA2⟩
  by_cases h4 : freq < noteCstart.getD 4 0
  · exact ⟨3, by omega, by simp only [hA, h0, h1, h2, h3, h4, if_true, if_false]; rfl,
      not_lt.1 h3, fun _ => h4, hA2⟩
  by_cases h5 : freq < noteCstart.getD 5 0
  · exact ⟨4, by omega, by simp only [hA, h0, h1, h2, h3, h4, h5, if_true, if_false]; rfl,
      not_lt.1 h4, fun _ => h5, hA2⟩
  by_cases h6 : freq < noteCstart.getD 6 0
  · exact ⟨5, by omega, by simp only [hA, h0, h1, h2, h3, h4, h5, h6, if_true, if_false]; rfl,
      not_lt.1 h5, fun _ => h6, hA2⟩
  · exact ⟨6, by omega, by simp only [hA, h0, h1, h2, h3, h4, h5, h6, if_false]; rfl,
      not_lt.1 h6, fun h => absurd h (by omega), hA2⟩

/-- A frequency in the bucket `k` gets the range `k`. -/
theorem findNoteRange_of_bucket {F : Type} [LinearOrderedField F] (freq : F) (k : Nat)
    (hk : k ≤ 6) (hlo : noteCstart.getD k 0 ≤ freq)
    (hhi : k < 6 → freq < noteCstart.getD (k + 1) 0)
    (htop : freq ≤ 2 * noteCstart.getD 6 0 * HALFNOTEFACTOR) :
    findNoteRange freq = (k : Int) := by
  rcases findNoteRange_cases freq with ⟨-, h⟩ | ⟨-, h⟩ | ⟨j, hj, hr, hjlo, hjhi, -⟩
  · exact absurd htop (not_le.2 h)
  · have h0 : (noteCstart : List F).getD 0 0 ≤ noteCstart.getD k 0 := by
      rcases Nat.eq_zero_or_pos k with hz | hz
      · rw [hz]
      · exact le_of_lt (noteCstart_mono 0 k hz hk)
    exact absurd (lt_of_le_of_lt (le_trans h0 hlo) h) (lt_irrefl _)
  · rw [hr]
    congr 1
    by_contra hne
    rcases Nat.lt_or_gt_of_ne hne with hlt | hgt
    · -- j < k
      have h1 := hjhi (by omega)
      have h2 : (noteCstart : List F).getD (j + 1) 0 ≤ noteCstart.getD k 0 := by
        rcases Nat.lt_or_eq_of_le (show j + 1 ≤ k by omega) with h | h
        · exact le_of_lt (noteCstart_mono (j + 1) k h hk)
        · rw [h]
      exact absurd (lt_of_le_of_lt (le_trans h2 hlo) h1) (lt_irrefl _)
    · have h1 := hhi (by omega)
      have h2 : (noteCstart : List F).getD (k + 1) 0 ≤ noteCstart.getD j 0 := by
        rcases Nat.lt_or_eq_of_le (show k + 1 ≤ j by omega) with h | h
        · exact le_of_lt (noteCstart_mono (k + 1) j h hj)
        · rw [h]
      exact absurd (lt_of_le_of_lt (le_trans h2 hjlo) h1) (lt_irrefl _)

/-! ## Note mapping: label and cent deviation -/

/-- Appending the first character of the decimal form of a one-digit number
appends its digit character. -/
theorem strncat_itoa (name : String) (k : Nat) (hk : k ≤ 9) :
    strncat name (itoa (k : Int)) 1 = name ++ digitOf k := by
  unfold strncat
  congr 1
  interval_cases k <;> rfl

/-- The label written by lines 173-183 for the range `k` and the index `i`. -/
theorem label_eq (k i : Nat) (hk : k ≤ 6) :
    (if i = 12 then strncat (noteNames.getD i "") (itoa (k : Int)) 1
      else if (k : Int) > 0 then strncat (noteNames.getD i "") (itoa ((k : Int) - 1)) 1
      else noteNames.getD i "") = noteLabel k i := by
  unfold noteLabel
  by_cases hi : i = 12
  · simp only [hi, if_true]
    exact strncat_itoa _ k (by omega)
  · simp only [hi, if_false]
    by_cases hk0 : k > 0
    · have hcast : (k : Int) > 0 := by omega
      have hsub : (k : Int) - 1 = ((k - 1 : Nat) : Int) := by omega
      simp only [hcast, hk0, if_true]
      rw [hsub]
      exact strncat_itoa _ (k - 1) (by omega)
    · have hcast : ¬ (k : Int) > 0 := by omega
      simp only [hcast, hk0, if_false]

/-- The function `findNoteInRange` on a range `k` in 0..6, from the locals
left by the candidate loop. -/
theorem findNoteInRange_of_scan {F : Type} [LinearOrderedField F] [FloorRing F] (freq : F)
    (k : Nat) (hk : k ≤ 6) (name : String) (i : Nat) (c : F)
    (hidx : (noteScan freq (k : Int)).idxMin = some i)
    (hfmd : (noteScan freq (k : Int)).freqMinDist = some c) :
    findNoteInRange freq (k : Int) name
      = some (centOf (noteScan freq (k : Int)).minDist c, noteLabel k i) := by
  have hr : ¬ ((k : Int) < 0 ∨ (k : Int) > 6) := by omega
  unfold findNoteInRange
  simp only [hr, if_false, hidx, hfmd, label_eq k i hk]
  unfold centOf
  split
  · rfl
  · split <;> rfl

/-- The locals left by the candidate loop on the range `k` satisfy the loop
invariant when the start of the range is at a distance below `FLT_MAX`. -/
theorem noteScan_inv {F : Type} [LinearOrderedField F] (freq : F) (k : Nat) (hk : k ≤ 6)
    (hmax : |freq - noteCstart.getD k 0| < FLT_MAX) :
    NoteInv freq (noteCstart.getD k 0) 13 (noteScan freq (k : Int)) := by
  unfold noteScan
  rw [Int.toNat_natCast]
  exact noteLoop_13 freq _ (noteCstart_pos k hk) hmax

/-- Every frequency up to the upper limit is at a distance below `FLT_MAX`
from a range start at or below it. -/
theorem dist_lt_FLT_MAX {F : Type} [LinearOrderedField F] (freq : F) (k : Nat) (hk : k ≤ 6)
    (hlo : noteCstart.getD k 0 ≤ freq)
    (htop : freq ≤ 2 * noteCstart.getD 6 0 * HALFNOTEFACTOR) :
    |freq - noteCstart.getD k 0| < FLT_MAX := by
  have hpos := noteCstart_pos (F := F) k hk
  rw [abs_of_nonneg (by linarith)]
  have hnum : (2 : F) * noteCstart.getD 6 0 * HALFNOTEFACTOR < FLT_MAX := by
    simp only [noteCstart, List.getD_cons_succ, List.getD_cons_zero, HALFNOTEFACTOR, FLT_MAX]
    norm_num
  linarith

theorem truncToInt_of_nonneg {F : Type} [LinearOrderedField F] [FloorRing F] (x : F) (n : Int)
    (h0 : 0 ≤ x) (hx : x < (n : F) + 1) : 0 ≤ truncToInt x ∧ truncToInt x ≤ n := by
  unfold truncToInt
  simp only [h0, if_true]
  refine ⟨Int.floor_nonneg.2 h0, ?_⟩
  have : Int.floor x < n + 1 := by
    rw [Int.floor_lt]
    push_cast
    exact hx
  omega

theorem truncToInt_of_neg {F : Type} [LinearOrderedField F] [FloorRing F] (x : F) (n : Int)
    (h0 : x < 0) (hx : -(n : F) - 1 < x) : -n ≤ truncToInt x ∧ truncToInt x ≤ 0 := by
  unfold truncToInt
  simp only [not_le.2 h0, if_false]
  refine ⟨?_, ?_⟩
  · have : -n - 1 < Int.ceil x := by
      rw [Int.lt_ceil]
      push_cast
      exact hx
    omega
  · rw [Int.ceil_le]
    push_cast
    exact le_of_lt h0

/-- The cent deviation is within -50..50 when the signed distance is within
50.5 steps of one hundredth of the half-tone above the matched candidate. -/
theorem centOf_bounds {F : Type} [LinearOrderedField F] [FloorRing F] (d c : F) (hc : 0 < c)
    (hlo : -(50.5 * ((TWELFTH_SQ2 - 1) * c / 100)) < d)
    (hhi : d < 50.5 * ((TWELFTH_SQ2 - 1) * c / 100)) :
    -50 ≤ centOf d c ∧ centOf d c ≤ 50 := by
  have hT : (0 : F) < TWELFTH_SQ2 - 1 := sub_pos.2 TWELFTH_SQ2_gt_one
  have hone : (0 : F) < (TWELFTH_SQ2 - 1) * c / 100 :=
    div_pos (mul_pos hT hc) (by norm_num)
  unfold centOf
  split
  · exact ⟨by decide, by decide⟩
  · split
    · rename_i hneg
      have hq : d / ((TWELFTH_SQ2 - 1) * c / 100) < 0 := div_neg_of_neg_of_pos hneg hone
      have hq2 : -(50.5 : F) < d / ((TWELFTH_SQ2 - 1) * c / 100) := by
        rw [lt_div_iff₀ hone]
        linarith
      have h := truncToInt_of_neg (d / ((TWELFTH_SQ2 - 1) * c / 100) - 0.5) 50
        (by linarith) (by push_cast; linarith)
      omega
    · rename_i hnn
      have hq : 0 ≤ d / ((TWELFTH_SQ2 - 1) * c / 100) :=
        div_nonneg (not_lt.1 hnn) (le_of_lt hone)
      have hq2 : d / ((TWELFTH_SQ2 - 1) * c / 100) < (50.5 : F) := by
        rw [div_lt_iff₀ hone]
        exact hhi
      have h := truncToInt_of_nonneg (d / ((TWELFTH_SQ2 - 1) * c / 100) + 0.5) 50
        (by linarith) (by push_cast; linarith)
      omega

/-- The upper end of every bucket is within 50.5 cent steps of the top
candidate of its range. -/
theorem top_candidate_margin {F : Type} [LinearOrderedField F] (freq : F) (k : Nat)
    (hk : k ≤ 6) (hhi : k < 6 → freq < noteCstart.getD (k + 1) 0)
    (htop : freq ≤ 2 * noteCstart.getD 6 0 * HALFNOTEFACTOR) :
    freq - candidate (noteCstart.getD k 0) 12
      < 50.5 * ((TWELFTH_SQ2 - 1) * candidate (noteCstart.getD k 0) 12 / 100) := by
  interval_cases k
  all_goals
    first
    | (have h := hhi (by omega)
       simp only [noteCstart, List.getD_cons_succ, List.getD_cons_zero, candidate,
         TWELFTH_SQ2] at h ⊢
       linarith [h, (by norm_num : (0 : F) < 1)])
    | (simp only [noteCstart, List.getD_cons_succ, List.getD_cons_zero, candidate,
         TWELFTH_SQ2, HALFNOTEFACTOR] at htop ⊢
       linarith [htop])

/-- The function `findNoteInRange` on a frequency of the bucket `k`: the loop
selects a candidate `i ≤ 12`, the label is that of note `i` of range `k`, and
the cent deviation is within -50..50. -/
theorem findNoteInRange_accepted {F : Type} [LinearOrderedField F] [FloorRing F] (freq : F)
    (k : Nat) (hk : k ≤ 6) (hlo : noteCstart.getD k 0 ≤ freq)
    (hhi : k < 6 → freq < noteCstart.getD (k + 1) 0)
    (htop : freq ≤ 2 * noteCstart.getD 6 0 * HALFNOTEFACTOR) (name : String) :
    ∃ i, i ≤ 12 ∧ (noteScan freq (k : Int)).idxMin = some i ∧
      (noteScan freq (k : Int)).minDist = freq - candidate (noteCstart.getD k 0) i ∧
      findNoteInRange freq (k : Int) name
        = some (centOf (freq - candidate (noteCstart.getD k 0) i)
            (candidate (noteCstart.getD k 0) i), noteLabel k i) ∧
      -50 ≤ centOf (freq - candidate (noteCstart.getD k 0) i)
            (candidate (noteCstart.getD k 0) i) ∧
      centOf (freq - candidate (noteCstart.getD k 0) i)
            (candidate (noteCstart.getD k 0) i) ≤ 50 := by
  have h0 := noteCstart_pos (F := F) k hk
  have hT : (0 : F) < TWELFTH_SQ2 - 1 := sub_pos.2 TWELFTH_SQ2_gt_one
  obtain ⟨-, i, hi, hidx, hfmd, hmd, hcase⟩ :=
    noteScan_inv freq k hk (dist_lt_FLT_MAX freq k hk hlo htop)
  have hci := candidate_pos (noteCstart.getD k (0 : F)) h0 i
  have hone : (0 : F) < (TWELFTH_SQ2 - 1) * candidate (noteCstart.getD k (0 : F)) i / 100 :=
    div_pos (mul_pos hT hci) (by norm_num)
  have hfn := findNoteInRange_of_scan freq k hk name i _ hidx hfmd
  rw [hmd] at hfn
  have hb : -(50.5 * ((TWELFTH_SQ2 - 1) * candidate (noteCstart.getD k (0 : F)) i / 100))
        < freq - candidate (noteCstart.getD k (0 : F)) i ∧
      freq - candidate (noteCstart.getD k (0 : F)) i
        < 50.5 * ((TWELFTH_SQ2 - 1) * candidate (noteCstart.getD k (0 : F)) i / 100) := by
    rcases hcase with ⟨hlt, hN⟩ | ⟨hle, hTr⟩ | ⟨hle, hL, hmid⟩
    · rcases hN with hz | ⟨h1, hprev, hnear⟩
      · rw [hz, candidate_zero] at hlt
        exact absurd hlo (not_le.2 hlt)
      · have hsucc : candidate (noteCstart.getD k (0 : F)) i
            = candidate (noteCstart.getD k (0 : F)) (i - 1) * TWELFTH_SQ2 := by
          rw [← candidate_succ]
          congr 1
          omega
        have hprevpos := candidate_pos (noteCstart.getD k (0 : F)) h0 (i - 1)
        have hstep : candidate (noteCstart.getD k (0 : F)) (i - 1) * (TWELFTH_SQ2 - 1)
            < candidate (noteCstart.getD k (0 : F)) i * (TWELFTH_SQ2 - 1) :=
          mul_lt_mul_of_pos_right
            (candidate_lt _ h0 (i - 1) i (by omega)) hT
        constructor
        · nlinarith
        · linarith
    · have hi12 : i = 12 := by omega
      subst hi12
      constructor
      · linarith
      · exact top_candidate_margin freq k hk hhi htop
    · rw [candidate_succ] at hmid
      constructor
      · linarith
      · linarith
  obtain ⟨hc1, hc2⟩ := centOf_bounds _ _ hci hb.1 hb.2
  exact ⟨i, by omega, hidx, hmd, hfn, hc1, hc2⟩

/-- The candidate `j` is selected by the loop when the frequency is at or
above it and not nearer to the next candidate. -/
theorem noteScan_select {F : Type} [LinearOrderedField F] (freq : F) (k : Nat) (hk : k ≤ 6)
    (hmax : |freq - noteCstart.getD k 0| < FLT_MAX) (j : Nat) (hj : j ≤ 12)
    (hlo : candidate (noteCstart.getD k 0) j ≤ freq)
    (hmid : j < 12 → freq - candidate (noteCstart.getD k 0) j
      ≤ candidate (noteCstart.getD k 0) (j + 1) - freq) :
    (noteScan freq (k : Int)).idxMin = some j ∧
    (noteScan freq (k : Int)).freqMinDist = some (candidate (noteCstart.getD k 0) j) ∧
    (noteScan freq (k : Int)).minDist = freq - candidate (noteCstart.getD k 0) j := by
  have h0 := noteCstart_pos (F := F) k hk
  obtain ⟨-, i, hi, hidx, hfmd, hmd, hcase⟩ := noteScan_inv freq k hk hmax
  have hup : j < 12 → freq < candidate (noteCstart.getD k (0 : F)) (j + 1) := by
    intro h
    have h1 := hmid h
    have h2 := candidate_lt (noteCstart.getD k (0 : F)) h0 j (j + 1) (by omega)
    linarith
  have hij : i = j := by
    rcases hcase with ⟨hlt, hN⟩ | ⟨hle, hTr⟩ | ⟨hle, hL, hnear⟩
    · -- the frequency is below the selected candidate
      have hji : j < i := lt_of_candidate_lt _ h0 j i (lt_of_le_of_lt hlo hlt)
      rcases hN with hz | ⟨h1, hprev, hnear⟩
      · omega
      · have hj12 : j < 12 := by omega
        have hle2 : i - 1 < j + 1 :=
          lt_of_candidate_lt _ h0 (i - 1) (j + 1) (lt_of_le_of_lt hprev (hup hj12))
        have hi1 : i = j + 1 := by omega
        have hm := hmid hj12
        rw [hi1] at hnear
        simp only [Nat.add_sub_cancel] at hnear
        linarith
    · by_contra hne
      have hj12 : j < 12 := by omega
      have := lt_of_candidate_lt _ h0 i (j + 1) (lt_of_le_of_lt hle (hup hj12))
      omega
    · by_contra hne
      have hi1 := candidate_lt (noteCstart.getD k (0 : F)) h0 i (i + 1) (by omega)
      have hfi : freq < candidate (noteCstart.getD k (0 : F)) (i + 1) := by linarith
      have hji : j < i + 1 := lt_of_candidate_lt _ h0 j (i + 1) (lt_of_le_of_lt hlo hfi)
      have hj12 : j < 12 := by omega
      have hij2 : i < j + 1 :=
        lt_of_candidate_lt _ h0 i (j + 1) (lt_of_le_of_lt hle (hup hj12))
      omega
  rw [← hij]
  exact ⟨hidx, hfmd, hmd⟩

/-- The function `findNoteInRange` on a frequency for which candidate `j` of
the range `k` is at or below it and not farther than the next candidate. -/
theorem findNoteInRange_select {F : Type} [LinearOrderedField F] [FloorRing F] (freq : F)
    (k : Nat) (hk : k ≤ 6) (hmax : |freq - noteCstart.getD k 0| < FLT_MAX)
    (j : Nat) (hj : j ≤ 12) (hlo : candidate (noteCstart.getD k 0) j ≤ freq)
    (hmid : j < 12 → freq - candidate (noteCstart.getD k 0) j
      ≤ candidate (noteCstart.getD k 0) (j + 1) - freq) (name : String) :
    findNoteInRange freq (k : Int) name
      = some (centOf (freq - candidate (noteCstart.getD k 0) j)
          (candidate (noteCstart.getD k 0) j), noteLabel k j) := by
  obtain ⟨hidx, hfmd, hmd⟩ := noteScan_select freq k hk hmax j hj hlo hmid
  have h := findNoteInRange_of_scan freq k hk name j _ hidx hfmd
  rw [hmd] at h
  exact h

/-- The cent deviation is 0 for a distance from 0 to below half a cent step. -/
theorem centOf_eq_zero {F : Type} [LinearOrderedField F] [FloorRing F] (d c : F) (hc : 0 < c)
    (hd0 : 0 ≤ d) (hd : d < 0.5 * ((TWELFTH_SQ2 - 1) * c / 100)) : centOf d c = 0 := by
  have hT : (0 : F) < TWELFTH_SQ2 - 1 := sub_pos.2 TWELFTH_SQ2_gt_one
  have hone : (0 : F) < (TWELFTH_SQ2 - 1) * c / 100 :=
    div_pos (mul_pos hT hc) (by norm_num)
  unfold centOf
  split
  · rfl
  · simp only [not_lt.2 hd0, if_false]
    have hq : 0 ≤ d / ((TWELFTH_SQ2 - 1) * c / 100) := div_nonneg hd0 (le_of_lt hone)
    have hq2 : d / ((TWELFTH_SQ2 - 1) * c / 100) < (0.5 : F) := by
      rw [div_lt_iff₀ hone]
      exact hd
    have h := truncToInt_of_nonneg (d / ((TWELFTH_SQ2 - 1) * c / 100) + 0.5) 0
      (by linarith) (by push_cast; linarith)
    omega

/-- The two public functions on a frequency that `findNoteRange` accepts with
range `k` and for which `findNoteInRange` returns a deviation of -50 or more. -/
theorem findNearest_of_accept {F : Type} [LinearOrderedField F] [FloorRing F] (freq : F)
    (k : Nat) (hr : findNoteRange freq = (k : Int)) (name label : String) (cent : Int)
    (hfn : findNoteInRange freq (k : Int) name = some (cent, label)) (hc : -50 ≤ cent)
    (d : Int) :
    findNearestNote freq name = some ((k : Int), label) ∧
    findNearestNoteDiff freq name d = some ((k : Int), label, cent) := by
  have hk : ¬ (k : Int) < 0 := by omega
  have hc2 : ¬ cent < -50 := by omega
  unfold findNearestNote findNearestNoteDiff
  simp only [hr, hk, if_false, hfn, hc2, and_self]

/-! ## Note mapping: the claims on range lookup and cent deviation -/

/-- C16. For every frequency that `findNoteRange` accepts with a range
`r ≥ 0`, `findNoteInRange` on that range returns a cent deviation within
-50..50, so `findNearestNote` and `findNearestNoteDiff` do not take the branch
`retVal < -50`: they return the range, and the latter stores the deviation. -/
theorem findNoteInRange_cent_range {F : Type} [LinearOrderedField F] [FloorRing F]
    (freq : F) (name : String) (h : 0 ≤ findNoteRange freq) :
    ∃ cent label, findNoteInRange freq (findNoteRange freq) name = some (cent, label) ∧
      -50 ≤ cent ∧ cent ≤ 50 ∧
      findNearestNote freq name = some (findNoteRange freq, label) ∧
      ∀ d, findNearestNoteDiff freq name d = some (findNoteRange freq, label, cent) := by
  rcases findNoteRange_cases freq with ⟨hr, -⟩ | ⟨hr, -⟩ | ⟨k, hk, hr, hlo, hhi, htop⟩
  · rw [hr] at h; exact absurd h (by decide)
  · rw [hr] at h; exact absurd h (by decide)
  · obtain ⟨i, -, -, -, hfn, hc1, hc2⟩ := findNoteInRange_accepted freq k hk hlo hhi htop name
    rw [hr]
    exact ⟨_, _, hfn, hc1, hc2,
      (findNearest_of_accept freq k hr name _ _ hfn hc1 0).1,
      fun d => (findNearest_of_accept freq k hr name _ _ hfn hc1 d).2⟩

/-- The frequency 1480 Hz lies in the bucket of range 4. -/
theorem findNoteRange_1480 {F : Type} [LinearOrderedField F] :
    findNoteRange (1480 : F) = 4 := by
  have h := findNoteRange_of_bucket (1480 : F) 4 (by decide)
    (by simp only [noteCstart, List.getD_cons_succ, List.getD_cons_zero]; norm_num)
    (fun _ => by
      simp only [noteCstart, List.getD_cons_succ, List.getD_cons_zero]; norm_num)
    (by simp only [noteCstart, List.getD_cons_succ, List.getD_cons_zero, HALFNOTEFACTOR]
        norm_num)
  exact h

/-- Witness for C16: 1480 Hz is accepted with range 4. -/
theorem findNoteInRange_cent_range_witness :
    ∃ cent label, findNoteInRange (1480 : ℚ) (findNoteRange (1480 : ℚ)) "" = some (cent, label) ∧
      -50 ≤ cent ∧ cent ≤ 50 ∧
      findNearestNote (1480 : ℚ) "" = some (findNoteRange (1480 : ℚ), label) ∧
      ∀ d, findNearestNoteDiff (1480 : ℚ) "" d = some (findNoteRange (1480 : ℚ), label, cent) :=
  findNoteInRange_cent_range (1480 : ℚ) "" (by rw [findNoteRange_1480]; decide)

/-- C17. For every frequency that `findNoteRange` accepts, the returned `r` is
in 0..6 and is the single bucket that contains the frequency:
`noteCstart[r] ≤ f`, and `f < noteCstart[r+1]` when `r < 6`; every frequency
below `noteCstart[0]` gets the code -2. -/
theorem findNoteRange_bucket {F : Type} [LinearOrderedField F] (freq : F) :
    (0 ≤ findNoteRange freq →
      ∃ r : Nat, findNoteRange freq = (r : Int) ∧ r ≤ 6 ∧ noteCstart.getD r 0 ≤ freq ∧
        (r < 6 → freq < noteCstart.getD (r + 1) 0) ∧
        ∀ k : Nat, k ≤ 6 → noteCstart.getD k 0 ≤ freq →
          (k < 6 → freq < noteCstart.getD (k + 1) 0) → k = r) ∧
    (freq < noteCstart.getD 0 0 → findNoteRange freq = -2) := by
  constructor
  · intro h
    rcases findNoteRange_cases freq with ⟨hr, -⟩ | ⟨hr, -⟩ | ⟨r, hr6, hr, hlo, hhi, htop⟩
    · rw [hr] at h; exact absurd h (by decide)
    · rw [hr] at h; exact absurd h (by decide)
    · refine ⟨r, hr, hr6, hlo, hhi, ?_⟩
      intro k hk hklo hkhi
      have := findNoteRange_of_bucket freq k hk hklo hkhi htop
      rw [hr] at this
      omega
  · intro h
    rcases findNoteRange_cases freq with ⟨-, hA⟩ | ⟨hr, -⟩ | ⟨r, hr6, -, hlo, -, -⟩
    · have := (noteCstart_order (F := F)).2.2.2.2.2.2.2
      have h06 : (noteCstart : List F).getD 0 0 < noteCstart.getD 6 0 :=
        noteCstart_mono 0 6 (by decide) (by decide)
      linarith
    · exact hr
    · have h0r : (noteCstart : List F).getD 0 0 ≤ noteCstart.getD r 0 := by
        rcases Nat.eq_zero_or_pos r with hz | hz
        · rw [hz]
        · exact le_of_lt (noteCstart_mono 0 r hz hr6)
      linarith

/-- Witness for C17: 1480 Hz is in bucket 4, 60 Hz is below the lowest start. -/
theorem findNoteRange_bucket_witness :
    (∃ r : Nat, findNoteRange (1480 : ℚ) = (r : Int) ∧ r ≤ 6 ∧
        noteCstart.getD r 0 ≤ (1480 : ℚ) ∧
        (r < 6 → (1480 : ℚ) < noteCstart.getD (r + 1) 0) ∧
        ∀ k : Nat, k ≤ 6 → noteCstart.getD k 0 ≤ (1480 : ℚ) →
          (k < 6 → (1480 : ℚ) < noteCstart.getD (k + 1) 0) → k = r) ∧
    findNoteRange (60 : ℚ) = -2 :=
  ⟨(findNoteRange_bucket (1480 : ℚ)).1 (by rw [findNoteRange_1480]; decide),
    (findNoteRange_bucket (60 : ℚ)).2
      (by simp only [noteCstart, List.getD_cons_zero]; norm_num)⟩

/-- C18, counterexample. The frequency 4333.6 Hz, 60 cents above the highest
start and above `noteCstart[6] * HALFNOTEFACTOR`, gets the range 6, not the
code -1. -/
theorem findNoteRange_above_counterexample :
    (4333.6 : ℚ) > noteCstart.getD 6 0 * HALFNOTEFACTOR ∧
    findNoteRange (4333.6 : ℚ) = 6 ∧ findNoteRange (4333.6 : ℚ) ≠ -1 := by
  have h : findNoteRange (4333.6 : ℚ) = 6 :=
    findNoteRange_of_bucket (4333.6 : ℚ) 6 (by decide)
      (by simp only [noteCstart, List.getD_cons_succ, List.getD_cons_zero]; norm_num)
      (fun h => absurd h (by decide))
      (by simp only [noteCstart, List.getD_cons_succ, List.getD_cons_zero, HALFNOTEFACTOR]
          norm_num)
  refine ⟨?_, h, by rw [h]; decide⟩
  simp only [noteCstart, List.getD_cons_succ, List.getD_cons_zero, HALFNOTEFACTOR]
  norm_num

/-- C18, amended. `findNoteRange` returns -1 for every frequency above
`2 * noteCstart[6] * HALFNOTEFACTOR`, and the range 6 for every frequency
from `noteCstart[6]` up to that limit. -/
theorem findNoteRange_above {F : Type} [LinearOrderedField F] (freq : F) :
    (freq > 2 * noteCstart.getD 6 0 * HALFNOTEFACTOR → findNoteRange freq = -1) ∧
    (noteCstart.getD 6 0 ≤ freq → freq ≤ 2 * noteCstart.getD 6 0 * HALFNOTEFACTOR →
      findNoteRange freq = 6) := by
  constructor
  · intro h
    rcases findNoteRange_cases freq with ⟨hr, -⟩ | ⟨-, h0⟩ | ⟨r, -, -, -, -, htop⟩
    · exact hr
    · have := (noteCstart_order (F := F)).2.2.2.2.2.2.2
      have h06 : (noteCstart : List F).getD 0 0 < noteCstart.getD 6 0 :=
        noteCstart_mono 0 6 (by decide) (by decide)
      linarith
    · exact absurd htop (not_le.2 h)
  · intro hlo htop
    exact findNoteRange_of_bucket freq 6 (by decide) hlo (fun h => absurd h (by decide)) htop

/-- Witness for C18, amended: 9000 Hz is above the limit, 4333.6 Hz is not. -/
theorem findNoteRange_above_witness :
    findNoteRange (9000 : ℚ) = -1 ∧ findNoteRange (4333.6 : ℚ) = 6 :=
  ⟨(findNoteRange_above (9000 : ℚ)).1
      (by simp only [noteCstart, List.getD_cons_succ, List.getD_cons_zero, HALFNOTEFACTOR]
          norm_num),
    (findNoteRange_above (4333.6 : ℚ)).2
      (by simp only [noteCstart, List.getD_cons_succ, List.getD_cons_zero]; norm_num)
      (by simp only [noteCstart, List.getD_cons_succ, List.getD_cons_zero, HALFNOTEFACTOR]
          norm_num)⟩

/-- C19. For every frequency: if `findNoteRange` fails with code -1 or -2,
`findNearestNote` returns that code, `findNearestNoteDiff` returns the code
minus 9999, and `noteName` and `diffCent` keep their contents; otherwise both
return the same range in 0..6 and the same `noteName`, and
`findNearestNoteDiff` stores in `diffCent` the value `findNoteInRange`
returned. -/
theorem findNearestNoteDiff_refines {F : Type} [LinearOrderedField F] [FloorRing F]
    (freq : F) (name : String) (d : Int) :
    (findNoteRange freq < 0 →
      (findNoteRange freq = -1 ∨ findNoteRange freq = -2) ∧
      findNearestNote freq name = some (findNoteRange freq, name) ∧
      findNearestNoteDiff freq name d = some (findNoteRange freq - 9999, name, d) ∧
      findNoteRange freq - 9999 ≤ -9999) ∧
    (0 ≤ findNoteRange freq →
      findNoteRange freq ≤ 6 ∧
      ∃ cent label,
        findNoteInRange freq (findNoteRange freq) name = some (cent, label) ∧
        findNearestNote freq name = some (findNoteRange freq, label) ∧
        findNearestNoteDiff freq name d = some (findNoteRange freq, label, cent)) := by
  constructor
  · intro h
    have hcode : findNoteRange freq = -1 ∨ findNoteRange freq = -2 := by
      rcases findNoteRange_cases freq with ⟨hr, -⟩ | ⟨hr, -⟩ | ⟨k, -, hr, -, -, -⟩
      · exact Or.inl hr
      · exact Or.inr hr
      · rw [hr] at h; omega
    refine ⟨hcode, ?_, ?_, by omega⟩
    · unfold findNearestNote
      simp only [h, if_true]
    · unfold findNearestNoteDiff
      simp only [h, if_true]
  · intro h
    rcases findNoteRange_cases freq with ⟨hr, -⟩ | ⟨hr, -⟩ | ⟨k, hk, hr, hlo, hhi, htop⟩
    · rw [hr] at h; exact absurd h (by decide)
    · rw [hr] at h; exact absurd h (by decide)
    · obtain ⟨i, -, -, -, hfn, hc1, -⟩ := findNoteInRange_accepted freq k hk hlo hhi htop name
      obtain ⟨h1, h2⟩ := findNearest_of_accept freq k hr name _ _ hfn hc1 d
      rw [hr]
      exact ⟨by omega, _, _, hfn, h1, h2⟩

/-- Witness for C19: 9000 Hz fails with -1, 1480 Hz is accepted. -/
theorem findNearestNoteDiff_refines_witness :
    (findNearestNote (9000 : ℚ) "xx" = some (findNoteRange (9000 : ℚ), "xx") ∧
      findNearestNoteDiff (9000 : ℚ) "xx" 77
        = some (findNoteRange (9000 : ℚ) - 9999, "xx", 77)) ∧
    ∃ cent label,
      findNoteInRange (1480 : ℚ) (findNoteRange (1480 : ℚ)) "xx" = some (cent, label) ∧
      findNearestNote (1480 : ℚ) "xx" = some (findNoteRange (1480 : ℚ), label) ∧
      findNearestNoteDiff (1480 : ℚ) "xx" 77
        = some (findNoteRange (1480 : ℚ), label, cent) := by
  have h9 : findNoteRange (9000 : ℚ) = -1 := by
    rcases findNoteRange_cases (9000 : ℚ) with ⟨hr, -⟩ | ⟨-, h0⟩ | ⟨r, -, -, -, -, htop⟩
    · exact hr
    · simp only [noteCstart, List.getD_cons_zero] at h0
      norm_num at h0
    · simp only [noteCstart, List.getD_cons_succ, List.getD_cons_zero, HALFNOTEFACTOR] at htop
      norm_num at htop
  have hA := (findNearestNoteDiff_refines (9000 : ℚ) "xx" 77).1 (by rw [h9]; decide)
  have hB := (findNearestNoteDiff_refines (1480 : ℚ) "xx" 77).2
    (by rw [findNoteRange_1480]; decide)
  exact ⟨⟨hA.2.1, hA.2.2.1⟩, hB.2⟩

/-- The locals `idxMin` and `freqMinDist` are assigned together, with an index
below the loop index. -/
theorem noteLoop_assigned {F : Type} [LinearOrderedField F] (freq : F) :
    ∀ (n i : Nat) (st : NoteLoopState F),
      (∀ a, st.idxMin = some a → a < i ∧ ∃ c, st.freqMinDist = some c) →
      ∀ a, (noteLoop freq n i st).idxMin = some a →
        a < i + n ∧ ∃ c, (noteLoop freq n i st).freqMinDist = some c := by
  intro n
  induction n with
  | zero => intro i st h a ha; exact h a ha
  | succ n ih =>
    intro i st h a ha
    have key := ih (i + 1) (noteStep freq st i) (by
      intro b hb
      unfold noteStep at hb ⊢
      by_cases hupd : |freq - st.noteFreq| < st.minDist
      · simp only [hupd, if_true] at hb ⊢
        have : i = b := by simpa using hb
        exact ⟨by omega, _, rfl⟩
      · simp only [hupd, if_false] at hb ⊢
        obtain ⟨h1, h2⟩ := h b hb
        exact ⟨by omega, h2⟩) a ha
    have e : i + 1 + n = i + (n + 1) := by omega
    rw [e] at key
    exact key

/-- C20. Label assembly in `findNoteInRange`: for a range `r` in 0..6 and the
index `i` selected by the candidate loop, the label written is `noteNames[i]`
followed by the digit `r` when `i = 12`, by the digit `r - 1` when `i < 12`
and `r > 0`, and by no digit when `i < 12` and `r = 0`; range 0 gives c, cis,
range 1 gives c0, cis0, and 1480 Hz yields the label fis3 and range 4. -/
theorem findNoteInRange_label {F : Type} [LinearOrderedField F] [FloorRing F] (freq : F)
    (r : Nat) (hr : r ≤ 6) (name : String) (i : Nat)
    (hidx : (noteScan freq (r : Int)).idxMin = some i) :
    i ≤ 12 ∧
    (∃ cent label, findNoteInRange freq (r : Int) name = some (cent, label) ∧
      (i = 12 → label = noteNames.getD 12 "" ++ digitOf r) ∧
      (i < 12 → r > 0 → label = noteNames.getD i "" ++ digitOf (r - 1)) ∧
      (i < 12 → r = 0 → label = noteNames.getD i "")) ∧
    (noteLabel 0 0 = "c" ∧ noteLabel 0 1 = "cis" ∧ noteLabel 1 0 = "c0" ∧
      noteLabel 1 1 = "cis0" ∧ noteLabel 4 6 = "fis3") ∧
    findNearestNote (1480 : F) name = some (4, "fis3") := by
  obtain ⟨hi, c, hc⟩ := noteLoop_assigned freq 13 0 _
    (fun a ha => by simp at ha) i hidx
  have hfn := findNoteInRange_of_scan freq r hr name i c hidx hc
  refine ⟨by omega, ⟨_, _, hfn, ?_, ?_, ?_⟩, by decide, ?_⟩
  · intro h12
    simp only [noteLabel, h12, if_true]
  · intro h12 hr0
    have : ¬ i = 12 := by omega
    simp only [noteLabel, this, hr0, if_true, if_false]
  · intro h12 hr0
    have : ¬ i = 12 := by omega
    have h0 : ¬ r > 0 := by omega
    simp only [noteLabel, this, h0, if_false]
  · have hmax : |(1480 : F) - noteCstart.getD 4 0| < FLT_MAX :=
      dist_lt_FLT_MAX 1480 4 (by decide)
        (by simp only [noteCstart, List.getD_cons_succ, List.getD_cons_zero]; norm_num)
        (by simp only [noteCstart, List.getD_cons_succ, List.getD_cons_zero, HALFNOTEFACTOR]
            norm_num)
    have hsel := findNoteInRange_select (1480 : F) 4 (by decide) hmax 6 (by decide)
      (by simp only [noteCstart, List.getD_cons_succ, List.getD_cons_zero, candidate,
            TWELFTH_SQ2]
          norm_num)
      (fun _ => by
        simp only [noteCstart, List.getD_cons_succ, List.getD_cons_zero, candidate,
          TWELFTH_SQ2]
        norm_num) name
    have hcent : centOf ((1480 : F) - candidate (noteCstart.getD 4 0) 6)
        (candidate (noteCstart.getD 4 0) 6) = 0 :=
      centOf_eq_zero _ _ (candidate_pos _ (noteCstart_pos 4 (by decide)) 6)
        (by simp only [noteCstart, List.getD_cons_succ, List.getD_cons_zero, candidate,
              TWELFTH_SQ2]
            norm_num)
        (by simp only [noteCstart, List.getD_cons_succ, List.getD_cons_zero, candidate,
              TWELFTH_SQ2]
            norm_num)
    rw [hcent] at hsel
    have h := (findNearest_of_accept (1480 : F) 4 findNoteRange_1480 name _ 0 hsel
      (by decide) 0).1
    exact h

/-- The candidate loop on 1480 Hz in range 4 selects index 6. -/
theorem noteScan_1480 {F : Type} [LinearOrderedField F] :
    (noteScan (1480 : F) ((4 : Nat) : Int)).idxMin = some 6 :=
  (noteScan_select (1480 : F) 4 (by decide)
    (dist_lt_FLT_MAX 1480 4 (by decide)
      (by simp only [noteCstart, List.getD_cons_succ, List.getD_cons_zero]; norm_num)
      (by simp only [noteCstart, List.getD_cons_succ, List.getD_cons_zero, HALFNOTEFACTOR]
          norm_num))
    6 (by decide)
    (by simp only [noteCstart, List.getD_cons_succ, List.getD_cons_zero, candidate,
          TWELFTH_SQ2]
        norm_num)
    (fun _ => by
      simp only [noteCstart, List.getD_cons_succ, List.getD_cons_zero, candidate,
        TWELFTH_SQ2]
      norm_num)).1

/-- Witness for C20: 1480 Hz in range 4 selects index 6 and is labelled fis3. -/
theorem findNoteInRange_label_witness :
    (noteScan (1480 : ℚ) ((4 : Nat) : Int)).idxMin = some 6 ∧
    ∃ cent label, findNoteInRange (1480 : ℚ) ((4 : Nat) : Int) "" = some (cent, label) ∧
      label = noteNames.getD 6 "" ++ digitOf (4 - 1) ∧ label = "fis3" := by
  obtain ⟨-, ⟨cent, label, h1, -, h3, -⟩, -, -⟩ :=
    findNoteInRange_label (1480 : ℚ) 4 (by decide) "" 6 noteScan_1480
  have hl := h3 (by decide) (by decide)
  exact ⟨noteScan_1480, cent, label, h1, hl, by rw [hl]; decide⟩

/-! ## Note mapping: round trip over the reference table -/

/-- The eleventh candidate of every range below the top one is below the
start of the next range. -/
theorem candidate_11_lt_next {F : Type} [LinearOrderedField F] (r : Nat) (hr : r < 6) :
    candidate (noteCstart.getD r 0) 11 < (noteCstart.getD (r + 1) 0 : F) := by
  interval_cases r <;>
    (simp only [noteCstart, List.getD_cons_succ, List.getD_cons_zero, candidate, TWELFTH_SQ2]
     norm_num)

/-- The top candidate of the ranges 0..4 lies in the next bucket, next to its
start: at or above it, below the start after it, within half a cent step of
it and not nearer to the second candidate of the next range. -/
theorem candidate_12_next {F : Type} [LinearOrderedField F] (r : Nat) (hr : r ≤ 4) :
    (noteCstart.getD (r + 1) 0 : F) ≤ candidate (noteCstart.getD r 0) 12 ∧
    candidate (noteCstart.getD r 0) 12 < (noteCstart.getD (r + 2) 0 : F) ∧
    candidate (noteCstart.getD r 0) 12 - candidate (noteCstart.getD (r + 1) 0) 0
      < 0.5 * ((TWELFTH_SQ2 - 1) * candidate (noteCstart.getD (r + 1) (0 : F)) 0 / 100) ∧
    candidate (noteCstart.getD r 0) 12 - candidate (noteCstart.getD (r + 1) 0) 0
      ≤ candidate (noteCstart.getD (r + 1) (0 : F)) (0 + 1)
          - candidate (noteCstart.getD r 0) 12 := by
  interval_cases r <;>
    (simp only [noteCstart, List.getD_cons_succ, List.getD_cons_zero, candidate, TWELFTH_SQ2]
     norm_num)

/-- The top candidate of range 5 is below the start of range 6, and the top
candidate of range 6 is below the upper limit. -/
theorem candidate_12_top {F : Type} [LinearOrderedField F] :
    candidate (noteCstart.getD 5 0) 12 < (noteCstart.getD 6 0 : F) ∧
    candidate (noteCstart.getD 6 0) 12
      ≤ (2 * noteCstart.getD 6 0 * HALFNOTEFACTOR : F) := by
  simp only [noteCstart, List.getD_cons_succ, List.getD_cons_zero, candidate, TWELFTH_SQ2,
    HALFNOTEFACTOR]
  norm_num

/-- The label of the first note of a range is the label of the top note of
the range below it. -/
theorem noteLabel_next (r : Nat) (hr : r ≤ 4) : noteLabel (r + 1) 0 = noteLabel r 12 := by
  interval_cases r <;> decide

/-- The function `findNearestNoteDiff` on a frequency of the bucket `k` that
is candidate `j` of the range `k` or less than half a cent step above it. -/
theorem findNearestNoteDiff_near {F : Type} [LinearOrderedField F] [FloorRing F] (freq : F)
    (k : Nat) (hk : k ≤ 6) (hlo : noteCstart.getD k 0 ≤ freq)
    (hhi : k < 6 → freq < noteCstart.getD (k + 1) 0)
    (htop : freq ≤ 2 * noteCstart.getD 6 0 * HALFNOTEFACTOR)
    (j : Nat) (hj : j ≤ 12) (hjlo : candidate (noteCstart.getD k 0) j ≤ freq)
    (hnear : freq - candidate (noteCstart.getD k 0) j
      < 0.5 * ((TWELFTH_SQ2 - 1) * candidate (noteCstart.getD k 0) j / 100))
    (hmid : j < 12 → freq - candidate (noteCstart.getD k 0) j
      ≤ candidate (noteCstart.getD k 0) (j + 1) - freq)
    (name : String) (d : Int) :
    findNearestNoteDiff freq name d = some ((k : Int), noteLabel k j, 0) := by
  have hsel := findNoteInRange_select freq k hk (dist_lt_FLT_MAX freq k hk hlo htop) j hj
    hjlo hmid name
  rw [centOf_eq_zero _ _ (candidate_pos _ (noteCstart_pos k hk) j) (sub_nonneg.2 hjlo) hnear]
    at hsel
  exact (findNearest_of_accept freq k (findNoteRange_of_bucket freq k hk hlo hhi htop)
    name _ 0 hsel (by decide) d).2

/-- C15. Round trip over the reference table: for every range `r` in 0..6 and
every index `i` in 0..12, `findNearestNoteDiff` on the reference frequency
`noteCstart[r] * TWELFTH_SQ2 ^ i` returns a non-negative value (the range `r`,
or `r + 1` for the top candidate of the ranges 0..4), the label of note `i` of
range `r` and the cent deviation 0; the lowest start maps to range 0, label c,
deviation 0. -/
theorem findNearestNoteDiff_reference {F : Type} [LinearOrderedField F] [FloorRing F]
    (r i : Nat) (hr : r ≤ 6) (hi : i ≤ 12) (name : String) (d : Int) :
    (∃ ret : Int, 0 ≤ ret ∧ (ret = r ∨ (i = 12 ∧ r ≤ 4 ∧ ret = r + 1)) ∧
      findNearestNoteDiff (noteCstart.getD r 0 * TWELFTH_SQ2 ^ i : F) name d
        = some (ret, noteLabel r i, 0)) ∧
    findNearestNoteDiff (noteCstart.getD 0 0 : F) name d = some (0, "c", 0) := by
  have hT : (0 : F) < TWELFTH_SQ2 - 1 := sub_pos.2 TWELFTH_SQ2_gt_one
  have hmain : ∀ (r i : Nat), r ≤ 6 → i ≤ 12 → (i ≤ 11 ∨ 5 ≤ r) →
      findNearestNoteDiff (candidate (noteCstart.getD r (0 : F)) i) name d
        = some ((r : Int), noteLabel r i, 0) := by
    intro r i hr hi hcase
    have h0 := noteCstart_pos (F := F) r hr
    have hci := candidate_pos (noteCstart.getD r (0 : F)) h0 i
    have hlo : noteCstart.getD r (0 : F) ≤ candidate (noteCstart.getD r (0 : F)) i := by
      have := candidate_le (noteCstart.getD r (0 : F)) h0 0 i (by omega)
      rwa [candidate_zero] at this
    have hhi : r < 6 → candidate (noteCstart.getD r (0 : F)) i
        < noteCstart.getD (r + 1) (0 : F) := by
      intro hr6
      rcases Nat.lt_or_ge i 12 with hi11 | hi12
      · exact lt_of_le_of_lt (candidate_le _ h0 i 11 (by omega)) (candidate_11_lt_next r hr6)
      · have hi12 : i = 12 := by omega
        have hr5 : r = 5 := by omega
        subst hi12
        subst hr5
        exact candidate_12_top.1
    have htop : candidate (noteCstart.getD r (0 : F)) i
        ≤ 2 * noteCstart.getD 6 (0 : F) * HALFNOTEFACTOR := by
      rcases Nat.lt_or_ge r 6 with hr6 | hr6
      · have h1 := hhi hr6
        have h2 : noteCstart.getD (r + 1) (0 : F) ≤ noteCstart.getD 6 (0 : F) := by
          rcases Nat.lt_or_eq_of_le (show r + 1 ≤ 6 by omega) with h | h
          · exact le_of_lt (noteCstart_mono (r + 1) 6 h (by decide))
          · rw [h]
        have h3 := (noteCstart_order (F := F)).2.2.2.2.2.2.2
        linarith
      · have hr6 : r = 6 := by omega
        subst hr6
        exact le_trans (candidate_le _ h0 i 12 hi) candidate_12_top.2
    refine findNearestNoteDiff_near _ r hr hlo hhi htop i hi le_rfl ?_ ?_ name d
    · rw [sub_self]
      exact mul_pos (by norm_num) (div_pos (mul_pos hT hci) (by norm_num))
    · intro _
      rw [sub_self]
      exact sub_nonneg.2 (le_of_lt (candidate_lt _ h0 i (i + 1) (by omega)))
  constructor
  · by_cases hcase : i ≤ 11 ∨ 5 ≤ r
    · exact ⟨r, by omega, Or.inl rfl, hmain r i hr hi hcase⟩
    · have hi12 : i = 12 := by omega
      have hr4 : r ≤ 4 := by omega
      subst hi12
      obtain ⟨h1, h2, h3, h4⟩ := candidate_12_next (F := F) r hr4
      have hhi : r + 1 < 6 → candidate (noteCstart.getD r (0 : F)) 12
          < noteCstart.getD (r + 1 + 1) (0 : F) := fun _ => h2
      have htop : candidate (noteCstart.getD r (0 : F)) 12
          ≤ 2 * noteCstart.getD 6 (0 : F) * HALFNOTEFACTOR := by
        have h5 : noteCstart.getD (r + 2) (0 : F) ≤ noteCstart.getD 6 (0 : F) := by
          rcases Nat.lt_or_eq_of_le (show r + 2 ≤ 6 by omega) with h | h
          · exact le_of_lt (noteCstart_mono (r + 2) 6 h (by decide))
          · rw [h]
        have h6 := (noteCstart_order (F := F)).2.2.2.2.2.2.2
        linarith
      have h := findNearestNoteDiff_near (candidate (noteCstart.getD r (0 : F)) 12)
        (r + 1) (by omega) h1 hhi htop 0 (by decide)
        (by rw [candidate_zero]; exact h1) h3 (fun _ => h4) name d
      rw [noteLabel_next r hr4] at h
      refine ⟨((r + 1 : Nat) : Int), by omega, Or.inr ⟨rfl, hr4, by push_cast; rfl⟩, h⟩
  · have h := hmain 0 0 (by decide) (by decide) (Or.inl (by decide))
    rw [candidate_zero] at h
    exact h

/-- Witness for C15: the reference frequency of note 6 of range 4 is labelled
fis3 with deviation 0. -/
theorem findNearestNoteDiff_reference_witness :
    ∃ ret : Int, 0 ≤ ret ∧
      findNearestNoteDiff (noteCstart.getD 4 0 * TWELFTH_SQ2 ^ 6 : ℚ) "" 0
        = some (ret, "fis3", 0) := by
  obtain ⟨ret, h1, -, h3⟩ :=
    (findNearestNoteDiff_reference (F := ℚ) 4 6 (by decide) (by decide) "" 0).1
  exact ⟨ret, h1, h3⟩

/-! ## Segmentation: the hysteresis machine -/

/-- Every detected edge is at a sample strictly above the upper threshold. -/
theorem detectedEdges_above (pb : Nat → Nat) (lo up : Nat) :
    ∀ (n : Nat) (side : Bool) (i : Nat), ∀ e ∈ detectedEdges pb lo up side i n, pb e > up := by
  intro n
  induction n with
  | zero => intro side i e he; cases side <;> simp [detectedEdges] at he
  | succ n ih =>
    intro side i e he
    cases side with
    | true =>
      simp only [detectedEdges] at he
      exact ih _ _ e he
    | false =>
      simp only [detectedEdges] at he
      split at he
      · rename_i hup
        rcases List.mem_cons.1 he with h | h
        · rw [h]; exact hup
        · exact ih _ _ e h
      · exact ih _ _ e he

/-- Before the first edge detected from the high side, and between any two
consecutive detected edges, there is a sample at or below the lower threshold. -/
theorem detectedEdges_gap (pb : Nat → Nat) (lo up : Nat) :
    ∀ (n : Nat) (side : Bool) (i : Nat),
      (side = true → ∀ e0 rest, detectedEdges pb lo up side i n = e0 :: rest →
        ∃ j, i ≤ j ∧ j < e0 ∧ pb j ≤ lo) ∧
      (∀ k, k + 1 < (detectedEdges pb lo up side i n).length →
        ∃ j, (detectedEdges pb lo up side i n).getD k 0 < j ∧
          j < (detectedEdges pb lo up side i n).getD (k + 1) 0 ∧ pb j ≤ lo) := by
  intro n
  induction n with
  | zero =>
    intro side i
    cases side <;> simp [detectedEdges]
  | succ n ih =>
    intro side i
    cases side with
    | true =>
      by_cases hlow : pb i ≤ lo
      · have e : detectedEdges pb lo up true i (n + 1)
            = detectedEdges pb lo up false (i + 1) n := by
          simp [detectedEdges, hlow]
        rw [e]
        refine ⟨?_, (ih false (i + 1)).2⟩
        intro _ e0 rest hes
        have hmem : e0 ∈ detectedEdges pb lo up false (i + 1) n := by
          rw [hes]; exact List.mem_cons_self _ _
        have hb := detectedEdges_bounds pb lo up n false (i + 1) e0 hmem
        exact ⟨i, le_rfl, by omega, hlow⟩
      · have e : detectedEdges pb lo up true i (n + 1)
            = detectedEdges pb lo up true (i + 1) n := by
          simp [detectedEdges, hlow]
        rw [e]
        refine ⟨?_, (ih true (i + 1)).2⟩
        intro _ e0 rest hes
        obtain ⟨j, h1, h2, h3⟩ := (ih true (i + 1)).1 rfl e0 rest hes
        exact ⟨j, by omega, h2, h3⟩
    | false =>
      by_cases hup : pb i > up
      · have e : detectedEdges pb lo up false i (n + 1)
            = i :: detectedEdges pb lo up true (i + 1) n := by
          simp [detectedEdges, hup]
        rw [e]
        refine ⟨fun h => absurd h (by decide), ?_⟩
        intro k hk
        cases k with
        | zero =>
          cases hes : detectedEdges pb lo up true (i + 1) n with
          | nil => rw [hes] at hk; simp at hk
          | cons e0 rest =>
            obtain ⟨j, h1, h2, h3⟩ := (ih true (i + 1)).1 rfl e0 rest hes
            exact ⟨j, by simp only [List.getD_cons_zero]; omega,
              by simp only [List.getD_cons_succ, List.getD_cons_zero]; exact h2, h3⟩
        | succ k =>
          have hk2 : k + 1 < (detectedEdges pb lo up true (i + 1) n).length := by
            simp only [List.length_cons] at hk
            omega
          obtain ⟨j, h1, h2, h3⟩ := (ih true (i + 1)).2 k hk2
          exact ⟨j, by simp only [List.getD_cons_succ]; exact h1,
            by simp only [List.getD_cons_succ]; exact h2, h3⟩
      · have e : detectedEdges pb lo up false i (n + 1)
            = detectedEdges pb lo up false (i + 1) n := by
          simp [detectedEdges, hup]
        rw [e]
        exact ⟨fun h => absurd h (by decide), (ih false (i + 1)).2⟩

/-- C24. Segmentation is a two-state hysteresis machine over the samples at
the indices `MINTICDIFF..d_len-1`: on the high side a sample at or below
`lower_wc` moves to the low side and nothing else changes the state; on the
low side a sample strictly above `upper_wc` records a rising edge at that
index and moves to the high side. Every detected edge index `e` has
`data[e] > upper_wc`, and between two consecutive detected edges there is an
index with a sample at or below `lower_wc`. -/
theorem segmentation_hysteresis {F : Type} (s : sADCData F) (pb : Nat → Nat)
    (lower_wc upper_wc : Nat) :
    (∀ (st : LoopState) (i : Nat), st.signal_side = true →
      segStep pb lower_wc upper_wc st i
        = if pb i ≤ lower_wc then { st with signal_side := false } else st) ∧
    (∀ (st : LoopState) (i : Nat), st.signal_side = false → ¬ pb i > upper_wc →
      segStep pb lower_wc upper_wc st i = st) ∧
    (∀ (st : LoopState) (i : Nat), st.signal_side = false → pb i > upper_wc →
      (segStep pb lower_wc upper_wc st i).signal_side = true ∧
      (segStep pb lower_wc upper_wc st i).lastPos = i ∧
      (segStep pb lower_wc upper_wc st i).allPeriods = (st.allPeriods + 1) % 65536 ∧
      (st.sideChanges < MAXSIDECHANGES - 1 →
        (segStep pb lower_wc upper_wc st i).pos = st.pos ++ [i])) ∧
    (storedEdges s pb = (edgesOf s pb).take 199 ∧
      (segmentation pb s.d_len s.d_mean s.d_max s.d_min).allPeriods
        = (edgesOf s pb).length % 65536) ∧
    (∀ e ∈ edgesOf s pb, MINTICDIFF ≤ e ∧ e < s.d_len ∧
      pb e > upperThreshold s.d_mean s.d_max) ∧
    (∀ k, k + 1 < (edgesOf s pb).length →
      ∃ j, (edgesOf s pb).getD k 0 < j ∧ j < (edgesOf s pb).getD (k + 1) 0 ∧
        pb j ≤ lowerThreshold s.d_mean s.d_min) := by
  refine ⟨?_, ?_, ?_, ?_, ?_, ?_⟩
  · intro st i hs
    simp only [segStep, hs, if_true]
  · intro st i hs hup
    simp only [segStep, hs, hup, if_false]
    simp
  · intro st i hs hup
    simp only [segStep, hs, hup, if_true]
    refine ⟨by simp, by simp, by simp, ?_⟩
    intro hroom
    simp [hroom]
  · exact ⟨(segmentation_spec s pb).1, (segmentation_spec s pb).2.2.1⟩
  · intro e he
    obtain ⟨h1, h2⟩ := edgesOf_lt_len s pb e he
    exact ⟨h1, h2, detectedEdges_above pb _ _ _ _ _ e he⟩
  · exact (detectedEdges_gap pb _ _ _ _ _).2

/-- The five edges of the square wave on 40 samples. -/
theorem sampleInput_40_edges : edgesOf (sampleInput ℚ 40) squareWave = [4, 12, 20, 28, 36] := by
  decide

/-- Witness for C24: the square wave on 40 samples, with the thresholds 34 and
66. The edge 12 is at a sample above the upper threshold, and between the
edges 4 and 12 there is a sample at or below the lower threshold. -/
theorem segmentation_hysteresis_witness :
    (MINTICDIFF ≤ 12 ∧ 12 < (sampleInput ℚ 40).d_len ∧
      squareWave 12 > upperThreshold (sampleInput ℚ 40).d_mean (sampleInput ℚ 40).d_max) ∧
    ∃ j, (edgesOf (sampleInput ℚ 40) squareWave).getD 0 0 < j ∧
      j < (edgesOf (sampleInput ℚ 40) squareWave).getD (0 + 1) 0 ∧
      squareWave j ≤ lowerThreshold (sampleInput ℚ 40).d_mean (sampleInput ℚ 40).d_min :=
  ⟨(segmentation_hysteresis (sampleInput ℚ 40) squareWave 34 66).2.2.2.2.1 12
      (by rw [sampleInput_40_edges]; decide),
    (segmentation_hysteresis (sampleInput ℚ 40) squareWave 34 66).2.2.2.2.2 0
      (by rw [sampleInput_40_edges]; decide)⟩

/-! ## Segmentation: initial side and thresholds -/

/-- The initial side in terms of the four first samples: `temp` counts
`pb[0]` twice. -/
theorem initialSide_iff (pb : Nat → Nat) (u : Nat) :
    initialSide pb u = true ↔
      2 * (if pb 0 > u then 1 else 0) + (if pb 1 > u then 1 else 0)
        + (if pb 2 > u then 1 else 0) + (if pb 3 > u then 1 else 0) > 2 := by
  simp only [initialSide, MINTICDIFF, List.range, List.range.loop, List.foldl_cons,
    List.foldl_nil, decide_eq_true_eq]
  by_cases h0 : pb 0 > u <;> by_cases h1 : pb 1 > u <;> by_cases h2 : pb 2 > u <;>
    by_cases h3 : pb 3 > u <;> simp [h0, h1, h2, h3]

/-- C25, the code at the failing input. On the pulse wave with the
statistics `peak_mean` computes for it the upper threshold is 50 and only 2
of the first 4 samples are above it, yet the segmentation starts on the high
side: the sample `pb[0]` is counted once before the loop of lines 137-144 and
once more in it. -/
theorem initialSide_counts_first_twice :
    peak_mean (pairInput ℚ) = some (100, 0, 25) ∧
    upperThreshold (pairInput ℚ).d_mean (pairInput ℚ).d_max = 50 ∧
    countAbove pairWave 50 = 2 ∧
    initialSide pairWave 50 = true ∧
    (initState pairWave (upperThreshold (pairInput ℚ).d_mean (pairInput ℚ).d_max)).signal_side
      = true ∧
    ∀ (pb : Nat → Nat) (u : Nat), initialSide pb u = true ↔
      2 * (if pb 0 > u then 1 else 0) + (if pb 1 > u then 1 else 0)
        + (if pb 2 > u then 1 else 0) + (if pb 3 > u then 1 else 0) > 2 :=
  ⟨by rfl, by decide, by decide, by decide, by decide, initialSide_iff⟩

/-- C26, counterexample. With the same minimum 40 and the means 50 and 45 the
scaled lower threshold is within `MAXADCDIFF` of the minimum and the clamped
lower thresholds are 46 and 41; with the same maximum 60 and the means 50 and
55 the clamped upper thresholds are 54 and 59. The clamped value is not at a
fixed offset from the extreme. -/
theorem threshold_clamp_counterexample :
    (scaledLower 50 40 ≤ 40 + MAXADCDIFF ∧ scaledLower 45 40 ≤ 40 + MAXADCDIFF ∧
      lowerThreshold 50 40 = 46 ∧ lowerThreshold 45 40 = 41) ∧
    (scaledUpper 50 60 + MAXADCDIFF ≥ 60 ∧ scaledUpper 55 60 + MAXADCDIFF ≥ 60 ∧
      upperThreshold 50 60 = 54 ∧ upperThreshold 55 60 = 59) ∧
    ¬ (∃ c : Int, ∀ d_mean min_v : Nat, d_mean < 65536 → min_v ≤ d_mean →
        scaledLower d_mean min_v ≤ min_v + MAXADCDIFF →
        (lowerThreshold d_mean min_v : Int) = (min_v : Int) + c) := by
  refine ⟨by decide, by decide, ?_⟩
  rintro ⟨c, hc⟩
  have h1 := hc 50 40 (by decide) (by decide) (by decide)
  have h2 := hc 45 40 (by decide) (by decide) (by decide)
  have e1 : lowerThreshold 50 40 = 46 := by decide
  have e2 : lowerThreshold 45 40 = 41 := by decide
  rw [e1] at h1
  rw [e2] at h2
  omega

/-- C26, amended. When the scaled lower threshold is within `MAXADCDIFF` of
`d_min` the lower threshold is `d_mean - MAXADCDIFF/2`, and when the scaled
upper threshold is within `MAXADCDIFF` of `d_max` the upper threshold is
`d_mean + MAXADCDIFF/2` (both as `uint16_t`): a fixed offset of 4 from the
mean; otherwise the thresholds are the scaled values. -/
theorem threshold_clamp (d_mean min_v max_v : Nat) :
    (scaledLower d_mean min_v ≤ min_v + MAXADCDIFF →
      lowerThreshold d_mean min_v = toU16 ((d_mean : Int) - 4) ∧
      (4 ≤ d_mean → d_mean < 65536 → lowerThreshold d_mean min_v = d_mean - 4)) ∧
    (¬ scaledLower d_mean min_v ≤ min_v + MAXADCDIFF →
      lowerThreshold d_mean min_v = scaledLower d_mean min_v) ∧
    (scaledUpper d_mean max_v + MAXADCDIFF ≥ max_v →
      upperThreshold d_mean max_v = toU16 ((d_mean : Int) + 4) ∧
      (d_mean + 4 < 65536 → upperThreshold d_mean max_v = d_mean + 4)) ∧
    (¬ scaledUpper d_mean max_v + MAXADCDIFF ≥ max_v →
      upperThreshold d_mean max_v = scaledUpper d_mean max_v) := by
  refine ⟨?_, ?_, ?_, ?_⟩
  · intro h
    have hc : ((scaledLower d_mean min_v : Nat) : Int) ≤ (min_v : Int) + (MAXADCDIFF : Int) := by
      exact_mod_cast h
    have e : lowerThreshold d_mean min_v = toU16 ((d_mean : Int) - 4) := by
      unfold lowerThreshold
      simp only [scaledLower] at hc
      simp only [hc, if_true]
      rfl
    refine ⟨e, ?_⟩
    intro h4 h16
    rw [e]
    unfold toU16
    omega
  · intro h
    have hc : ¬ ((scaledLower d_mean min_v : Nat) : Int) ≤ (min_v : Int) + (MAXADCDIFF : Int) := by
      intro hcon
      apply h
      exact_mod_cast hcon
    unfold lowerThreshold
    simp only [scaledLower] at hc
    simp only [hc, if_false]
    rfl
  · intro h
    have hc : ((scaledUpper d_mean max_v : Nat) : Int) ≥ (max_v : Int) - (MAXADCDIFF : Int) := by
      have : (max_v : Int) ≤ ((scaledUpper d_mean max_v + MAXADCDIFF : Nat) : Int) := by
        exact_mod_cast h
      push_cast at this
      omega
    have e : upperThreshold d_mean max_v = toU16 ((d_mean : Int) + 4) := by
      unfold upperThreshold
      simp only [scaledUpper] at hc
      simp only [hc, if_true]
      rfl
    refine ⟨e, ?_⟩
    intro h16
    rw [e]
    unfold toU16
    omega
  · intro h
    have hc : ¬ ((scaledUpper d_mean max_v : Nat) : Int) ≥ (max_v : Int) - (MAXADCDIFF : Int) := by
      intro hcon
      apply h
      have : (max_v : Int) ≤ ((scaledUpper d_mean max_v + MAXADCDIFF : Nat) : Int) := by
        push_cast
        omega
      exact_mod_cast this
    unfold upperThreshold
    simp only [scaledUpper] at hc
    simp only [hc, if_false]
    rfl

/-- Witness for C26, amended: mean 50 with minimum 40 and maximum 60. -/
theorem threshold_clamp_witness :
    lowerThreshold 50 40 = 50 - 4 ∧ upperThreshold 50 60 = 50 + 4 :=
  ⟨((threshold_clamp 50 40 60).1 (by decide)).2 (by decide) (by decide),
    ((threshold_clamp 50 40 60).2.2.1 (by decide)).2 (by decide)⟩

/-- The thresholds bracket the mean when the clamped values `d_mean - 4` and
`d_mean + 4` do not wrap around in 16 bits. -/
theorem thresholds_bracket (d_min d_mean d_max : Nat) (h1 : d_min ≤ d_mean)
    (h2 : d_mean ≤ d_max) (_h3 : d_max - d_min > MAXADCDIFF) (hmax : d_max < 65536)
    (hlo : 4 ≤ d_mean) (hhi : d_mean + 4 < 65536) :
    lowerThreshold d_mean d_min < d_mean ∧ d_mean < upperThreshold d_mean d_max := by
  have hq1 : Int.tdiv ((d_mean : Int) - (d_min : Int)) (ANASPANDIV : Int)
      = ((d_mean : Int) - (d_min : Int)) / 3 :=
    Int.tdiv_eq_ediv (by omega) (by decide)
  have hq2 : Int.tdiv ((d_max : Int) - (d_mean : Int)) (ANASPANDIV : Int)
      = ((d_max : Int) - (d_mean : Int)) / 3 :=
    Int.tdiv_eq_ediv (by omega) (by decide)
  constructor
  · unfold lowerThreshold
    simp only [hq1, MAXADCDIFF, toU16]
    split <;> omega
  · unfold upperThreshold
    simp only [hq2, MAXADCDIFF, toU16]
    split <;> omega

set_option maxRecDepth 100000 in
/-- The statistics `peak_mean` computes for the spike wave on 64 samples. -/
theorem spikeInput_peak_mean : peak_mean (spikeInput ℚ) = some (100, 0, 3) := by
  decide

/-- C27, the code at the failing input. On the spike wave `peak_mean` gives
the statistics min 0, mean 3, max 100, which satisfy `d_min ≤ d_mean ≤ d_max`
and `d_max - d_min > MAXADCDIFF`; the lower threshold is the 16-bit value of
`3 - 4`, that is 65535, above the mean and above the upper threshold 35. For
statistics with `4 ≤ d_mean ≤ 65531` the thresholds bracket the mean. -/
theorem thresholds_wrap_below_four :
    peak_mean (spikeInput ℚ) = some (100, 0, 3) ∧
    lowerThreshold (spikeInput ℚ).d_mean (spikeInput ℚ).d_min = 65535 ∧
    upperThreshold (spikeInput ℚ).d_mean (spikeInput ℚ).d_max = 35 ∧
    ¬ (lowerThreshold (spikeInput ℚ).d_mean (spikeInput ℚ).d_min < (spikeInput ℚ).d_mean) ∧
    ∀ d_min d_mean d_max : Nat, d_min ≤ d_mean → d_mean ≤ d_max →
      d_max - d_min > MAXADCDIFF → d_max < 65536 → 4 ≤ d_mean → d_mean + 4 < 65536 →
      lowerThreshold d_mean d_min < d_mean ∧ d_mean < upperThreshold d_mean d_max := by
  exact ⟨spikeInput_peak_mean, by decide, by decide, by decide, thresholds_bracket⟩

/-- The number of stored edges is the number of detected edges capped at 199. -/
theorem storedEdges_length {F : Type} (s : sADCData F) (pb : Nat → Nat) :
    (storedEdges s pb).length = min (edgesOf s pb).length 199 := by
  unfold storedEdges
  rw [(segmentation_spec s pb).1, List.length_take, Nat.min_comm]

/-- The two counters written by the evaluation part on two or more stored edges. -/
theorem evaluate_counts {F : Type} [LinearOrderedField F] (sqrtf : F → F) (s : sADCData F)
    (st : LoopState) (h : ¬ st.sideChanges ≤ 1) :
    ∃ out, evaluate sqrtf s st = (0, some out) ∧
      out.d_numCP = toU16 ((st.allPeriods : Int) - 1) ∧
      out.d_numPeriodes = toU16 ((st.sideChanges : Int) - 1) := by
  unfold evaluate
  simp only [h, if_false]
  exact ⟨_, rfl, rfl, rfl⟩

set_option maxRecDepth 100000 in
/-- The square wave on 1600 samples has 200 detected edges, the last at 1596. -/
theorem squareWave_1600_edges :
    (edgesOf (sampleInput ℚ 1600) squareWave).length = 200 ∧
    (edgesOf (sampleInput ℚ 1600) squareWave).getLastD 0 = 1596 := by
  decide

/-- C28, the code at the failing input. On the square wave with 1600 samples
200 edges are detected, 199 positions are stored (the guard of line 176 is
`sideChanges < MAXSIDECHANGES-1`), the call returns 0 with `d_numCP = 199`
and `d_numPeriodes = 198`; for every input the number of stored edges is
`min(E, 199)`. -/
theorem storedEdges_capacity_199 :
    (edgesOf (sampleInput ℚ 1600) squareWave).length = 200 ∧
    (storedEdges (sampleInput ℚ 1600) squareWave).length = 199 ∧
    (storedEdges (sampleInput ℚ 1600) squareWave).length ≠ min 200 MAXSIDECHANGES ∧
    (∃ out, calcFreqAnalog (fun x => x) (some (sampleInput ℚ 1600)) = (0, some out) ∧
      out.d_numCP = 199 ∧ out.d_numPeriodes = 198) ∧
    (segmentation squareWave 1600 50 100 0).lastPos = 1596 ∧
    ∀ (s : sADCData ℚ) (pb : Nat → Nat),
      (storedEdges s pb).length = min (edgesOf s pb).length 199 := by
  have hE := squareWave_1600_edges.1
  have hS : (storedEdges (sampleInput ℚ 1600) squareWave).length = 199 := by
    rw [storedEdges_length, hE]
    decide
  obtain ⟨-, hsc, hall, hlp⟩ := segmentation_spec (sampleInput ℚ 1600) squareWave
  rw [hE] at hsc hall
  refine ⟨hE, hS, by rw [hS]; decide, ?_, ?_, fun s pb => storedEdges_length s pb⟩
  · rw [calcFreqAnalog_of_valid _ _ squareWave (sampleInput_valid ℚ 1600 (by decide))
      (sampleInput_guard ℚ 1600)]
    obtain ⟨out, h1, h2, h3⟩ := evaluate_counts (fun x : ℚ => x) (sampleInput ℚ 1600)
      (segmentation squareWave (sampleInput ℚ 1600).d_len
        (sampleInput ℚ 1600).d_mean (sampleInput ℚ 1600).d_max
        (sampleInput ℚ 1600).d_min) (by rw [hsc]; decide)
    rw [hall] at h2
    rw [hsc] at h3
    exact ⟨out, h1, h2.trans (by unfold toU16; omega), h3.trans (by unfold toU16; omega)⟩
  · exact hlp.trans squareWave_1600_edges.2

/-! ## The candidate loop on every range: nearest candidate, label length, rounding -/

/-- The largest finite `float` is positive. -/
theorem FLT_MAX_pos {F : Type} [LinearOrderedField F] : (0 : F) < FLT_MAX := by
  unfold FLT_MAX
  norm_num

/-- For a frequency at or below `-FLT_MAX` no pass of the candidate loop
assigns `idxMin` or `freqMinDist`: no distance is below `FLT_MAX`. -/
theorem noteLoop_unassigned {F : Type} [LinearOrderedField F] (freq : F)
    (hf : freq ≤ -FLT_MAX) :
    ∀ (n i : Nat) (st : NoteLoopState F), st.idxMin = none → st.freqMinDist = none →
      st.minDist = FLT_MAX → 0 < st.noteFreq →
      (noteLoop freq n i st).idxMin = none ∧ (noteLoop freq n i st).freqMinDist = none := by
  intro n
  induction n with
  | zero => intro i st h1 h2 _ _; exact ⟨h1, h2⟩
  | succ n ih =>
    intro i st h1 h2 h3 h4
    have hno : ¬ |freq - st.noteFreq| < st.minDist := by
      rw [h3, not_lt, abs_of_neg (by linarith [FLT_MAX_pos (F := F)])]
      linarith
    have hstep : noteStep freq st i = { st with noteFreq := st.noteFreq * TWELFTH_SQ2 } := by
      simp only [noteStep, hno, if_false]
    show (noteLoop freq n (i + 1) (noteStep freq st i)).idxMin = none ∧
      (noteLoop freq n (i + 1) (noteStep freq st i)).freqMinDist = none
    rw [hstep]
    exact ih (i + 1) _ h1 h2 h3
      (mul_pos h4 (lt_trans zero_lt_one TWELFTH_SQ2_gt_one))

/-- On a range in 0..6 the call with a frequency at or below `-FLT_MAX` reads
`idxMin` and `freqMinDist` without a value. -/
theorem findNoteInRange_unassigned {F : Type} [LinearOrderedField F] [FloorRing F] (freq : F)
    (hf : freq ≤ -FLT_MAX) (k : Nat) (hk : k ≤ 6) (name : String) :
    (noteScan freq (k : Int)).idxMin = none ∧ findNoteInRange freq (k : Int) name = none := by
  have h := noteLoop_unassigned freq hf 13 0
    { minDist := FLT_MAX, idxMin := none, freqMinDist := none,
      noteFreq := noteCstart.getD (k : Int).toNat 0 } rfl rfl rfl
    (by rw [Int.toNat_natCast]; exact noteCstart_pos k hk)
  have hr : ¬ ((k : Int) < 0 ∨ (k : Int) > 6) := by omega
  have hidx : (noteScan freq (k : Int)).idxMin = none := h.1
  refine ⟨hidx, ?_⟩
  unfold findNoteInRange
  simp only [hr, if_false, hidx]

/-- The candidate selected by the loop is a nearest one, and the first of the
nearest ones, when the start of the range is at a distance below `FLT_MAX`. -/
theorem noteScan_nearest {F : Type} [LinearOrderedField F] (freq : F) (k : Nat) (hk : k ≤ 6)
    (hmax : |freq - noteCstart.getD k 0| < FLT_MAX) :
    ∃ i, i ≤ 12 ∧ (noteScan freq (k : Int)).idxMin = some i ∧
      (noteScan freq (k : Int)).freqMinDist = some (candidate (noteCstart.getD k 0) i) ∧
      (noteScan freq (k : Int)).minDist = freq - candidate (noteCstart.getD k 0) i ∧
      (∀ j, j ≤ 12 → |freq - candidate (noteCstart.getD k 0) i|
        ≤ |freq - candidate (noteCstart.getD k 0) j|) ∧
      (∀ j, j < i → |freq - candidate (noteCstart.getD k 0) i|
        < |freq - candidate (noteCstart.getD k 0) j|) := by
  have h0 := noteCstart_pos (F := F) k hk
  obtain ⟨-, i, hi, hidx, hfmd, hmd, hcase⟩ := noteScan_inv freq k hk hmax
  refine ⟨i, by omega, hidx, hfmd, hmd, ?_, ?_⟩
  · intro j hj
    rcases hcase with ⟨hlt, hN⟩ | ⟨hle, hTr⟩ | ⟨hle, hL, hnear⟩
    · rw [abs_of_neg (by linarith)]
      rcases Nat.lt_or_ge j i with hji | hji
      · rcases hN with hz | ⟨h1, hprev, hnear⟩
        · omega
        · have hc := candidate_le (noteCstart.getD k (0 : F)) h0 j (i - 1) (by omega)
          rw [abs_of_nonneg (by linarith)]
          linarith
      · have hc := candidate_le (noteCstart.getD k (0 : F)) h0 i j hji
        rw [abs_of_neg (by linarith)]
        linarith
    · have hc := candidate_le (noteCstart.getD k (0 : F)) h0 j i (by omega)
      rw [abs_of_nonneg (by linarith), abs_of_nonneg (by linarith)]
      linarith
    · rw [abs_of_nonneg (by linarith)]
      rcases Nat.lt_or_ge i j with hij | hij
      · have hc := candidate_le (noteCstart.getD k (0 : F)) h0 (i + 1) j hij
        rw [abs_of_nonpos (by linarith)]
        linarith
      · have hc := candidate_le (noteCstart.getD k (0 : F)) h0 j i hij
        rw [abs_of_nonneg (by linarith)]
        linarith
  · intro j hj
    rcases hcase with ⟨hlt, hN⟩ | ⟨hle, hTr⟩ | ⟨hle, hL, hnear⟩
    · rw [abs_of_neg (by linarith)]
      rcases hN with hz | ⟨h1, hprev, hnear⟩
      · omega
      · have hc := candidate_le (noteCstart.getD k (0 : F)) h0 j (i - 1) (by omega)
        rw [abs_of_nonneg (by linarith)]
        linarith
    · have hc := candidate_lt (noteCstart.getD k (0 : F)) h0 j i hj
      rw [abs_of_nonneg (by linarith), abs_of_nonneg (by linarith)]
      linarith
    · have hc := candidate_lt (noteCstart.getD k (0 : F)) h0 j i hj
      rw [abs_of_nonneg (by linarith), abs_of_nonneg (by linarith)]
      linarith

/-- The labels of the ranges 0..6 have at most 4 characters: a table name of
at most 3 characters and at most one digit. -/
theorem noteLabel_length (r i : Nat) (hr : r ≤ 6) (hi : i ≤ 12) :
    (noteNames.getD i "").length ≤ 3 ∧ (noteLabel r i).length ≤ 4 := by
  interval_cases r <;> interval_cases i <;> decide

/-- C29, counterexample. For the finite frequency `-FLT_MAX` on range 3 no
distance is below the initial `minDist = FLT_MAX`: the loop selects no
candidate, `idxMin` is read without a value. -/
theorem findNoteInRange_nearest_counterexample :
    (noteScan (-FLT_MAX : ℚ) 3).idxMin = none ∧
    (noteScan (-FLT_MAX : ℚ) 3).minDist = FLT_MAX ∧
    findNoteInRange (-FLT_MAX : ℚ) 3 "" = none := by
  have h := findNoteInRange_unassigned (-FLT_MAX : ℚ) le_rfl 3 (by decide) ""
  refine ⟨h.1, ?_, h.2⟩
  have hno : ∀ c : ℚ, 0 < c → ¬ |(-FLT_MAX : ℚ) - c| < FLT_MAX := by
    intro c hc
    rw [not_lt, abs_of_neg (by linarith [FLT_MAX_pos (F := ℚ)])]
    linarith
  have hT : (0 : ℚ) < TWELFTH_SQ2 := lt_trans zero_lt_one TWELFTH_SQ2_gt_one
  have key : ∀ (n i : Nat) (st : NoteLoopState ℚ), st.minDist = FLT_MAX → 0 < st.noteFreq →
      (noteLoop (-FLT_MAX : ℚ) n i st).minDist = FLT_MAX := by
    intro n
    induction n with
    | zero => intro i st h1 _; exact h1
    | succ n ih =>
      intro i st h1 h2
      have hn : ¬ |(-FLT_MAX : ℚ) - st.noteFreq| < st.minDist := by
        rw [h1]
        exact hno st.noteFreq h2
      have hstep : noteStep (-FLT_MAX : ℚ) st i
          = { st with noteFreq := st.noteFreq * TWELFTH_SQ2 } := by
        simp only [noteStep, hn, if_false]
      show (noteLoop (-FLT_MAX : ℚ) n (i + 1) (noteStep (-FLT_MAX : ℚ) st i)).minDist = FLT_MAX
      rw [hstep]
      exact ih (i + 1) _ h1 (mul_pos h2 hT)
  exact key 13 0 _ rfl (noteCstart_pos 3 (by decide))

/-- C21, counterexample. For the frequency `-FLT_MAX` on range 0 the loop
assigns no index: the label is copied from `noteNames[idxMin]` with `idxMin`
without a value, so no label of at most 4 characters is determined. -/
theorem findNoteInRange_name_length_counterexample :
    (noteScan (-FLT_MAX : ℚ) 0).idxMin = none ∧
    ¬ ∃ cent label, findNoteInRange (-FLT_MAX : ℚ) 0 "" = some (cent, label) ∧
      label.length ≤ 4 := by
  have h := findNoteInRange_unassigned (-FLT_MAX : ℚ) le_rfl 0 (by decide) ""
  refine ⟨h.1, ?_⟩
  rintro ⟨cent, label, hc, -⟩
  have h2 : findNoteInRange (-FLT_MAX : ℚ) 0 "" = none := h.2
  rw [h2] at hc
  exact absurd hc (by simp)

/-- The cent computation of lines 186-194 is rounding half away from zero of
`minDist / oneCent` when `oneCent` is at least 0.03. -/
theorem centOf_round {F : Type} [LinearOrderedField F] [FloorRing F] (d c : F)
    (hone : (0.03 : F) ≤ (TWELFTH_SQ2 - 1) * c / 100) :
    centOf d c = roundHalfAway (d / ((TWELFTH_SQ2 - 1) * c / 100)) := by
  have hpos : (0 : F) < (TWELFTH_SQ2 - 1) * c / 100 := lt_of_lt_of_le (by norm_num) hone
  have hno : ¬ |(TWELFTH_SQ2 - 1) * c / 100| < (0.03 : F) := by
    rw [abs_of_pos hpos]
    exact not_lt.2 hone
  unfold centOf roundHalfAway
  simp only [hno, if_false]
  by_cases hd : d < 0
  · have hq : d / ((TWELFTH_SQ2 - 1) * c / 100) < 0 := div_neg_of_neg_of_pos hd hpos
    have hq2 : ¬ 0 ≤ d / ((TWELFTH_SQ2 - 1) * c / 100) := not_le.2 hq
    have hq3 : ¬ 0 ≤ d / ((TWELFTH_SQ2 - 1) * c / 100) - 0.5 := by
      rw [not_le]
      linarith [show (0 : F) < 0.5 by norm_num]
    simp only [hd, if_true, hq2, if_false, truncToInt, hq3]
    have e : -(d / ((TWELFTH_SQ2 - 1) * c / 100)) + 1 / 2
        = -(d / ((TWELFTH_SQ2 - 1) * c / 100) - 0.5) := by
      norm_num
      ring
    rw [e, Int.floor_neg, neg_neg]
  · have hd0 : 0 ≤ d := not_lt.1 hd
    have hq : 0 ≤ d / ((TWELFTH_SQ2 - 1) * c / 100) := div_nonneg hd0 (le_of_lt hpos)
    have hq3 : 0 ≤ d / ((TWELFTH_SQ2 - 1) * c / 100) + 0.5 := by
      linarith [show (0 : F) < 0.5 by norm_num]
    simp only [hd, if_false, hq, if_true, truncToInt, hq3]
    have e : d / ((TWELFTH_SQ2 - 1) * c / 100) + 1 / 2
        = d / ((TWELFTH_SQ2 - 1) * c / 100) + 0.5 := by
      norm_num
    rw [e]

/-- One cent of every candidate of the ranges 0..6 is at least 0.0388 Hz. -/
theorem oneCent_lower {F : Type} [LinearOrderedField F] (r : Nat) (hr : r ≤ 6) (k : Nat) :
    (0.0388 : F) ≤ (TWELFTH_SQ2 - 1) * candidate (noteCstart.getD r 0) k / 100 := by
  have h0 := noteCstart_pos (F := F) r hr
  have hT : (0 : F) < TWELFTH_SQ2 - 1 := sub_pos.2 TWELFTH_SQ2_gt_one
  have h1 : (noteCstart : List F).getD 0 0 ≤ noteCstart.getD r 0 := by
    rcases Nat.eq_zero_or_pos r with h | h
    · rw [h]
    · exact le_of_lt (noteCstart_mono 0 r h hr)
  have h2 : noteCstart.getD r (0 : F) ≤ candidate (noteCstart.getD r 0) k := by
    have := candidate_le (noteCstart.getD r (0 : F)) h0 0 k (Nat.zero_le k)
    rwa [candidate_zero] at this
  have h3 : (0.0388 : F) * 100 ≤ (TWELFTH_SQ2 - 1) * noteCstart.getD 0 0 := by
    simp only [noteCstart, List.getD_cons_zero, TWELFTH_SQ2]
    norm_num
  rw [le_div_iff₀ (by norm_num : (0 : F) < 100)]
  calc (0.0388 : F) * 100 ≤ (TWELFTH_SQ2 - 1) * noteCstart.getD 0 0 := h3
    _ ≤ (TWELFTH_SQ2 - 1) * candidate (noteCstart.getD r 0) k :=
      mul_le_mul_of_nonneg_left (le_trans h1 h2) (le_of_lt hT)

/-- Rounding half away from zero moves a value by at most one half. -/
theorem roundHalfAway_abs_le {F : Type} [LinearOrderedField F] [FloorRing F] (x : F) :
    ((|roundHalfAway x| : Int) : F) ≤ |x| + 1 / 2 := by
  unfold roundHalfAway
  by_cases hx : 0 ≤ x
  · simp only [hx, if_true]
    have h1 : 0 ≤ Int.floor (x + 1 / 2) := Int.floor_nonneg.2 (by linarith)
    rw [abs_of_nonneg h1, abs_of_nonneg hx]
    exact Int.floor_le _
  · simp only [hx, if_false]
    have hx2 : x < 0 := not_le.1 hx
    have h1 : 0 ≤ Int.floor (-x + 1 / 2) := Int.floor_nonneg.2 (by linarith)
    rw [abs_neg, abs_of_nonneg h1, abs_of_neg hx2]
    exact Int.floor_le _

/-- C30, counterexample. For the frequency `-FLT_MAX` on range 6 no candidate
is matched, so the call returns no rounded quotient `d / oneCent`: `idxMin`
and `freqMinDist` are read without a value. -/
theorem findNoteInRange_rounding_counterexample :
    (noteScan (-FLT_MAX : ℚ) 6).freqMinDist = none ∧
    ¬ ∃ (k : Nat) (label : String), findNoteInRange (-FLT_MAX : ℚ) 6 ""
      = some (roundHalfAway (((-FLT_MAX : ℚ) - candidate (noteCstart.getD 6 0) k)
          / ((TWELFTH_SQ2 - 1) * candidate (noteCstart.getD 6 0) k / 100)), label) := by
  have h := findNoteInRange_unassigned (-FLT_MAX : ℚ) le_rfl 6 (by decide) ""
  have h1 := noteLoop_unassigned (-FLT_MAX : ℚ) le_rfl 13 0
    { minDist := FLT_MAX, idxMin := none, freqMinDist := none,
      noteFreq := noteCstart.getD (6 : Int).toNat 0 } rfl rfl rfl
    (noteCstart_pos 6 (by decide))
  refine ⟨h1.2, ?_⟩
  rintro ⟨k, label, hc⟩
  have h2 : findNoteInRange (-FLT_MAX : ℚ) 6 "" = none := h.2
  rw [h2] at hc
  exact absurd hc (by simp)

/-! ## The signal simulation `ADC_Sim` -/

/-- Every stored sample is within `0..MAXADCVALUE`. -/
theorem storeSignal_le (signal : Int) : storeSignal signal ≤ MAXADCVALUE := by
  unfold storeSignal toU16 MAXADCVALUE
  split
  · decide
  · split
    · decide
    · omega

theorem sineLoop_spec {F : Type} [LinearOrderedField F] [FloorRing F] (sinf : F → F)
    (rand : Nat → Nat) (ampli mean noise n2 : Nat) (dFreq : F) :
    ∀ (n ix : Nat), (sineLoop sinf rand ampli mean noise n2 dFreq n ix).length = n ∧
      ∀ x ∈ sineLoop sinf rand ampli mean noise n2 dFreq n ix, x ≤ MAXADCVALUE := by
  intro n
  induction n with
  | zero => intro ix; simp [sineLoop]
  | succ n ih =>
    intro ix
    obtain ⟨h1, h2⟩ := ih (ix + 1)
    refine ⟨by simp only [sineLoop, List.length_cons, h1], ?_⟩
    intro x hx
    simp only [sineLoop, List.mem_cons] at hx
    rcases hx with h | h
    · rw [h]; exact storeSignal_le _
    · exact h2 x h

theorem rampLoop_spec {F : Type} [LinearOrderedField F] [FloorRing F] (type : Int)
    (rand : Nat → Nat) (ampli2 : Int) (noise n2 : Nat) (dTime periodeTime : F) :
    ∀ (n ix : Nat) (sTime : F),
      (rampLoop type rand ampli2 noise n2 dTime periodeTime n ix sTime).length = n ∧
      ∀ x ∈ rampLoop type rand ampli2 noise n2 dTime periodeTime n ix sTime,
        x ≤ MAXADCVALUE := by
  intro n
  induction n with
  | zero => intro ix sTime; simp [rampLoop]
  | succ n ih =>
    intro ix sTime
    obtain ⟨h1, h2⟩ := ih (ix + 1)
      (if sTime + dTime > periodeTime then sTime + dTime - periodeTime else sTime + dTime)
    refine ⟨by simp only [rampLoop, List.length_cons, h1], ?_⟩
    intro x hx
    simp only [rampLoop, List.mem_cons] at hx
    rcases hx with h | h
    · rw [h]; exact storeSignal_le _
    · exact h2 x h

/-- A call of `ADC_Sim` that returns 0 passed every check and stored the
samples of one of the two loops from the start of the buffer. -/
theorem ADC_Sim_zero_inv {F : Type} [LinearOrderedField F] [FloorRing F] (sinf : F → F)
    (pi : F) (rand : Nat → Nat) (sAD : Option (sADCData F)) (type : Int) (freq : F)
    (noise : Nat) (h : (ADC_Sim sinf pi rand sAD type freq noise).1 = 0) :
    ∃ s pb samples, sAD = some s ∧ s.data = some pb ∧
      (type = 0 ∨ type = 1 ∨ type = 2) ∧ noise ≤ MAXNOISE ∧ s.d_len ≠ 0 ∧
      samples.length = s.d_len ∧ (∀ x ∈ samples, x ≤ MAXADCVALUE) ∧
      ADC_Sim sinf pi rand sAD type freq noise
        = (0, some { s with data := some (writeSamples pb samples) }) := by
  unfold ADC_Sim at h ⊢
  by_cases h1 : type > 2 ∨ type < 0
  · rw [if_pos h1] at h
    simp at h
  rw [if_neg h1] at h ⊢
  by_cases h2 : freq ≤ FLT_MIN
  · rw [if_pos h2] at h
    simp at h
  rw [if_neg h2] at h ⊢
  cases sAD with
  | none => simp at h
  | some s =>
    cases hd : s.data with
    | none =>
      simp only [hd] at h
      simp at h
    | some pb =>
      simp only [hd] at h ⊢
      by_cases h5 : s.d_sFreq = 0
      · rw [if_pos h5] at h
        simp at h
      rw [if_neg h5] at h ⊢
      by_cases h6 : freq ≥ ((s.d_sFreq / 2 : Nat) : F)
      · rw [if_pos h6] at h
        simp at h
      rw [if_neg h6] at h ⊢
      by_cases h7 : s.d_len = 0
      · rw [if_pos h7] at h
        simp at h
      rw [if_neg h7] at h ⊢
      by_cases h8 : noise > MAXNOISE
      · rw [if_pos h8] at h
        simp at h
      rw [if_neg h8] at h ⊢
      by_cases h9 : (s.d_sFreq : F) / freq < FLT_MIN
      · rw [if_pos h9] at h
        simp at h
      rw [if_neg h9] at h ⊢
      by_cases h0 : type = 0
      · rw [if_pos h0]
        exact ⟨s, pb, _, rfl, hd, Or.inl h0, by omega, h7,
          (sineLoop_spec sinf rand _ _ _ _ _ s.d_len 0).1,
          (sineLoop_spec sinf rand _ _ _ _ _ s.d_len 0).2, rfl⟩
      · rw [if_neg h0]
        exact ⟨s, pb, _, rfl, hd, by omega, by omega, h7,
          (rampLoop_spec type rand _ _ _ _ _ s.d_len 0 _).1,
          (rampLoop_spec type rand _ _ _ _ _ s.d_len 0 _).2, rfl⟩

/-- The smallest positive normal `float` is positive and below 1. -/
theorem FLT_MIN_bounds {F : Type} [LinearOrderedField F] :
    (0 : F) < FLT_MIN ∧ (FLT_MIN : F) < 1 := by
  unfold FLT_MIN
  constructor
  · positivity
  · rw [div_lt_one (by positivity)]
    exact one_lt_pow₀ (by norm_num) (by decide)

/-- A call of `ADC_Sim` on a structure with a buffer returns 0 when the type
is 0, 1 or 2, the frequency is above `FLT_MIN` and below `d_sFreq/2`, the
length is not 0 and the noise is at most `MAXNOISE`. -/
theorem ADC_Sim_returns_zero {F : Type} [LinearOrderedField F] [FloorRing F] (sinf : F → F)
    (pi : F) (rand : Nat → Nat) (s : sADCData F) (pb : Nat → Nat) (type : Int) (freq : F)
    (noise : Nat) (hd : s.data = some pb) (ht : 0 ≤ type ∧ type ≤ 2) (hf : FLT_MIN < freq)
    (hs : s.d_sFreq ≠ 0) (hn : freq < ((s.d_sFreq / 2 : Nat) : F)) (hl : s.d_len ≠ 0)
    (hnoise : noise ≤ MAXNOISE) :
    (ADC_Sim sinf pi rand (some s) type freq noise).1 = 0 := by
  have h1 : ¬ (type > 2 ∨ type < 0) := by omega
  have h2 : ¬ freq ≤ FLT_MIN := not_le.2 hf
  have h6 : ¬ freq ≥ ((s.d_sFreq / 2 : Nat) : F) := not_le.2 hn
  have h8 : ¬ noise > MAXNOISE := by omega
  have hfpos : (0 : F) < freq := lt_trans FLT_MIN_bounds.1 hf
  have h9 : ¬ (s.d_sFreq : F) / freq < FLT_MIN := by
    rw [not_lt]
    have hhalf : ((s.d_sFreq / 2 : Nat) : F) ≤ (s.d_sFreq : F) / 2 := by
      have := Nat.cast_div_le (α := F) (m := s.d_sFreq) (n := 2)
      simpa using this
    have hlt : freq < (s.d_sFreq : F) := by
      have h0 : (0 : F) ≤ (s.d_sFreq : F) := Nat.cast_nonneg _
      linarith
    have : (1 : F) ≤ (s.d_sFreq : F) / freq := by
      rw [le_div_iff₀ hfpos]
      linarith
    exact le_trans (le_of_lt FLT_MIN_bounds.2) this
  unfold ADC_Sim
  rw [if_neg h1, if_neg h2]
  simp only [hd]
  rw [if_neg hs, if_neg h6, if_neg hl, if_neg h8, if_neg h9]
  by_cases h0 : type = 0
  · rw [if_pos h0]
  · rw [if_neg h0]

/-- C22. On every call of `ADC_Sim` that returns 0, for each waveform type 0,
1, 2, every noise up to `MAXNOISE` and every sequence of values of `rand()`
(and every `sinf`), exactly `d_len` samples are stored, at the indices
`0..d_len-1` of the buffer, every stored sample lies in `0..MAXADCVALUE`, and
the rest of the buffer and of the structure is unchanged. -/
theorem ADC_Sim_samples {F : Type} [LinearOrderedField F] [FloorRing F] (sinf : F → F)
    (pi : F) (rand : Nat → Nat) (sAD : Option (sADCData F)) (type : Int) (freq : F)
    (noise : Nat) (h : (ADC_Sim sinf pi rand sAD type freq noise).1 = 0) :
    (type = 0 ∨ type = 1 ∨ type = 2) ∧ noise ≤ MAXNOISE ∧
    ∃ s pb samples, sAD = some s ∧ s.data = some pb ∧ samples.length = s.d_len ∧
      (ADC_Sim sinf pi rand sAD type freq noise).2
        = some { s with data := some (writeSamples pb samples) } ∧
      (∀ i, i < s.d_len → writeSamples pb samples i = samples.getD i 0 ∧
        writeSamples pb samples i ≤ MAXADCVALUE) ∧
      (∀ i, s.d_len ≤ i → writeSamples pb samples i = pb i) := by
  obtain ⟨s, pb, samples, hs, hd, ht, hn, -, hlen, hall, heq⟩ :=
    ADC_Sim_zero_inv sinf pi rand sAD type freq noise h
  refine ⟨ht, hn, s, pb, samples, hs, hd, hlen, by rw [heq], ?_, ?_⟩
  · intro i hi
    have hi2 : i < samples.length := by rw [hlen]; exact hi
    have e : writeSamples pb samples i = samples.getD i 0 := by
      simp only [writeSamples, hi2, if_true]
    refine ⟨e, ?_⟩
    rw [e]
    exact hall _ (getD_mem samples i hi2)
  · intro i hi
    have hi2 : ¬ i < samples.length := by rw [hlen]; omega
    simp only [writeSamples, hi2, if_false]

/-- Witness for C22: a rising ramp of 100 Hz with noise 10 on a structure with
8 samples at 1000 Hz returns 0. -/
theorem ADC_Sim_samples_witness :
    (ADC_Sim (fun x : ℚ => x) 3 (fun k => 7 * k + 3) (some (simInput ℚ)) 1 100 10).1 = 0 ∧
    ((1 : Int) = 0 ∨ (1 : Int) = 1 ∨ (1 : Int) = 2) ∧ 10 ≤ MAXNOISE ∧
    ∃ s pb samples, some (simInput ℚ) = some s ∧ s.data = some pb ∧
      samples.length = s.d_len ∧
      (ADC_Sim (fun x : ℚ => x) 3 (fun k => 7 * k + 3) (some (simInput ℚ)) 1 100 10).2
        = some { s with data := some (writeSamples pb samples) } ∧
      (∀ i, i < s.d_len → writeSamples pb samples i = samples.getD i 0 ∧
        writeSamples pb samples i ≤ MAXADCVALUE) ∧
      (∀ i, s.d_len ≤ i → writeSamples pb samples i = pb i) :=
  have h0 : (ADC_Sim (fun x : ℚ => x) 3 (fun k => 7 * k + 3) (some (simInput ℚ)) 1 100 10).1
      = 0 :=
    ADC_Sim_returns_zero _ _ _ (simInput ℚ) (fun _ => 0) 1 100 10 rfl (by decide)
      (lt_trans FLT_MIN_bounds.2 (by norm_num)) (by decide)
      (by simp only [simInput]; norm_num) (by decide) (by decide)
  ⟨h0, ADC_Sim_samples _ _ _ _ _ _ _ h0⟩

/-! ## The estimates on a periodic signal -/

theorem getLastD_cons_getD : ∀ (t : List Nat) (x d : Nat),
    t.getLastD x = (x :: t).getD t.length d := by
  intro t
  induction t with
  | nil => intro x d; rfl
  | cons y t ih =>
    intro x d
    rw [List.getLastD_cons, ih y d]
    rfl

/-- The last entry of a list that is not empty, by its index. -/
theorem getLastD_eq_getD (l : List Nat) (h : 0 < l.length) :
    l.getLastD 0 = l.getD (l.length - 1) 0 := by
  cases l with
  | nil => simp at h
  | cons x t =>
    rw [List.getLastD_cons, getLastD_cons_getD t x 0]
    rfl

/-- The two frequency estimates of a call on a valid structure with 2 to 199
detected edges, in terms of the first and the last edge. -/
theorem calcFreqAnalog_estimates {F : Type} [LinearOrderedField F] (sqrtf : F → F)
    (s : sADCData F) (pb : Nat → Nat) (hv : Valid s pb) (hg : PassesGuard s)
    (hlen32 : s.d_len < 4294967296)
    (hE2 : 2 ≤ (edgesOf s pb).length) (hE : (edgesOf s pb).length ≤ 199) :
    (edgesOf s pb).getD 0 0 < (edgesOf s pb).getLastD 0 ∧
    ∃ out, calcFreqAnalog sqrtf (some s) = (0, some out) ∧
      out.d_freqClassic
        = (((edgesOf s pb).length - 1 : Nat) : F)
          / (((edgesOf s pb).getLastD 0 - (edgesOf s pb).getD 0 0 : Nat) : F)
          / s.d_deltaTime ∧
      out.d_periode
        = (((edgesOf s pb).getLastD 0 - (edgesOf s pb).getD 0 0 : Nat) : F) * s.d_deltaTime
          / (((edgesOf s pb).length - 1 : Nat) : F) := by
  obtain ⟨hpos, hsc, hall, hlp⟩ := segmentation_spec s pb
  have htake : (edgesOf s pb).take 199 = edgesOf s pb := List.take_of_length_le hE
  rw [htake] at hpos
  have hsc2 : (segmentation pb s.d_len s.d_mean s.d_max s.d_min).sideChanges
      = (edgesOf s pb).length := by rw [hsc]; omega
  have hall2 : (segmentation pb s.d_len s.d_mean s.d_max s.d_min).allPeriods
      = (edgesOf s pb).length := by rw [hall]; omega
  have hsorted := edgesOf_sorted s pb
  have hb32 : ∀ e ∈ edgesOf s pb, e < 4294967296 := fun e he =>
    lt_trans (edgesOf_lt_len s pb e he).2 hlen32
  have hlast := getLastD_eq_getD (edgesOf s pb) (by omega)
  have hlt : (edgesOf s pb).getD 0 0 < (edgesOf s pb).getLastD 0 := by
    rw [hlast]
    exact getD_lt_of_sorted _ hsorted 0 _ (by omega) (by omega)
  have hlast32 : (edgesOf s pb).getLastD 0 < 4294967296 := by
    rw [hlast]
    exact hb32 _ (getD_mem _ _ (by omega))
  have hsum := periodSum_eq (edgesOf s pb) hsorted hb32 (by omega)
  rw [← hlast] at hsum
  have hsc1 : ¬ (segmentation pb s.d_len s.d_mean s.d_max s.d_min).sideChanges ≤ 1 := by
    rw [hsc2]; omega
  have hcast : ((((edgesOf s pb).length : Nat) : Int) - 1 : Int)
      = (((edgesOf s pb).length - 1 : Nat) : Int) := by omega
  refine ⟨hlt, ?_⟩
  rw [calcFreqAnalog_of_valid sqrtf s pb hv hg]
  unfold evaluate
  simp only [hsc1, if_false]
  refine ⟨_, rfl, ?_, ?_⟩
  · simp only [hall2, hpos, hlp]
    rw [subU32_eq _ _ (le_of_lt hlt) hlast32, hcast, Int.cast_natCast]
  · simp only [hsc2, hpos, hsum]
    rw [hcast, Int.cast_natCast]

/-! ## A sampled sine: 20 samples per period -/

theorem sqrt5_bounds : (2.2360679 : ℝ) < Real.sqrt 5 ∧ Real.sqrt 5 < 2.236068 := by
  have h5 : Real.sqrt 5 ^ 2 = 5 := Real.sq_sqrt (by norm_num)
  have h0 : 0 ≤ Real.sqrt 5 := Real.sqrt_nonneg 5
  constructor
  · by_contra h
    rw [not_lt] at h
    nlinarith
  · by_contra h
    rw [not_lt] at h
    nlinarith

theorem sin_three_pi_div_ten : Real.sin (3 * Real.pi / 10) = (1 + Real.sqrt 5) / 4 := by
  rw [← Real.cos_pi_div_five, ← Real.cos_pi_div_two_sub]
  congr 1
  ring

theorem sin_pi_div_ten : Real.sin (Real.pi / 10) = (Real.sqrt 5 - 1) / 4 := by
  have h : Real.sin (Real.pi / 10) = Real.cos (2 * (Real.pi / 5)) := by
    rw [← Real.cos_pi_div_two_sub]
    congr 1
    ring
  rw [h, Real.cos_two_mul, Real.cos_pi_div_five]
  have h5 : Real.sqrt 5 ^ 2 = 5 := Real.sq_sqrt (by norm_num)
  nlinarith

theorem sin_pi_div_five_sq : Real.sin (Real.pi / 5) ^ 2 = (10 - 2 * Real.sqrt 5) / 16 := by
  have h := Real.sin_sq_add_cos_sq (Real.pi / 5)
  rw [Real.cos_pi_div_five] at h
  have h5 : Real.sqrt 5 ^ 2 = 5 := Real.sq_sqrt (by norm_num)
  nlinarith

theorem sin_two_pi_div_five_sq :
    Real.sin (2 * Real.pi / 5) ^ 2 = (10 + 2 * Real.sqrt 5) / 16 := by
  have h5 : Real.sqrt 5 ^ 2 = 5 := Real.sq_sqrt (by norm_num)
  have e : 2 * Real.pi / 5 = 2 * (Real.pi / 5) := by ring
  rw [e, Real.sin_two_mul, Real.cos_pi_div_five]
  have e2 : (2 * Real.sin (Real.pi / 5) * ((1 + Real.sqrt 5) / 4)) ^ 2
      = 4 * Real.sin (Real.pi / 5) ^ 2 * ((1 + Real.sqrt 5) / 4) ^ 2 := by ring
  rw [e2, sin_pi_div_five_sq]
  nlinarith

/-- The five values of `1638 * sin` on the first quarter of the period,
between consecutive integers. -/
theorem sine_quarter :
    ((506 : ℝ) ≤ 1638 * Real.sin (Real.pi / 10) ∧ 1638 * Real.sin (Real.pi / 10) < 507) ∧
    ((962 : ℝ) ≤ 1638 * Real.sin (Real.pi / 5) ∧ 1638 * Real.sin (Real.pi / 5) < 963) ∧
    ((1325 : ℝ) ≤ 1638 * Real.sin (3 * Real.pi / 10) ∧
      1638 * Real.sin (3 * Real.pi / 10) < 1326) ∧
    ((1557 : ℝ) ≤ 1638 * Real.sin (2 * Real.pi / 5) ∧
      1638 * Real.sin (2 * Real.pi / 5) < 1558) := by
  obtain ⟨l, u⟩ := sqrt5_bounds
  have hb := sin_pi_div_five_sq
  have hbpos : 0 < Real.sin (Real.pi / 5) :=
    Real.sin_pos_of_pos_of_lt_pi (by positivity) (by linarith [Real.pi_pos])
  have hd := sin_two_pi_div_five_sq
  have hdpos : 0 < Real.sin (2 * Real.pi / 5) :=
    Real.sin_pos_of_pos_of_lt_pi (by positivity) (by linarith [Real.pi_pos])
  refine ⟨?_, ⟨?_, ?_⟩, ?_, ⟨?_, ?_⟩⟩
  · rw [sin_pi_div_ten]
    constructor <;> linarith
  · nlinarith
  · nlinarith
  · rw [sin_three_pi_div_ten]
    constructor <;> linarith
  · nlinarith
  · nlinarith

/-- The values of `1638 * sin (pi * k / 10)` on the first half of the period,
between the table entry less 1638 and the next integer. -/
theorem sine_half (k : Nat) (hk : k < 10) :
    ((sineWave k : Nat) : ℝ) - 1638 ≤ 1638 * Real.sin (Real.pi * (k : ℝ) / 10) ∧
    1638 * Real.sin (Real.pi * (k : ℝ) / 10) < ((sineWave k : Nat) : ℝ) - 1638 + 1 := by
  obtain ⟨ha, hb, hc, hd⟩ := sine_quarter
  have e1 : Real.pi * ((1 : Nat) : ℝ) / 10 = Real.pi / 10 := by push_cast; ring
  have e2 : Real.pi * ((2 : Nat) : ℝ) / 10 = Real.pi / 5 := by push_cast; ring
  have e3 : Real.pi * ((3 : Nat) : ℝ) / 10 = 3 * Real.pi / 10 := by push_cast; ring
  have e4 : Real.pi * ((4 : Nat) : ℝ) / 10 = 2 * Real.pi / 5 := by push_cast; ring
  have e5 : Real.pi * ((5 : Nat) : ℝ) / 10 = Real.pi / 2 := by push_cast; ring
  have e6 : Real.pi * ((6 : Nat) : ℝ) / 10 = Real.pi - 2 * Real.pi / 5 := by push_cast; ring
  have e7 : Real.pi * ((7 : Nat) : ℝ) / 10 = Real.pi - 3 * Real.pi / 10 := by push_cast; ring
  have e8 : Real.pi * ((8 : Nat) : ℝ) / 10 = Real.pi - Real.pi / 5 := by push_cast; ring
  have e9 : Real.pi * ((9 : Nat) : ℝ) / 10 = Real.pi - Real.pi / 10 := by push_cast; ring
  have w0 : sineWave 0 = 1638 := rfl
  have w1 : sineWave 1 = 2144 := rfl
  have w2 : sineWave 2 = 2600 := rfl
  have w3 : sineWave 3 = 2963 := rfl
  have w4 : sineWave 4 = 3195 := rfl
  have w5 : sineWave 5 = 3276 := rfl
  have w6 : sineWave 6 = 3195 := rfl
  have w7 : sineWave 7 = 2963 := rfl
  have w8 : sineWave 8 = 2600 := rfl
  have w9 : sineWave 9 = 2144 := rfl
  interval_cases k
  · rw [w0]; norm_num
  · rw [w1, e1]; constructor <;> push_cast <;> linarith
  · rw [w2, e2]; constructor <;> push_cast <;> linarith
  · rw [w3, e3]; constructor <;> push_cast <;> linarith
  · rw [w4, e4]; constructor <;> push_cast <;> linarith
  · rw [w5, e5, Real.sin_pi_div_two]; norm_num
  · rw [w6, e6, Real.sin_pi_sub]; constructor <;> push_cast <;> linarith
  · rw [w7, e7, Real.sin_pi_sub]; constructor <;> push_cast <;> linarith
  · rw [w8, e8, Real.sin_pi_sub]; constructor <;> push_cast <;> linarith
  · rw [w9, e9, Real.sin_pi_sub]; constructor <;> push_cast <;> linarith

/-- The conversion `(int)x` and `(int)(-x)` of a value between the
nonnegative integer `n` and `n + 1`. -/
theorem truncToInt_of_bounds {F : Type} [LinearOrderedField F] [FloorRing F] (x : F) (n : Int)
    (h0 : 0 ≤ n) (h1 : (n : F) ≤ x) (h2 : x < (n : F) + 1) :
    truncToInt x = n ∧ truncToInt (-x) = -n := by
  have hx0 : 0 ≤ x := le_trans (by exact_mod_cast h0) h1
  have hfl : Int.floor x = n := Int.floor_eq_iff.2 ⟨h1, h2⟩
  constructor
  · unfold truncToInt
    simp only [hx0, if_true, hfl]
  · unfold truncToInt
    by_cases hneg : 0 ≤ -x
    · have hx : x = 0 := le_antisymm (by linarith) hx0
      have hn : n = 0 := by
        rw [← hfl, hx]
        exact Int.floor_zero
      rw [hx, hn]
      simp
    · simp only [hneg, if_false, Int.ceil_neg, hfl]

/-- Sample `ix` of the sine of 50 Hz at the sample rate 1000 Hz with amplitude
1638, mean 1638 and no noise is entry `ix % 20` of the table `sineWave`. -/
theorem sine_sample (ix : Nat) :
    storeSignal (truncToInt (((1638 : Nat) : ℝ)
        * Real.sin (2 * Real.pi / (((1000 : Nat) : ℝ) / 50) * (ix : ℝ)))
      + ((1638 : Nat) : Int) + signedNoise (fun _ => 0) 0 0 ix) = sineWave ix := by
  have hnoise : signedNoise (fun _ => 0) 0 0 ix = 0 := rfl
  have hmod : ix = ix % 20 + 20 * (ix / 20) := (Nat.mod_add_div ix 20).symm
  have hwave : sineWave ix = sineWave (ix % 20) := by
    unfold sineWave
    rw [Nat.mod_mod]
  have hk : ix % 20 < 20 := Nat.mod_lt _ (by decide)
  rw [hnoise, hwave]
  by_cases hlow : ix % 20 < 10
  · have hang : 2 * Real.pi / (((1000 : Nat) : ℝ) / 50) * (ix : ℝ)
        = Real.pi * ((ix % 20 : Nat) : ℝ) / 10 + ((ix / 20 : Nat) : ℝ) * (2 * Real.pi) := by
      have : (ix : ℝ) = ((ix % 20 : Nat) : ℝ) + 20 * ((ix / 20 : Nat) : ℝ) := by
        exact_mod_cast hmod
      rw [this]
      push_cast
      ring
    rw [hang, Real.sin_add_nat_mul_two_pi]
    obtain ⟨h1, h2⟩ := sine_half (ix % 20) hlow
    have hge : 1638 ≤ sineWave (ix % 20) := by
      generalize ix % 20 = k at hlow
      interval_cases k <;> decide
    have hle : sineWave (ix % 20) ≤ 3276 := by
      generalize ix % 20 = k at hlow
      interval_cases k <;> decide
    have ht := (truncToInt_of_bounds (((1638 : Nat) : ℝ)
        * Real.sin (Real.pi * ((ix % 20 : Nat) : ℝ) / 10))
      ((sineWave (ix % 20) : Int) - 1638) (by omega)
      (by push_cast; linarith) (by push_cast; linarith)).1
    rw [ht]
    unfold storeSignal toU16 MAXADCVALUE
    split
    · omega
    · split <;> omega
  · have hk10 : ix % 20 - 10 < 10 := by omega
    have hang : 2 * Real.pi / (((1000 : Nat) : ℝ) / 50) * (ix : ℝ)
        = Real.pi * ((ix % 20 - 10 : Nat) : ℝ) / 10 + Real.pi
          + ((ix / 20 : Nat) : ℝ) * (2 * Real.pi) := by
      have : (ix : ℝ) = ((ix % 20 - 10 : Nat) : ℝ) + 10 + 20 * ((ix / 20 : Nat) : ℝ) := by
        have h3 : ix = (ix % 20 - 10) + 10 + 20 * (ix / 20) := by omega
        exact_mod_cast h3
      rw [this]
      push_cast
      ring
    rw [hang, Real.sin_add_nat_mul_two_pi, Real.sin_add_pi]
    obtain ⟨h1, h2⟩ := sine_half (ix % 20 - 10) hk10
    have hge : 1638 ≤ sineWave (ix % 20 - 10) := by
      generalize ix % 20 - 10 = k at hk10
      interval_cases k <;> decide
    have hle : sineWave (ix % 20 - 10) ≤ 3276 := by
      generalize ix % 20 - 10 = k at hk10
      interval_cases k <;> decide
    have hsym : sineWave (ix % 20) + sineWave (ix % 20 - 10) = 3276 := by
      have h10 : 10 ≤ ix % 20 := by omega
      generalize ix % 20 = k at hk h10
      interval_cases k <;> decide
    have ht := (truncToInt_of_bounds (((1638 : Nat) : ℝ)
        * Real.sin (Real.pi * ((ix % 20 - 10 : Nat) : ℝ) / 10))
      ((sineWave (ix % 20 - 10) : Int) - 1638) (by omega)
      (by push_cast; linarith) (by push_cast; linarith)).2
    rw [mul_neg, ht]
    unfold storeSignal toU16 MAXADCVALUE
    split
    · omega
    · split <;> omega

/-- Entry `j` of the samples stored by the loop of type 0. -/
theorem sineLoop_getD {F : Type} [LinearOrderedField F] [FloorRing F] (sinf : F → F)
    (rand : Nat → Nat) (ampli mean noise n2 : Nat) (dFreq : F) :
    ∀ (n ix j : Nat), j < n →
      (sineLoop sinf rand ampli mean noise n2 dFreq n ix).getD j 0
        = storeSignal (truncToInt ((ampli : F) * sinf (dFreq * ((ix + j : Nat) : F)))
            + (mean : Int) + signedNoise rand noise n2 (ix + j)) := by
  intro n
  induction n with
  | zero => intro ix j hj; omega
  | succ n ih =>
    intro ix j hj
    cases j with
    | zero => simp only [sineLoop, List.getD_cons_zero, Nat.add_zero]
    | succ j =>
      simp only [sineLoop, List.getD_cons_succ]
      rw [ih (ix + 1) j (by omega)]
      have e : ix + 1 + j = ix + (j + 1) := by omega
      rw [e]

/-- A call of `ADC_Sim` of type 0 that passes the checks stores the samples
of the sine loop. -/
theorem ADC_Sim_sine {F : Type} [LinearOrderedField F] [FloorRing F] (sinf : F → F)
    (pi : F) (rand : Nat → Nat) (s : sADCData F) (pb : Nat → Nat) (freq : F)
    (noise : Nat) (hd : s.data = some pb) (hf : FLT_MIN < freq)
    (hs : s.d_sFreq ≠ 0) (hn : freq < ((s.d_sFreq / 2 : Nat) : F)) (hl : s.d_len ≠ 0)
    (hnoise : noise ≤ MAXNOISE) :
    ADC_Sim sinf pi rand (some s) 0 freq noise
      = (0, some { s with data := some (writeSamples pb
          (sineLoop sinf rand ((rand 0 % (MAXADCVALUE / 20) + MAXADCVALUE * 2 / 5) % 65536)
            ((rand 1 % (MAXADCVALUE / 10) + MAXADCVALUE * 2 / 5) % 65536) noise (noise / 2)
            (2 * pi / ((s.d_sFreq : F) / freq)) s.d_len 0)) }) := by
  have h1 : ¬ ((0 : Int) > 2 ∨ (0 : Int) < 0) := by omega
  have h2 : ¬ freq ≤ FLT_MIN := not_le.2 hf
  have h6 : ¬ freq ≥ ((s.d_sFreq / 2 : Nat) : F) := not_le.2 hn
  have h8 : ¬ noise > MAXNOISE := by omega
  have hfpos : (0 : F) < freq := lt_trans FLT_MIN_bounds.1 hf
  have h9 : ¬ (s.d_sFreq : F) / freq < FLT_MIN := by
    rw [not_lt]
    have hhalf : ((s.d_sFreq / 2 : Nat) : F) ≤ (s.d_sFreq : F) / 2 := by
      have := Nat.cast_div_le (α := F) (m := s.d_sFreq) (n := 2)
      simpa using this
    have hlt : freq < (s.d_sFreq : F) := by
      have h0 : (0 : F) ≤ (s.d_sFreq : F) := Nat.cast_nonneg _
      linarith
    have : (1 : F) ≤ (s.d_sFreq : F) / freq := by
      rw [le_div_iff₀ hfpos]
      linarith
    exact le_trans (le_of_lt FLT_MIN_bounds.2) this
  unfold ADC_Sim
  rw [if_neg h1, if_neg h2]
  simp only [hd]
  rw [if_neg hs, if_neg h6, if_neg hl, if_neg h8, if_neg h9, if_pos True.intro]

/-- The samples `ADC_Sim` stores for the sine of 50 Hz at 1000 Hz on 202
samples, with amplitude 1638, mean 1638 and no noise, are the buffer `sineBuf`. -/
theorem sineBuf_eq :
    writeSamples (fun _ => 0)
      (sineLoop Real.sin (fun _ => 0) 1638 1638 0 0
        (2 * Real.pi / (((1000 : Nat) : ℝ) / 50)) 202 0) = sineBuf := by
  funext i
  have hlen := (sineLoop_spec Real.sin (fun _ => 0) 1638 1638 0 0
    (2 * Real.pi / (((1000 : Nat) : ℝ) / 50)) 202 0).1
  unfold writeSamples sineBuf
  rw [hlen]
  by_cases hi : i < 202
  · simp only [hi, if_true]
    rw [sineLoop_getD _ _ _ _ _ _ _ 202 0 i hi, Nat.zero_add]
    exact sine_sample i
  · simp only [hi, if_false]

set_option maxRecDepth 100000 in
/-- The statistics `peak_mean` computes for the buffer `sineBuf`. -/
theorem sineBuf_peak_mean :
    peak_mean ({ sineInput ℝ with data := some sineBuf } : sADCData ℝ)
      = some (3276, 0, 1640) := by
  decide

set_option maxRecDepth 100000 in
/-- The ten rising edges detected in the buffer `sineBuf`. -/
theorem sineStats_edges :
    edgesOf (sineStats ℝ) sineBuf = [4, 22, 42, 62, 82, 102, 122, 142, 162, 182] := by
  decide

theorem sineStats_valid : Valid (sineStats ℝ) sineBuf := by
  refine ⟨rfl, by simp [sineStats, sineInput], by simp [sineStats, sineInput], ?_⟩
  simp only [sineStats, sineInput, FLT_MIN, not_le]
  exact one_div_lt_one_div_of_lt (by norm_num) (by norm_num)

/-- C23, counterexample. The noise-free sine of 50 Hz that `ADC_Sim` stores at
the sample rate 1000 Hz (20 samples per period) on 202 samples (more than 10
periods), with the statistics of `peak_mean`: the edges are detected at 4, 22,
42, ..., 182, the first one at the start index `MINTICDIFF` of the loop, two
samples late, so nine periods span 178 samples and both estimates are
9000/178 Hz, 1.12% above 50 Hz. -/
theorem calcFreqAnalog_sine_counterexample :
    ADC_Sim Real.sin Real.pi (fun _ => 0) (some (sineInput ℝ)) 0 50 0
      = (0, some { sineInput ℝ with data := some sineBuf }) ∧
    peak_mean ({ sineInput ℝ with data := some sineBuf } : sADCData ℝ)
      = some (3276, 0, 1640) ∧
    edgesOf (sineStats ℝ) sineBuf = [4, 22, 42, 62, 82, 102, 122, 142, 162, 182] ∧
    ∃ out, calcFreqAnalog Real.sqrt (some (sineStats ℝ)) = (0, some out) ∧
      out.d_freqClassic = 9000 / 178 ∧ 1 / out.d_periode = 9000 / 178 ∧
      ¬ |out.d_freqClassic - 50| ≤ 50 / 100 ∧ ¬ |1 / out.d_periode - 50| ≤ 50 / 100 := by
  refine ⟨?_, sineBuf_peak_mean, sineStats_edges, ?_⟩
  · rw [ADC_Sim_sine Real.sin Real.pi (fun _ => 0) (sineInput ℝ) (fun _ => 0) 50 0 rfl
      (lt_trans FLT_MIN_bounds.2 (by norm_num)) (by decide)
      (by simp only [sineInput]; norm_num) (by decide) (by decide)]
    have h := sineBuf_eq
    simp only [sineInput] at h ⊢
    rw [← h]
    rfl
  · obtain ⟨-, out, hcall, hfc, hper⟩ := calcFreqAnalog_estimates Real.sqrt (sineStats ℝ)
      sineBuf sineStats_valid (by simp [PassesGuard, sineStats, MAXADCDIFF]) (by decide)
      (by rw [sineStats_edges]; decide) (by rw [sineStats_edges]; decide)
    rw [sineStats_edges] at hfc hper
    have hdt : (sineStats ℝ).d_deltaTime = 1 / 1000 := rfl
    have e1 : out.d_freqClassic = 9000 / 178 := by
      rw [hfc, hdt]
      norm_num
    have e2 : 1 / out.d_periode = 9000 / 178 := by
      rw [hper, hdt]
      norm_num
    refine ⟨out, hcall, e1, e2, ?_, ?_⟩
    · rw [e1]
      norm_num [abs_le]
    · rw [e2]
      norm_num [abs_le]

/-! ## The epsilon test and the labels at the range boundaries -/

/-- Rounding half away from zero gives 0 exactly on the open interval from
-1/2 to 1/2. -/
theorem roundHalfAway_eq_zero_iff {F : Type} [LinearOrderedField F] [FloorRing F] (x : F) :
    roundHalfAway x = 0 ↔ |x| < 1 / 2 := by
  unfold roundHalfAway
  by_cases hx : 0 ≤ x
  · simp only [hx, if_true]
    rw [abs_of_nonneg hx, Int.floor_eq_iff]
    constructor
    · rintro ⟨-, h2⟩
      push_cast at h2
      linarith
    · intro h
      push_cast
      constructor <;> linarith
  · simp only [hx, if_false]
    have hx2 : x < 0 := not_le.1 hx
    rw [abs_of_neg hx2, neg_eq_zero, Int.floor_eq_iff]
    constructor
    · rintro ⟨-, h2⟩
      push_cast at h2
      linarith
    · intro h
      push_cast
      constructor <;> linarith

/-- C31, counterexample. The frequency 0.025 Hz above the lowest note C on
range 0 matches candidate 0 with the distance 0.025 < 0.03, and the call
returns 1 cent, not 0: the test of line 188 compares `oneCent` (0.0389 Hz
here), not the distance, with 0.03. -/
theorem findNoteInRange_epsilon_counterexample :
    (noteScan (noteCstart.getD 0 0 + 0.025 : ℚ) ((0 : Nat) : Int)).idxMin = some 0 ∧
    |(noteCstart.getD 0 0 + 0.025 : ℚ) - candidate (noteCstart.getD 0 0) 0| < 0.03 ∧
    findNoteInRange (noteCstart.getD 0 0 + 0.025 : ℚ) ((0 : Nat) : Int) "" = some (1, "c") := by
  have hc0 : candidate (noteCstart.getD 0 (0 : ℚ)) 0 = noteCstart.getD 0 0 := candidate_zero _
  have hmax : |(noteCstart.getD 0 0 + 0.025 : ℚ) - noteCstart.getD 0 0| < FLT_MAX := by
    rw [add_sub_cancel_left, abs_of_pos (by norm_num)]
    exact lt_trans (by norm_num) (lt_of_lt_of_le (by norm_num : (1 : ℚ) < 2 ^ 24 - 1)
      (by unfold FLT_MAX; nlinarith [show (1 : ℚ) ≤ 2 ^ 104 by norm_num]))
  have hlo : candidate (noteCstart.getD 0 (0 : ℚ)) 0 ≤ noteCstart.getD 0 0 + 0.025 := by
    rw [hc0]
    norm_num
  have hmid : 0 < 12 → (noteCstart.getD 0 0 + 0.025 : ℚ) - candidate (noteCstart.getD 0 0) 0
      ≤ candidate (noteCstart.getD 0 0) (0 + 1) - (noteCstart.getD 0 0 + 0.025) := by
    intro _
    simp only [noteCstart, List.getD_cons_zero, candidate, TWELFTH_SQ2]
    norm_num
  have hsel := noteScan_select (noteCstart.getD 0 0 + 0.025 : ℚ) 0 (by decide) hmax 0
    (by decide) hlo hmid
  have hfn := findNoteInRange_select (noteCstart.getD 0 0 + 0.025 : ℚ) 0 (by decide) hmax 0
    (by decide) hlo hmid ""
  refine ⟨hsel.1, ?_, ?_⟩
  · rw [hc0, add_sub_cancel_left, abs_of_pos (by norm_num)]
    norm_num
  · rw [hfn, centOf_round _ _ (le_trans (by norm_num) (oneCent_lower (F := ℚ) 0 (by decide) 0))]
    have hr : roundHalfAway (((noteCstart.getD 0 0 + 0.025 : ℚ) - candidate (noteCstart.getD 0 0) 0)
        / ((TWELFTH_SQ2 - 1) * candidate (noteCstart.getD 0 0) 0 / 100)) = 1 := by
      unfold roundHalfAway
      have hq : (0 : ℚ) ≤ ((noteCstart.getD 0 0 + 0.025 : ℚ) - candidate (noteCstart.getD 0 0) 0)
          / ((TWELFTH_SQ2 - 1) * candidate (noteCstart.getD 0 0) 0 / 100) := by
        simp only [noteCstart, List.getD_cons_zero, candidate, TWELFTH_SQ2]
        norm_num
      simp only [hq, if_true]
      rw [Int.floor_eq_iff]
      simp only [noteCstart, List.getD_cons_zero, candidate, TWELFTH_SQ2]
      norm_num
    rw [hr]
    rfl

/-- The labels at the boundary of the ranges `r` and `r + 1`, for `r` in 0..5. -/
theorem noteLabel_boundary (r : Nat) (hr : r ≤ 5) :
    noteLabel r 12 = "c" ++ digitOf r ∧ noteLabel (r + 1) 0 = "c" ++ digitOf r := by
  interval_cases r <;> decide

/-- C36. Octave labelling across the range boundaries: for every `r` in 0..5,
the label `findNoteInRange` writes when the loop selects index 12 on range `r`
equals the label it writes when the loop selects index 0 on range `r + 1`,
both are `c` followed by the digit `r`. -/
theorem findNoteInRange_boundary_label {F : Type} [LinearOrderedField F] [FloorRing F]
    (freq freq2 : F) (r : Nat) (hr : r ≤ 5) (name : String)
    (h12 : (noteScan freq (r : Int)).idxMin = some 12)
    (h0 : (noteScan freq2 ((r + 1 : Nat) : Int)).idxMin = some 0) :
    (∃ cent cent2, findNoteInRange freq (r : Int) name = some (cent, "c" ++ digitOf r) ∧
      findNoteInRange freq2 ((r + 1 : Nat) : Int) name = some (cent2, "c" ++ digitOf r)) ∧
    strncat (noteNames.getD 12 "") (itoa (r : Int)) 1
      = strncat (noteNames.getD 0 "") (itoa (((r + 1 : Nat) : Int) - 1)) 1 ∧
    noteLabel r 12 = noteLabel (r + 1) 0 := by
  obtain ⟨-, c, hc⟩ := noteLoop_assigned freq 13 0 _ (fun a ha => by simp at ha) 12 h12
  obtain ⟨-, c2, hc2⟩ := noteLoop_assigned freq2 13 0 _ (fun a ha => by simp at ha) 0 h0
  have hf1 := findNoteInRange_of_scan freq r (by omega) name 12 c h12 hc
  have hf2 := findNoteInRange_of_scan freq2 (r + 1) (by omega) name 0 c2 h0 hc2
  obtain ⟨hl1, hl2⟩ := noteLabel_boundary r hr
  rw [hl1] at hf1
  rw [hl2] at hf2
  refine ⟨⟨_, _, hf1, hf2⟩, ?_, by rw [hl1, hl2]⟩
  have e1 := label_eq r 12 (by omega)
  have e2 := label_eq (r + 1) 0 (by omega)
  have hpos : ((r + 1 : Nat) : Int) > 0 := by omega
  simp only [if_true] at e1
  simp only [show ¬ (0 : Nat) = 12 by decide, if_false, hpos, if_true] at e2
  rw [e1, e2, hl1, hl2]

/-- Witness for C36: candidate 12 of range 2 and the start of range 3 both
get the label c2. -/
theorem findNoteInRange_boundary_label_witness :
    (∃ cent cent2, findNoteInRange (candidate (noteCstart.getD 2 0) 12 : ℚ)
        ((2 : Nat) : Int) "" = some (cent, "c" ++ digitOf 2) ∧
      findNoteInRange (noteCstart.getD 3 0 : ℚ) ((2 + 1 : Nat) : Int) ""
        = some (cent2, "c" ++ digitOf 2)) ∧
    strncat (noteNames.getD 12 "") (itoa ((2 : Nat) : Int)) 1
      = strncat (noteNames.getD 0 "") (itoa (((2 + 1 : Nat) : Int) - 1)) 1 ∧
    noteLabel 2 12 = noteLabel (2 + 1) 0 :=
  findNoteInRange_boundary_label (candidate (noteCstart.getD 2 0) 12 : ℚ)
    (noteCstart.getD 3 0 : ℚ) 2 (by decide) ""
    (noteScan_select _ 2 (by decide)
      (dist_lt_FLT_MAX _ 2 (by decide)
        (by simp only [noteCstart, List.getD_cons_succ, List.getD_cons_zero, candidate,
              TWELFTH_SQ2]
            norm_num)
        (by simp only [noteCstart, List.getD_cons_succ, List.getD_cons_zero, candidate,
              TWELFTH_SQ2, HALFNOTEFACTOR]
            norm_num))
      12 (by decide) le_rfl (fun h => absurd h (by decide))).1
    (noteScan_select _ 3 (by decide)
      (dist_lt_FLT_MAX _ 3 (by decide) le_rfl
        (by simp only [noteCstart, List.getD_cons_succ, List.getD_cons_zero, HALFNOTEFACTOR]
            norm_num))
      0 (by decide) (by rw [candidate_zero]) (fun _ => by
        simp only [noteCstart, List.getD_cons_succ, List.getD_cons_zero, candidate, TWELFTH_SQ2]
        norm_num)).1

/-! ## All edges stored: the two estimates agree -/

/-- The first entry of a list is the first entry of any prefix that is not empty. -/
theorem getD_zero_take (l : List Nat) (n : Nat) (hn : 0 < n) :
    (l.take n).getD 0 0 = l.getD 0 0 := by
  cases l with
  | nil => simp
  | cons x t =>
    cases n with
    | zero => omega
    | succ n => rfl

/-- C32. Whenever the number `E` of detected edges satisfies `2 ≤ E ≤ 199` on
an input that passes the validation and the constant-signal guard, every edge
is stored, `d_numCP = d_numPeriodes = E - 1`, and the two estimates coincide:
`d_freqClassic * d_periode = 1`. -/
theorem calcFreqAnalog_estimates_coincide {F : Type} [LinearOrderedField F] (sqrtf : F → F)
    (s : sADCData F) (pb : Nat → Nat) (hv : Valid s pb) (hg : PassesGuard s)
    (hlen32 : s.d_len < 4294967296)
    (hE2 : 2 ≤ (edgesOf s pb).length) (hE : (edgesOf s pb).length ≤ MAXSIDECHANGES - 1) :
    storedEdges s pb = edgesOf s pb ∧
    ∃ out, calcFreqAnalog sqrtf (some s) = (0, some out) ∧
      out.d_numCP = (edgesOf s pb).length - 1 ∧
      out.d_numPeriodes = (edgesOf s pb).length - 1 ∧
      out.d_freqClassic * out.d_periode = 1 := by
  have hE199 : (edgesOf s pb).length ≤ 199 := hE
  obtain ⟨hpos, hsc, hall, -⟩ := segmentation_spec s pb
  have hstored : storedEdges s pb = edgesOf s pb := by
    unfold storedEdges
    rw [hpos]
    exact List.take_of_length_le hE199
  obtain ⟨hlt, out, hcall, hfc, hper⟩ :=
    calcFreqAnalog_estimates sqrtf s pb hv hg hlen32 hE2 hE199
  obtain ⟨out2, h1, h2, h3⟩ := evaluate_counts sqrtf s
    (segmentation pb s.d_len s.d_mean s.d_max s.d_min) (by rw [hsc]; omega)
  rw [← calcFreqAnalog_of_valid sqrtf s pb hv hg, hcall] at h1
  have hout : out = out2 := by
    have := congrArg Prod.snd h1
    exact Option.some.inj this
  rw [← hout, hall] at h2
  rw [← hout, hsc] at h3
  have hdt : 0 < s.d_deltaTime := lt_trans FLT_MIN_bounds.1 (not_le.1 hv.2.2.2)
  have hS : (0 : F) < (((edgesOf s pb).getLastD 0 - (edgesOf s pb).getD 0 0 : Nat) : F) := by
    have : 0 < (edgesOf s pb).getLastD 0 - (edgesOf s pb).getD 0 0 := by omega
    exact_mod_cast this
  have hn : (0 : F) < (((edgesOf s pb).length - 1 : Nat) : F) := by
    have : 0 < (edgesOf s pb).length - 1 := by omega
    exact_mod_cast this
  refine ⟨hstored, out, hcall, ?_, ?_, ?_⟩
  · rw [h2]
    unfold toU16
    omega
  · rw [h3]
    unfold toU16
    omega
  · rw [hfc, hper]
    generalize (((edgesOf s pb).getLastD 0 - (edgesOf s pb).getD 0 0 : Nat) : F) = S at hS ⊢
    generalize (((edgesOf s pb).length - 1 : Nat) : F) = n at hn ⊢
    field_simp

/-- Witness for C32: the square wave on 40 samples with its five edges. -/
theorem calcFreqAnalog_estimates_coincide_witness :
    storedEdges (sampleInput ℚ 40) squareWave = edgesOf (sampleInput ℚ 40) squareWave ∧
    ∃ out, calcFreqAnalog (fun x => x) (some (sampleInput ℚ 40)) = (0, some out) ∧
      out.d_numCP = (edgesOf (sampleInput ℚ 40) squareWave).length - 1 ∧
      out.d_numPeriodes = (edgesOf (sampleInput ℚ 40) squareWave).length - 1 ∧
      out.d_freqClassic * out.d_periode = 1 :=
  calcFreqAnalog_estimates_coincide (fun x => x) (sampleInput ℚ 40) squareWave
    (sampleInput_valid ℚ 40 (by decide)) (sampleInput_guard ℚ 40) (by decide)
    (by rw [sampleInput_40_edges]; decide) (by rw [sampleInput_40_edges]; decide)

/-! ## No re-arming: at most one edge -/

/-- Without a sample at or below the lower threshold the detector never
re-arms: no edge from the high side, at most one from the low side. -/
theorem detectedEdges_no_rearm (pb : Nat → Nat) (lo up : Nat) :
    ∀ (n i : Nat), (∀ j, i ≤ j → j < i + n → ¬ pb j ≤ lo) →
      detectedEdges pb lo up true i n = [] ∧
      (detectedEdges pb lo up false i n).length ≤ 1 := by
  intro n
  induction n with
  | zero => intro i _; simp [detectedEdges]
  | succ n ih =>
    intro i h
    have hi : ¬ pb i ≤ lo := h i le_rfl (by omega)
    obtain ⟨h1, h2⟩ := ih (i + 1) (fun j hj1 hj2 => h j (by omega) (by omega))
    constructor
    · simp only [detectedEdges, hi, not_false_eq_true, decide_True]
      exact h1
    · simp only [detectedEdges]
      split
      · rw [h1]
        simp
      · exact h2

/-- C35. For every valid input with `d_len ≥ 4`, all samples at or above
`d_min`, `d_max - d_min > MAXADCDIFF`, `d_mean ≥ 4` and
`d_min ≤ d_mean ≤ d_min + 3`, the lower threshold is `d_mean - 4`, below
`d_min`, no sample re-arms the detector, at most one edge is detected and
`calcFreqAnalog` returns -2. -/
theorem calcFreqAnalog_asymmetric {F : Type} [LinearOrderedField F] (sqrtf : F → F)
    (s : sADCData F) (pb : Nat → Nat) (hv : Valid s pb) (hlen : MINTICDIFF ≤ s.d_len)
    (hsamples : ∀ i, i < s.d_len → s.d_min ≤ pb i)
    (hg : s.d_max - s.d_min > MAXADCDIFF) (hmean4 : 4 ≤ s.d_mean)
    (hmean16 : s.d_mean < 65536)
    (h1 : s.d_min ≤ s.d_mean) (h2 : s.d_mean ≤ s.d_min + 3) :
    lowerThreshold s.d_mean s.d_min = s.d_mean - 4 ∧
    lowerThreshold s.d_mean s.d_min < s.d_min ∧
    (∀ i, i < s.d_len → ¬ pb i ≤ lowerThreshold s.d_mean s.d_min) ∧
    (edgesOf s pb).length ≤ 1 ∧
    (calcFreqAnalog sqrtf (some s)).1 = -2 := by
  have hq : Int.tdiv ((s.d_mean : Int) - (s.d_min : Int)) (ANASPANDIV : Int)
      = ((s.d_mean : Int) - (s.d_min : Int)) / 3 :=
    Int.tdiv_eq_ediv (by omega) (by decide)
  have hlow : lowerThreshold s.d_mean s.d_min = s.d_mean - 4 := by
    unfold lowerThreshold
    simp only [hq, MAXADCDIFF, toU16]
    split <;> omega
  have hlt : lowerThreshold s.d_mean s.d_min < s.d_min := by
    rw [hlow]
    omega
  have hno : ∀ i, i < s.d_len → ¬ pb i ≤ lowerThreshold s.d_mean s.d_min := by
    intro i hi hcon
    have := hsamples i hi
    omega
  have hE : (edgesOf s pb).length ≤ 1 := by
    have h := detectedEdges_no_rearm pb (lowerThreshold s.d_mean s.d_min)
      (upperThreshold s.d_mean s.d_max) (s.d_len - MINTICDIFF) MINTICDIFF
      (fun j _ hj2 => hno j (by omega))
    unfold edgesOf
    cases initialSide pb (upperThreshold s.d_mean s.d_max) with
    | true => rw [h.1]; simp
    | false => exact h.2
  have hpass : PassesGuard s := by
    unfold PassesGuard
    have : MAXADCDIFF < s.d_max - s.d_min := hg
    omega
  refine ⟨hlow, hlt, hno, hE, ?_⟩
  rw [calcFreqAnalog_of_valid sqrtf s pb hv hpass, evaluate_fst, (segmentation_spec s pb).2.1]
  have : min (edgesOf s pb).length 199 ≤ 1 := by omega
  simp only [this, if_true]

theorem pulseInput_valid (F : Type) [LinearOrderedField F] :
    Valid (pulseInput F) pulseWave := by
  refine ⟨rfl, by simp [pulseInput], by simp [pulseInput], ?_⟩
  simp only [pulseInput, FLT_MIN, not_le]
  exact one_div_lt_one_div_of_lt (by norm_num) (by norm_num)

set_option maxRecDepth 100000 in
/-- The statistics `peak_mean` computes for the pulse train on 64 samples. -/
theorem pulseInput_peak_mean : peak_mean (pulseInput ℚ) = some (110, 10, 13) := by
  decide

/-- Witness for C35: the pulse train with two pulses on 64 samples, mean 13
and minimum 10. -/
theorem calcFreqAnalog_asymmetric_witness :
    peak_mean (pulseInput ℚ) = some (110, 10, 13) ∧
    lowerThreshold (pulseInput ℚ).d_mean (pulseInput ℚ).d_min = (pulseInput ℚ).d_mean - 4 ∧
    lowerThreshold (pulseInput ℚ).d_mean (pulseInput ℚ).d_min < (pulseInput ℚ).d_min ∧
    (∀ i, i < (pulseInput ℚ).d_len →
      ¬ pulseWave i ≤ lowerThreshold (pulseInput ℚ).d_mean (pulseInput ℚ).d_min) ∧
    (edgesOf (pulseInput ℚ) pulseWave).length ≤ 1 ∧
    (calcFreqAnalog (fun x => x) (some (pulseInput ℚ))).1 = -2 :=
  ⟨pulseInput_peak_mean,
    calcFreqAnalog_asymmetric (fun x => x) (pulseInput ℚ) pulseWave (pulseInput_valid ℚ)
      (by decide) (fun i _ => by unfold pulseWave; split <;> decide) (by decide) (by decide)
      (by decide) (by decide) (by decide)⟩

/-! ## Spacing of the edges and the bound on the classic frequency -/

/-- Consecutive detected edges are at least 2 samples apart. -/
theorem detectedEdges_spaced (pb : Nat → Nat) (lo up : Nat) (n : Nat) (side : Bool) (i : Nat)
    (k : Nat) (hk : k + 1 < (detectedEdges pb lo up side i n).length) :
    (detectedEdges pb lo up side i n).getD k 0 + 2
      ≤ (detectedEdges pb lo up side i n).getD (k + 1) 0 := by
  obtain ⟨j, h1, h2, -⟩ := (detectedEdges_gap pb lo up n side i).2 k hk
  omega

/-- Entry `k` of a list whose consecutive entries are at least 2 apart is at
least `2 * k` above the first entry. -/
theorem getD_span (l : List Nat)
    (h : ∀ k, k + 1 < l.length → l.getD k 0 + 2 ≤ l.getD (k + 1) 0) :
    ∀ k, k < l.length → l.getD 0 0 + 2 * k ≤ l.getD k 0 := by
  intro k
  induction k with
  | zero => intro _; omega
  | succ k ih =>
    intro hk
    have h1 := ih (by omega)
    have h2 := h k hk
    omega

/-- The classic frequency of a call on a valid structure with 2 to 65535
detected edges, in terms of the first and the last edge. -/
theorem calcFreqAnalog_classic {F : Type} [LinearOrderedField F] (sqrtf : F → F)
    (s : sADCData F) (pb : Nat → Nat) (hv : Valid s pb) (hg : PassesGuard s)
    (hlen32 : s.d_len < 4294967296)
    (hE2 : 2 ≤ (edgesOf s pb).length) (hE : (edgesOf s pb).length < 65536) :
    (edgesOf s pb).getD 0 0 < (edgesOf s pb).getLastD 0 ∧
    ∃ out, calcFreqAnalog sqrtf (some s) = (0, some out) ∧
      out.d_freqClassic
        = (((edgesOf s pb).length - 1 : Nat) : F)
          / (((edgesOf s pb).getLastD 0 - (edgesOf s pb).getD 0 0 : Nat) : F)
          / s.d_deltaTime := by
  obtain ⟨hpos, hsc, hall, hlp⟩ := segmentation_spec s pb
  have hall2 : (segmentation pb s.d_len s.d_mean s.d_max s.d_min).allPeriods
      = (edgesOf s pb).length := by rw [hall]; omega
  have hsorted := edgesOf_sorted s pb
  have hb32 : ∀ e ∈ edgesOf s pb, e < 4294967296 := fun e he =>
    lt_trans (edgesOf_lt_len s pb e he).2 hlen32
  have hlast := getLastD_eq_getD (edgesOf s pb) (by omega)
  have hlt : (edgesOf s pb).getD 0 0 < (edgesOf s pb).getLastD 0 := by
    rw [hlast]
    exact getD_lt_of_sorted _ hsorted 0 _ (by omega) (by omega)
  have hlast32 : (edgesOf s pb).getLastD 0 < 4294967296 := by
    rw [hlast]
    exact hb32 _ (getD_mem _ _ (by omega))
  have hsc1 : ¬ (segmentation pb s.d_len s.d_mean s.d_max s.d_min).sideChanges ≤ 1 := by
    rw [hsc]; omega
  have hp0 : (segmentation pb s.d_len s.d_mean s.d_max s.d_min).pos.getD 0 0
      = (edgesOf s pb).getD 0 0 := by
    rw [hpos]
    exact getD_zero_take _ 199 (by decide)
  have hcast : ((((edgesOf s pb).length : Nat) : Int) - 1 : Int)
      = (((edgesOf s pb).length - 1 : Nat) : Int) := by omega
  refine ⟨hlt, ?_⟩
  rw [calcFreqAnalog_of_valid sqrtf s pb hv hg]
  unfold evaluate
  simp only [hsc1, if_false]
  refine ⟨_, rfl, ?_⟩
  simp only [hall2, hp0, hlp]
  rw [subU32_eq _ _ (le_of_lt hlt) hlast32, hcast, Int.cast_natCast]

/-- The evaluation part on fewer than two stored edges sets the classic
frequency to 0. -/
theorem evaluate_few {F : Type} [LinearOrderedField F] (sqrtf : F → F) (s : sADCData F)
    (st : LoopState) (h : st.sideChanges ≤ 1) :
    ∃ out, evaluate sqrtf s st = (-2, some out) ∧ out.d_freqClassic = 0 := by
  unfold evaluate
  simp only [h, if_true]
  exact ⟨_, rfl, rfl⟩

/-- C33. For every buffer (`d_len ≤ 131072`) and any thresholds and initial
side, the detected edge indices are strictly increasing, all lie in
`MINTICDIFF..d_len-1`, and consecutive edges are at least 2 samples apart;
hence `2 * (E - 1) ≤ pLast - pFirst`, fewer than 65535 edges are detected,
and on a valid input `d_freqClassic` never exceeds half the sample rate
`1 / (2 * d_deltaTime)`. -/
theorem calcFreqAnalog_edge_spacing {F : Type} [LinearOrderedField F] (sqrtf : F → F)
    (s : sADCData F) (pb : Nat → Nat) (hv : Valid s pb) (hlen : s.d_len ≤ 131072)
    (lo up : Nat) (side : Bool) :
    ((detectedEdges pb lo up side MINTICDIFF (s.d_len - MINTICDIFF)).Pairwise (· < ·) ∧
      (∀ e ∈ detectedEdges pb lo up side MINTICDIFF (s.d_len - MINTICDIFF),
        MINTICDIFF ≤ e ∧ e < s.d_len) ∧
      (∀ k, k + 1 < (detectedEdges pb lo up side MINTICDIFF (s.d_len - MINTICDIFF)).length →
        (detectedEdges pb lo up side MINTICDIFF (s.d_len - MINTICDIFF)).getD k 0 + 2
          ≤ (detectedEdges pb lo up side MINTICDIFF (s.d_len - MINTICDIFF)).getD (k + 1) 0) ∧
      2 * ((detectedEdges pb lo up side MINTICDIFF (s.d_len - MINTICDIFF)).length - 1)
        ≤ (detectedEdges pb lo up side MINTICDIFF (s.d_len - MINTICDIFF)).getLastD 0
          - (detectedEdges pb lo up side MINTICDIFF (s.d_len - MINTICDIFF)).getD 0 0 ∧
      (detectedEdges pb lo up side MINTICDIFF (s.d_len - MINTICDIFF)).length < 65535) ∧
    ∃ out, (calcFreqAnalog sqrtf (some s)).2 = some out ∧
      out.d_freqClassic ≤ 1 / (2 * s.d_deltaTime) := by
  have hgen : ∀ (lo up : Nat) (side : Bool),
      (∀ e ∈ detectedEdges pb lo up side MINTICDIFF (s.d_len - MINTICDIFF),
        MINTICDIFF ≤ e ∧ e < s.d_len) ∧
      2 * ((detectedEdges pb lo up side MINTICDIFF (s.d_len - MINTICDIFF)).length - 1)
        ≤ (detectedEdges pb lo up side MINTICDIFF (s.d_len - MINTICDIFF)).getLastD 0
          - (detectedEdges pb lo up side MINTICDIFF (s.d_len - MINTICDIFF)).getD 0 0 ∧
      (detectedEdges pb lo up side MINTICDIFF (s.d_len - MINTICDIFF)).length < 65535 := by
    intro lo up side
    have hb : ∀ e ∈ detectedEdges pb lo up side MINTICDIFF (s.d_len - MINTICDIFF),
        MINTICDIFF ≤ e ∧ e < s.d_len := by
      intro e he
      have := detectedEdges_bounds pb lo up _ side MINTICDIFF e he
      omega
    have hsp := detectedEdges_spaced pb lo up (s.d_len - MINTICDIFF) side MINTICDIFF
    generalize detectedEdges pb lo up side MINTICDIFF (s.d_len - MINTICDIFF) = l at hb hsp ⊢
    rcases Nat.eq_zero_or_pos l.length with h0 | h0
    · refine ⟨hb, ?_, ?_⟩ <;> rw [h0] <;> omega
    · have hspan := getD_span l hsp (l.length - 1) (by omega)
      have hlast := getLastD_eq_getD l h0
      have hf := hb _ (getD_mem l 0 h0)
      have hl := hb _ (getD_mem l (l.length - 1) (by omega))
      unfold MINTICDIFF at hf hl
      refine ⟨hb, ?_, ?_⟩
      · rw [hlast]
        omega
      · omega
  refine ⟨⟨detectedEdges_sorted pb lo up _ side MINTICDIFF, (hgen lo up side).1,
    detectedEdges_spaced pb lo up _ side MINTICDIFF, (hgen lo up side).2.1,
    (hgen lo up side).2.2⟩, ?_⟩
  have hdt : 0 < s.d_deltaTime := lt_trans FLT_MIN_bounds.1 (not_le.1 hv.2.2.2)
  have hhalf : (0 : F) ≤ 1 / (2 * s.d_deltaTime) := by positivity
  by_cases hg : PassesGuard s
  · obtain ⟨-, hspan, hE⟩ := hgen (lowerThreshold s.d_mean s.d_min)
      (upperThreshold s.d_mean s.d_max) (initialSide pb (upperThreshold s.d_mean s.d_max))
    by_cases hE2 : 2 ≤ (edgesOf s pb).length
    · obtain ⟨hlt, out, hcall, hfc⟩ := calcFreqAnalog_classic sqrtf s pb hv hg
        (by omega) hE2 (by unfold edgesOf; omega)
      refine ⟨out, by rw [hcall], ?_⟩
      rw [hfc]
      have hspan2 : 2 * ((edgesOf s pb).length - 1)
          ≤ (edgesOf s pb).getLastD 0 - (edgesOf s pb).getD 0 0 := hspan
      have hS : (0 : F) < (((edgesOf s pb).getLastD 0 - (edgesOf s pb).getD 0 0 : Nat) : F) := by
        have : 0 < (edgesOf s pb).getLastD 0 - (edgesOf s pb).getD 0 0 := by omega
        exact_mod_cast this
      have hle : (2 : F) * (((edgesOf s pb).length - 1 : Nat) : F)
          ≤ (((edgesOf s pb).getLastD 0 - (edgesOf s pb).getD 0 0 : Nat) : F) := by
        exact_mod_cast hspan2
      generalize (((edgesOf s pb).getLastD 0 - (edgesOf s pb).getD 0 0 : Nat) : F) = S at hS hle ⊢
      generalize (((edgesOf s pb).length - 1 : Nat) : F) = n at hle ⊢
      rw [div_div, div_le_div_iff₀ (mul_pos hS hdt) (by positivity)]
      nlinarith
    · obtain ⟨out, h1, h2⟩ := evaluate_few sqrtf s
        (segmentation pb s.d_len s.d_mean s.d_max s.d_min)
        (by rw [(segmentation_spec s pb).2.1]; omega)
      refine ⟨out, by rw [calcFreqAnalog_of_valid sqrtf s pb hv hg, h1], ?_⟩
      rw [h2]
      exact hhalf
  · rw [calcFreqAnalog_of_constant sqrtf s pb hv hg]
    exact ⟨_, rfl, hhalf⟩

/-- Witness for C33: the square wave on 40 samples. -/
theorem calcFreqAnalog_edge_spacing_witness :
    Valid (sampleInput ℚ 40) squareWave ∧ (sampleInput ℚ 40).d_len ≤ 131072 ∧
    2 * ((detectedEdges squareWave 34 66 false MINTICDIFF
        ((sampleInput ℚ 40).d_len - MINTICDIFF)).length - 1)
      ≤ (detectedEdges squareWave 34 66 false MINTICDIFF
          ((sampleInput ℚ 40).d_len - MINTICDIFF)).getLastD 0
        - (detectedEdges squareWave 34 66 false MINTICDIFF
          ((sampleInput ℚ 40).d_len - MINTICDIFF)).getD 0 0 ∧
    ∃ out, (calcFreqAnalog (fun x => x) (some (sampleInput ℚ 40))).2 = some out ∧
      out.d_freqClassic ≤ 1 / (2 * (sampleInput ℚ 40).d_deltaTime) :=
  ⟨sampleInput_valid ℚ 40 (by decide), by decide,
    (calcFreqAnalog_edge_spacing (fun x => x) (sampleInput ℚ 40) squareWave
      (sampleInput_valid ℚ 40 (by decide)) (by decide) 34 66 false).1.2.2.2.1,
    (calcFreqAnalog_edge_spacing (fun x => x) (sampleInput ℚ 40) squareWave
      (sampleInput_valid ℚ 40 (by decide)) (by decide) 34 66 false).2⟩

/-! ## The flag `signal_side` and periodic input -/

/-- The data loop leaves the flag `signal_side` that `sideAfter` computes. -/
theorem segLoop_side (pb : Nat → Nat) (lo up : Nat) :
    ∀ (n i : Nat) (st : LoopState),
      (segLoop pb lo up n i st).signal_side = sideAfter pb lo up st.signal_side i n := by
  intro n
  induction n with
  | zero => intro i st; rfl
  | succ n ih =>
    intro i st
    have hstep : (segStep pb lo up st i).signal_side
        = sideStep lo up st.signal_side (pb i) := by
      unfold segStep sideStep
      cases hs : st.signal_side with
      | true =>
        simp only [if_true]
        by_cases h : pb i ≤ lo
        · simp [h]
        · simp [h, hs]
      | false =>
        simp only [Bool.false_eq_true, if_false]
        by_cases h : pb i > up
        · simp [h]
        · simp [h, hs]
    show (segLoop pb lo up n (i + 1) (segStep pb lo up st i)).signal_side
      = sideAfter pb lo up (sideStep lo up st.signal_side (pb i)) (i + 1) n
    rw [ih, hstep]

/-- The flag after `a + b` passes is the flag after `b` more passes. -/
theorem sideAfter_add (pb : Nat → Nat) (lo up : Nat) :
    ∀ (a b i : Nat) (side : Bool),
      sideAfter pb lo up side i (a + b)
        = sideAfter pb lo up (sideAfter pb lo up side i a) (i + a) b := by
  intro a
  induction a with
  | zero => intro b i side; simp [sideAfter]
  | succ a ih =>
    intro b i side
    have e : a + 1 + b = (a + b) + 1 := by omega
    rw [e]
    simp only [sideAfter]
    rw [ih b (i + 1)]
    have e2 : i + 1 + a = i + (a + 1) := by omega
    rw [e2]

/-- The flag after one more pass. -/
theorem sideAfter_succ (pb : Nat → Nat) (lo up : Nat) (m i : Nat) (side : Bool) :
    sideAfter pb lo up side i (m + 1)
      = sideStep lo up (sideAfter pb lo up side i m) (pb (i + m)) := by
  rw [sideAfter_add pb lo up m 1 i side]
  rfl

/-- An index is a detected edge exactly when it is in the range of the loop,
the flag before it is clear and its sample is above the upper threshold. -/
theorem mem_detectedEdges_iff (pb : Nat → Nat) (lo up : Nat) :
    ∀ (n : Nat) (side : Bool) (i e : Nat),
      e ∈ detectedEdges pb lo up side i n ↔
        i ≤ e ∧ e < i + n ∧ sideAfter pb lo up side i (e - i) = false ∧ pb e > up := by
  intro n
  induction n with
  | zero =>
    intro side i e
    cases side <;> simp only [detectedEdges, List.not_mem_nil, false_iff] <;> omega
  | succ n ih =>
    intro side i e
    have hunf : i < e → sideAfter pb lo up side i (e - i)
        = sideAfter pb lo up (sideStep lo up side (pb i)) (i + 1) (e - (i + 1)) := by
      intro hlt
      have e1 : e - i = (e - (i + 1)) + 1 := by omega
      rw [e1]
      rfl
    cases side with
    | true =>
      simp only [detectedEdges]
      rw [ih]
      constructor
      · rintro ⟨h1, h2, h3, h4⟩
        refine ⟨by omega, by omega, ?_, h4⟩
        rw [hunf (by omega)]
        simpa [sideStep] using h3
      · rintro ⟨h1, h2, h3, h4⟩
        rcases Nat.eq_or_lt_of_le h1 with heq | hlt
        · subst heq
          simp [sideAfter] at h3
        · rw [hunf hlt] at h3
          exact ⟨by omega, by omega, by simpa [sideStep] using h3, h4⟩
    | false =>
      simp only [detectedEdges]
      by_cases hup : pb i > up
      · simp only [hup, if_true, List.mem_cons]
        rw [ih]
        constructor
        · rintro (heq | ⟨h1, h2, h3, h4⟩)
          · subst heq
            exact ⟨le_rfl, by omega, by simp [sideAfter], hup⟩
          · refine ⟨by omega, by omega, ?_, h4⟩
            rw [hunf (by omega)]
            simpa [sideStep, hup] using h3
        · rintro ⟨h1, h2, h3, h4⟩
          rcases Nat.eq_or_lt_of_le h1 with heq | hlt
          · exact Or.inl heq.symm
          · rw [hunf hlt] at h3
            exact Or.inr ⟨by omega, by omega, by simpa [sideStep, hup] using h3, h4⟩
      · simp only [hup, if_false]
        rw [ih]
        constructor
        · rintro ⟨h1, h2, h3, h4⟩
          refine ⟨by omega, by omega, ?_, h4⟩
          rw [hunf (by omega)]
          simpa [sideStep, hup] using h3
        · rintro ⟨h1, h2, h3, h4⟩
          rcases Nat.eq_or_lt_of_le h1 with heq | hlt
          · subst heq
            exact absurd h4 hup
          · rw [hunf hlt] at h3
            exact ⟨by omega, by omega, by simpa [sideStep, hup] using h3, h4⟩

/-- With `lower_wc ≤ upper_wc` a pass sets the flag on a sample above the
upper threshold, clears it on a sample at or below the lower threshold and
keeps it otherwise. -/
theorem sideStep_eq (lo up : Nat) (hlu : lo ≤ up) (side : Bool) (x : Nat) :
    sideStep lo up side x = if x > up then true else if x ≤ lo then false else side := by
  unfold sideStep
  cases side with
  | true =>
    by_cases h1 : x > up
    · have : ¬ x ≤ lo := by omega
      simp [h1, this]
    · by_cases h2 : x ≤ lo <;> simp [h1, h2]
  | false =>
    by_cases h1 : x > up
    · simp [h1]
    · by_cases h2 : x ≤ lo <;> simp [h1, h2]

/-- Two runs of the flag over windows with the same samples end with the same
flag, whatever their flags at the start, unless no sample of the window is
above the upper threshold. -/
theorem sideAfter_window (pb : Nat → Nat) (lo up : Nat) (hlu : lo ≤ up) (a b : Nat) :
    ∀ (m : Nat), (∀ t, t < m → pb (a + t) = pb (b + t)) → ∀ (s1 s2 : Bool),
      sideAfter pb lo up s1 a m = sideAfter pb lo up s2 b m ∨
      (∀ t, t < m → ¬ pb (a + t) > up) := by
  intro m
  induction m with
  | zero => intro _ s1 s2; exact Or.inr (fun t ht => by omega)
  | succ m ih =>
    intro hag s1 s2
    rw [sideAfter_succ, sideAfter_succ, sideStep_eq lo up hlu, sideStep_eq lo up hlu,
      ← hag m (by omega)]
    by_cases h1 : pb (a + m) > up
    · left
      simp only [h1, if_true]
    · by_cases h2 : pb (a + m) ≤ lo
      · left
        simp only [h1, h2, if_false, if_true]
      · simp only [h1, h2, if_false]
        rcases ih (fun t ht => hag t (by omega)) s1 s2 with h | h
        · exact Or.inl h
        · right
          intro t ht
          rcases Nat.lt_or_ge t m with h3 | h3
          · exact h t h3
          · have : t = m := by omega
            rw [this]
            exact h1

/-- Shift invariance of the edge detection on periodic input, for any
thresholds with `lo ≤ up` and any initial side. -/
theorem detectedEdges_shift (pb : Nat → Nat) (lo up : Nat) (hlu : lo ≤ up) (side : Bool)
    (len P : Nat) (hP : 1 ≤ P) (hper : ∀ i, i + P < len → pb (i + P) = pb i)
    (i : Nat) (hi : P + MINTICDIFF ≤ i) (hiP : i + P < len) :
    i ∈ detectedEdges pb lo up side MINTICDIFF (len - MINTICDIFF) ↔
      i + P ∈ detectedEdges pb lo up side MINTICDIFF (len - MINTICDIFF) := by
  unfold MINTICDIFF at hi ⊢
  rw [mem_detectedEdges_iff, mem_detectedEdges_iff, hper i hiP]
  have e1 : i - 4 = (i - P - 4) + P := by omega
  have e2 : i + P - 4 = (i - 4) + P := by omega
  have hwin := sideAfter_window pb lo up hlu (i - P) i P
    (fun t ht => by
      have := hper (i - P + t) (by omega)
      rw [← this]
      congr 1
      omega)
    (sideAfter pb lo up side 4 (i - P - 4)) (sideAfter pb lo up side 4 (i - 4))
  have hs1 : sideAfter pb lo up side 4 (i - 4)
      = sideAfter pb lo up (sideAfter pb lo up side 4 (i - P - 4)) (i - P) P := by
    rw [e1, sideAfter_add]
    congr 1
    omega
  have hs2 : sideAfter pb lo up side 4 (i + P - 4)
      = sideAfter pb lo up (sideAfter pb lo up side 4 (i - 4)) i P := by
    rw [e2, sideAfter_add]
    congr 1
    omega
  rcases hwin with h | h
  · rw [hs2, ← h, ← hs1]
    constructor
    · rintro ⟨_, _, h3, h4⟩
      exact ⟨by omega, by omega, h3, h4⟩
    · rintro ⟨_, _, h3, h4⟩
      exact ⟨by omega, by omega, h3, h4⟩
  · have h0 := h 0 hP
    have hp : pb (i - P + 0) = pb i := by
      have := hper (i - P) (by omega)
      rw [Nat.add_zero, ← this]
      congr 1
      omega
    rw [hp] at h0
    constructor
    · rintro ⟨_, _, _, h4⟩
      exact absurd h4 h0
    · rintro ⟨_, _, _, h4⟩
      exact absurd h4 h0

/-- In a strictly increasing list the entry after `l[k]` is `l[k] + P` when
`l[k] + P` is in the list and no index between the two is. -/
theorem next_entry_of_period (l : List Nat) (hs : l.Pairwise (· < ·)) (k P : Nat)
    (hk : k + 1 < l.length) (hP : 1 ≤ P) (hmem : l.getD k 0 + P ∈ l)
    (hnone : ∀ j, l.getD k 0 < j → j < l.getD k 0 + P → j ∉ l) :
    l.getD (k + 1) 0 = l.getD k 0 + P := by
  obtain ⟨m, hm, hmv⟩ := List.mem_iff_getElem.1 hmem
  have hmD : l.getD m 0 = l.getD k 0 + P := by
    rw [List.getD_eq_getElem l 0 hm]
    exact hmv
  have hkm : k < m := by
    by_contra hcon
    rcases Nat.eq_or_lt_of_le (Nat.le_of_not_lt hcon) with h | h
    · rw [h] at hmD
      omega
    · have := getD_lt_of_sorted l hs m k h (by omega)
      omega
  have h1 : l.getD k 0 < l.getD (k + 1) 0 := getD_lt_of_sorted l hs k (k + 1) (by omega) hk
  have h2 : l.getD (k + 1) 0 ≤ l.getD m 0 := by
    rcases Nat.eq_or_lt_of_le hkm with h | h
    · rw [← h]
    · exact le_of_lt (getD_lt_of_sorted l hs (k + 1) m h hm)
  by_contra hne
  exact hnone (l.getD (k + 1) 0) h1 (by omega) (getD_mem l (k + 1) hk)

/-- Entry `k` of the first `n` entries of a list, for `k < n`. -/
theorem getD_take (l : List Nat) : ∀ (n k : Nat), k < n → (l.take n).getD k 0 = l.getD k 0 := by
  induction l with
  | nil => intro n k _; simp
  | cons x t ih =>
    intro n k hk
    cases n with
    | zero => omega
    | succ n =>
      cases k with
      | zero => rfl
      | succ k =>
        simp only [List.take_succ_cons, List.getD_cons_succ]
        exact ih n k (by omega)

/-- The buffer `sineBuf` repeats with the period 20, and it has one upward
crossing of the upper threshold 2185 per period, at the indices `20 * q + 2`. -/
theorem sineBuf_periodic :
    (∀ i, i + 20 < 202 → sineBuf (i + 20) = sineBuf i) ∧
    (∀ i, 1 ≤ i → i < 202 →
      ((sineBuf (i - 1) ≤ 2185 ∧ sineBuf i > 2185) ↔ i % 20 = 2)) := by
  constructor
  · intro i hi
    have h1 : i < 202 := by omega
    simp only [sineBuf, hi, h1, if_true, sineWave, Nat.add_mod_right]
  · intro i h1 hi
    have h2 : i - 1 < 202 := by omega
    have h3 : (i - 1) % 20 = (i % 20 + 19) % 20 := by omega
    have hr : i % 20 < 20 := Nat.mod_lt _ (by decide)
    simp only [sineBuf, hi, h2, if_true, sineWave, h3]
    generalize i % 20 = r at hr
    interval_cases r <;> decide

/-- C34, counterexample. The buffer `sineBuf` has the period 20 on its 202
samples, the thresholds are 1094 ≤ 2185 and there is one upward crossing of
the upper threshold per period, but the stored edges are 4, 22, 42, ..., 182:
the first stored spacing is 18, not 20, because the loop starts at index
`MINTICDIFF` on the low side with the sample at index 4 above the threshold. -/
theorem storedEdges_periodic_counterexample :
    (∀ i, i + 20 < (sineStats ℝ).d_len → sineBuf (i + 20) = sineBuf i) ∧
    lowerThreshold (sineStats ℝ).d_mean (sineStats ℝ).d_min = 1094 ∧
    upperThreshold (sineStats ℝ).d_mean (sineStats ℝ).d_max = 2185 ∧
    (∀ i, 1 ≤ i → i < (sineStats ℝ).d_len →
      ((sineBuf (i - 1) ≤ 2185 ∧ sineBuf i > 2185) ↔ i % 20 = 2)) ∧
    storedEdges (sineStats ℝ) sineBuf = [4, 22, 42, 62, 82, 102, 122, 142, 162, 182] ∧
    spacing (storedEdges (sineStats ℝ) sineBuf) 0 = 18 ∧
    ¬ spacing (storedEdges (sineStats ℝ) sineBuf) 0 = 20 := by
  have hst : storedEdges (sineStats ℝ) sineBuf
      = [4, 22, 42, 62, 82, 102, 122, 142, 162, 182] := by
    unfold storedEdges
    rw [(segmentation_spec (sineStats ℝ) sineBuf).1, sineStats_edges]
    rfl
  refine ⟨sineBuf_periodic.1, by decide, by decide, sineBuf_periodic.2, hst, ?_, ?_⟩
  · rw [hst]
    decide
  · rw [hst]
    decide

/-- C34, amended. Edge detection is shift-invariant on periodic input: if
`data[i + P] = data[i]` for all `i` with `i + P < d_len` (`P ≥ 1`) and
`lower_wc ≤ upper_wc`, then for every index `i` with `P + MINTICDIFF ≤ i` and
`i + P < d_len` an edge is detected at `i` if and only if an edge is detected
at `i + P`; so a detected edge at such an index `i` with no further edge
before `i + P` is followed by the edge `i + P`, and the stored spacing is `P`. -/
theorem edgesOf_shift_invariant {F : Type} (s : sADCData F) (pb : Nat → Nat) (P : Nat)
    (hP : 1 ≤ P) (hper : ∀ i, i + P < s.d_len → pb (i + P) = pb i)
    (hlu : lowerThreshold s.d_mean s.d_min ≤ upperThreshold s.d_mean s.d_max) :
    (∀ i, P + MINTICDIFF ≤ i → i + P < s.d_len →
      (i ∈ edgesOf s pb ↔ i + P ∈ edgesOf s pb)) ∧
    (∀ k, k + 1 < (edgesOf s pb).length → P + MINTICDIFF ≤ (edgesOf s pb).getD k 0 →
      (edgesOf s pb).getD k 0 + P < s.d_len →
      (∀ j, (edgesOf s pb).getD k 0 < j → j < (edgesOf s pb).getD k 0 + P →
        j ∉ edgesOf s pb) →
      (edgesOf s pb).getD (k + 1) 0 = (edgesOf s pb).getD k 0 + P ∧
      (k + 1 < (storedEdges s pb).length → spacing (storedEdges s pb) k = P)) := by
  have hshift : ∀ i, P + MINTICDIFF ≤ i → i + P < s.d_len →
      (i ∈ edgesOf s pb ↔ i + P ∈ edgesOf s pb) := fun i h1 h2 =>
    detectedEdges_shift pb _ _ hlu _ s.d_len P hP hper i h1 h2
  refine ⟨hshift, ?_⟩
  intro k hk hik hikP hnone
  have hmem : (edgesOf s pb).getD k 0 + P ∈ edgesOf s pb :=
    (hshift _ hik hikP).1 (getD_mem _ k (by omega))
  have hnext := next_entry_of_period (edgesOf s pb) (edgesOf_sorted s pb) k P hk hP hmem hnone
  refine ⟨hnext, ?_⟩
  intro hks
  have hcap := (storedEdges_facts s pb).2.2.2
  unfold spacing
  have hst : storedEdges s pb = (edgesOf s pb).take 199 := (segmentation_spec s pb).1
  rw [hst, getD_take _ 199 (k + 1) (by omega), getD_take _ 199 k (by omega), hnext]
  omega

/-- Witness for C34, amended: the square wave of period 8 on 40 samples; the
edge at 12 and the edge at 20, one period later. -/
theorem edgesOf_shift_invariant_witness :
    ((12 : Nat) ∈ edgesOf (sampleInput ℚ 40) squareWave
      ↔ 12 + 8 ∈ edgesOf (sampleInput ℚ 40) squareWave) ∧
    (edgesOf (sampleInput ℚ 40) squareWave).getD (1 + 1) 0
      = (edgesOf (sampleInput ℚ 40) squareWave).getD 1 0 + 8 ∧
    (1 + 1 < (storedEdges (sampleInput ℚ 40) squareWave).length →
      spacing (storedEdges (sampleInput ℚ 40) squareWave) 1 = 8) :=
  have hper : ∀ i, i + 8 < (sampleInput ℚ 40).d_len → squareWave (i + 8) = squareWave i :=
    fun i _ => by simp only [squareWave, Nat.add_mod_right]
  have h := edgesOf_shift_invariant (sampleInput ℚ 40) squareWave 8 (by decide) hper
    (by decide)
  ⟨h.1 12 (by decide) (by decide),
    h.2 1 (by rw [sampleInput_40_edges]; decide) (by rw [sampleInput_40_edges]; decide)
      (by rw [sampleInput_40_edges]; decide)
      (fun j h1 h2 => by
        rw [sampleInput_40_edges] at h1 h2 ⊢
        simp only [List.getD_cons_succ, List.getD_cons_zero] at h1 h2
        simp only [List.mem_cons, List.mem_singleton, List.not_mem_nil, or_false]
        omega)⟩

/-! ## The candidate loop on the frequencies `findNoteRange` accepts -/

/-- The frequencies `findNoteRange` accepts (return value at least 0) are
those from `noteCstart[0]` to `2 * noteCstart[6] * HALFNOTEFACTOR`. -/
theorem findNoteRange_nonneg_iff {F : Type} [LinearOrderedField F] (freq : F) :
    0 ≤ findNoteRange freq ↔
      noteCstart.getD 0 0 ≤ freq ∧ freq ≤ 2 * noteCstart.getD 6 0 * HALFNOTEFACTOR := by
  rcases findNoteRange_cases freq with ⟨h1, h2⟩ | ⟨h1, h2⟩ | ⟨k, hk, hr, hlo, -, htop⟩
  · rw [h1]
    constructor
    · intro h; exact absurd h (by decide)
    · rintro ⟨-, h⟩; exact absurd h (not_le.2 h2)
  · rw [h1]
    constructor
    · intro h; exact absurd h (by decide)
    · rintro ⟨h, -⟩; exact absurd h (not_le.2 h2)
  · rw [hr]
    constructor
    · intro _
      refine ⟨le_trans ?_ hlo, htop⟩
      rcases Nat.eq_zero_or_pos k with hz | hz
      · rw [hz]
      · exact le_of_lt (noteCstart_mono 0 k hz hk)
    · intro _
      exact Int.natCast_nonneg k

/-- An accepted frequency is within 10^4 Hz of every range start. -/
theorem accepted_dist {F : Type} [LinearOrderedField F] (freq : F)
    (hacc : 0 ≤ findNoteRange freq) (r : Nat) (hr : r ≤ 6) :
    |freq - noteCstart.getD r 0| ≤ 10 ^ 4 ∧ |freq - noteCstart.getD r 0| < FLT_MAX := by
  obtain ⟨hlo, htop⟩ := (findNoteRange_nonneg_iff freq).1 hacc
  have h0 : (0 : F) < noteCstart.getD 0 0 := noteCstart_pos 0 (by decide)
  have hr0 := noteCstart_pos (F := F) r hr
  have hr6 : (noteCstart : List F).getD r 0 ≤ noteCstart.getD 6 0 := by
    rcases Nat.lt_or_eq_of_le hr with h | h
    · exact le_of_lt (noteCstart_mono r 6 h (by decide))
    · rw [h]
  have h6 : (noteCstart : List F).getD 6 0 ≤ 4200 := by
    simp only [noteCstart, List.getD_cons_succ, List.getD_cons_zero]
    norm_num
  have htopn : (2 : F) * noteCstart.getD 6 0 * HALFNOTEFACTOR ≤ 9000 := by
    simp only [noteCstart, List.getD_cons_succ, List.getD_cons_zero, HALFNOTEFACTOR]
    norm_num
  have hd : |freq - noteCstart.getD r 0| ≤ 10 ^ 4 := by
    have h10 : (10 : F) ^ 4 = 10000 := by norm_num
    rw [abs_le, h10]
    constructor <;> linarith
  refine ⟨hd, lt_of_le_of_lt hd ?_⟩
  unfold FLT_MAX
  norm_num

/-- The call `findNoteInRange` on an accepted frequency and a range in 0..6:
the first nearest candidate is matched, the quotient `d / oneCent` is at most
10^6 in magnitude, so that the conversion to `int` is defined, and the return
value is the quotient rounded half away from zero. -/
theorem findNoteInRange_on_accepted {F : Type} [LinearOrderedField F] [FloorRing F] (freq : F)
    (hacc : 0 ≤ findNoteRange freq) (r : Nat) (hr : r ≤ 6) (name : String) :
    ∃ k, k ≤ 12 ∧ (noteScan freq (r : Int)).idxMin = some k ∧
      (noteScan freq (r : Int)).freqMinDist = some (candidate (noteCstart.getD r 0) k) ∧
      (noteScan freq (r : Int)).minDist = freq - candidate (noteCstart.getD r 0) k ∧
      (∀ j, j ≤ 12 → |freq - candidate (noteCstart.getD r 0) k|
        ≤ |freq - candidate (noteCstart.getD r 0) j|) ∧
      (∀ j, j < k → |freq - candidate (noteCstart.getD r 0) k|
        < |freq - candidate (noteCstart.getD r 0) j|) ∧
      (0.0388 : F) ≤ (TWELFTH_SQ2 - 1) * candidate (noteCstart.getD r 0) k / 100 ∧
      |(freq - candidate (noteCstart.getD r 0) k)
        / ((TWELFTH_SQ2 - 1) * candidate (noteCstart.getD r 0) k / 100)| ≤ 10 ^ 6 ∧
      findNoteInRange freq (r : Int) name
        = some (roundHalfAway ((freq - candidate (noteCstart.getD r 0) k)
            / ((TWELFTH_SQ2 - 1) * candidate (noteCstart.getD r 0) k / 100)),
          noteLabel r k) ∧
      |roundHalfAway ((freq - candidate (noteCstart.getD r 0) k)
          / ((TWELFTH_SQ2 - 1) * candidate (noteCstart.getD r 0) k / 100))| < 2 ^ 31 := by
  obtain ⟨hnear, hmax⟩ := accepted_dist freq hacc r hr
  obtain ⟨k, hk, hidx, hfmd, hmd, hmin, hfirst⟩ := noteScan_nearest freq r hr hmax
  have hone := oneCent_lower (F := F) r hr k
  have hpos : (0 : F) < (TWELFTH_SQ2 - 1) * candidate (noteCstart.getD r 0) k / 100 :=
    lt_of_lt_of_le (by norm_num) hone
  have hone3 : (0.03 : F) ≤ (TWELFTH_SQ2 - 1) * candidate (noteCstart.getD r 0) k / 100 :=
    le_trans (by norm_num) hone
  have hfn := findNoteInRange_of_scan freq r hr name k _ hidx hfmd
  rw [hmd, centOf_round _ _ hone3] at hfn
  have hd : |freq - candidate (noteCstart.getD r 0) k| ≤ 10 ^ 4 := by
    have := hmin 0 (Nat.zero_le 12)
    rw [candidate_zero] at this
    exact le_trans this hnear
  have hq : |(freq - candidate (noteCstart.getD r 0) k)
      / ((TWELFTH_SQ2 - 1) * candidate (noteCstart.getD r 0) k / 100)| ≤ 10 ^ 6 := by
    rw [abs_div, abs_of_pos hpos, div_le_iff₀ hpos]
    calc |freq - candidate (noteCstart.getD r 0) k| ≤ 10 ^ 4 := hd
      _ ≤ 10 ^ 6 * 0.0388 := by norm_num
      _ ≤ 10 ^ 6 * ((TWELFTH_SQ2 - 1) * candidate (noteCstart.getD r 0) k / 100) :=
        mul_le_mul_of_nonneg_left hone (by norm_num)
  refine ⟨k, hk, hidx, hfmd, hmd, hmin, hfirst, hone, hq, hfn, ?_⟩
  have hb := roundHalfAway_abs_le ((freq - candidate (noteCstart.getD r 0) k)
      / ((TWELFTH_SQ2 - 1) * candidate (noteCstart.getD r 0) k / 100))
  have hlt : ((|roundHalfAway ((freq - candidate (noteCstart.getD r 0) k)
      / ((TWELFTH_SQ2 - 1) * candidate (noteCstart.getD r 0) k / 100))| : Int) : F)
      < (((2 : Int) ^ 31 : Int) : F) := by
    have hnum : (10 : F) ^ 6 + 1 / 2 < (((2 : Int) ^ 31 : Int) : F) := by
      push_cast
      norm_num
    linarith
  exact Int.cast_lt.1 hlt

/-- The frequencies 440, 450 and 1000 Hz are accepted by `findNoteRange`. -/
theorem accepted_examples :
    0 ≤ findNoteRange (440 : ℚ) ∧ 0 ≤ findNoteRange (450 : ℚ) ∧
    0 ≤ findNoteRange (1000 : ℚ) := by
  refine ⟨(findNoteRange_nonneg_iff _).2 ⟨?_, ?_⟩, (findNoteRange_nonneg_iff _).2 ⟨?_, ?_⟩,
    (findNoteRange_nonneg_iff _).2 ⟨?_, ?_⟩⟩ <;>
  · simp only [noteCstart, List.getD_cons_succ, List.getD_cons_zero, HALFNOTEFACTOR]
    norm_num

/-- C29, amended. For every range in 0..6 and every frequency accepted by
`findNoteRange` (from `noteCstart[0]` to `2 * noteCstart[6] * HALFNOTEFACTOR`),
`findNoteInRange` selects among the 13 candidates
`c_i = noteCstart[range] * TWELFTH_SQ2^i` one with the smallest absolute
distance `|freq - c_i|`, the lowest index among equal minima; the running
minimum holds the signed distance `freq - c_k`, and the cent value returned
with the label is in the range of `int`. -/
theorem findNoteInRange_nearest {F : Type} [LinearOrderedField F] [FloorRing F] (freq : F)
    (hacc : 0 ≤ findNoteRange freq) (r : Nat) (hr : r ≤ 6) (name : String) :
    ∃ k, k ≤ 12 ∧ (noteScan freq (r : Int)).idxMin = some k ∧
      (noteScan freq (r : Int)).freqMinDist = some (candidate (noteCstart.getD r 0) k) ∧
      (noteScan freq (r : Int)).minDist = freq - candidate (noteCstart.getD r 0) k ∧
      (∀ j, j ≤ 12 → |freq - candidate (noteCstart.getD r 0) k|
        ≤ |freq - candidate (noteCstart.getD r 0) j|) ∧
      (∀ j, j < k → |freq - candidate (noteCstart.getD r 0) k|
        < |freq - candidate (noteCstart.getD r 0) j|) ∧
      ∃ cent, findNoteInRange freq (r : Int) name = some (cent, noteLabel r k) ∧
        |cent| < 2 ^ 31 := by
  obtain ⟨k, hk, hidx, hfmd, hmd, hmin, hfirst, -, -, hfn, hint⟩ :=
    findNoteInRange_on_accepted freq hacc r hr name
  exact ⟨k, hk, hidx, hfmd, hmd, hmin, hfirst, _, hfn, hint⟩

/-- Witness for C29, amended: 450 Hz on range 2. -/
theorem findNoteInRange_nearest_witness :
    0 ≤ findNoteRange (450 : ℚ) ∧
    ∃ k, k ≤ 12 ∧ (noteScan (450 : ℚ) ((2 : Nat) : Int)).idxMin = some k ∧
      (noteScan (450 : ℚ) ((2 : Nat) : Int)).freqMinDist
        = some (candidate (noteCstart.getD 2 0) k) ∧
      (noteScan (450 : ℚ) ((2 : Nat) : Int)).minDist
        = 450 - candidate (noteCstart.getD 2 0) k ∧
      (∀ j, j ≤ 12 → |(450 : ℚ) - candidate (noteCstart.getD 2 0) k|
        ≤ |450 - candidate (noteCstart.getD 2 0) j|) ∧
      (∀ j, j < k → |(450 : ℚ) - candidate (noteCstart.getD 2 0) k|
        < |450 - candidate (noteCstart.getD 2 0) j|) ∧
      ∃ cent, findNoteInRange (450 : ℚ) ((2 : Nat) : Int) "" = some (cent, noteLabel 2 k) ∧
        |cent| < 2 ^ 31 :=
  ⟨accepted_examples.2.1, findNoteInRange_nearest 450 accepted_examples.2.1 2 (by decide) ""⟩

/-- C21, amended. For every range in 0..6 and every frequency accepted by
`findNoteRange`, the label written by `findNoteInRange` has at most 4
characters (a table name of at most 3 characters and at most one octave
digit), 5 bytes with its terminator, and the cent value returned with it is
in the range of `int`; for a range outside 0..6 the function returns -9999
and leaves the name as it was, for every frequency. -/
theorem findNoteInRange_name_length {F : Type} [LinearOrderedField F] [FloorRing F]
    (freq : F) (hacc : 0 ≤ findNoteRange freq) (r : Nat) (hr : r ≤ 6) (name : String) :
    (∃ i cent, i ≤ 12 ∧ (noteScan freq (r : Int)).idxMin = some i ∧
      findNoteInRange freq (r : Int) name = some (cent, noteLabel r i) ∧
      |cent| < 2 ^ 31 ∧
      (noteNames.getD i "").length ≤ 3 ∧
      (noteLabel r i).length ≤ (noteNames.getD i "").length + 1 ∧
      (noteLabel r i).length ≤ 4 ∧ (noteLabel r i).length + 1 ≤ 5) ∧
    (∀ (g : F) (range : Int), range < 0 ∨ range > 6 →
      findNoteInRange g range name = some (-9999, name)) := by
  obtain ⟨i, hi, hidx, -, -, -, -, -, -, hfn, hint⟩ :=
    findNoteInRange_on_accepted freq hacc r hr name
  have hlen := noteLabel_length r i hr hi
  refine ⟨⟨i, _, hi, hidx, hfn, hint, hlen.1, ?_, hlen.2, by omega⟩, ?_⟩
  · have hr2 := hr
    have hi2 := hi
    clear hidx hfn hint hlen hacc
    interval_cases r <;> interval_cases i <;> decide
  · intro g range hrange
    unfold findNoteInRange
    simp only [hrange, if_true]

/-- Witness for C21, amended: 440 Hz on range 2. -/
theorem findNoteInRange_name_length_witness :
    0 ≤ findNoteRange (440 : ℚ) ∧
    (∃ i cent, i ≤ 12 ∧ (noteScan (440 : ℚ) ((2 : Nat) : Int)).idxMin = some i ∧
      findNoteInRange (440 : ℚ) ((2 : Nat) : Int) "" = some (cent, noteLabel 2 i) ∧
      |cent| < 2 ^ 31 ∧
      (noteNames.getD i "").length ≤ 3 ∧
      (noteLabel 2 i).length ≤ (noteNames.getD i "").length + 1 ∧
      (noteLabel 2 i).length ≤ 4 ∧ (noteLabel 2 i).length + 1 ≤ 5) ∧
    (∀ (g : ℚ) (range : Int), range < 0 ∨ range > 6 →
      findNoteInRange g range "" = some (-9999, "")) :=
  ⟨accepted_examples.1, findNoteInRange_name_length 440 accepted_examples.1 2 (by decide) ""⟩

/-- C30, amended. For every range in 0..6 and every frequency accepted by
`findNoteRange`, `findNoteInRange` returns `d / oneCent` rounded half away
from zero, where `d = freq - c_k` is the signed distance from the matched
candidate and `oneCent = (TWELFTH_SQ2 - 1) * c_k / 100`; the operand of the
conversion to `int`, of magnitude at most `|d / oneCent| + 0.5`, and the
result are in the range of `int`; the zero shortcut guarded by 0.03 is never
taken because `oneCent` is at least 0.0388 Hz. -/
theorem findNoteInRange_rounding {F : Type} [LinearOrderedField F] [FloorRing F] (freq : F)
    (hacc : 0 ≤ findNoteRange freq) (r : Nat) (hr : r ≤ 6) (name : String) :
    ∃ k, k ≤ 12 ∧ (noteScan freq (r : Int)).idxMin = some k ∧
      (noteScan freq (r : Int)).minDist = freq - candidate (noteCstart.getD r 0) k ∧
      (0.0388 : F) ≤ (TWELFTH_SQ2 - 1) * candidate (noteCstart.getD r 0) k / 100 ∧
      ¬ |(TWELFTH_SQ2 - 1) * candidate (noteCstart.getD r 0) k / 100| < (0.03 : F) ∧
      |(freq - candidate (noteCstart.getD r 0) k)
        / ((TWELFTH_SQ2 - 1) * candidate (noteCstart.getD r 0) k / 100)| + 0.5 < 2 ^ 31 ∧
      findNoteInRange freq (r : Int) name
        = some (roundHalfAway ((freq - candidate (noteCstart.getD r 0) k)
            / ((TWELFTH_SQ2 - 1) * candidate (noteCstart.getD r 0) k / 100)),
          noteLabel r k) ∧
      |roundHalfAway ((freq - candidate (noteCstart.getD r 0) k)
          / ((TWELFTH_SQ2 - 1) * candidate (noteCstart.getD r 0) k / 100))| < 2 ^ 31 := by
  obtain ⟨k, hk, hidx, -, hmd, -, -, hone, hq, hfn, hint⟩ :=
    findNoteInRange_on_accepted freq hacc r hr name
  have hpos : (0 : F) < (TWELFTH_SQ2 - 1) * candidate (noteCstart.getD r 0) k / 100 :=
    lt_of_lt_of_le (by norm_num) hone
  refine ⟨k, hk, hidx, hmd, hone, ?_, ?_, hfn, hint⟩
  · rw [abs_of_pos hpos, not_lt]
    exact le_trans (by norm_num) hone
  · have hnum : (10 : F) ^ 6 + 0.5 < 2 ^ 31 := by norm_num
    linarith

/-- Witness for C30, amended: 1000 Hz on range 3. -/
theorem findNoteInRange_rounding_witness :
    0 ≤ findNoteRange (1000 : ℚ) ∧
    ∃ k, k ≤ 12 ∧ (noteScan (1000 : ℚ) ((3 : Nat) : Int)).idxMin = some k ∧
      (noteScan (1000 : ℚ) ((3 : Nat) : Int)).minDist
        = 1000 - candidate (noteCstart.getD 3 0) k ∧
      (0.0388 : ℚ) ≤ (TWELFTH_SQ2 - 1) * candidate (noteCstart.getD 3 0) k / 100 ∧
      ¬ |(TWELFTH_SQ2 - 1) * candidate (noteCstart.getD 3 0) k / 100| < (0.03 : ℚ) ∧
      |((1000 : ℚ) - candidate (noteCstart.getD 3 0) k)
        / ((TWELFTH_SQ2 - 1) * candidate (noteCstart.getD 3 0) k / 100)| + 0.5 < 2 ^ 31 ∧
      findNoteInRange (1000 : ℚ) ((3 : Nat) : Int) ""
        = some (roundHalfAway (((1000 : ℚ) - candidate (noteCstart.getD 3 0) k)
            / ((TWELFTH_SQ2 - 1) * candidate (noteCstart.getD 3 0) k / 100)),
          noteLabel 3 k) ∧
      |roundHalfAway (((1000 : ℚ) - candidate (noteCstart.getD 3 0) k)
          / ((TWELFTH_SQ2 - 1) * candidate (noteCstart.getD 3 0) k / 100))| < 2 ^ 31 :=
  ⟨accepted_examples.2.2,
    findNoteInRange_rounding 1000 accepted_examples.2.2 3 (by decide) ""⟩

/-- C31, amended. For every range in 0..6 and every frequency accepted by
`findNoteRange`, the test of line 188 compares `oneCent` of the matched
candidate, which is at least 0.0388 Hz, with 0.03 and never holds;
`findNoteInRange` returns the cent deviation 0 exactly when the magnitude of
the signed distance to the matched candidate is below half of `oneCent`, in
particular whenever it is below 0.0194 Hz; the cent value is in the range of
`int`. -/
theorem findNoteInRange_epsilon {F : Type} [LinearOrderedField F] [FloorRing F] (freq : F)
    (hacc : 0 ≤ findNoteRange freq) (r : Nat) (hr : r ≤ 6) (name : String) :
    ∃ k cent, k ≤ 12 ∧ (noteScan freq (r : Int)).idxMin = some k ∧
      findNoteInRange freq (r : Int) name = some (cent, noteLabel r k) ∧
      |cent| < 2 ^ 31 ∧
      ¬ |(TWELFTH_SQ2 - 1) * candidate (noteCstart.getD r 0) k / 100| < (0.03 : F) ∧
      (cent = 0 ↔ |freq - candidate (noteCstart.getD r 0) k|
        < (TWELFTH_SQ2 - 1) * candidate (noteCstart.getD r 0) k / 100 / 2) ∧
      (|freq - candidate (noteCstart.getD r 0) k| < 0.0194 → cent = 0) := by
  obtain ⟨k, hk, hidx, -, -, -, -, hone, -, hfn, hint⟩ :=
    findNoteInRange_on_accepted freq hacc r hr name
  have hpos : (0 : F) < (TWELFTH_SQ2 - 1) * candidate (noteCstart.getD r 0) k / 100 :=
    lt_of_lt_of_le (by norm_num) hone
  have hiff : roundHalfAway ((freq - candidate (noteCstart.getD r 0) k)
        / ((TWELFTH_SQ2 - 1) * candidate (noteCstart.getD r 0) k / 100)) = 0
      ↔ |freq - candidate (noteCstart.getD r 0) k|
        < (TWELFTH_SQ2 - 1) * candidate (noteCstart.getD r 0) k / 100 / 2 := by
    rw [roundHalfAway_eq_zero_iff, abs_div, abs_of_pos hpos, div_lt_iff₀ hpos]
    constructor <;> intro h <;> linarith
  refine ⟨k, _, hk, hidx, hfn, hint, ?_, hiff, ?_⟩
  · rw [abs_of_pos hpos, not_lt]
    exact le_trans (by norm_num) hone
  · intro hd
    apply hiff.2
    have : (0.0194 : F) ≤ (TWELFTH_SQ2 - 1) * candidate (noteCstart.getD r 0) k / 100 / 2 := by
      have h2 : (0.0194 : F) = 0.0388 / 2 := by norm_num
      rw [h2]
      linarith
    exact lt_of_lt_of_le hd this

/-- Witness for C31, amended: 440 Hz on range 2. -/
theorem findNoteInRange_epsilon_witness :
    0 ≤ findNoteRange (440 : ℚ) ∧
    ∃ k cent, k ≤ 12 ∧ (noteScan (440 : ℚ) ((2 : Nat) : Int)).idxMin = some k ∧
      findNoteInRange (440 : ℚ) ((2 : Nat) : Int) "" = some (cent, noteLabel 2 k) ∧
      |cent| < 2 ^ 31 ∧
      ¬ |(TWELFTH_SQ2 - 1) * candidate (noteCstart.getD 2 0) k / 100| < (0.03 : ℚ) ∧
      (cent = 0 ↔ |(440 : ℚ) - candidate (noteCstart.getD 2 0) k|
        < (TWELFTH_SQ2 - 1) * candidate (noteCstart.getD 2 0) k / 100 / 2) ∧
      (|(440 : ℚ) - candidate (noteCstart.getD 2 0) k| < 0.0194 → cent = 0) :=
  ⟨accepted_examples.1, findNoteInRange_epsilon 440 accepted_examples.1 2 (by decide) ""⟩

/-! ## Rising edges of a signal that is high and low on periodic arcs -/

/-- With no sample above `up` and none at or below `lo` the flag
`signal_side` keeps its value. -/
theorem sideAfter_idle (pb : Nat → Nat) (lo up : Nat) (hlu : lo ≤ up) :
    ∀ (m i : Nat) (side : Bool),
      (∀ t, i ≤ t → t < i + m → ¬ pb t > up ∧ ¬ pb t ≤ lo) →
      sideAfter pb lo up side i m = side := by
  intro m
  induction m with
  | zero => intro i side _; rfl
  | succ m ih =>
    intro i side h
    have h0 := h i le_rfl (by omega)
    show sideAfter pb lo up (sideStep lo up side (pb i)) (i + 1) m = side
    rw [sideStep_eq lo up hlu, if_neg h0.1, if_neg h0.2]
    exact ih (i + 1) side (fun t ht1 ht2 => h t (by omega) (by omega))

/-- The flag after `m` passes is set by the last sample that is above `up` or
at or below `lo`. -/
theorem sideAfter_decisive (pb : Nat → Nat) (lo up : Nat) (hlu : lo ≤ up)
    (i m j : Nat) (side : Bool) (hij : i ≤ j) (hjm : j < i + m)
    (hidle : ∀ t, j < t → t < i + m → ¬ pb t > up ∧ ¬ pb t ≤ lo) :
    sideAfter pb lo up side i m
      = sideStep lo up (sideAfter pb lo up side i (j - i)) (pb j) := by
  obtain ⟨r, rfl⟩ : ∃ r, m = (j - i) + (1 + r) := ⟨i + m - j - 1, by omega⟩
  rw [sideAfter_add, sideAfter_add]
  have hj : i + (j - i) = j := by omega
  rw [hj]
  have h1 : ∀ sd, sideAfter pb lo up sd j 1 = sideStep lo up sd (pb j) := fun _ => rfl
  rw [h1]
  exact sideAfter_idle pb lo up hlu r (j + 1) _
    (fun t ht1 ht2 => hidle t (by omega) (by omega))

/-- No sample is above `up` or at or below `lo` between the low arc of one
period and the high arc of the next. -/
theorem arc_idle (pb : Nat → Nat) (lo up len : Nat) (P a h c d : ℝ)
    (hP : 0 < P) (hah : a ≤ h) (hhc : h < c) (hcd : c ≤ d)
    (hup : ∀ i, i < len → (pb i > up ↔ ∃ k : Nat, (k : ℝ) * P + a ≤ i ∧ (i : ℝ) ≤ k * P + h))
    (hdn : ∀ i, i < len → (pb i ≤ lo ↔ ∃ k : Nat, (k : ℝ) * P + c ≤ i ∧ (i : ℝ) ≤ k * P + d))
    (k t : Nat) (ht : t < len) (h1 : (t : ℝ) < k * P + a)
    (h2 : k = 0 ∨ ((k : ℝ) - 1) * P + d < t) :
    ¬ pb t > up ∧ ¬ pb t ≤ lo := by
  have key : ∀ (k2 : Nat) (x y : ℝ), a ≤ x → x ≤ y → y ≤ d →
      ¬ ((k2 : ℝ) * P + x ≤ t ∧ (t : ℝ) ≤ k2 * P + y) := by
    intro k2 x y hax hxy hyd ⟨h3, h4⟩
    rcases Nat.lt_or_ge k2 k with hk | hk
    · rcases h2 with h0 | h2
      · omega
      · have : (k2 : ℝ) + 1 ≤ k := by exact_mod_cast hk
        have : (k2 : ℝ) * P ≤ (k - 1) * P :=
          mul_le_mul_of_nonneg_right (by linarith) hP.le
        linarith
    · have : (k : ℝ) * P ≤ k2 * P :=
        mul_le_mul_of_nonneg_right (by exact_mod_cast hk) hP.le
      linarith
  constructor
  · rw [hup t ht]
    rintro ⟨k2, h3⟩
    exact key k2 a h le_rfl hah (by linarith) h3
  · rw [hdn t ht]
    rintro ⟨k2, h3⟩
    exact key k2 c d (by linarith) hcd le_rfl h3

/-- The rising edges of a signal that is above `up` exactly on the arcs
`[k P + a, k P + h]` and at or below `lo` exactly on the arcs
`[k P + c, k P + d]`, scanned from index 4 on the low side: the first sample
of each high arc, and index 4 where the first arc starts before it. -/
theorem arc_edges (pb : Nat → Nat) (lo up len : Nat) (P a h c d : ℝ)
    (hlu : lo ≤ up) (hP : 4 ≤ P) (ha0 : 0 < a) (hah : a + 1 ≤ h) (hhc : h < c)
    (hcd : c + 1 ≤ d) (hdP : d < P + a) (h4h : 4 ≤ h)
    (hlen : h + 1 ≤ len)
    (hup : ∀ i, i < len → (pb i > up ↔ ∃ k : Nat, (k : ℝ) * P + a ≤ i ∧ (i : ℝ) ≤ k * P + h))
    (hdn : ∀ i, i < len → (pb i ≤ lo ↔ ∃ k : Nat, (k : ℝ) * P + c ≤ i ∧ (i : ℝ) ≤ k * P + d)) :
    detectedEdges pb lo up false 4 (len - 4)
      = (List.range (⌊((len : ℝ) - 1 - a) / P⌋₊ + 1)).map
          (fun k : Nat => if k = 0 then max 4 ⌈a⌉₊ else ⌈(k : ℝ) * P + a⌉₊) := by
  have hP0 : (0 : ℝ) < P := by linarith
  have hidle := arc_idle pb lo up len P a h c d hP0 (by linarith) hhc (by linarith) hup hdn
  have hlen4 : 4 < len := by
    have : (4 : ℝ) < len := by linarith
    exact_mod_cast this
  have hx0 : 0 ≤ ((len : ℝ) - 1 - a) / P := div_nonneg (by linarith) hP0.le
  -- the candidate positions
  have hg_lt : ∀ k : Nat, (k : ℝ) * P + a ≤ (len : ℝ) - 1 →
      (if k = 0 then max 4 ⌈a⌉₊ else ⌈(k : ℝ) * P + a⌉₊) < len := by
    intro k hk
    have hc : ⌈(k : ℝ) * P + a⌉₊ < len := by
      have h1 : ⌈(k : ℝ) * P + a⌉₊ ≤ len - 1 := by
        apply Nat.ceil_le.2
        have : ((len - 1 : Nat) : ℝ) = (len : ℝ) - 1 := by
          rw [Nat.cast_sub (by omega)]; simp
        rw [this]; exact hk
      omega
    by_cases h0 : k = 0
    · subst h0
      simp only [if_true, Nat.cast_zero, zero_mul, zero_add] at hc ⊢
      exact max_lt hlen4 hc
    · simp only [h0, if_false]
      exact hc
  have hmem : ∀ e, e ∈ detectedEdges pb lo up false 4 (len - 4) ↔
      e ∈ (List.range (⌊((len : ℝ) - 1 - a) / P⌋₊ + 1)).map
          (fun k : Nat => if k = 0 then max 4 ⌈a⌉₊ else ⌈(k : ℝ) * P + a⌉₊) := by
    intro e
    rw [mem_detectedEdges_iff, List.mem_map]
    constructor
    · rintro ⟨h4e, hel, hside, habove⟩
      have hel2 : e < len := by omega
      obtain ⟨k, hk1, hk2⟩ := (hup e hel2).1 habove
      have hkK : k ∈ List.range (⌊((len : ℝ) - 1 - a) / P⌋₊ + 1) := by
        rw [List.mem_range, Nat.lt_succ_iff]
        apply Nat.le_floor
        rw [le_div_iff₀ hP0]
        have : (e : ℝ) ≤ (len : ℝ) - 1 := by
          have : (e : ℝ) + 1 ≤ len := by exact_mod_cast hel2
          linarith
        linarith
      refine ⟨k, hkK, ?_⟩
      rcases Nat.eq_or_lt_of_le h4e with h4 | h4
      · -- the edge at the first index of the loop
        subst h4
        have hk0 : k = 0 := by
          by_contra hne
          have : (1 : ℝ) ≤ k := by exact_mod_cast Nat.one_le_iff_ne_zero.2 hne
          have : P ≤ (k : ℝ) * P := by nlinarith
          push_cast at hk1
          linarith
        subst hk0
        simp only [if_true]
        have : ⌈a⌉₊ ≤ 4 := by
          apply Nat.ceil_le.2
          simp only [Nat.cast_zero, zero_mul, zero_add] at hk1
          exact hk1
        omega
      · -- a later edge: the sample before it is not above `up`
        have hprev : ¬ pb (e - 1) > up := by
          intro hab
          have := sideAfter_decisive pb lo up hlu 4 (e - 4) (e - 1) false (by omega) (by omega)
            (fun t ht1 ht2 => by omega)
          rw [hside, sideStep_eq lo up hlu, if_pos hab] at this
          exact Bool.noConfusion this
        have hlt : ((e - 1 : Nat) : ℝ) < (k : ℝ) * P + a := by
          by_contra hge
          push_neg at hge
          apply hprev
          rw [hup (e - 1) (by omega)]
          refine ⟨k, hge, le_trans ?_ hk2⟩
          exact_mod_cast Nat.sub_le e 1
        have hceil : ⌈(k : ℝ) * P + a⌉₊ = e :=
          (Nat.ceil_eq_iff (by omega)).2 ⟨hlt, hk1⟩
        by_cases hk0 : k = 0
        · subst hk0
          simp only [if_true]
          simp only [Nat.cast_zero, zero_mul, zero_add] at hceil
          rw [hceil]
          exact max_eq_right (by omega)
        · simp only [hk0, if_false]
          exact hceil
    · rintro ⟨k, hkK, rfl⟩
      rw [List.mem_range, Nat.lt_succ_iff, Nat.le_floor_iff hx0, le_div_iff₀ hP0] at hkK
      have hlt := hg_lt k (by linarith)
      by_cases hk0 : k = 0
      · subst hk0
        simp only [if_true] at hlt ⊢
        have hca : (⌈a⌉₊ : ℝ) < a + 1 := Nat.ceil_lt_add_one ha0.le
        have hac : a ≤ (⌈a⌉₊ : ℝ) := Nat.le_ceil a
        refine ⟨le_max_left _ _, by omega, ?_, ?_⟩
        · apply sideAfter_idle pb lo up hlu
          intro t ht1 ht2
          have ht3 : t < max 4 ⌈a⌉₊ := by omega
          have ht4 : t < ⌈a⌉₊ := by
            rcases max_cases 4 ⌈a⌉₊ with ⟨h5, _⟩ | ⟨h5, _⟩
            · omega
            · omega
          have ht5 : (t : ℝ) < a := Nat.lt_ceil.1 ht4
          exact hidle 0 t (by omega) (by simpa using ht5) (Or.inl rfl)
        · rw [hup _ hlt]
          refine ⟨0, ?_, ?_⟩
          · simp only [Nat.cast_zero, zero_mul, zero_add]
            rcases max_cases 4 ⌈a⌉₊ with ⟨h5, h6⟩ | ⟨h5, h6⟩
            · rw [h5]
              have : (⌈a⌉₊ : ℝ) ≤ 4 := by exact_mod_cast h6
              push_cast
              linarith
            · rw [h5]; exact hac
          · simp only [Nat.cast_zero, zero_mul, zero_add]
            rcases max_cases 4 ⌈a⌉₊ with ⟨h5, _⟩ | ⟨h5, _⟩
            · rw [h5]; push_cast; exact h4h
            · rw [h5]; linarith
      · simp only [hk0, if_false] at hlt ⊢
        have hk1 : (1 : ℝ) ≤ k := by exact_mod_cast Nat.one_le_iff_ne_zero.2 hk0
        have hkP : P ≤ (k : ℝ) * P := by nlinarith
        have hpos : 0 ≤ (k : ℝ) * P + a := by linarith
        have hca : (⌈(k : ℝ) * P + a⌉₊ : ℝ) < (k : ℝ) * P + a + 1 := Nat.ceil_lt_add_one hpos
        have hac : (k : ℝ) * P + a ≤ (⌈(k : ℝ) * P + a⌉₊ : ℝ) := Nat.le_ceil _
        have h4e : 4 ≤ ⌈(k : ℝ) * P + a⌉₊ := by
          have : (4 : ℝ) ≤ (⌈(k : ℝ) * P + a⌉₊ : ℝ) := by linarith
          exact_mod_cast this
        refine ⟨h4e, by omega, ?_, ?_⟩
        · -- the last sample of the low arc before
          have hj0 : 0 ≤ ((k : ℝ) - 1) * P + d := by nlinarith
          have hjd : (⌊((k : ℝ) - 1) * P + d⌋₊ : ℝ) ≤ ((k : ℝ) - 1) * P + d := Nat.floor_le hj0
          have hjd2 : ((k : ℝ) - 1) * P + d < (⌊((k : ℝ) - 1) * P + d⌋₊ : ℝ) + 1 :=
            Nat.lt_floor_add_one _
          have hje : ⌊((k : ℝ) - 1) * P + d⌋₊ < ⌈(k : ℝ) * P + a⌉₊ := by
            have : (⌊((k : ℝ) - 1) * P + d⌋₊ : ℝ) < (⌈(k : ℝ) * P + a⌉₊ : ℝ) := by
              have : ((k : ℝ) - 1) * P = k * P - P := by ring
              linarith
            exact_mod_cast this
          have hj4 : 4 ≤ ⌊((k : ℝ) - 1) * P + d⌋₊ := by
            apply Nat.le_floor
            have : 0 ≤ ((k : ℝ) - 1) * P := mul_nonneg (by linarith) hP0.le
            push_cast
            linarith
          have hjdn : pb ⌊((k : ℝ) - 1) * P + d⌋₊ ≤ lo := by
            rw [hdn _ (by omega)]
            refine ⟨k - 1, ?_, ?_⟩
            · rw [Nat.cast_sub (Nat.one_le_iff_ne_zero.2 hk0)]
              push_cast
              linarith
            · rw [Nat.cast_sub (Nat.one_le_iff_ne_zero.2 hk0)]
              push_cast
              exact hjd
          rw [sideAfter_decisive pb lo up hlu 4 _ ⌊((k : ℝ) - 1) * P + d⌋₊ false hj4
            (by omega) ?_, sideStep_eq lo up hlu, if_neg (by omega), if_pos hjdn]
          intro t ht1 ht2
          have ht3 : t < ⌈(k : ℝ) * P + a⌉₊ := by omega
          refine hidle k t (by omega) (Nat.lt_ceil.1 ht3) (Or.inr ?_)
          have : (⌊((k : ℝ) - 1) * P + d⌋₊ : ℝ) + 1 ≤ t := by exact_mod_cast ht1
          linarith
        · rw [hup _ hlt]
          exact ⟨k, hac, by linarith⟩
  -- both lists are strictly increasing
  have hsorted : ((List.range (⌊((len : ℝ) - 1 - a) / P⌋₊ + 1)).map
      (fun k : Nat => if k = 0 then max 4 ⌈a⌉₊ else ⌈(k : ℝ) * P + a⌉₊)).Pairwise (· < ·) := by
    rw [List.pairwise_map]
    refine List.Pairwise.imp ?_ (List.pairwise_lt_range _)
    intro i j hij
    have hj0 : j ≠ 0 := by omega
    simp only [hj0, if_false]
    have hij2 : (i : ℝ) + 1 ≤ j := by exact_mod_cast hij
    have hstep : (i : ℝ) * P + P ≤ j * P := by nlinarith
    have hi0 : 0 ≤ (i : ℝ) * P := mul_nonneg (Nat.cast_nonneg i) hP0.le
    apply Nat.lt_ceil.2
    by_cases hi : i = 0
    · subst hi
      simp only [if_true]
      have hca : (⌈a⌉₊ : ℝ) < a + 1 := Nat.ceil_lt_add_one ha0.le
      rcases max_cases 4 ⌈a⌉₊ with ⟨h5, _⟩ | ⟨h5, _⟩
      · rw [h5]; push_cast; simp only [Nat.cast_zero, zero_mul, zero_add] at hstep; linarith
      · rw [h5]; simp only [Nat.cast_zero, zero_mul, zero_add] at hstep; linarith
    · simp only [hi, if_false]
      have hca : (⌈(i : ℝ) * P + a⌉₊ : ℝ) < (i : ℝ) * P + a + 1 :=
        Nat.ceil_lt_add_one (by linarith)
      linarith
  have hs1 := detectedEdges_sorted pb lo up (len - 4) false 4
  exact List.eq_of_perm_of_sorted
    ((List.perm_ext_iff_of_nodup hs1.nodup hsorted.nodup).2 hmem) hs1 hsorted

/-! ## The samples of the simulated sine -/

/-- The cast `(int)x` is at least a positive integer exactly when `x` is. -/
theorem le_truncToInt_iff {F : Type} [LinearOrderedField F] [FloorRing F] (x : F) (c : Int)
    (hc : 1 ≤ c) : c ≤ truncToInt x ↔ (c : F) ≤ x := by
  unfold truncToInt
  by_cases hx : 0 ≤ x
  · rw [if_pos hx]
    exact Int.le_floor
  · rw [if_neg hx]
    push_neg at hx
    have h1 : Int.ceil x ≤ 0 := Int.ceil_le.2 (by simpa using hx.le)
    have h2 : (1 : F) ≤ (c : F) := by exact_mod_cast hc
    constructor
    · intro h; omega
    · intro h; linarith

/-- The cast `(int)x` is at most a negative integer exactly when `x` is. -/
theorem truncToInt_le_iff {F : Type} [LinearOrderedField F] [FloorRing F] (x : F) (c : Int)
    (hc : 1 ≤ c) : truncToInt x ≤ -c ↔ x ≤ -(c : F) := by
  unfold truncToInt
  have h2 : (1 : F) ≤ (c : F) := by exact_mod_cast hc
  by_cases hx : 0 ≤ x
  · rw [if_pos hx]
    have h1 : 0 ≤ Int.floor x := Int.floor_nonneg.2 hx
    constructor
    · intro h; omega
    · intro h; linarith
  · rw [if_neg hx]
    rw [Int.ceil_le]
    push_cast
    rfl

/-- The cast `(int)x` differs from `x` by less than 1. -/
theorem truncToInt_bounds {F : Type} [LinearOrderedField F] [FloorRing F] (x : F) :
    x - 1 < (truncToInt x : F) ∧ (truncToInt x : F) < x + 1 := by
  unfold truncToInt
  by_cases hx : 0 ≤ x
  · rw [if_pos hx]
    have h1 := Int.floor_le x
    have h2 := Int.lt_floor_add_one x
    constructor <;> linarith
  · rw [if_neg hx]
    have h1 := Int.le_ceil x
    have h2 := Int.ceil_lt_add_one x
    constructor <;> linarith

/-- The stored value of a signal that does not exceed `MAXADCVALUE`. -/
theorem storeSignal_eq (z : Int) (hz : z ≤ 4095) : (storeSignal z : Int) = max 0 z := by
  unfold storeSignal toU16 MAXADCVALUE
  by_cases h0 : z < 0
  · rw [if_pos h0, max_eq_left (by omega)]
    rfl
  · rw [if_neg h0, if_neg (by push_cast; omega), max_eq_right (by omega)]
    omega

/-- The sine is at least `u` exactly on the arcs from `arcsin u` to
`π - arcsin u` of each period. -/
theorem le_sin_iff_arc (u x : ℝ) (hu0 : 0 < u) (hu1 : u ≤ 1) (hx : 0 ≤ x) :
    u ≤ Real.sin x ↔ ∃ k : Nat, 2 * Real.pi * k + Real.arcsin u ≤ x ∧
      x ≤ 2 * Real.pi * k + (Real.pi - Real.arcsin u) := by
  have hpi := Real.pi_pos
  have hα1 : Real.arcsin u ≤ Real.pi / 2 := Real.arcsin_le_pi_div_two u
  have hα0 : 0 ≤ Real.arcsin u := Real.arcsin_nonneg.2 hu0.le
  have hu : u ∈ Set.Icc (-1 : ℝ) 1 := ⟨by linarith, hu1⟩
  have hsα : Real.sin (Real.arcsin u) = u := Real.sin_arcsin hu.1 hu.2
  constructor
  · intro h
    have h2pi : (0 : ℝ) < 2 * Real.pi := by linarith
    have hq0 : 0 ≤ x / (2 * Real.pi) := div_nonneg hx h2pi.le
    have hk1 : (⌊x / (2 * Real.pi)⌋₊ : ℝ) ≤ x / (2 * Real.pi) := Nat.floor_le hq0
    have hk2 : x / (2 * Real.pi) < (⌊x / (2 * Real.pi)⌋₊ : ℝ) + 1 := Nat.lt_floor_add_one _
    rw [le_div_iff₀ h2pi] at hk1
    rw [div_lt_iff₀ h2pi] at hk2
    refine ⟨⌊x / (2 * Real.pi)⌋₊, ?_⟩
    generalize ⌊x / (2 * Real.pi)⌋₊ = k at hk1 hk2
    have hsin : Real.sin (x - k * (2 * Real.pi)) = Real.sin x := Real.sin_sub_nat_mul_two_pi x k
    have hy0 : 0 ≤ x - k * (2 * Real.pi) := by linarith
    have hy1 : x - k * (2 * Real.pi) < 2 * Real.pi := by linarith
    generalize hy : x - k * (2 * Real.pi) = y at hsin hy0 hy1
    have hxy : x = 2 * Real.pi * k + y := by rw [← hy]; ring
    rw [hxy]
    rw [← hsin] at h
    have hylt : y < Real.pi := by
      by_contra hge
      push_neg at hge
      have : Real.sin (y - 2 * Real.pi) ≤ 0 :=
        Real.sin_nonpos_of_nonnpos_of_neg_pi_le (by linarith) (by linarith)
      rw [Real.sin_sub_two_pi] at this
      linarith
    by_cases hhalf : y ≤ Real.pi / 2
    · have := (Real.arcsin_le_iff_le_sin hu ⟨by linarith, hhalf⟩).2 h
      constructor <;> linarith
    · push_neg at hhalf
      rw [← Real.sin_pi_sub] at h
      have := (Real.arcsin_le_iff_le_sin hu ⟨by linarith, by linarith⟩).2 h
      constructor <;> linarith
  · rintro ⟨k, h1, h2⟩
    have hsin : Real.sin (x - k * (2 * Real.pi)) = Real.sin x := Real.sin_sub_nat_mul_two_pi x k
    rw [← hsin]
    have hy0 : Real.arcsin u ≤ x - k * (2 * Real.pi) := by linarith
    have hy1 : x - k * (2 * Real.pi) ≤ Real.pi - Real.arcsin u := by linarith
    generalize x - k * (2 * Real.pi) = y at hy0 hy1
    by_cases hhalf : y ≤ Real.pi / 2
    · exact (Real.arcsin_le_iff_le_sin hu ⟨by linarith, hhalf⟩).1 hy0
    · push_neg at hhalf
      rw [← Real.sin_pi_sub]
      exact (Real.arcsin_le_iff_le_sin hu ⟨by linarith, by linarith⟩).1 (by linarith)

/-- The sine is at most `-v` exactly on the arcs from `π + arcsin v` to
`2 π - arcsin v` of each period. -/
theorem sin_le_neg_iff_arc (v x : ℝ) (hv0 : 0 < v) (hv1 : v ≤ 1) (hx : 0 ≤ x) :
    Real.sin x ≤ -v ↔ ∃ k : Nat, 2 * Real.pi * k + (Real.pi + Real.arcsin v) ≤ x ∧
      x ≤ 2 * Real.pi * k + (2 * Real.pi - Real.arcsin v) := by
  have hpi := Real.pi_pos
  have hα0 : 0 < Real.arcsin v := Real.arcsin_pos.2 hv0
  have h1 : Real.sin x ≤ -v ↔ v ≤ Real.sin (x + Real.pi) := by
    rw [Real.sin_add_pi]
    constructor <;> intro h <;> linarith
  rw [h1, le_sin_iff_arc v (x + Real.pi) hv0 hv1 (by linarith)]
  constructor
  · rintro ⟨k, h2, h3⟩
    cases k with
    | zero =>
      simp only [Nat.cast_zero, mul_zero, zero_add] at h3
      linarith
    | succ k =>
      push_cast at h2 h3
      exact ⟨k, by linarith, by linarith⟩
  · rintro ⟨k, h2, h3⟩
    refine ⟨k + 1, ?_, ?_⟩ <;> push_cast <;> linarith

/-- The closed form of a sum of sines of equidistant arguments. -/
theorem sin_sum_closed (α : ℝ) (N : Nat) :
    2 * Real.sin (α / 2) * ∑ i ∈ Finset.range N, Real.sin (α * i)
      = Real.cos (α / 2) - Real.cos ((N - 1 / 2) * α) := by
  induction N with
  | zero =>
    have : ((0 : Nat) - 1 / 2 : ℝ) * α = -(α / 2) := by push_cast; ring
    simp only [Finset.range_zero, Finset.sum_empty, mul_zero, this, Real.cos_neg, sub_self]
  | succ n ih =>
    rw [Finset.sum_range_succ, mul_add, ih]
    have h1 : ((n : ℝ) - 1 / 2) * α = α * n - α / 2 := by ring
    have h2 : (((n + 1 : Nat) : ℝ) - 1 / 2) * α = α * n + α / 2 := by push_cast; ring
    rw [h1, h2, Real.cos_sub, Real.cos_add]
    ring

/-- Bounds of π used for the numerical estimates. -/
theorem pi_bounds : (3.1415 : ℝ) < Real.pi ∧ Real.pi < 3.1416 := by
  constructor
  · have := Real.pi_gt_d4
    linarith
  · have := Real.pi_lt_d4
    linarith

/-- A sum of `N` sines at `P ≥ 20` samples per period, from phase 0, is
between `-1/10` and `P/2`. -/
theorem sin_sum_bounds (P : ℝ) (hP : 20 ≤ P) (N : Nat) :
    -(1 / 10 : ℝ) ≤ ∑ i ∈ Finset.range N, Real.sin (2 * Real.pi / P * i) ∧
    ∑ i ∈ Finset.range N, Real.sin (2 * Real.pi / P * i) ≤ P / 2 := by
  obtain ⟨hpi1, hpi2⟩ := pi_bounds
  have hP0 : (0 : ℝ) < P := by linarith
  have hα : 2 * Real.pi / P / 2 = Real.pi / P := by field_simp; ring
  have hc := sin_sum_closed (2 * Real.pi / P) N
  rw [hα] at hc
  generalize (∑ i ∈ Finset.range N, Real.sin (2 * Real.pi / P * i)) = S at hc
  have ht0 : 0 < Real.pi / P := div_pos Real.pi_pos hP0
  have ht1 : Real.pi / P ≤ 0.15708 := by
    rw [div_le_iff₀ hP0]
    nlinarith
  have hs : 2 / Real.pi * (Real.pi / P) ≤ Real.sin (Real.pi / P) :=
    Real.mul_le_sin ht0.le (by linarith)
  have hs2 : 2 / Real.pi * (Real.pi / P) = 2 / P := by
    field_simp
  rw [hs2] at hs
  have hs0 : 0 < Real.sin (Real.pi / P) := lt_of_lt_of_le (by positivity) hs
  have hcos1 := Real.cos_le_one (Real.pi / P)
  have hcos2 := Real.neg_one_le_cos ((N - 1 / 2) * (2 * Real.pi / P))
  have hcos3 := Real.cos_le_one ((N - 1 / 2) * (2 * Real.pi / P))
  have hcos4 := Real.one_sub_sq_div_two_le_cos (x := Real.pi / P)
  have h2P : 2 / P ≤ 1 / 10 := by
    rw [div_le_div_iff₀ hP0 (by norm_num)]
    linarith
  constructor
  · by_contra hlt
    push_neg at hlt
    -- 2 sin S ≥ cos - 1 ≥ -(π/P)^2/2
    have h1 : -((Real.pi / P) ^ 2 / 2) ≤ 2 * Real.sin (Real.pi / P) * S := by
      rw [hc]; linarith
    have h2 : 2 * Real.sin (Real.pi / P) * S ≤ 2 * (2 / P) * S := by
      have : 0 ≤ (Real.sin (Real.pi / P) - 2 / P) * (-S) :=
        mul_nonneg (by linarith) (by linarith)
      nlinarith
    have h3 : 2 * (2 / P) * S < 2 * (2 / P) * (-(1 / 10)) := by
      have : 0 < 2 / P := by positivity
      nlinarith
    -- (π/P)^2/2 ≤ 0.15708 * π / (2P) and 4/(10 P) = 0.4 / P
    have h4 : (Real.pi / P) ^ 2 / 2 ≤ 0.15708 * (Real.pi / P) / 2 := by nlinarith
    have h5 : Real.pi / P ≤ 3.1416 / P := div_le_div_of_nonneg_right hpi2.le hP0.le
    have h6 : 2 * (2 / P) * (-(1 / 10 : ℝ)) = -(0.4 / P) := by field_simp; ring
    have h7 : 0.15708 * (3.1416 / P) / 2 = 0.246741264 / P := by field_simp; ring
    have h8 : 0.246741264 / P < 0.4 / P := div_lt_div_of_pos_right (by norm_num) hP0
    rw [h6] at h3
    have : 0.15708 * (Real.pi / P) / 2 ≤ 0.15708 * (3.1416 / P) / 2 := by linarith
    linarith
  · by_contra hlt
    push_neg at hlt
    have h1 : 2 * Real.sin (Real.pi / P) * S ≤ 2 := by rw [hc]; linarith
    have h2 : 2 * (2 / P) * (P / 2) < 2 * Real.sin (Real.pi / P) * S := by
      have h3 : 0 < P / 2 := by positivity
      have h4 : 2 * (2 / P) * (P / 2) ≤ 2 * Real.sin (Real.pi / P) * (P / 2) := by
        have : 0 ≤ (Real.sin (Real.pi / P) - 2 / P) * (P / 2) :=
          mul_nonneg (by linarith) h3.le
        nlinarith
      have h5 : 2 * Real.sin (Real.pi / P) * (P / 2) < 2 * Real.sin (Real.pi / P) * S := by
        have : 0 < 2 * Real.sin (Real.pi / P) := by positivity
        exact mul_lt_mul_of_pos_left hlt this
      linarith
    have h6 : 2 * (2 / P) * (P / 2) = 2 := by field_simp
    linarith

/-- Numerical bounds at `P ≥ 20` samples per period: the cosine of half a
sample step and the sine of a whole step. -/
theorem step_bounds (P : ℝ) (hP : 20 ≤ P) :
    0.9876 ≤ Real.cos (Real.pi / P) ∧ Real.sin (2 * Real.pi / P) ≤ 0.31416 := by
  obtain ⟨hpi1, hpi2⟩ := pi_bounds
  have hP0 : (0 : ℝ) < P := by linarith
  have ht0 : 0 < Real.pi / P := div_pos Real.pi_pos hP0
  have ht1 : Real.pi / P ≤ 0.15708 := by
    rw [div_le_iff₀ hP0]
    nlinarith
  constructor
  · have h := Real.one_sub_sq_div_two_le_cos (x := Real.pi / P)
    have : (Real.pi / P) ^ 2 ≤ 0.15708 ^ 2 := by nlinarith
    norm_num at this ⊢
    linarith
  · have h2 : 2 * Real.pi / P = 2 * (Real.pi / P) := by ring
    have h := Real.sin_le (x := 2 * Real.pi / P) (by rw [h2]; linarith)
    rw [h2] at h ⊢
    linarith

/-- Each stored sample of the simulated sine is within the truncation and the
clamp at 0 of the signal, and not above `mean + ampli`. -/
theorem sample_bounds (pb : Nat → Nat) (A M : Nat) (x : ℝ) (i : Nat)
    (hA : A ≤ 1841) (hM : 1638 ≤ M) (hx : |x| ≤ 1)
    (hpb : (pb i : Int) = max 0 (truncToInt ((A : ℝ) * x) + (M : Int))) :
    (M : ℝ) + A * x - 1 ≤ pb i ∧ (pb i : ℝ) ≤ M + A * x + 204 ∧ pb i ≤ M + A := by
  obtain ⟨hx1, hx2⟩ := abs_le.1 hx
  obtain ⟨ht1, ht2⟩ := truncToInt_bounds ((A : ℝ) * x)
  have hA0 : (0 : ℝ) ≤ A := Nat.cast_nonneg A
  have hAr : (A : ℝ) ≤ 1841 := by exact_mod_cast hA
  have hMr : (1638 : ℝ) ≤ M := by exact_mod_cast hM
  have hxA1 : (A : ℝ) * x ≤ A := by nlinarith
  have hxA2 : -(A : ℝ) ≤ A * x := by nlinarith
  have hcast : (pb i : ℝ) = ((pb i : Int) : ℝ) := by push_cast; rfl
  have htA : truncToInt ((A : ℝ) * x) ≤ (A : Int) := by
    have : (truncToInt ((A : ℝ) * x) : ℝ) < (A : ℝ) + 1 := by linarith
    have : truncToInt ((A : ℝ) * x) < (A : Int) + 1 := by exact_mod_cast this
    omega
  rcases max_cases (0 : Int) (truncToInt ((A : ℝ) * x) + (M : Int)) with ⟨h1, h2⟩ | ⟨h1, h2⟩
  · rw [h1] at hpb
    have h2r : (truncToInt ((A : ℝ) * x) : ℝ) + (M : ℝ) ≤ 0 := by exact_mod_cast h2
    rw [hcast, hpb]
    refine ⟨?_, ?_, by omega⟩
    · push_cast; linarith
    · push_cast; linarith
  · rw [h1] at hpb
    rw [hcast, hpb]
    refine ⟨?_, ?_, by omega⟩
    · push_cast; linarith
    · push_cast; linarith

/-- A sample within half a step of the crest and one within half a step of
the trough of the first period. -/
theorem crest_trough (P : ℝ) (hP : 20 ≤ P) :
    (∃ j : Nat, (j : ℝ) < P ∧
      Real.cos (Real.pi / P) ≤ Real.sin (2 * Real.pi / P * j)) ∧
    (∃ j : Nat, (j : ℝ) < P ∧
      Real.sin (2 * Real.pi / P * j) ≤ -Real.cos (Real.pi / P)) := by
  have hpi := Real.pi_pos
  have hP0 : (0 : ℝ) < P := by linarith
  have ht0 : 0 < Real.pi / P := div_pos hpi hP0
  have ht1 : Real.pi / P ≤ Real.pi := div_le_self hpi.le (by linarith)
  have key : ∀ (q : ℝ), 0 ≤ q → ∃ j : Nat, (j : ℝ) ≤ q + 1 / 2 ∧
      Real.cos (Real.pi / P) ≤ Real.cos (2 * Real.pi / P * (j - q)) := by
    intro q hq
    refine ⟨⌊q + 1 / 2⌋₊, Nat.floor_le (by linarith), ?_⟩
    have h1 : (⌊q + 1 / 2⌋₊ : ℝ) ≤ q + 1 / 2 := Nat.floor_le (by linarith)
    have h2 : q + 1 / 2 < (⌊q + 1 / 2⌋₊ : ℝ) + 1 := Nat.lt_floor_add_one _
    generalize (⌊q + 1 / 2⌋₊ : ℝ) = j at h1 h2
    rw [← Real.cos_abs (2 * Real.pi / P * (j - q))]
    apply Real.cos_le_cos_of_nonneg_of_le_pi (abs_nonneg _) ht1
    rw [abs_le]
    have h3 : 2 * Real.pi / P * (j - q) = Real.pi / P * (2 * (j - q)) := by ring
    rw [h3]
    constructor
    · have : -(1 : ℝ) ≤ 2 * (j - q) := by linarith
      nlinarith
    · have : 2 * (j - q) ≤ 1 := by linarith
      nlinarith
  constructor
  · obtain ⟨j, hj1, hj2⟩ := key (P / 4) (by linarith)
    refine ⟨j, by linarith, ?_⟩
    have h : 2 * Real.pi / P * (j - P / 4) = 2 * Real.pi / P * j - Real.pi / 2 := by
      field_simp; ring
    rw [h, Real.cos_sub_pi_div_two] at hj2
    exact hj2
  · obtain ⟨j, hj1, hj2⟩ := key (3 * P / 4) (by linarith)
    refine ⟨j, by linarith, ?_⟩
    have h : 2 * Real.pi / P * j
        = 2 * Real.pi / P * (j - 3 * P / 4) + Real.pi + Real.pi / 2 := by
      field_simp; ring
    rw [h, Real.sin_add_pi_div_two, Real.cos_add_pi]
    linarith

/-- An arc of the phase `2 π / P * i` as an interval of the index `i`. -/
theorem phase_arc (P β γ : ℝ) (hP : 0 < P) (k i : Nat) :
    (2 * Real.pi * k + β ≤ 2 * Real.pi / P * i ∧ 2 * Real.pi / P * i ≤ 2 * Real.pi * k + γ) ↔
    ((k : ℝ) * P + P * β / (2 * Real.pi) ≤ i ∧ (i : ℝ) ≤ k * P + P * γ / (2 * Real.pi)) := by
  have hpi := Real.pi_pos
  have h2 : (0 : ℝ) < 2 * Real.pi := by linarith
  have e1 : ∀ δ : ℝ, (k : ℝ) * P + P * δ / (2 * Real.pi)
      = (2 * Real.pi * k + δ) * (P / (2 * Real.pi)) := by
    intro δ; field_simp; ring
  have e2 : (i : ℝ) = 2 * Real.pi / P * i * (P / (2 * Real.pi)) := by
    field_simp
  have hpos : 0 < P / (2 * Real.pi) := div_pos hP h2
  rw [e1, e1]
  constructor
  · rintro ⟨h3, h4⟩
    constructor
    · rw [e2]; exact mul_le_mul_of_nonneg_right h3 hpos.le
    · rw [e2]; exact mul_le_mul_of_nonneg_right h4 hpos.le
  · rintro ⟨h3, h4⟩
    rw [e2] at h3 h4
    exact ⟨le_of_mul_le_mul_right h3 hpos, le_of_mul_le_mul_right h4 hpos⟩

/-- The samples of the simulated sine that reach `mean + c` and those that do
not exceed `mean - d`, as arcs of the index. -/
theorem sine_arcs (pb : Nat → Nat) (A M N : Nat) (P : ℝ) (hP : 0 < P) (hA : 0 < A)
    (hpb : ∀ i, i < N → (pb i : Int)
      = max 0 (truncToInt ((A : ℝ) * Real.sin (2 * Real.pi / P * i)) + (M : Int))) :
    (∀ c : Nat, 1 ≤ c → c ≤ A → ∀ i, i < N →
      (M + c ≤ pb i ↔ ∃ k : Nat,
        (k : ℝ) * P + P * Real.arcsin ((c : ℝ) / A) / (2 * Real.pi) ≤ i ∧
        (i : ℝ) ≤ k * P + P * (Real.pi - Real.arcsin ((c : ℝ) / A)) / (2 * Real.pi))) ∧
    (∀ d : Nat, 1 ≤ d → d ≤ A → d ≤ M → ∀ i, i < N →
      (pb i + d ≤ M ↔ ∃ k : Nat,
        (k : ℝ) * P + P * (Real.pi + Real.arcsin ((d : ℝ) / A)) / (2 * Real.pi) ≤ i ∧
        (i : ℝ) ≤ k * P + P * (2 * Real.pi - Real.arcsin ((d : ℝ) / A)) / (2 * Real.pi))) := by
  have hpi := Real.pi_pos
  have hA0 : (0 : ℝ) < A := by exact_mod_cast hA
  have hθ : ∀ i : Nat, 0 ≤ 2 * Real.pi / P * i := fun i => by positivity
  constructor
  · intro c hc1 hcA i hi
    have hu0 : 0 < (c : ℝ) / A := div_pos (by exact_mod_cast hc1) hA0
    have hu1 : (c : ℝ) / A ≤ 1 := by
      rw [div_le_one hA0]; exact_mod_cast hcA
    have h1 : M + c ≤ pb i ↔ (c : ℝ) / A ≤ Real.sin (2 * Real.pi / P * i) := by
      have e : M + c ≤ pb i ↔ ((M : Int) + (c : Int)) ≤ (pb i : Int) := by omega
      have key := le_truncToInt_iff ((A : ℝ) * Real.sin (2 * Real.pi / P * i)) (c : Int)
        (by omega)
      rw [Int.cast_natCast] at key
      rw [e, hpb i hi, div_le_iff₀ hA0, mul_comm _ (A : ℝ), ← key]
      constructor
      · intro h
        rcases max_cases (0 : Int)
          (truncToInt ((A : ℝ) * Real.sin (2 * Real.pi / P * i)) + (M : Int))
          with ⟨h2, _⟩ | ⟨h2, _⟩ <;> rw [h2] at h <;> omega
      · intro h
        exact le_trans (by omega) (le_max_right _ _)
    rw [h1, le_sin_iff_arc _ _ hu0 hu1 (hθ i)]
    exact exists_congr (fun k => phase_arc P _ _ hP k i)
  · intro d hd1 hdA hdM i hi
    have hv0 : 0 < (d : ℝ) / A := div_pos (by exact_mod_cast hd1) hA0
    have hv1 : (d : ℝ) / A ≤ 1 := by
      rw [div_le_one hA0]; exact_mod_cast hdA
    have h1 : pb i + d ≤ M ↔ Real.sin (2 * Real.pi / P * i) ≤ -((d : ℝ) / A) := by
      have e : pb i + d ≤ M ↔ (pb i : Int) ≤ (M : Int) - (d : Int) := by omega
      have e2 : Real.sin (2 * Real.pi / P * i) ≤ -((d : ℝ) / A)
          ↔ (A : ℝ) * Real.sin (2 * Real.pi / P * i) ≤ -((d : Int) : ℝ) := by
        rw [← neg_div, le_div_iff₀ hA0, mul_comm _ (A : ℝ)]
        push_cast
        rfl
      rw [e, hpb i hi, e2,
        ← truncToInt_le_iff ((A : ℝ) * Real.sin (2 * Real.pi / P * i)) (d : Int) (by omega)]
      constructor
      · intro h
        have := le_trans (le_max_right _ _) h
        omega
      · intro h
        exact max_le (by omega) (by omega)
    rw [h1, sin_le_neg_iff_arc _ _ hv0 hv1 (hθ i)]
    exact exists_congr (fun k => phase_arc P _ _ hP k i)

/-- The 16-bit value of a natural number below 65536. -/
theorem toU16_natCast (n : Nat) (h : n < 65536) : toU16 (n : Int) = n := by
  unfold toU16
  omega

/-- The thresholds `calcFreqAnalog` derives from the statistics of a simulated
sine: both are the scaled values, the upper one `c - 1` above and the lower
one `d` below the mean of the simulation. -/
theorem sine_thresholds (A M mean mx mn : Nat) (hA1 : 1638 ≤ A) (hA2 : A ≤ 1841)
    (hM1 : 1638 ≤ M) (hM2 : M ≤ 2046) (hmean1 : M ≤ mean + 2) (hmean2 : mean ≤ M + 297)
    (hmx1 : 10000 * M + 9876 * A ≤ 10000 * mx + 10000) (hmx2 : mx ≤ M + A)
    (hmn : mn = 0 ∨ 10000 * mn + 9876 * A ≤ 10000 * M + 10000) :
    ∃ c d : Nat, upperThreshold mean mx + 1 = M + c ∧ lowerThreshold mean mn + d = M ∧
      31416 * A < 100000 * c ∧ 10000 * c ≤ 9876 * A ∧ 1 ≤ d ∧ 10000 * d ≤ 9876 * A ∧
      8 < mx - mn := by
  have hq1 : Int.tdiv ((mean : Int) - (mn : Int)) (ANASPANDIV : Int)
      = ((mean : Int) - (mn : Int)) / 3 :=
    Int.tdiv_eq_ediv (by omega) (by decide)
  have hq2 : Int.tdiv ((mx : Int) - (mean : Int)) (ANASPANDIV : Int)
      = ((mx : Int) - (mean : Int)) / 3 :=
    Int.tdiv_eq_ediv (by omega) (by decide)
  have hU : upperThreshold mean mx = mean + (mx - mean) / 3 := by
    have hz : (mean : Int) + ((mx : Int) - (mean : Int)) / 3
        = ((mean + (mx - mean) / 3 : Nat) : Int) := by omega
    unfold upperThreshold
    simp only [hq2, MAXADCDIFF, hz, toU16_natCast _ (show mean + (mx - mean) / 3 < 65536 by omega)]
    rw [if_neg (by omega)]
  have hL : lowerThreshold mean mn = mean - (mean - mn) / 3 := by
    have hz : (mean : Int) - ((mean : Int) - (mn : Int)) / 3
        = ((mean - (mean - mn) / 3 : Nat) : Int) := by omega
    unfold lowerThreshold
    simp only [hq1, MAXADCDIFF, hz, toU16_natCast _ (show mean - (mean - mn) / 3 < 65536 by omega)]
    rw [if_neg (by omega)]
  refine ⟨mean + (mx - mean) / 3 + 1 - M, M - (mean - (mean - mn) / 3), ?_⟩
  rw [hU, hL]
  omega

/-- The statistics `peak_mean` computes for a simulated sine of at least ten
periods at 20 or more samples per period. -/
theorem sine_statistics (s : sADCData ℝ) (pb : Nat → Nat) (A M : Nat) (P : ℝ)
    (hd : s.data = some pb) (hA1 : 1638 ≤ A) (hA2 : A ≤ 1841) (hM1 : 1638 ≤ M)
    (hM2 : M ≤ 2046) (hP : 20 ≤ P) (hN : 10 * P ≤ s.d_len) (hN2 : s.d_len ≤ 2 ^ 20)
    (hpb : ∀ i, i < s.d_len → (pb i : Int)
      = max 0 (truncToInt ((A : ℝ) * Real.sin (2 * Real.pi / P * i)) + (M : Int))) :
    ∃ mx mn mean, peak_mean s = some (mx, mn, mean) ∧ M ≤ mean + 2 ∧ mean ≤ M + 297 ∧
      10000 * M + 9876 * A ≤ 10000 * mx + 10000 ∧ mx ≤ M + A ∧
      (mn = 0 ∨ 10000 * mn + 9876 * A ≤ 10000 * M + 10000) := by
  have hP0 : (0 : ℝ) < P := by linarith
  have hNr : (200 : ℝ) ≤ s.d_len := by linarith
  have hN200 : 200 ≤ s.d_len := by exact_mod_cast hNr
  have hAr1 : (1638 : ℝ) ≤ A := by exact_mod_cast hA1
  have hAr2 : (A : ℝ) ≤ 1841 := by exact_mod_cast hA2
  have hMr1 : (1638 : ℝ) ≤ M := by exact_mod_cast hM1
  have hsb : ∀ i, i < s.d_len →
      (M : ℝ) + A * Real.sin (2 * Real.pi / P * i) - 1 ≤ pb i ∧
      (pb i : ℝ) ≤ M + A * Real.sin (2 * Real.pi / P * i) + 204 ∧ pb i ≤ M + A :=
    fun i hi => sample_bounds pb A M _ i hA2 hM1 (Real.abs_sin_le_one _) (hpb i hi)
  obtain ⟨mx, mn, hpm, hmx1, ⟨jx, hjx, hjx2⟩, hmn1, ⟨jn, hjn, hjn2⟩⟩ :=
    peak_mean_spec s pb hd (by omega) (by have := (hsb 0 (by omega)).2.2; omega)
  obtain ⟨hκ, _⟩ := step_bounds P hP
  obtain ⟨⟨j0, hj0, hcrest⟩, ⟨j1, hj1, htrough⟩⟩ := crest_trough P hP
  have hj0N : j0 < s.d_len := by
    have : (j0 : ℝ) < s.d_len := by linarith
    exact_mod_cast this
  have hj1N : j1 < s.d_len := by
    have : (j1 : ℝ) < s.d_len := by linarith
    exact_mod_cast this
  -- the sum of the samples
  have hsum := sin_sum_bounds P hP s.d_len
  have hS1 : ((s.d_len * (M - 2) : Nat) : ℝ) ≤ ((∑ j ∈ Finset.range s.d_len, pb j : Nat) : ℝ) := by
    have h1 : ∑ j ∈ Finset.range s.d_len, ((M : ℝ) + A * Real.sin (2 * Real.pi / P * j) - 1)
        ≤ ∑ j ∈ Finset.range s.d_len, (pb j : ℝ) :=
      Finset.sum_le_sum (fun j hj => (hsb j (Finset.mem_range.1 hj)).1)
    rw [Finset.sum_sub_distrib, Finset.sum_add_distrib, ← Finset.mul_sum] at h1
    simp only [Finset.sum_const, Finset.card_range, nsmul_eq_mul, mul_one] at h1
    rw [Nat.cast_sum]
    have h2 : ((s.d_len * (M - 2) : Nat) : ℝ) = (s.d_len : ℝ) * ((M : ℝ) - 2) := by
      rw [Nat.cast_mul, Nat.cast_sub (by omega)]; simp
    rw [h2]
    have h3 : (A : ℝ) * (-(1 / 10)) ≤ A * ∑ i ∈ Finset.range s.d_len, Real.sin (2 * Real.pi / P * i) :=
      mul_le_mul_of_nonneg_left hsum.1 (by linarith)
    linarith
  have hS2 : ((∑ j ∈ Finset.range s.d_len, pb j : Nat) : ℝ) ≤ ((s.d_len * (M + 297) : Nat) : ℝ) := by
    have h1 : ∑ j ∈ Finset.range s.d_len, (pb j : ℝ)
        ≤ ∑ j ∈ Finset.range s.d_len, ((M : ℝ) + A * Real.sin (2 * Real.pi / P * j) + 204) :=
      Finset.sum_le_sum (fun j hj => (hsb j (Finset.mem_range.1 hj)).2.1)
    rw [Finset.sum_add_distrib, Finset.sum_add_distrib, ← Finset.mul_sum] at h1
    simp only [Finset.sum_const, Finset.card_range, nsmul_eq_mul] at h1
    rw [Nat.cast_sum]
    push_cast
    have h3 : (A : ℝ) * ∑ i ∈ Finset.range s.d_len, Real.sin (2 * Real.pi / P * i)
        ≤ A * (P / 2) := mul_le_mul_of_nonneg_left hsum.2 (by linarith)
    have h4 : (A : ℝ) * P ≤ 1841 * P := mul_le_mul_of_nonneg_right hAr2 hP0.le
    linarith
  have hS1n : s.d_len * (M - 2) ≤ ∑ j ∈ Finset.range s.d_len, pb j := by exact_mod_cast hS1
  have hS2n : ∑ j ∈ Finset.range s.d_len, pb j ≤ s.d_len * (M + 297) := by exact_mod_cast hS2
  have hS3 : ∑ j ∈ Finset.range s.d_len, pb j < 4294967296 := by
    have hN3 : s.d_len ≤ 1048576 := by
      have : (2 : Nat) ^ 20 = 1048576 := by norm_num
      omega
    have : s.d_len * (M + 297) ≤ 1048576 * 2343 := Nat.mul_le_mul hN3 (by omega)
    omega
  have hq1 : M - 2 ≤ (∑ j ∈ Finset.range s.d_len, pb j) / s.d_len :=
    (Nat.le_div_iff_mul_le (by omega)).2 (by rw [Nat.mul_comm]; exact hS1n)
  have hq2 : (∑ j ∈ Finset.range s.d_len, pb j) / s.d_len ≤ M + 297 :=
    Nat.div_le_of_le_mul hS2n
  refine ⟨mx, mn, _, hpm, ?_, ?_, ?_, ?_, ?_⟩
  · rw [Nat.mod_eq_of_lt hS3, Nat.mod_eq_of_lt (by omega)]
    omega
  · rw [Nat.mod_eq_of_lt hS3, Nat.mod_eq_of_lt (by omega)]
    exact hq2
  · have h1 := (hsb j0 hj0N).1
    have h2 := hmx1 j0 hj0N
    have h3 : (pb j0 : ℝ) ≤ mx := by exact_mod_cast h2
    have h4 : (A : ℝ) * 0.9876 ≤ A * Real.sin (2 * Real.pi / P * j0) :=
      mul_le_mul_of_nonneg_left (by linarith) (by linarith)
    have h5 : (10000 : ℝ) * M + 9876 * A ≤ 10000 * mx + 10000 := by linarith
    exact_mod_cast h5
  · rw [← hjx2]
    exact (hsb jx hjx).2.2
  · have h2 := hmn1 j1 hj1N
    have hp := hpb j1 hj1N
    rcases max_cases (0 : Int)
      (truncToInt ((A : ℝ) * Real.sin (2 * Real.pi / P * j1)) + (M : Int))
      with ⟨h3, _⟩ | ⟨h3, _⟩
    · left
      rw [h3] at hp
      omega
    · right
      rw [h3] at hp
      have ht := (truncToInt_bounds ((A : ℝ) * Real.sin (2 * Real.pi / P * j1))).2
      have h4 : (A : ℝ) * Real.sin (2 * Real.pi / P * j1) ≤ A * (-0.9876) :=
        mul_le_mul_of_nonneg_left (by linarith) (by linarith)
      have h5 : ((pb j1 : Int) : ℝ)
          = (truncToInt ((A : ℝ) * Real.sin (2 * Real.pi / P * j1)) : ℝ) + M := by
        rw [hp]; push_cast; rfl
      have h6 : (pb j1 : ℝ) = ((pb j1 : Int) : ℝ) := by push_cast; rfl
      have h7 : (mn : ℝ) ≤ pb j1 := by exact_mod_cast h2
      have h8 : (10000 : ℝ) * mn + 9876 * A ≤ 10000 * M + 10000 := by
        rw [h6, h5] at h7
        linarith
      exact_mod_cast h8

/-- The arcs of a level `w` of the sine in samples, at `P ≥ 20` samples per
period: the crossing index `a = P arcsin w / (2 π)` is at most a quarter
period less half a sample, and above 1 for a level above `0.31416`. -/
theorem arc_params (P w : ℝ) (hP : 20 ≤ P) (hw0 : 0 < w) (hw1 : w ≤ 0.9876) :
    0 < P * Real.arcsin w / (2 * Real.pi) ∧
    P * Real.arcsin w / (2 * Real.pi) ≤ P / 4 - 1 / 2 ∧
    (0.31416 < w → 1 < P * Real.arcsin w / (2 * Real.pi)) ∧
    P * (Real.pi - Real.arcsin w) / (2 * Real.pi)
      = P / 2 - P * Real.arcsin w / (2 * Real.pi) ∧
    P * (Real.pi + Real.arcsin w) / (2 * Real.pi)
      = P / 2 + P * Real.arcsin w / (2 * Real.pi) ∧
    P * (2 * Real.pi - Real.arcsin w) / (2 * Real.pi)
      = P - P * Real.arcsin w / (2 * Real.pi) := by
  have hpi := Real.pi_pos
  have hP0 : (0 : ℝ) < P := by linarith
  obtain ⟨hκ, hσ⟩ := step_bounds P hP
  have ht0 : 0 < Real.pi / P := div_pos hpi hP0
  have ht1 : Real.pi / P ≤ Real.pi / 20 := div_le_div_of_nonneg_left hpi.le (by norm_num) hP
  have h2t : 2 * Real.pi / P = 2 * (Real.pi / P) := by ring
  have hcosκ : Real.sin (Real.pi / 2 - Real.pi / P) = Real.cos (Real.pi / P) :=
    Real.sin_pi_div_two_sub _
  have hα1 : Real.arcsin w ≤ Real.pi / 2 - Real.pi / P := by
    apply (Real.arcsin_le_iff_le_sin ⟨by linarith, by linarith⟩
      ⟨by linarith, by linarith⟩).2
    rw [hcosκ]
    linarith
  have hα0 : 0 < Real.arcsin w := Real.arcsin_pos.2 hw0
  have h2pi : (0 : ℝ) < 2 * Real.pi := by linarith
  have hscale : ∀ δ : ℝ, P * δ / (2 * Real.pi) = δ * (P / (2 * Real.pi)) := by
    intro δ; ring
  have hr0 : 0 < P / (2 * Real.pi) := div_pos hP0 h2pi
  have hr1 : 2 * Real.pi / P * (P / (2 * Real.pi)) = 1 := by field_simp
  have hr2 : Real.pi * (P / (2 * Real.pi)) = P / 2 := by field_simp; ring
  have hr3 : Real.pi / P * (P / (2 * Real.pi)) = 1 / 2 := by field_simp; ring
  have hr4 : 2 * Real.pi * (P / (2 * Real.pi)) = P := by field_simp
  refine ⟨?_, ?_, ?_, ?_, ?_, ?_⟩
  · rw [hscale]
    exact mul_pos hα0 hr0
  · rw [hscale]
    have := mul_le_mul_of_nonneg_right hα1 hr0.le
    rw [sub_mul, div_mul_eq_mul_div, hr2, hr3] at this
    linarith
  · intro hw
    have hα2 : 2 * Real.pi / P < Real.arcsin w := by
      apply (Real.lt_arcsin_iff_sin_lt ⟨by linarith, by linarith⟩
        ⟨by linarith, by linarith⟩).2
      linarith
    rw [hscale, ← hr1]
    exact mul_lt_mul_of_pos_right hα2 hr0
  · rw [hscale, hscale, sub_mul, hr2]
  · rw [hscale, hscale, add_mul, hr2]
  · rw [hscale, hscale, sub_mul, hr4]

/-- The rising edges `calcFreqAnalog` detects in a simulated sine of at least
ten periods at `P ≥ 20` samples per period, with the statistics of
`peak_mean`: with `a` the index at which the signal crosses the upper
threshold, one edge per period at the first sample from `k P + a`, the first
one not before index 4; the input passes the constant-signal guard. -/
theorem sine_edges (s : sADCData ℝ) (pb : Nat → Nat) (A M : Nat) (P : ℝ)
    (hA1 : 1638 ≤ A) (hA2 : A ≤ 1841) (hM1 : 1638 ≤ M)
    (hM2 : M ≤ 2046) (hP : 20 ≤ P) (hN : 10 * P ≤ s.d_len)
    (hpb : ∀ i, i < s.d_len → (pb i : Int)
      = max 0 (truncToInt ((A : ℝ) * Real.sin (2 * Real.pi / P * i)) + (M : Int)))
    (hmean1 : M ≤ s.d_mean + 2) (hmean2 : s.d_mean ≤ M + 297)
    (hmx1 : 10000 * M + 9876 * A ≤ 10000 * s.d_max + 10000) (hmx2 : s.d_max ≤ M + A)
    (hmn : s.d_min = 0 ∨ 10000 * s.d_min + 9876 * A ≤ 10000 * M + 10000) :
    PassesGuard s ∧ ∃ a : ℝ, 1 < a ∧ a + 1 ≤ P ∧
      edgesOf s pb = (List.range (⌊((s.d_len : ℝ) - 1 - a) / P⌋₊ + 1)).map
        (fun k : Nat => if k = 0 then max 4 ⌈a⌉₊ else ⌈(k : ℝ) * P + a⌉₊) := by
  obtain ⟨c, d, hU, hL, hc1, hc2, hd1, hd2, hguard⟩ :=
    sine_thresholds A M s.d_mean s.d_max s.d_min hA1 hA2 hM1 hM2 hmean1 hmean2 hmx1 hmx2 hmn
  have hP0 : (0 : ℝ) < P := by linarith only [hP]
  have hA0 : (0 : ℝ) < A := by exact_mod_cast (show 0 < A by omega)
  obtain ⟨harc1, harc2⟩ := sine_arcs pb A M s.d_len P hP0 (by omega) hpb
  have hup := harc1 c (by omega) (by omega)
  have hdn := harc2 d hd1 (by omega) (by omega)
  clear harc1 harc2 hpb
  have hu0 : 0.31416 < (c : ℝ) / A := by
    rw [lt_div_iff₀ hA0]
    have : (31416 : ℝ) * A < 100000 * c := by exact_mod_cast hc1
    linarith only [this]
  have hu1 : (c : ℝ) / A ≤ 0.9876 := by
    rw [div_le_iff₀ hA0]
    have : (10000 : ℝ) * c ≤ 9876 * A := by exact_mod_cast hc2
    linarith only [this]
  have hv0 : 0 < (d : ℝ) / A := div_pos (by exact_mod_cast hd1) hA0
  have hv1 : (d : ℝ) / A ≤ 0.9876 := by
    rw [div_le_iff₀ hA0]
    have : (10000 : ℝ) * d ≤ 9876 * A := by exact_mod_cast hd2
    linarith only [this]
  obtain ⟨_, ha2, ha1, hh, _, _⟩ := arc_params P _ hP (by linarith only [hu0]) hu1
  obtain ⟨hb1, hb2, _, _, hcarc, hdarc⟩ := arc_params P _ hP hv0 hv1
  have ha1 := ha1 hu0
  rw [hh] at hup
  rw [hcarc, hdarc] at hdn
  clear hh hcarc hdarc
  generalize P * Real.arcsin ((c : ℝ) / A) / (2 * Real.pi) = a at hup ha1 ha2
  generalize P * Real.arcsin ((d : ℝ) / A) / (2 * Real.pi) = b at hdn hb1 hb2
  have hupU : ∀ i, i < s.d_len → (pb i > upperThreshold s.d_mean s.d_max ↔
      ∃ k : Nat, (k : ℝ) * P + a ≤ i ∧ (i : ℝ) ≤ k * P + (P / 2 - a)) := by
    intro i hi
    rw [← hup i hi]
    omega
  have hdnL : ∀ i, i < s.d_len → (pb i ≤ lowerThreshold s.d_mean s.d_min ↔
      ∃ k : Nat, (k : ℝ) * P + (P / 2 + b) ≤ i ∧ (i : ℝ) ≤ k * P + (P - b)) := by
    intro i hi
    rw [← hdn i hi]
    omega
  have hNr : (200 : ℝ) ≤ s.d_len := by linarith only [hP, hN]
  have hN200 : 200 ≤ s.d_len := by exact_mod_cast hNr
  -- the first samples are not above the upper threshold
  have hlow : ∀ i, i ≤ 1 → ¬ pb i > upperThreshold s.d_mean s.d_max := by
    intro i hi
    rw [hupU i (by omega)]
    rintro ⟨k, hk1, _⟩
    have hi1 : (i : ℝ) ≤ 1 := by exact_mod_cast hi
    have : 0 ≤ (k : ℝ) * P := mul_nonneg (Nat.cast_nonneg k) hP0.le
    linarith only [hk1, hi1, this, ha1]
  have hside : initialSide pb (upperThreshold s.d_mean s.d_max) = false := by
    rw [Bool.eq_false_iff]
    intro h
    rw [initialSide_iff, if_neg (hlow 0 (by omega)), if_neg (hlow 1 (by omega))] at h
    split_ifs at h <;> omega
  refine ⟨?_, a, ha1, by linarith only [ha2, hP], ?_⟩
  · unfold PassesGuard MAXADCDIFF
    omega
  · have hlu : lowerThreshold s.d_mean s.d_min ≤ upperThreshold s.d_mean s.d_max := by omega
    have e1 : (4 : ℝ) ≤ P := by linarith only [hP]
    have e2 : (0 : ℝ) < a := by linarith only [ha1]
    have e3 : a + 1 ≤ P / 2 - a := by linarith only [ha2]
    have e4 : P / 2 - a < P / 2 + b := by linarith only [ha1, hb1]
    have e5 : P / 2 + b + 1 ≤ P - b := by linarith only [hb2]
    have e6 : P - b < P + a := by linarith only [ha1, hb1]
    have e7 : (4 : ℝ) ≤ P / 2 - a := by linarith only [ha2, hP]
    have e8 : P / 2 - a + 1 ≤ (s.d_len : ℝ) := by linarith only [ha1, hP, hN]
    have key := arc_edges pb (lowerThreshold s.d_mean s.d_min)
      (upperThreshold s.d_mean s.d_max) s.d_len P a (P / 2 - a) (P / 2 + b) (P - b)
      hlu e1 e2 e3 e4 e5 e6 e7 e8 hupU hdnL
    unfold edgesOf
    rw [hside]
    exact key

/-- On 2 to 65535 detected edges `calcFreqAnalog` returns 0; `d_freqClassic`
is the number of periods over the span of all detected edges and `d_periode`
the span of the stored edges, at most 199, over their number of periods. -/
theorem calcFreqAnalog_spans {F : Type} [LinearOrderedField F] (sqrtf : F → F)
    (s : sADCData F) (pb : Nat → Nat) (hv : Valid s pb) (hg : PassesGuard s)
    (hlen32 : s.d_len < 4294967296)
    (hE2 : 2 ≤ (edgesOf s pb).length) (hE : (edgesOf s pb).length < 65536) :
    ∃ out, calcFreqAnalog sqrtf (some s) = (0, some out) ∧
      out.d_freqClassic
        = (((edgesOf s pb).length - 1 : Nat) : F)
          / (((edgesOf s pb).getD ((edgesOf s pb).length - 1) 0
              - (edgesOf s pb).getD 0 0 : Nat) : F)
          / s.d_deltaTime ∧
      out.d_periode
        = (((edgesOf s pb).getD (min (edgesOf s pb).length 199 - 1) 0
              - (edgesOf s pb).getD 0 0 : Nat) : F) * s.d_deltaTime
          / ((min (edgesOf s pb).length 199 - 1 : Nat) : F) := by
  obtain ⟨hlt, out, hout, hfc⟩ := calcFreqAnalog_classic sqrtf s pb hv hg hlen32 hE2 hE
  refine ⟨out, hout, ?_, ?_⟩
  · rw [hfc, getLastD_eq_getD _ (by omega)]
  · obtain ⟨hpos, hsc, _, _⟩ := segmentation_spec s pb
    have hsorted : ((edgesOf s pb).take 199).Pairwise (· < ·) :=
      (edgesOf_sorted s pb).sublist (List.take_sublist _ _)
    have hb32 : ∀ e ∈ (edgesOf s pb).take 199, e < 4294967296 := fun e he =>
      lt_trans (edgesOf_lt_len s pb e (List.mem_of_mem_take he)).2 hlen32
    have hlen : ((edgesOf s pb).take 199).length = min (edgesOf s pb).length 199 := by
      rw [List.length_take, Nat.min_comm]
    have hsum := periodSum_eq _ hsorted hb32 (by rw [hlen]; omega)
    rw [hlen, getD_take _ _ _ (by omega), getD_zero_take _ _ (by decide)] at hsum
    have hsc1 : ¬ (segmentation pb s.d_len s.d_mean s.d_max s.d_min).sideChanges ≤ 1 := by
      rw [hsc]; omega
    have hcast : (((min (edgesOf s pb).length 199 : Nat) : Int) - 1 : Int)
        = ((min (edgesOf s pb).length 199 - 1 : Nat) : Int) := by omega
    rw [calcFreqAnalog_of_valid sqrtf s pb hv hg] at hout
    unfold evaluate at hout
    simp only [hsc1, if_false, Prod.mk.injEq, true_and, Option.some.injEq] at hout
    rw [← hout]
    simp only [hsc, hpos, hsum]
    rw [hcast, Int.cast_natCast]

/-- Both estimates over a span of `m ≥ 9` periods that is less than 3 samples
short and less than 1 sample long, at 20 or more samples per period, are
within 2% of the frequency, and within 1% for `m ≥ 16`. -/
theorem span_estimate (sF f S m : ℝ) (hf : 0 < f)
    (hS1 : m * (sF / f) - 3 < S) (hS2 : S < m * (sF / f) + 1) (hP : 20 ≤ sF / f)
    (hm : 9 ≤ m) :
    (|m / S / (1 / sF) - f| ≤ f / 50 ∧ |1 / (S * (1 / sF) / m) - f| ≤ f / 50) ∧
    (16 ≤ m → |m / S / (1 / sF) - f| ≤ f / 100 ∧ |1 / (S * (1 / sF) / m) - f| ≤ f / 100) := by
  have hsFf : sF = sF / f * f := by field_simp
  generalize sF / f = P at hS1 hS2 hP hsFf
  have hP0 : 0 < P := by linarith
  have hmP : 180 ≤ m * P := by nlinarith
  have hS0 : 0 < S := by linarith
  have hm0 : 0 < m := by linarith
  have e1 : m / S / (1 / sF) - f = f * ((m * P - S) / S) := by
    rw [hsFf]; field_simp; ring
  have e2 : 1 / (S * (1 / sF) / m) - f = f * ((m * P - S) / S) := by
    rw [hsFf]; field_simp; ring
  rw [e1, e2, abs_mul, abs_of_pos hf, abs_div, abs_of_pos hS0]
  have habs : |m * P - S| < 3 := by
    rw [abs_lt]; constructor <;> linarith
  have key : ∀ t : ℝ, 0 < t → 3 * t ≤ S → f * (|m * P - S| / S) ≤ f / t := by
    intro t ht h3
    rw [div_eq_mul_one_div f t]
    apply mul_le_mul_of_nonneg_left _ hf.le
    rw [div_le_div_iff₀ hS0 ht]
    nlinarith [abs_nonneg (m * P - S)]
  refine ⟨⟨key 50 (by norm_num) (by linarith), key 50 (by norm_num) (by linarith)⟩, ?_⟩
  intro hm16
  have hmP2 : 320 ≤ m * P := by nlinarith
  exact ⟨key 100 (by norm_num) (by linarith), key 100 (by norm_num) (by linarith)⟩

/-- Entry `j` of the image of `0, ..., K - 1` under `g`. -/
theorem getD_map_range (g : Nat → Nat) (K j : Nat) (hj : j < K) :
    ((List.range K).map g).getD j 0 = g j := by
  rw [List.getD_eq_getElem?_getD, List.getElem?_map, List.getElem?_range hj]
  rfl

/-- The buffer `ADC_Sim` writes for a noise-free sine of frequency `f` at 20
or more samples per period: sample `i` is the signal
`(int)(ampli * sin(2 π / P * i)) + mean`, with `P = d_sFreq / f`, clamped at
0, for an amplitude in `1638..1841` and a mean in `1638..2046` drawn by
`rand`. -/
theorem ADC_Sim_sine_samples (rand : Nat → Nat) (s : sADCData ℝ) (pb0 : Nat → Nat) (f : ℝ)
    (hd : s.data = some pb0) (hf : FLT_MIN < f) (hsf : 2 ≤ s.d_sFreq)
    (hrate : 20 * f ≤ s.d_sFreq) (hl : s.d_len ≠ 0) :
    ∃ (pb : Nat → Nat) (A M : Nat),
      ADC_Sim Real.sin Real.pi rand (some s) 0 f 0 = (0, some { s with data := some pb }) ∧
      1638 ≤ A ∧ A ≤ 1841 ∧ 1638 ≤ M ∧ M ≤ 2046 ∧
      ∀ i, i < s.d_len → (pb i : Int)
        = max 0 (truncToInt ((A : ℝ) * Real.sin (2 * Real.pi / ((s.d_sFreq : ℝ) / f) * i))
            + (M : Int)) := by
  have hn : f < ((s.d_sFreq / 2 : Nat) : ℝ) := by
    have h1 : (s.d_sFreq : ℝ) ≤ 2 * ((s.d_sFreq / 2 : Nat) : ℝ) + 1 := by
      have : s.d_sFreq ≤ 2 * (s.d_sFreq / 2) + 1 := by omega
      exact_mod_cast this
    have h2 : (2 : ℝ) ≤ s.d_sFreq := by exact_mod_cast hsf
    linarith
  refine ⟨_, (rand 0 % (MAXADCVALUE / 20) + MAXADCVALUE * 2 / 5) % 65536,
    (rand 1 % (MAXADCVALUE / 10) + MAXADCVALUE * 2 / 5) % 65536,
    ADC_Sim_sine Real.sin Real.pi rand s pb0 f 0 hd hf (by omega) hn hl (by decide),
    ?_, ?_, ?_, ?_, ?_⟩
  · unfold MAXADCVALUE; omega
  · unfold MAXADCVALUE; omega
  · unfold MAXADCVALUE; omega
  · unfold MAXADCVALUE; omega
  · intro i hi
    have hA : (rand 0 % (MAXADCVALUE / 20) + MAXADCVALUE * 2 / 5) % 65536 ≤ 1841 := by
      unfold MAXADCVALUE; omega
    have hM : (rand 1 % (MAXADCVALUE / 10) + MAXADCVALUE * 2 / 5) % 65536 ≤ 2046 := by
      unfold MAXADCVALUE; omega
    generalize (rand 0 % (MAXADCVALUE / 20) + MAXADCVALUE * 2 / 5) % 65536 = A at hA
    generalize (rand 1 % (MAXADCVALUE / 10) + MAXADCVALUE * 2 / 5) % 65536 = M at hM
    have hlen := (sineLoop_spec Real.sin rand A M 0 (0 / 2)
      (2 * Real.pi / ((s.d_sFreq : ℝ) / f)) s.d_len 0).1
    have hget := sineLoop_getD Real.sin rand A M 0 (0 / 2)
      (2 * Real.pi / ((s.d_sFreq : ℝ) / f)) s.d_len 0 i hi
    have hnoise : signedNoise rand 0 (0 / 2) (0 + i) = 0 := by
      unfold signedNoise
      simp
    rw [hnoise, Nat.zero_add, add_zero] at hget
    unfold writeSamples
    rw [hlen, if_pos hi, hget]
    apply storeSignal_eq
    have hx : |Real.sin (2 * Real.pi / ((s.d_sFreq : ℝ) / f) * i)| ≤ 1 :=
      Real.abs_sin_le_one _
    obtain ⟨hx1, hx2⟩ := abs_le.1 hx
    have ht := (truncToInt_bounds ((A : ℝ) * Real.sin (2 * Real.pi / ((s.d_sFreq : ℝ) / f) * i))).2
    have hA0 : (0 : ℝ) ≤ A := Nat.cast_nonneg A
    have hxA : (A : ℝ) * Real.sin (2 * Real.pi / ((s.d_sFreq : ℝ) / f) * i) ≤ A := by nlinarith
    have htA : truncToInt ((A : ℝ) * Real.sin (2 * Real.pi / ((s.d_sFreq : ℝ) / f) * i))
        < (A : Int) + 1 := by
      have : (truncToInt ((A : ℝ) * Real.sin (2 * Real.pi / ((s.d_sFreq : ℝ) / f) * i)) : ℝ)
          < (A : ℝ) + 1 := by linarith
      exact_mod_cast this
    omega

/-- C23, amended. For every noise-free sine `ADC_Sim` stores (type 0, noise 0,
any values of `rand`) with frequency `f` at a sample rate `d_sFreq ≥ 20 f`
(`2 ≤ d_sFreq < 2^32`, `d_deltaTime = 1 / d_sFreq`) into a buffer that covers
at least 10 periods (`d_len ≤ 2^20`), with the statistics of `peak_mean`,
`calcFreqAnalog` returns 0 and both `d_freqClassic` and `1 / d_periode` are
within 2% of `f`; they are within 1% of `f` when the buffer covers at least
17 periods. -/
theorem calcFreqAnalog_tolerance (rand : Nat → Nat) (s : sADCData ℝ) (pb0 : Nat → Nat)
    (f : ℝ) (hd : s.data = some pb0) (hf : FLT_MIN < f) (hsf : 2 ≤ s.d_sFreq)
    (hsf32 : s.d_sFreq < 2 ^ 32) (hdt : s.d_deltaTime = 1 / (s.d_sFreq : ℝ))
    (hrate : 20 * f ≤ s.d_sFreq) (hper : 10 * ((s.d_sFreq : ℝ) / f) ≤ s.d_len)
    (hlen : s.d_len ≤ 2 ^ 20) :
    ∃ (s1 out : sADCData ℝ) (mx mn mean : Nat),
      ADC_Sim Real.sin Real.pi rand (some s) 0 f 0 = (0, some s1) ∧
      peak_mean s1 = some (mx, mn, mean) ∧
      calcFreqAnalog Real.sqrt (some { s1 with d_max := mx, d_min := mn, d_mean := mean })
        = (0, some out) ∧
      |out.d_freqClassic - f| ≤ f / 50 ∧ |1 / out.d_periode - f| ≤ f / 50 ∧
      (17 * ((s.d_sFreq : ℝ) / f) ≤ s.d_len →
        |out.d_freqClassic - f| ≤ f / 100 ∧ |1 / out.d_periode - f| ≤ f / 100) := by
  have hf0 : 0 < f := lt_trans FLT_MIN_bounds.1 hf
  have hP : 20 ≤ (s.d_sFreq : ℝ) / f := by
    rw [le_div_iff₀ hf0]; exact hrate
  have hP0 : 0 < (s.d_sFreq : ℝ) / f := by linarith only [hP]
  have hNr : (200 : ℝ) ≤ s.d_len := by linarith only [hP, hper]
  have hN200 : 200 ≤ s.d_len := by exact_mod_cast hNr
  have hN20 : s.d_len ≤ 1048576 := by
    have : (2 : Nat) ^ 20 = 1048576 := by norm_num
    omega
  obtain ⟨pb, A, M, hsim, hA1, hA2, hM1, hM2, hpb⟩ :=
    ADC_Sim_sine_samples rand s pb0 f hd hf hsf hrate (by omega)
  obtain ⟨mx, mn, mean, hpm, hmean1, hmean2, hmx1, hmx2, hmn⟩ :=
    sine_statistics { s with data := some pb } pb A M _ rfl hA1 hA2 hM1 hM2 hP hper hlen hpb
  obtain ⟨hguard, a, ha1, ha2, hedges⟩ :=
    sine_edges { s with data := some pb, d_max := mx, d_min := mn, d_mean := mean } pb A M _
      hA1 hA2 hM1 hM2 hP hper hpb hmean1 hmean2 hmx1 hmx2 hmn
  have hvalid : Valid ({ s with data := some pb, d_max := mx, d_min := mn, d_mean := mean }
      : sADCData ℝ) pb := by
    refine ⟨rfl, ?_, ?_, ?_⟩
    · show s.d_sFreq ≠ 0; omega
    · show s.d_len ≠ 0; omega
    · show ¬ s.d_deltaTime ≤ FLT_MIN
      rw [hdt, not_le]
      unfold FLT_MIN
      apply one_div_lt_one_div_of_lt (by exact_mod_cast (show 0 < s.d_sFreq by omega))
      have h1 : (s.d_sFreq : ℝ) < 2 ^ 32 := by exact_mod_cast hsf32
      have h2 : (2 : ℝ) ^ 32 < 2 ^ 126 := by norm_num
      linarith only [h1, h2]
  -- the number of detected edges
  generalize hK : ⌊((s.d_len : ℝ) - 1 - a) / ((s.d_sFreq : ℝ) / f)⌋₊ = n at hedges
  have hx0 : 0 ≤ ((s.d_len : ℝ) - 1 - a) / ((s.d_sFreq : ℝ) / f) :=
    div_nonneg (by linarith only [ha2, hper, hP]) hP0.le
  have hn9 : 9 ≤ n := by
    rw [← hK]
    apply Nat.le_floor
    rw [le_div_iff₀ hP0]
    push_cast
    linarith only [ha2, hper]
  have hn16 : 17 * ((s.d_sFreq : ℝ) / f) ≤ s.d_len → 16 ≤ n := by
    intro h17
    rw [← hK]
    apply Nat.le_floor
    rw [le_div_iff₀ hP0]
    push_cast
    linarith only [ha2, h17]
  have hnP : (n : ℝ) * ((s.d_sFreq : ℝ) / f) + a ≤ (s.d_len : ℝ) - 1 := by
    have := Nat.floor_le hx0
    rw [hK, le_div_iff₀ hP0] at this
    linarith only [this]
  have hn_lt : n < 52429 := by
    have h1 : (n : ℝ) * 20 ≤ n * ((s.d_sFreq : ℝ) / f) :=
      mul_le_mul_of_nonneg_left hP (Nat.cast_nonneg n)
    have h2 : (s.d_len : ℝ) ≤ 1048576 := by exact_mod_cast hN20
    have h3 : (n : ℝ) < 52429 := by linarith only [h1, h2, hnP, ha1]
    exact_mod_cast h3
  have hlenE : (edgesOf ({ s with data := some pb, d_max := mx, d_min := mn, d_mean := mean }
      : sADCData ℝ) pb).length = n + 1 := by
    rw [hedges, List.length_map, List.length_range]
  obtain ⟨out, hout, hfc, hpe⟩ := calcFreqAnalog_spans Real.sqrt _ pb hvalid hguard
    (show s.d_len < 4294967296 by omega) (by rw [hlenE]; omega) (by rw [hlenE]; omega)
  -- the positions of the first edge and of edge `m`
  have hspan : ∀ m : Nat, 9 ≤ m → m ≤ n →
      (m : ℝ) * ((s.d_sFreq : ℝ) / f) - 3
        < (((edgesOf ({ s with data := some pb, d_max := mx, d_min := mn, d_mean := mean }
            : sADCData ℝ) pb).getD m 0
          - (edgesOf ({ s with data := some pb, d_max := mx, d_min := mn, d_mean := mean }
            : sADCData ℝ) pb).getD 0 0 : Nat) : ℝ) ∧
      (((edgesOf ({ s with data := some pb, d_max := mx, d_min := mn, d_mean := mean }
            : sADCData ℝ) pb).getD m 0
          - (edgesOf ({ s with data := some pb, d_max := mx, d_min := mn, d_mean := mean }
            : sADCData ℝ) pb).getD 0 0 : Nat) : ℝ)
        < (m : ℝ) * ((s.d_sFreq : ℝ) / f) + 1 := by
    intro m hm9 hmn
    rw [hedges, getD_map_range _ _ _ (by omega), getD_map_range _ _ _ (by omega)]
    simp only [if_true, show m ≠ 0 by omega, if_false]
    have hmr : (9 : ℝ) ≤ m := by exact_mod_cast hm9
    have hmP : 180 ≤ (m : ℝ) * ((s.d_sFreq : ℝ) / f) := by nlinarith
    have hc1 : (m : ℝ) * ((s.d_sFreq : ℝ) / f) + a
        ≤ (⌈(m : ℝ) * ((s.d_sFreq : ℝ) / f) + a⌉₊ : ℝ) := Nat.le_ceil _
    have hc2 : (⌈(m : ℝ) * ((s.d_sFreq : ℝ) / f) + a⌉₊ : ℝ)
        < (m : ℝ) * ((s.d_sFreq : ℝ) / f) + a + 1 :=
      Nat.ceil_lt_add_one (by linarith only [hmP, ha1])
    have ha3 : a ≤ (⌈a⌉₊ : ℝ) := Nat.le_ceil a
    have ha4 : (⌈a⌉₊ : ℝ) < a + 1 := Nat.ceil_lt_add_one (by linarith only [ha1])
    have he0 : a ≤ ((max 4 ⌈a⌉₊ : Nat) : ℝ) ∧ ((max 4 ⌈a⌉₊ : Nat) : ℝ) < a + 3 := by
      rcases max_cases 4 ⌈a⌉₊ with ⟨h5, h6⟩ | ⟨h5, h6⟩
      · rw [h5]
        have : (⌈a⌉₊ : ℝ) ≤ 4 := by exact_mod_cast h6
        push_cast
        constructor
        · linarith only [this, ha3]
        · linarith only [ha1]
      · rw [h5]
        exact ⟨ha3, by linarith only [ha4]⟩
    have hle : max 4 ⌈a⌉₊ ≤ ⌈(m : ℝ) * ((s.d_sFreq : ℝ) / f) + a⌉₊ := by
      have : ((max 4 ⌈a⌉₊ : Nat) : ℝ) ≤ (⌈(m : ℝ) * ((s.d_sFreq : ℝ) / f) + a⌉₊ : ℝ) := by
        linarith only [he0.2, hc1, hmP]
      exact_mod_cast this
    rw [Nat.cast_sub hle]
    constructor
    · linarith only [he0.2, hc1]
    · linarith only [he0.1, hc2]
  have hsFr : (0 : ℝ) < s.d_sFreq := by exact_mod_cast (show 0 < s.d_sFreq by omega)
  have hdt2 : ({ s with data := some pb, d_max := mx, d_min := mn, d_mean := mean }
      : sADCData ℝ).d_deltaTime = 1 / (s.d_sFreq : ℝ) := hdt
  rw [hlenE, hdt2] at hfc hpe
  have hm1 : n + 1 - 1 = n := by omega
  rw [hm1] at hfc
  obtain ⟨hsn1, hsn2⟩ := hspan n hn9 le_rfl
  have hn9r : (9 : ℝ) ≤ (n : ℝ) := by exact_mod_cast hn9
  have hestn := span_estimate (s.d_sFreq : ℝ) f _ (n : ℝ) hf0 hsn1 hsn2 hP hn9r
  -- the stored edges
  have hmin9 : 9 ≤ min (n + 1) 199 - 1 := by
    rcases Nat.le_total (n + 1) 199 with h | h
    · rw [Nat.min_eq_left h]; omega
    · rw [Nat.min_eq_right h]; omega
  have hminn : min (n + 1) 199 - 1 ≤ n := by
    have := Nat.min_le_left (n + 1) 199
    omega
  obtain ⟨hsm1, hsm2⟩ := hspan _ hmin9 hminn
  have hm9r : (9 : ℝ) ≤ ((min (n + 1) 199 - 1 : Nat) : ℝ) := by exact_mod_cast hmin9
  have hestm := span_estimate (s.d_sFreq : ℝ) f _ _ hf0 hsm1 hsm2 hP hm9r
  refine ⟨_, out, mx, mn, mean, hsim, hpm, hout, ?_, ?_, ?_⟩
  · rw [hfc]; exact hestn.1.1
  · rw [hpe]; exact hestm.1.2
  · intro h17
    have h16 := hn16 h17
    have h16r : (16 : ℝ) ≤ (n : ℝ) := by exact_mod_cast h16
    have hmin16 : 16 ≤ min (n + 1) 199 - 1 := by
      rcases Nat.le_total (n + 1) 199 with h | h
      · rw [Nat.min_eq_left h]; omega
      · rw [Nat.min_eq_right h]; omega
    have hm16r : (16 : ℝ) ≤ ((min (n + 1) 199 - 1 : Nat) : ℝ) := by exact_mod_cast hmin16
    constructor
    · rw [hfc]; exact (hestn.2 h16r).1
    · rw [hpe]; exact (hestm.2 hm16r).2

/-- Witness for C23, amended: the sine of 50 Hz at the sample rate 1000 Hz on
202 samples, 20 samples per period and 10.1 periods, with `rand() = 0`. -/
theorem calcFreqAnalog_tolerance_witness :
    (20 * (50 : ℝ) ≤ ((sineInput ℝ).d_sFreq : ℝ) ∧
      10 * (((sineInput ℝ).d_sFreq : ℝ) / 50) ≤ ((sineInput ℝ).d_len : ℝ)) ∧
    ∃ (s1 out : sADCData ℝ) (mx mn mean : Nat),
      ADC_Sim Real.sin Real.pi (fun _ => 0) (some (sineInput ℝ)) 0 50 0 = (0, some s1) ∧
      peak_mean s1 = some (mx, mn, mean) ∧
      calcFreqAnalog Real.sqrt (some { s1 with d_max := mx, d_min := mn, d_mean := mean })
        = (0, some out) ∧
      |out.d_freqClassic - 50| ≤ 50 / 50 ∧ |1 / out.d_periode - 50| ≤ 50 / 50 ∧
      (17 * (((sineInput ℝ).d_sFreq : ℝ) / 50) ≤ ((sineInput ℝ).d_len : ℝ) →
        |out.d_freqClassic - 50| ≤ 50 / 100 ∧ |1 / out.d_periode - 50| ≤ 50 / 100) :=
  ⟨⟨by norm_num [sineInput], by norm_num [sineInput]⟩,
    calcFreqAnalog_tolerance (fun _ => 0) (sineInput ℝ) (fun _ => 0) 50 rfl
      (lt_trans FLT_MIN_bounds.2 (by norm_num)) (by decide) (by norm_num [sineInput])
      (by norm_num [sineInput]) (by norm_num [sineInput]) (by norm_num [sineInput])
      (by norm_num [sineInput])⟩

/-! ## Index safety -/

/-- A checked fold whose steps all succeed is the plain fold. -/
theorem foldlM_eq_some {α β : Type} (f : β → α → Option β) (g : β → α → β) :
    ∀ (l : List α) (b : β), (∀ b, ∀ a ∈ l, f b a = some (g b a)) →
      l.foldlM f b = some (l.foldl g b) := by
  intro l
  induction l with
  | nil => intro b _; rfl
  | cons a t ih =>
    intro b h
    rw [List.foldlM_cons, h b a (List.mem_cons_self a t)]
    exact ih (g b a) (fun b2 a2 ha2 => h b2 a2 (List.mem_cons_of_mem a ha2))

theorem readSample_of_lt (pb : Nat → Nat) (len i : Nat) (h : i < len) :
    readSample pb len i = some (pb i) := by
  unfold readSample
  simp only [h, if_true]

theorem readSample_of_ge (pb : Nat → Nat) (len i : Nat) (h : len ≤ i) :
    readSample pb len i = none := by
  unfold readSample
  have : ¬ i < len := by omega
  simp only [this, if_false]

/-- On a buffer of at least `MINTICDIFF` samples the scan reads inside the
buffer. -/
theorem initialSideChecked_eq (pb : Nat → Nat) (len u : Nat) (hlen : MINTICDIFF ≤ len) :
    initialSideChecked pb len u = some (initialSide pb u) := by
  unfold MINTICDIFF at hlen
  unfold initialSideChecked initialSide
  rw [readSample_of_lt pb len 0 (by omega)]
  simp only [Option.some_bind]
  rw [foldlM_eq_some _ (fun t i => if pb i > u then t + 1 else t)]
  · rfl
  · intro b a ha
    have : a < 4 := List.mem_range.1 ha
    rw [readSample_of_lt pb len a (by omega)]
    rfl

/-- On a buffer of fewer than `MINTICDIFF` samples the scan reads outside the
buffer. -/
theorem initialSideChecked_fault (pb : Nat → Nat) (len u : Nat) (hlen : len < MINTICDIFF) :
    initialSideChecked pb len u = none := by
  unfold MINTICDIFF at hlen
  unfold initialSideChecked
  interval_cases len <;>
    simp [readSample, MINTICDIFF, List.range, List.range.loop, List.foldlM_cons]

/-- The plain loop body never moves `sideChanges` above 199. -/
theorem segStep_cap (pb : Nat → Nat) (lo up : Nat) (st : LoopState) (i : Nat)
    (h : st.sideChanges ≤ 199) : (segStep pb lo up st i).sideChanges ≤ 199 := by
  unfold segStep MAXSIDECHANGES
  split
  · split <;> exact h
  · split
    · simp only
      split <;> omega
    · exact h

/-- A checked pass inside the buffer with at most 199 stored edges is the
plain pass. -/
theorem segStepChecked_eq (pb : Nat → Nat) (len lo up : Nat) (st : LoopState) (i : Nat)
    (hi : i < len) (hcap : st.sideChanges ≤ 199) :
    segStepChecked pb len lo up st i = some (segStep pb lo up st i) := by
  unfold segStepChecked segStep
  rw [readSample_of_lt pb len i hi]
  simp only [Option.some_bind]
  split
  · rfl
  · split
    · by_cases hroom : st.sideChanges < MAXSIDECHANGES - 1
      · have hw : st.sideChanges < MAXSIDECHANGES := by
          unfold MAXSIDECHANGES at hroom ⊢
          omega
        simp only [hroom, if_true, writePos, hw, Option.some_bind]
      · simp only [hroom, if_false]
    · rfl

/-- The checked data loop inside the buffer is the plain data loop. -/
theorem segLoopChecked_eq (pb : Nat → Nat) (len lo up : Nat) :
    ∀ (n i : Nat) (st : LoopState), i + n ≤ len → st.sideChanges ≤ 199 →
      segLoopChecked pb len lo up n i st = some (segLoop pb lo up n i st) := by
  intro n
  induction n with
  | zero => intro i st _ _; rfl
  | succ n ih =>
    intro i st hlen hcap
    show (segStepChecked pb len lo up st i).bind
        (fun st1 => segLoopChecked pb len lo up n (i + 1) st1)
      = some (segLoop pb lo up n (i + 1) (segStep pb lo up st i))
    rw [segStepChecked_eq pb len lo up st i (by omega) hcap, Option.some_bind]
    exact ih (i + 1) _ (by omega) (segStep_cap pb lo up st i hcap)

/-- The checked segmentation of a buffer of at least `MINTICDIFF` samples is
the plain segmentation. -/
theorem segmentationChecked_eq (pb : Nat → Nat) (len d_mean max_v min_v : Nat)
    (hlen : MINTICDIFF ≤ len) :
    segmentationChecked pb len d_mean max_v min_v
      = some (segmentation pb len d_mean max_v min_v) := by
  simp only [segmentationChecked, segmentation, initState]
  rw [initialSideChecked_eq pb len _ hlen, Option.some_bind]
  exact segLoopChecked_eq pb len _ _ _ _ _ (by omega) (by simp)

theorem readPos_of_lt (pos : List Nat) (i : Nat) (h : i < MAXSIDECHANGES)
    (hw : i < pos.length) : readPos pos i = some (pos.getD i 0) := by
  unfold readPos
  rw [if_pos h, List.getD_eq_getElem?_getD, List.getElem?_eq_getElem hw]
  rfl

/-- The checked evaluation on at most 199 stored edges, all written, is the
plain one. -/
theorem evaluateChecked_eq {F : Type} [LinearOrderedField F] (sqrtf : F → F)
    (s : sADCData F) (st : LoopState) (hcap : st.sideChanges ≤ 199)
    (hlen : st.pos.length = st.sideChanges) :
    evaluateChecked sqrtf s st = some (evaluate sqrtf s st) := by
  have hps : periodSumChecked st.pos st.sideChanges
      = some (periodSum st.pos st.sideChanges) := by
    unfold periodSumChecked periodSum
    apply foldlM_eq_some
    intro b a ha
    have := List.mem_range.1 ha
    rw [readPos_of_lt _ _ (by unfold MAXSIDECHANGES; omega) (by omega),
      readPos_of_lt _ _ (by unfold MAXSIDECHANGES; omega) (by omega)]
    rfl
  have hds : ∀ (dTime p : F), devSumChecked st.pos st.sideChanges dTime p
      = some (devSum st.pos st.sideChanges dTime p) := by
    intro dTime p
    unfold devSumChecked devSum
    apply foldlM_eq_some
    intro b a ha
    have := List.mem_range.1 ha
    rw [readPos_of_lt _ _ (by unfold MAXSIDECHANGES; omega) (by omega),
      readPos_of_lt _ _ (by unfold MAXSIDECHANGES; omega) (by omega)]
    rfl
  unfold evaluateChecked evaluate
  by_cases h1 : st.sideChanges ≤ 1
  · simp only [h1, if_true]
  · simp only [h1, if_false, hps, Option.some_bind,
      readPos_of_lt st.pos 0 (by decide) (by omega), hds]
    by_cases h3 : st.sideChanges ≥ 3
    · simp only [h3, if_true, Option.some_bind]
    · simp only [h3, if_false, Option.some_bind]

/-- The stored edges of the plain segmentation are at most 199. -/
theorem segmentation_cap (pb : Nat → Nat) (len d_mean max_v min_v : Nat) :
    (segmentation pb len d_mean max_v min_v).sideChanges ≤ 199 := by
  have h := (segLoop_spec pb (lowerThreshold d_mean min_v) (upperThreshold d_mean max_v)
    (len - MINTICDIFF) MINTICDIFF (initState pb (upperThreshold d_mean max_v))
    rfl (by simp [initState]) (by simp [initState])).2.1
  have e : (segmentation pb len d_mean max_v min_v).sideChanges
      = (segLoop pb (lowerThreshold d_mean min_v) (upperThreshold d_mean max_v)
          (len - MINTICDIFF) MINTICDIFF
          (initState pb (upperThreshold d_mean max_v))).sideChanges := rfl
  rw [e, h]
  exact Nat.min_le_right _ _

/-- On a buffer of at least `MINTICDIFF` samples no access of `calcFreqAnalog`
is outside the buffer or outside the array `pos`. -/
theorem calcFreqAnalogChecked_eq {F : Type} [LinearOrderedField F] (sqrtf : F → F)
    (s : sADCData F) (hlen : MINTICDIFF ≤ s.d_len) :
    calcFreqAnalogChecked sqrtf (some s) = some (calcFreqAnalog sqrtf (some s)) := by
  unfold calcFreqAnalogChecked calcFreqAnalog
  cases hd : s.data with
  | none => simp only [hd]
  | some pb =>
    simp only [hd]
    by_cases h5 : s.d_sFreq = 0
    · rw [if_pos h5, if_pos h5]
    rw [if_neg h5, if_neg h5]
    by_cases h7 : s.d_len = 0
    · rw [if_pos h7, if_pos h7]
    rw [if_neg h7, if_neg h7]
    by_cases h6 : s.d_deltaTime ≤ FLT_MIN
    · rw [if_pos h6, if_pos h6]
    rw [if_neg h6, if_neg h6]
    by_cases h1 : (s.d_max : Int) - (s.d_min : Int) ≤ (MAXADCDIFF : Int)
    · rw [if_pos h1, if_pos h1]
    rw [if_neg h1, if_neg h1]
    rw [segmentationChecked_eq pb _ _ _ _ hlen, Option.some_bind]
    exact evaluateChecked_eq sqrtf s _ (segmentation_cap pb _ _ _ _)
      (storedEdges_facts s pb).1

/-- On a valid input with fewer than `MINTICDIFF` samples that passes the
constant-signal guard the call reads outside the buffer. -/
theorem calcFreqAnalogChecked_fault {F : Type} [LinearOrderedField F] (sqrtf : F → F)
    (s : sADCData F) (pb : Nat → Nat) (hv : Valid s pb) (hg : PassesGuard s)
    (hlen : s.d_len < MINTICDIFF) :
    calcFreqAnalogChecked sqrtf (some s) = none := by
  obtain ⟨hd, hf, hl, ht⟩ := hv
  unfold PassesGuard at hg
  unfold calcFreqAnalogChecked
  simp only [hd, hf, hl, ht, hg, if_false, segmentationChecked]
  rw [initialSideChecked_fault pb _ _ hlen]
  rfl

/-- C37. Index safety of `calcFreqAnalog`, on the function with checked
accesses: for every valid input with `d_len ≥ MINTICDIFF` no sample is read at
an index at or above `d_len`, no index used on the array `pos` is at or above
`MAXSIDECHANGES` and no slot of `pos` is read before it is written, so the
checked call gives the result of `calcFreqAnalog`; for a valid input with
`1 ≤ d_len < 4` that passes the constant-signal guard the initial-state scan
reads a sample at the index `d_len`, outside the buffer, after reading the
indices below `d_len` inside it. -/
theorem calcFreqAnalog_index_safety {F : Type} [LinearOrderedField F] (sqrtf : F → F)
    (s : sADCData F) (pb : Nat → Nat) (hv : Valid s pb) :
    (MINTICDIFF ≤ s.d_len →
      initialSideChecked pb s.d_len (upperThreshold s.d_mean s.d_max)
        = some (initialSide pb (upperThreshold s.d_mean s.d_max)) ∧
      segmentationChecked pb s.d_len s.d_mean s.d_max s.d_min
        = some (segmentation pb s.d_len s.d_mean s.d_max s.d_min) ∧
      (storedEdges s pb).length < MAXSIDECHANGES ∧
      calcFreqAnalogChecked sqrtf (some s) = some (calcFreqAnalog sqrtf (some s))) ∧
    (PassesGuard s → 1 ≤ s.d_len → s.d_len < MINTICDIFF →
      (∀ i, i < s.d_len → readSample pb s.d_len i = some (pb i)) ∧
      s.d_len ∈ List.range MINTICDIFF ∧
      readSample pb s.d_len s.d_len = none ∧
      initialSideChecked pb s.d_len (upperThreshold s.d_mean s.d_max) = none ∧
      calcFreqAnalogChecked sqrtf (some s) = none) := by
  constructor
  · intro hlen
    refine ⟨initialSideChecked_eq pb _ _ hlen, segmentationChecked_eq pb _ _ _ _ hlen, ?_,
      calcFreqAnalogChecked_eq sqrtf s hlen⟩
    have := (storedEdges_facts s pb).2.2.2
    unfold MAXSIDECHANGES
    omega
  · intro hg _ hlen
    exact ⟨fun i hi => readSample_of_lt pb _ i hi, List.mem_range.2 hlen,
      readSample_of_ge pb _ _ le_rfl, initialSideChecked_fault pb _ _ hlen,
      calcFreqAnalogChecked_fault sqrtf s pb hv hg hlen⟩

/-- Witness for C37: the square wave on 40 samples, where no access is outside
the buffer or the array, and on 3 samples, where the scan reads index 3. -/
theorem calcFreqAnalog_index_safety_witness :
    calcFreqAnalogChecked (fun x => x) (some (sampleInput ℚ 40))
      = some (calcFreqAnalog (fun x => x) (some (sampleInput ℚ 40))) ∧
    (readSample squareWave (sampleInput ℚ 3).d_len (sampleInput ℚ 3).d_len = none ∧
      initialSideChecked squareWave (sampleInput ℚ 3).d_len
        (upperThreshold (sampleInput ℚ 3).d_mean (sampleInput ℚ 3).d_max) = none ∧
      calcFreqAnalogChecked (fun x => x) (some (sampleInput ℚ 3)) = none) :=
  ⟨((calcFreqAnalog_index_safety (fun x => x) (sampleInput ℚ 40) squareWave
      (sampleInput_valid ℚ 40 (by decide))).1 (by decide)).2.2.2,
    ((calcFreqAnalog_index_safety (fun x => x) (sampleInput ℚ 3) squareWave
      (sampleInput_valid ℚ 3 (by decide))).2 (sampleInput_guard ℚ 3) (by decide)
      (by decide)).2.2⟩

end FreqTuner
